import Mathlib

/-!
# A verification development for the Fluent (FTL) parser of fluent-go

The Go package under `src/syntax` is embedded shallowly: the parser cursor is a record that is
passed explicitly, every Go function becomes a Lean function of the same name, and every loop or
recursive descent is bounded by a fuel argument.  Running out of fuel is a result of its own
(`Res.fuel`), so that "the code returns" is always a statement about some amount of fuel.

Go strings and byte slices are lists of bytes (`List Nat`); a Go rune is a natural number, the
code point.
-/

namespace Fluent

/-! ## Runes and the Go standard library functions the parser calls -/

/-- Go string or byte slice: a sequence of bytes. -/
abbrev GoString := List Nat

/-- Marker of the end of the input, `var eof = rune(0)` (parser.go line 11). -/
def eof : Nat := 0

/-- Go `utf8.RuneError`, the replacement character U+FFFD. -/
def RuneError : Nat := 65533

/-- Bytes of an ASCII string literal, used to write inputs down. -/
def ascii (s : String) : GoString := s.toList.map Char.toNat

/-- Go `utf8.DecodeRune`: the first rune of `p` and its width in bytes.  An empty slice gives
`(RuneError, 0)`, an invalid or truncated encoding gives `(RuneError, 1)`.  The accepted ranges of
the second byte are those of the table `acceptRanges` of the Go library; the masks and shifts of
the library are written as remainders and products. -/
def DecodeRune (p : GoString) : Nat × Nat :=
  match p with
  | [] => (RuneError, 0)
  | p0 :: rest =>
    if p0 < 128 then (p0, 1)
    else if p0 < 194 then (RuneError, 1)
    else if p0 < 224 then
      match rest with
      | b1 :: _ =>
        if 128 ≤ b1 ∧ b1 ≤ 191 then ((p0 % 32) * 64 + b1 % 64, 2) else (RuneError, 1)
      | [] => (RuneError, 1)
    else if p0 < 240 then
      match rest with
      | b1 :: b2 :: _ =>
        if (if p0 = 224 then 160 else 128) ≤ b1 ∧ b1 ≤ (if p0 = 237 then 159 else 191) then
          if 128 ≤ b2 ∧ b2 ≤ 191 then
            ((p0 % 16) * 4096 + (b1 % 64) * 64 + b2 % 64, 3)
          else (RuneError, 1)
        else (RuneError, 1)
      | _ => (RuneError, 1)
    else if p0 < 245 then
      match rest with
      | b1 :: b2 :: b3 :: _ =>
        if (if p0 = 240 then 144 else 128) ≤ b1 ∧ b1 ≤ (if p0 = 244 then 143 else 191) then
          if 128 ≤ b2 ∧ b2 ≤ 191 then
            if 128 ≤ b3 ∧ b3 ≤ 191 then
              ((p0 % 8) * 262144 + (b1 % 64) * 4096 + (b2 % 64) * 64 + b3 % 64, 4)
            else (RuneError, 1)
          else (RuneError, 1)
        else (RuneError, 1)
      | _ => (RuneError, 1)
    else (RuneError, 1)

/-- Go `utf8.RuneStart`: the byte is not a continuation byte (`b&0xC0 != 0x80`). -/
def RuneStart (b : Nat) : Bool := (b / 64) % 4 != 2

/-- Backward scan of Go `utf8.DecodeLastRune` for the start of the last rune:
`for start--; start >= lim; start-- { if RuneStart(p[start]) { break } }`, entered after the
first decrement. -/
def DecodeLastRune.scan (p : GoString) (lim : Int) : Nat → Int → Int
  | 0, start => start
  | k + 1, start =>
    if lim ≤ start then
      if RuneStart (p.getD start.toNat 0) then start else DecodeLastRune.scan p lim k (start - 1)
    else start

/-- Go `utf8.DecodeLastRune`: the last rune of `p` and its width.  -/
def DecodeLastRune (p : GoString) : Nat × Nat :=
  let stop := p.length
  if stop = 0 then (RuneError, 0)
  else
    let r := p.getD (stop - 1) 0
    if r < 128 then (r, 1)
    else
      let lim : Int := if (stop : Int) - 4 < 0 then 0 else (stop : Int) - 4
      let start0 := DecodeLastRune.scan p lim 5 ((stop : Int) - 2)
      let start := if start0 < 0 then 0 else start0.toNat
      let d := DecodeRune ((p.take stop).drop start)
      if start + d.2 ≠ stop then (RuneError, 1) else d

/-- Go `unicode.IsSpace`: the Latin-1 spaces and the code points of the property White_Space. -/
def IsSpace (r : Nat) : Bool :=
  r == 9 || r == 10 || r == 11 || r == 12 || r == 13 || r == 32 || r == 133 || r == 160 ||
  r == 5760 || (8192 ≤ r && r ≤ 8202) || r == 8232 || r == 8233 || r == 8239 || r == 8287 ||
  r == 12288

/-- Loop of Go `strings.lastIndexFunc(s, f, false)`: starting from `i`, the index of the last rune
that does not satisfy `f`, or `-1`.  The first argument bounds the number of iterations; each
iteration lowers `i` by at least one, so `i` iterations are enough. -/
def lastIndexNotFunc (s : GoString) (f : Nat → Bool) : Nat → Nat → Int
  | 0, _ => -1
  | k + 1, i =>
    if 0 < i then
      let d := DecodeLastRune (s.take i)
      if f d.1 = false then ((i - d.2 : Nat) : Int) else lastIndexNotFunc s f k (i - d.2)
    else -1

/-- Go `strings.TrimRightFunc(s, f)`: `s` without its trailing runes that satisfy `f`. -/
def TrimRightFunc (s : GoString) (f : Nat → Bool) : GoString :=
  let i := lastIndexNotFunc s f s.length s.length
  if 0 ≤ i ∧ 128 ≤ s.getD i.toNat 0 then
    s.take (i.toNat + (DecodeRune (s.drop i.toNat)).2)
  else s.take (i + 1).toNat

/-- Go `strings.TrimPrefix(s, prefix)`. -/
def TrimPrefix (s pre : GoString) : GoString :=
  if pre.isPrefixOf s then s.drop pre.length else s

/-- Go `strings.Join(elems, sep)`. -/
def Join (elems : List GoString) (sep : GoString) : GoString :=
  match elems with
  | [] => []
  | [a] => a
  | a :: rest => a ++ sep ++ Join rest sep

/-- Go slice expression `input[start:stop]`.  The Go expression panics unless
`start ≤ stop ≤ len(input)`; the embedding returns the bytes that are there. -/
def slice (input : GoString) (start stop : Nat) : GoString := (input.take stop).drop start

/-! ## Character classes (parser.go lines 1036-1071) -/

def isDigit (ch : Nat) : Bool := 48 ≤ ch && ch ≤ 57

def isLetter (ch : Nat) : Bool := (97 ≤ ch && ch ≤ 122) || (65 ≤ ch && ch ≤ 90)

def isHex (ch : Nat) : Bool :=
  (97 ≤ ch && ch ≤ 122) || (65 ≤ ch && ch ≤ 90) || (48 ≤ ch && ch ≤ 57)

def isUppercase (ch : Nat) : Bool := 65 ≤ ch && ch ≤ 90

def containsString (a : List GoString) (x : GoString) : Bool := a.any (fun n => x == n)

/-! ## The syntax tree (ast.go) -/

structure Identifier where
  Name : GoString
  deriving DecidableEq, Repr

structure Comment where
  Content : GoString
  deriving DecidableEq, Repr

structure GroupComment where
  Content : GoString
  deriving DecidableEq, Repr

structure ResourceComment where
  Content : GoString
  deriving DecidableEq, Repr

/-- Go `type Annotation struct{}`. -/
structure Annotation where
  deriving DecidableEq, Repr

/-- Go interface `VariantKey`, implemented by `Identifier` and `NumberLiteral`. -/
inductive VariantKey where
  | identifier (Name : GoString)
  | numberLiteral (Value : GoString)
  deriving DecidableEq, Repr

mutual
/-- Go interface `InlineExpression` with its seven implementations. -/
inductive InlineExpression : Type where
  | stringLiteral (Value : GoString)
  | numberLiteral (Value : GoString)
  | functionReference (ID : Identifier) (Arguments : CallArguments)
  | messageReference (ID : Identifier) (Attribute : Option Identifier)
  | termReference (ID : Identifier) (Attribute : Option Identifier)
      (Arguments : Option CallArguments)
  | variableReference (ID : Identifier)
  | placeable (p : Placeable)
/-- Go interface `Expression`: an inline expression or a `SelectExpression`. -/
inductive Expression : Type where
  | inline (e : InlineExpression)
  | selectExpression (Selector : InlineExpression) (Variants : List Variant)
/-- Go `type Placeable struct { Expr Expression }`. -/
inductive Placeable : Type where
  | mk (Expr : Expression)
inductive CallArguments : Type where
  | mk (Positional : List InlineExpression) (Named : List NamedArgument)
inductive NamedArgument : Type where
  | mk (Name : Identifier) (Value : InlineExpression)
inductive Variant : Type where
  | mk (Key : VariantKey) (Value : Pattern) (Default : Bool)
/-- Go `type Pattern struct { Elements []PatternElement }`.  A Go slice is either nil (`none`)
or a sequence (`some`); the two differ in the JSON rendering. -/
inductive Pattern : Type where
  | mk (Elements : Option (List PatternElement))
/-- Go interface `PatternElement`, implemented by `TextElement` and `Placeable`. -/
inductive PatternElement : Type where
  | textElement (Value : GoString)
  | placeable (p : Placeable)
end

/-- Go `len(s)` of a slice that may be nil. -/
def sliceLen {α : Type} (s : Option (List α)) : Nat := (s.getD []).length

/-- Go `append(s, x)` on a slice that may be nil. -/
def sliceAppend {α : Type} (s : Option (List α)) (x : α) : Option (List α) := some (s.getD [] ++ [x])

def Pattern.Elements : Pattern → Option (List PatternElement)
  | .mk els => els

def Variant.Default : Variant → Bool
  | .mk _ _ d => d

def Variant.Key : Variant → VariantKey
  | .mk k _ _ => k

def Variant.Value : Variant → Pattern
  | .mk _ v _ => v

def CallArguments.Positional : CallArguments → List InlineExpression
  | .mk ps _ => ps

def CallArguments.Named : CallArguments → List NamedArgument
  | .mk _ ns => ns

def NamedArgument.Name : NamedArgument → Identifier
  | .mk n _ => n

def NamedArgument.Value : NamedArgument → InlineExpression
  | .mk _ v => v

structure Attribute where
  ID : Identifier
  Value : Pattern

structure Message where
  ID : Identifier
  Value : Option Pattern
  Attributes : List Attribute
  Comment : Option Comment

structure Term where
  ID : Identifier
  Value : Pattern
  Attributes : List Attribute
  Comment : Option Comment

structure Junk where
  Annotations : List Annotation
  Content : GoString
  deriving DecidableEq, Repr

/-- Go interface `Entry` with its six implementations. -/
inductive Entry where
  | message (m : Message)
  | term (t : Term)
  | comment (c : Comment)
  | groupComment (c : GroupComment)
  | resourceComment (c : ResourceComment)
  | junk (j : Junk)

structure Resource where
  Body : List Entry

/-! ## Diagnostics (error.go) -/

/-- The message of a diagnostic.  The Go code builds it with `fmt.Sprintf`; the format and its
arguments are kept apart instead of being rendered. -/
inductive errMessage where
  | str (s : String)
  | quoted2 (format : String) (a b : Nat)
  | errorf (format : String) (line col pos : Nat) (message : errMessage)
  deriving DecidableEq, Repr

structure parseError where
  line : Nat
  col : Nat
  pos : Nat
  message : errMessage
  deriving DecidableEq, Repr

def newParseError (line col pos : Nat) (message : errMessage) : parseError :=
  { line := line, col := col, pos := pos, message := message }

structure ParseErrors where
  input : GoString
  errors : List parseError
  deriving DecidableEq, Repr

/-! ## The cursor (parser.go lines 17-90) -/

/-- Go `type parser struct`, without the immutable field `input`, which every function takes as
an argument of its own. -/
structure parser where
  pos : Nat
  ch : Nat
  w : Nat
  line : Nat
  col : Nat
  deriving DecidableEq, Repr

/-- Go `parser.next` (lines 38-59).  The write to standard error on an invalid encoding is not
part of the state. -/
def next (input : GoString) (p : parser) : parser :=
  let p1 : parser := if p.ch = 10 then { p with line := p.line + 1, col := 0 } else p
  let p2 : parser := { p1 with col := p1.col + 1 }
  if input.length ≤ p2.pos then { p2 with ch := eof }
  else
    let pos := p2.pos + p2.w
    let d := DecodeRune (input.drop pos)
    { p2 with pos := pos, ch := d.1, w := d.2 }

/-- Go `newParser` (lines 26-35). -/
def newParser (input : GoString) : parser :=
  next input { pos := 0, ch := 0, w := 0, line := 1, col := 0 }

/-- Go `parser.peek` (lines 61-67); `p.pos > len(p.input)-1` is `len(p.input) ≤ p.pos`. -/
def peek (input : GoString) (p : parser) : Nat :=
  if input.length ≤ p.pos then eof else (DecodeRune (input.drop (p.pos + p.w))).1

/-- Go `parser.error` (lines 88-90). -/
def parser.error (p : parser) (message : errMessage) : parseError :=
  newParseError p.line p.col p.pos message

/-- Go `parser.errorf` (lines 84-86), called with one argument `err` of type `*parseError`. -/
def parser.errorf (p : parser) (format : String) (err : parseError) : parseError :=
  p.error (errMessage.errorf format err.line err.col err.pos err.message)

/-- Go `parser.isEOL` (lines 98-107). -/
def isEOL (input : GoString) (p : parser) : Bool :=
  p.ch == 10 || (p.ch == 13 && peek input p == 10)

/-! ## Results of parser operations -/

/-- What a parser operation does: it returns a value (`ok`), returns a Go error (`err`), both
with the cursor as it is left, panics, or is still running when the fuel is used up. -/
inductive Res (α : Type) where
  | ok (v : α) (p : parser)
  | err (e : parseError) (p : parser)
  | panic (msg : String)
  | fuel

/-- A parser operation: a function of the cursor. -/
def P (α : Type) : Type := parser → Res α

def P.pure {α : Type} (a : α) : P α := fun p => Res.ok a p

def P.bind {α β : Type} (x : P α) (f : α → P β) : P β := fun p =>
  match x p with
  | Res.ok a q => f a q
  | Res.err e q => Res.err e q
  | Res.panic m => Res.panic m
  | Res.fuel => Res.fuel

instance : Monad P where
  pure := P.pure
  bind := P.bind

/-- The current cursor. -/
def getP : P parser := fun p => Res.ok p p

/-- Overwrites the cursor. -/
def setP (q : parser) : P Unit := fun _ => Res.ok () q

/-- Go `return ..., p.error(message)`. -/
def failWith {α : Type} (message : errMessage) : P α := fun p => Res.err (p.error message) p

/-- Go `p.next()` as an operation. -/
def nextP (input : GoString) : P Unit := fun p => Res.ok () (next input p)

/-- Go `parser.skipEOL` (lines 109-121). -/
def skipEOL (input : GoString) : P Bool := fun p =>
  if p.ch = 10 then Res.ok true (next input p)
  else if p.ch = 13 ∧ peek input p = 10 then Res.ok true (next input (next input p))
  else Res.ok false p

/-- Go `value, err := f(); if err != nil { return ..., p.errorf(format, err) }`: an error of `x`
is wrapped into a new diagnostic taken at the cursor where `x` stopped. -/
def wrapErr {α : Type} (format : String) (x : P α) : P α := fun p =>
  match x p with
  | Res.err e q => Res.err (q.errorf format e) q
  | r => r

/-- Go `value, err := f(); if err != nil { return ..., p.error(message) }`: an error of `x` is
replaced by a new diagnostic taken at the cursor where `x` stopped. -/
def replaceErr {α : Type} (message : errMessage) (x : P α) : P α := fun p =>
  match x p with
  | Res.err _ q => Res.err (q.error message) q
  | r => r

/-- Go `value, err := f()` followed by a test of `err` that does not return: the error becomes
a value. -/
def attempt {α : Type} (x : P α) : P (Except parseError α) := fun p =>
  match x p with
  | Res.ok a q => Res.ok (Except.ok a) q
  | Res.err e q => Res.ok (Except.error e) q
  | Res.panic m => Res.panic m
  | Res.fuel => Res.fuel

/-! ## Skipping (parser.go lines 123-202) -/

/-- Loop `for p.ch == 32 { p.next() }` of `skipBlankInline`. -/
def skipBlankInlineLoop : Nat → GoString → P Unit
  | 0, _ => fun _ => Res.fuel
  | n + 1, input => fun p =>
    if p.ch = 32 then skipBlankInlineLoop n input (next input p) else Res.ok () p

/-- Go `parser.skipBlankInline` (lines 123-129): skips spaces and returns how far the position
moved.  The position never moves backwards, so the difference is taken in the naturals. -/
def skipBlankInline (n : Nat) (input : GoString) : P Nat := do
  let p ← getP
  skipBlankInlineLoop n input
  let q ← getP
  return q.pos - p.pos

/-- Loop of `skipBlankBlock` (lines 133-142), with the counter of blank lines. -/
def skipBlankBlockLoop : Nat → GoString → Nat → P Nat
  | 0, _, _ => fun _ => Res.fuel
  | n + 1, input, count => do
    let p ← getP
    let _ ← skipBlankInline n input
    let eol ← skipEOL input
    if eol then skipBlankBlockLoop n input (count + 1)
    else do
      let q ← getP
      setP { q with col := 1, pos := p.pos, ch := p.ch }
      return count

/-- Go `parser.skipBlankBlock` (lines 131-144): skips blank lines and returns their number.  On
the first line that is not blank the position and the rune are put back, the width is not. -/
def skipBlankBlock (n : Nat) (input : GoString) : P Nat := skipBlankBlockLoop n input 0

/-- Go `parser.skipBlank` (lines 146-153). -/
def skipBlank : Nat → GoString → P Unit
  | 0, _ => fun _ => Res.fuel
  | n + 1, input => do
    let _ ← skipBlankInline n input
    let eol ← skipEOL input
    if eol then skipBlank n input else return ()

/-- Go `parser.skipToNextEntryStart` (lines 155-166).  The index `p.input[p.pos-1]` is read with
a default outside the input. -/
def skipToNextEntryStart : Nat → GoString → P Unit
  | 0, _ => fun _ => Res.fuel
  | n + 1, input => fun p =>
    if p.ch ≠ eof then
      let newline : Bool := p.pos == 0 || input.getD (p.pos - 1) 0 == 10
      if newline && (isLetter p.ch || p.ch == 45 || p.ch == 35) then Res.ok () p
      else skipToNextEntryStart n input (next input p)
    else Res.ok () p

/-- Loop of `skipUnicodeEscapeSequence` (lines 179-188); returns `taken`. -/
def skipUnicodeEscapeSequenceLoop : Nat → GoString → Nat → Nat → P Nat
  | 0, _, _, _ => fun _ => Res.fuel
  | n + 1, input, need, taken => fun p =>
    if p.ch ≠ eof then
      if need ≤ taken then Res.ok taken p
      else if !isHex p.ch then Res.ok taken p
      else skipUnicodeEscapeSequenceLoop n input need (taken + 1) (next input p)
    else Res.ok taken p

/-- Go `parser.skipUnicodeEscapeSequence` (lines 168-193). -/
def skipUnicodeEscapeSequence (n : Nat) (input : GoString) : P Unit := do
  let p ← getP
  let need : Nat := if p.ch = 117 then 4 else if p.ch = 85 then 6 else 0
  nextP input
  let taken ← skipUnicodeEscapeSequenceLoop n input need 0
  if taken < need then failWith (errMessage.str "invalid unicode escape sequence")
  else return ()

/-- Loop of `skipDigits` (lines 197-200); returns `count`. -/
def skipDigitsLoop : Nat → GoString → Nat → P Nat
  | 0, _, _ => fun _ => Res.fuel
  | n + 1, input, count => fun p =>
    if isDigit p.ch then skipDigitsLoop n input (count + 1) (next input p) else Res.ok count p

/-- Go `parser.skipDigits` (lines 195-202). -/
def skipDigits (n : Nat) (input : GoString) : P Nat := skipDigitsLoop n input 0

/-! ## Identifiers, literals, text (parser.go) -/

/-- Loop of `parseIdentifier` (lines 959-964). -/
def parseIdentifierLoop : Nat → GoString → P Unit
  | 0, _ => fun _ => Res.fuel
  | n + 1, input => fun p =>
    if p.ch ≠ eof then
      let q := next input p
      if !(isLetter q.ch || isDigit q.ch || q.ch == 95 || q.ch == 45) then Res.ok () q
      else parseIdentifierLoop n input q
    else Res.ok () p

/-- Go `parser.parseIdentifier` (lines 952-971). -/
def parseIdentifier (n : Nat) (input : GoString) : P Identifier := do
  let p ← getP
  if !isLetter p.ch then failWith (errMessage.str "expected identifier")
  else do
    parseIdentifierLoop n input
    let q ← getP
    return { Name := slice input p.pos q.pos }

/-- Go `parser.parseNumberLiteral` (lines 835-857); returns the `Value` of the literal. -/
def parseNumberLiteral (n : Nat) (input : GoString) : P GoString := do
  let p ← getP
  let _ ← (if p.ch = 45 then nextP input else pure ())
  let c ← skipDigits n input
  if c = 0 then failWith (errMessage.str "expected digit")
  else do
    let q ← getP
    if q.ch = 46 then do
      nextP input
      let c2 ← skipDigits n input
      if c2 = 0 then failWith (errMessage.str "expected digit")
      else do
        let r ← getP
        return slice input p.pos r.pos
    else return slice input p.pos q.pos

/-- Loop of `parseStringLiteral` (lines 801-823). -/
def parseStringLiteralLoop : Nat → GoString → P Unit
  | 0, _ => fun _ => Res.fuel
  | n + 1, input => do
    let p ← getP
    if p.ch ≠ eof then
      if isEOL input p then failWith (errMessage.str "unexpected eol")
      else if p.ch = 92 then do
        nextP input
        let q ← getP
        if q.ch = 92 ∨ q.ch = 34 then do
          nextP input
          parseStringLiteralLoop n input
        else if q.ch = 117 ∨ q.ch = 85 then do
          skipUnicodeEscapeSequence n input
          parseStringLiteralLoop n input
        else failWith (errMessage.str "invalid escape sequence")
      else if p.ch = 34 then return ()
      else do
        nextP input
        parseStringLiteralLoop n input
    else return ()

/-- Go `parser.parseStringLiteral` (lines 796-833); returns the `Value` of the literal. -/
def parseStringLiteral (n : Nat) (input : GoString) : P GoString := do
  nextP input
  let p ← getP
  parseStringLiteralLoop n input
  let q ← getP
  nextP input
  return slice input p.pos q.pos

/-- Go `parser.parseLiteral` (lines 611-619). -/
def parseLiteral (n : Nat) (input : GoString) : P InlineExpression := do
  let p ← getP
  if isDigit p.ch then do
    let v ← parseNumberLiteral n input
    return InlineExpression.numberLiteral v
  else if p.ch = 34 then do
    let v ← parseStringLiteral n input
    return InlineExpression.stringLiteral v
  else failWith (errMessage.str "expected literal")

/-- Loop of `parseTextElement` (lines 538-550). -/
def parseTextElementLoop : Nat → GoString → P Unit
  | 0, _ => fun _ => Res.fuel
  | n + 1, input => fun p =>
    if p.ch ≠ eof then
      if isEOL input p then Res.ok () p
      else if p.ch = 123 then Res.ok () p
      else if p.ch = 125 then Res.err (p.error (errMessage.str "unbalanced closing '\x7d'")) p
      else parseTextElementLoop n input (next input p)
    else Res.ok () p

/-- Go `parser.parseTextElement` (lines 534-558); returns the `Value` of the text element. -/
def parseTextElement (n : Nat) (input : GoString) : P GoString := do
  let p ← getP
  parseTextElementLoop n input
  let q ← getP
  return slice input p.pos q.pos

/-- Go `parser.parseVariantKey` (lines 1009-1034). -/
def parseVariantKey (n : Nat) (input : GoString) : P VariantKey := do
  let p ← getP
  if p.ch ≠ 91 then failWith (errMessage.str "expected '['")
  else do
    nextP input
    skipBlank n input
    let q ← getP
    let key ← (if isDigit q.ch then do
        let v ← parseNumberLiteral n input
        pure (VariantKey.numberLiteral v)
      else do
        let id ← parseIdentifier n input
        pure (VariantKey.identifier id.Name))
    skipBlank n input
    let r ← getP
    if r.ch ≠ 93 then failWith (errMessage.str "expected ']'")
    else do
      nextP input
      return key

/-! ## Patterns and expressions (parser.go lines 405-794, 973-1007) -/

/-- Local variables of the loop of `parsePattern` (lines 406-412). -/
structure patternVars where
  elements : List PatternElement
  block : Bool
  lastNonBlank : Int
  commonIndent : Nat

/-- Block-mode part of the loop body of `parsePattern` (lines 436-451): measures the indent of
the line.  `none` is the `break` of the loop; otherwise the position and the rune are put back
(the width is not) and the new value of `commonIndent` is returned. -/
def parsePatternIndent (n : Nat) (input : GoString) (commonIndent : Nat) : P (Option Nat) := do
  let p ← getP
  let indent ← skipBlankInline n input
  let q ← getP
  if indent = 0 ∧ isEOL input q = false then return none
  else if q.ch = 91 ∨ q.ch = 42 ∨ q.ch = 46 then return none
  else do
    setP { q with pos := p.pos, ch := p.ch }
    return some (if 0 < indent ∧ (indent < commonIndent ∨ commonIndent = 0) then indent
      else commonIndent)

/-- One step of the loop over `elements` of `parsePattern` (lines 477-491), on the pair
`(processed, buf)`. -/
def dedentStep (indent : GoString) (acc : Option (List PatternElement) × List GoString)
    (element : PatternElement) : Option (List PatternElement) × List GoString :=
  match element with
  | PatternElement.textElement v => (acc.1, acc.2 ++ [TrimPrefix v indent])
  | other =>
    let processed :=
      if 0 < acc.2.length then sliceAppend acc.1 (PatternElement.textElement (Join acc.2 [10]))
      else acc.1
    (sliceAppend processed other, [])

/-- Last part of `parsePattern` (lines 471-505): removes the common indent, joins adjacent text
elements and trims the last one. -/
def dedent (elements : List PatternElement) (commonIndent : Nat) : Pattern :=
  let indent : GoString := List.replicate commonIndent 32
  let acc := elements.foldl (dedentStep indent) (none, [])
  if 0 < acc.2.length then
    let value := TrimRightFunc (Join acc.2 [10]) IsSpace
    if value ≠ [] then Pattern.mk (sliceAppend acc.1 (PatternElement.textElement value))
    else Pattern.mk acc.1
  else Pattern.mk acc.1

mutual
/-- Loop of `parsePattern` (lines 421-463). -/
def parsePatternLoop : Nat → GoString → patternVars → P patternVars
  | 0, _, _ => fun _ => Res.fuel
  | n + 1, input, st => do
    let p ← getP
    if p.ch = eof then return st
    else do
      let eol ← skipEOL input
      let block := st.block || eol
      let p1 ← getP
      if p1.ch = 123 then do
        let element ← parsePlaceable n input
        parsePatternLoop n input
          { elements := st.elements ++ [PatternElement.placeable element], block := block,
            lastNonBlank := (st.elements.length : Int), commonIndent := st.commonIndent }
      else do
        let m ← (if block then parsePatternIndent n input st.commonIndent
          else pure (some st.commonIndent))
        match m with
        | none => return { st with block := block }
        | some commonIndent => do
          let value ← parseTextElement n input
          parsePatternLoop n input
            { elements := st.elements ++ [PatternElement.textElement value], block := block,
              lastNonBlank := if value ≠ [] then (st.elements.length : Int) else st.lastNonBlank,
              commonIndent := commonIndent }

/-- Go `parser.parsePattern` (lines 405-506). -/
def parsePattern : Nat → GoString → P Pattern
  | 0, _ => fun _ => Res.fuel
  | n + 1, input => do
    let _ ← skipBlankInline n input
    let eol ← skipEOL input
    let _ ← (if eol then skipBlankBlock n input else pure 0)
    let st ← parsePatternLoop n input
      { elements := [], block := eol, lastNonBlank := -1, commonIndent := 0 }
    if st.lastNonBlank < 0 then return Pattern.mk none
    else return dedent st.elements st.commonIndent

/-- Go `parser.parsePlaceable` (lines 508-530). -/
def parsePlaceable : Nat → GoString → P Placeable
  | 0, _ => fun _ => Res.fuel
  | n + 1, input => do
    nextP input
    skipBlank n input
    let expr ← parseExpression n input
    let _ ← skipBlankInline n input
    let p ← getP
    if p.ch ≠ 125 then failWith (errMessage.str "missing closing '\x7d'")
    else do
      nextP input
      return Placeable.mk expr

/-- Go `parser.parseExpression` (lines 560-609). -/
def parseExpression : Nat → GoString → P Expression
  | 0, _ => fun _ => Res.fuel
  | n + 1, input => do
    let selector ← parseInlineExpression n input
    skipBlank n input
    let p ← getP
    if p.ch ≠ 45 ∨ peek input p ≠ 62 then
      match selector with
      | InlineExpression.termReference _ (some _) _ =>
        failWith (errMessage.str "term attribute as placeable")
      | _ => return Expression.inline selector
    else
      match selector with
      | InlineExpression.messageReference _ none =>
        failWith (errMessage.str "message reference as selector")
      | InlineExpression.messageReference _ (some _) =>
        failWith (errMessage.str "message attribute as selector")
      | InlineExpression.termReference _ none _ =>
        failWith (errMessage.str "term attribute used as placeable")
      | _ => do
        nextP input
        nextP input
        let _ ← skipBlankInline n input
        let eol ← skipEOL input
        if eol = false then failWith (errMessage.str "expected eol")
        else do
          skipBlank n input
          let variants ← wrapErr "parse variants: %v" (parseVariants n input)
          return Expression.selectExpression selector variants

/-- Go `parser.parseInlineExpression` (lines 621-718). -/
def parseInlineExpression : Nat → GoString → P InlineExpression
  | 0, _ => fun _ => Res.fuel
  | n + 1, input => do
    let p ← getP
    if p.ch = 34 then do
      let v ← parseStringLiteral n input
      return InlineExpression.stringLiteral v
    else if isDigit p.ch then do
      let v ← parseNumberLiteral n input
      return InlineExpression.numberLiteral v
    else if p.ch = 45 then
      if isLetter (peek input p) then do
        nextP input
        let id ← parseIdentifier n input
        let q ← getP
        let attr ← (if q.ch = 46 then do
            nextP input
            let a ← parseIdentifier n input
            pure (some a)
          else pure none)
        let r ← getP
        let arguments ← (if r.ch = 40 then do
            let args ← parseCallArguments n input
            pure (some args)
          else pure none)
        return InlineExpression.termReference id attr arguments
      else do
        let v ← parseNumberLiteral n input
        return InlineExpression.numberLiteral v
    else if p.ch = 36 then do
      nextP input
      let id ← parseIdentifier n input
      return InlineExpression.variableReference id
    else if isLetter p.ch then do
      let id ← parseIdentifier n input
      let q ← getP
      if q.ch = 40 then
        if id.Name.all (fun ch => isUppercase ch || isDigit ch || ch == 95 || ch == 45) then do
          let arguments ← parseCallArguments n input
          return InlineExpression.functionReference id arguments
        else failWith (errMessage.str "forbidden callee")
      else do
        let attr ← (if q.ch = 46 then do
            nextP input
            let a ← parseIdentifier n input
            pure (some a)
          else pure none)
        return InlineExpression.messageReference id attr
    else if p.ch = 123 then do
      let pl ← parsePlaceable n input
      return InlineExpression.placeable pl
    else failWith (errMessage.str "expected inline expression")

/-- Loop of `parseCallArguments` (lines 729-781), on `positional`, `named`, `argumentNames`. -/
def parseCallArgumentsLoop : Nat → GoString → List InlineExpression → List NamedArgument →
    List GoString → P (List InlineExpression × List NamedArgument)
  | 0, _, _, _, _ => fun _ => Res.fuel
  | n + 1, input, positional, named, argumentNames => do
    let p ← getP
    if p.ch = eof then return (positional, named)
    else if p.ch = 41 then return (positional, named)
    else do
      let exp ← parseInlineExpression n input
      skipBlank n input
      let q ← getP
      let vars ← (if q.ch = 58 then
          match exp with
          | InlineExpression.messageReference id none => do
            nextP input
            skipBlank n input
            let value ← parseLiteral n input
            if containsString argumentNames id.Name then
              failWith (errMessage.str "named arguments must be unique")
            else pure (positional, named ++ [NamedArgument.mk id value],
              argumentNames ++ [id.Name])
          | _ => failWith (errMessage.str "argument name must be simple identifier")
        else if 0 < argumentNames.length then
          failWith (errMessage.str "positional argument follows names")
        else pure (positional ++ [exp], named, argumentNames))
      skipBlank n input
      let r ← getP
      if r.ch = 44 then do
        nextP input
        skipBlank n input
        parseCallArgumentsLoop n input vars.1 vars.2.1 vars.2.2
      else return (vars.1, vars.2.1)

/-- Go `parser.parseCallArguments` (lines 720-794). -/
def parseCallArguments : Nat → GoString → P CallArguments
  | 0, _ => fun _ => Res.fuel
  | n + 1, input => do
    nextP input
    skipBlank n input
    let args ← parseCallArgumentsLoop n input [] [] []
    let p ← getP
    if p.ch ≠ 41 then failWith (errMessage.str "expected ')'")
    else do
      nextP input
      return CallArguments.mk args.1 args.2

/-- Loop of `parseVariants` (lines 977-1000), on `variants` and `defaultVariant`. -/
def parseVariantsLoop : Nat → GoString → List Variant → Bool → P (List Variant × Bool)
  | 0, _, _, _ => fun _ => Res.fuel
  | n + 1, input, variants, defaultVariant => do
    let p ← getP
    if p.ch = 42 ∨ p.ch = 91 then do
      let defaultVariant ← (if p.ch = 42 then do
          nextP input
          pure true
        else pure defaultVariant)
      let key ← wrapErr "parse variant key: %v" (parseVariantKey n input)
      let value ← wrapErr "parse pattern: %v" (parsePattern n input)
      skipBlank n input
      parseVariantsLoop n input (variants ++ [Variant.mk key value defaultVariant]) defaultVariant
    else return (variants, defaultVariant)

/-- Go `parser.parseVariants` (lines 973-1007). -/
def parseVariants : Nat → GoString → P (List Variant)
  | 0, _ => fun _ => Res.fuel
  | n + 1, input => do
    let r ← parseVariantsLoop n input [] false
    if r.2 = false then failWith (errMessage.str "missing default variant")
    else return r.1
end

/-! ## Entries (parser.go lines 285-403, 859-950) -/

/-- Go `parser.parseAttribute` (lines 882-910). -/
def parseAttribute (n : Nat) (input : GoString) : P Attribute := do
  nextP input
  let id ← parseIdentifier n input
  let _ ← skipBlankInline n input
  let p ← getP
  if p.ch ≠ 61 then failWith (errMessage.str "unexpected character")
  else do
    nextP input
    let _ ← skipBlankInline n input
    let pattern ← parsePattern n input
    return { ID := id, Value := pattern }

/-- Loop of `parseAttributes` (lines 862-877).  When the line does not go on with a dot only the
position is put back. -/
def parseAttributesLoop : Nat → GoString → List Attribute → P (List Attribute)
  | 0, _, _ => fun _ => Res.fuel
  | n + 1, input, attributes => do
    let p ← getP
    if p.ch = eof then return attributes
    else do
      let _ ← skipBlankInline n input
      let q ← getP
      if q.ch ≠ 46 then do
        setP { q with pos := p.pos }
        return attributes
      else do
        let attr ← parseAttribute n input
        parseAttributesLoop n input (attributes ++ [attr])

/-- Go `parser.parseAttributes` (lines 859-880). -/
def parseAttributes (n : Nat) (input : GoString) : P (List Attribute) :=
  parseAttributesLoop n input []

/-- Go `parser.parseMessage` (lines 364-403). -/
def parseMessage (n : Nat) (input : GoString) : P Message := do
  let id ← parseIdentifier n input
  let _ ← skipBlankInline n input
  let p ← getP
  if p.ch ≠ 61 then failWith (errMessage.quoted2 "expected %q, got %q" 61 p.ch)
  else do
    nextP input
    let pattern ← parsePattern n input
    let _ ← skipBlankBlock n input
    let attributes ← parseAttributes n input
    if sliceLen pattern.Elements = 0 ∧ attributes.length = 0 then
      failWith (errMessage.str "expected message field")
    else
      return { ID := id, Attributes := attributes,
               Value := if sliceLen pattern.Elements ≠ 0 then some pattern else none,
               Comment := none }

/-- Go `parser.parseTerm` (lines 912-950). -/
def parseTerm (n : Nat) (input : GoString) : P Term := do
  let p ← getP
  if p.ch ≠ 45 then failWith (errMessage.str "expected '-'")
  else do
    nextP input
    let id ← replaceErr (errMessage.str "expected identifier") (parseIdentifier n input)
    let _ ← skipBlankInline n input
    let q ← getP
    if q.ch ≠ 61 then failWith (errMessage.str "expected '='")
    else do
      nextP input
      let _ ← skipBlankInline n input
      let value ← parsePattern n input
      let _ ← skipBlankBlock n input
      let attributes ← parseAttributes n input
      return { ID := id, Value := value, Attributes := attributes, Comment := none }

/-- Go `parser.parseCommentLevel` (lines 297-307), with the counter `level`. -/
def parseCommentLevelLoop : Nat → GoString → Nat → P Nat
  | 0, _, _ => fun _ => Res.fuel
  | n + 1, input, level => fun p =>
    if p.ch ≠ eof then
      if p.ch ≠ 35 then Res.ok level p
      else parseCommentLevelLoop n input (level + 1) (next input p)
    else Res.ok level p

def parseCommentLevel (n : Nat) (input : GoString) : P Nat := parseCommentLevelLoop n input 0

/-- Loop of `parseCommentLine` (lines 311-316). -/
def parseCommentLineLoop : Nat → GoString → P Unit
  | 0, _ => fun _ => Res.fuel
  | n + 1, input => fun p =>
    if p.ch ≠ eof then
      if isEOL input p then Res.ok () p else parseCommentLineLoop n input (next input p)
    else Res.ok () p

/-- Go `parser.parseCommentLine` (lines 309-319). -/
def parseCommentLine (n : Nat) (input : GoString) : P GoString := do
  let p ← getP
  parseCommentLineLoop n input
  let q ← getP
  return slice input p.pos q.pos

/-- Loop of `parseComment` (lines 325-348), on `lines` and `lastLevel`. -/
def parseCommentLoop : Nat → GoString → List GoString → Nat → P (List GoString × Nat)
  | 0, _, _, _ => fun _ => Res.fuel
  | n + 1, input, lines, lastLevel => do
    let p ← getP
    if p.ch = eof then return (lines, lastLevel)
    else do
      let level ← parseCommentLevel n input
      if level = 0 then return (lines, lastLevel)
      else if lastLevel ≠ 0 ∧ level ≠ lastLevel then do
        let q ← getP
        setP { q with pos := p.pos, ch := p.ch }
        return (lines, lastLevel)
      else do
        let q ← getP
        let line ← (if isEOL input q = false then
            if q.ch ≠ 32 then failWith (errMessage.quoted2 "expected %q, found %q" 32 q.ch)
            else do
              nextP input
              parseCommentLine n input
          else pure [])
        let _ ← skipEOL input
        parseCommentLoop n input (lines ++ [line]) level

/-- Go `parser.parseComment` (lines 321-362). -/
def parseComment (n : Nat) (input : GoString) : P Entry := do
  let r ← parseCommentLoop n input [] 0
  let content := Join r.1 [10]
  if r.2 = 1 then return Entry.comment { Content := content }
  else if r.2 = 2 then return Entry.groupComment { Content := content }
  else if r.2 = 3 then return Entry.resourceComment { Content := content }
  else fun _ => Res.panic "shouldn't happen"

/-- Go `parser.parseEntry` (lines 285-294). -/
def parseEntry (n : Nat) (input : GoString) : P Entry := do
  let p ← getP
  if p.ch = 35 then parseComment n input
  else if p.ch = 45 then do
    let t ← parseTerm n input
    return Entry.term t
  else do
    let m ← parseMessage n input
    return Entry.message m

/-! ## The resource (parser.go lines 13-15, 219-283) -/

/-- Go type assertion `entry.(Comment)`. -/
def Entry.asComment : Entry → Option Comment
  | Entry.comment c => some c
  | _ => none

/-- Lines 248-262 of `parse`: the new value of `entries` after an entry that is not held
back.  A pending comment goes into a message or a term, and before any other entry. -/
def commitEntry (entries : List Entry) (lastComment : Option Comment) (entry : Entry) :
    List Entry :=
  match lastComment with
  | none => entries ++ [entry]
  | some c =>
    match entry with
    | Entry.message v => entries ++ [Entry.message { v with Comment := some c }]
    | Entry.term v => entries ++ [Entry.term { v with Comment := some c }]
    | other => (entries ++ [Entry.comment c]) ++ [other]

/-- Loop of `parse` and its return (lines 227-283), on `errors`, `entries`, `lastComment`. -/
def parseLoop : Nat → GoString → List parseError → List Entry → Option Comment →
    P (Resource × Option ParseErrors)
  | 0, _, _, _, _ => fun _ => Res.fuel
  | n + 1, input, errors, entries, lastComment => do
    let p ← getP
    if p.pos < input.length then do
      let r ← attempt (parseEntry n input)
      let step ← (match r with
        | Except.ok entry => pure (entry, errors)
        | Except.error err => do
          skipToNextEntryStart n input
          let q ← getP
          pure (Entry.junk { Content := slice input p.pos q.pos, Annotations := [] },
            errors ++ [err]))
      let blankLines ← skipBlankBlock n input
      match (if blankLines = 0 then step.1.asComment else none) with
      | some comment => parseLoop n input step.2 entries (some comment)
      | none => parseLoop n input step.2 (commitEntry entries lastComment step.1) none
    else
      let body := match lastComment with
        | some c => entries ++ [Entry.comment c]
        | none => entries
      return ({ Body := body },
        if 0 < errors.length then some { input := input, errors := errors } else none)

/-- Go `parser.parse` (lines 219-283). -/
def parser.parse (n : Nat) (input : GoString) : P (Resource × Option ParseErrors) := do
  let _ ← skipBlankBlock n input
  parseLoop n input [] [] none

/-- Go `Parse` (lines 13-15): the returned resource and error, or a panic, or no answer within
the fuel. -/
def Parse (n : Nat) (input : GoString) : Res (Resource × Option ParseErrors) :=
  parser.parse n input (newParser input)


/-! ## Auxiliary definitions for the statements -/

/-- The value an operation returns, when it returns one. -/
def Res.value {α : Type} : Res α → Option α
  | Res.ok v _ => some v
  | _ => none

/-- Cursor after `newParser` on the one-byte input NUL. -/
def nulCursor : parser := { pos := 0, ch := 0, w := 1, line := 1, col := 1 }

/-- Go type switch `entry.(Junk)`, as a test. -/
def Entry.isJunk : Entry → Bool
  | Entry.junk _ => true
  | _ => false

/-- Number of `Junk` entries of a body. -/
def junkCount (body : List Entry) : Nat := body.countP Entry.isJunk

/-- The input `bad = { 1 + 2 }` of the sixth scenario of the specification. -/
def badInput : GoString := ascii "bad = \x7b 1 + 2 \x7d\n"

/-- The diagnostic that `Parse` records on `badInput`, at the column of the plus sign. -/
def badError : parseError :=
  { line := 1, col := 11, pos := 10, message := errMessage.str "missing closing '\x7d'" }

/-- The cursor at which `Parse` stops on `badInput`. -/
def badCursor : parser := { pos := 16, ch := 0, w := 0, line := 2, col := 1 }

/-- A message has a field: a value with at least one pattern element, or an attribute. -/
def Message.hasField (m : Message) : Prop :=
  (∃ pattern, m.Value = some pattern ∧ 0 < sliceLen pattern.Elements) ∨ m.Attributes ≠ []

/-- The input `foo = Foo` of the first scenario of the specification. -/
def fooInput : GoString := ascii "foo = Foo\n"

/-- The message that `Parse` returns on `fooInput`. -/
def fooMessage : Message :=
  { ID := { Name := ascii "foo" },
    Value := some (Pattern.mk (some [PatternElement.textElement (ascii "Foo")])),
    Attributes := [], Comment := none }

/-- The cursor at which `Parse` stops on `fooInput`: the position is the length of the input and
the rune is the `RuneError` that `utf8.DecodeRune` gives on an empty slice. -/
def fooCursor : parser := { pos := 10, ch := 65533, w := 0, line := 2, col := 1 }

/-- Name of a named argument, as a string. -/
def NamedArgument.name (a : NamedArgument) : GoString := a.Name.Name

/-- A cursor on the first line of an ASCII input: position `pos`, rune `ch`. -/
def cursorAt (pos : Nat) (ch : Nat) : parser :=
  { pos := pos, ch := ch, w := 1, line := 1, col := pos + 1 }

/-- The cursor is at position `k` of the input, with the rune and the width that
`utf8.DecodeRune` gives there (at the end of the input: `RuneError` and width 0). -/
def parser.At (p : parser) (input : GoString) (k : Nat) : Prop :=
  p.pos = k ∧ k ≤ input.length ∧ DecodeRune (input.drop k) = (p.ch, p.w)

/-- The characters of an identifier after the first (line 961 of parser.go). -/
def isIdentChar (ch : Nat) : Bool := isLetter ch || isDigit ch || ch == 95 || ch == 45

/-- The grammar `[A-Za-z][A-Za-z0-9_-]*` of identifiers, on bytes. -/
def isIdentifierName (id : GoString) : Prop :=
  ∃ c rest, id = c :: rest ∧ isLetter c = true ∧ ∀ b ∈ rest, isIdentChar b = true

/-- A simple single-line text: not empty, without NUL, line feed, carriage return and braces,
not starting with a space and not ending with a rune that `unicode.IsSpace` accepts. -/
def isSimpleText (t : GoString) : Prop :=
  t ≠ [] ∧ (∀ b ∈ t, b ≠ 0 ∧ b ≠ 10 ∧ b ≠ 13 ∧ b ≠ 123 ∧ b ≠ 125) ∧ t.head? ≠ some 32 ∧
    IsSpace (DecodeLastRune t).1 = false

/-! ## The same parse at another offset -/

/-- Two cursors see the same input, the second one `k` bytes further: the same rune and width,
the position moved by `k`.  The line and the column are free. -/
def Sim (k : Nat) (p p1 : parser) : Prop := p1.pos = p.pos + k ∧ p1.ch = p.ch ∧ p1.w = p.w

/-- Two results of the same kind, with values related by `R` and cursors related by `Sim`.  The
diagnostics of two errors are not compared (they carry the line and the column). -/
def ResSim {α : Type} (k : Nat) (R : α → α → Prop) : Res α → Res α → Prop
  | Res.ok a q, Res.ok a1 q1 => R a a1 ∧ Sim k q q1
  | Res.err _ q, Res.err _ q1 => Sim k q q1
  | Res.panic m, Res.panic m1 => m = m1
  | Res.fuel, Res.fuel => True
  | _, _ => False

/-- Two operations that do the same from cursors related by `Sim`. -/
def PSim {α : Type} (k : Nat) (R : α → α → Prop) (x x1 : P α) : Prop :=
  ∀ p p1, Sim k p p1 → ResSim k R (x p) (x1 p1)

/-- The message or term `entry` with the comment `c` attached (lines 250-255 of parser.go). -/
def Entry.withComment (entry : Entry) (c : Comment) : Entry :=
  match entry with
  | Entry.message v => Entry.message { v with Comment := some c }
  | Entry.term v => Entry.term { v with Comment := some c }
  | other => other

/-- The comment attached to a message or a term. -/
def Entry.attached : Entry → Option Comment
  | Entry.message v => v.Comment
  | Entry.term v => v.Comment
  | _ => none

/-- A well-formed source of a message or term: with every fuel from `N` on, `parseEntry` on `m`,
from its first byte, returns the message or term `entry`, and what it leaves of `m` is blank
lines. -/
def isEntrySource (m : GoString) (entry : Entry) (N : Nat) : Prop :=
  ((∃ v, entry = Entry.message v) ∨ (∃ v, entry = Entry.term v)) ∧
  ∀ n, N ≤ n → ∃ q k q1, parseEntry n m (newParser m) = Res.ok entry q ∧
    skipBlankBlock n m q = Res.ok k q1 ∧ m.length ≤ q1.pos

/-! ## Cursors that fit the input, and the recovery point -/

/-- The cursor fields `pos`, `ch`, `w` fit the input.  Either the rune and the width are those
decoded at the position; or the cursor has gone past the end; or, after a position and its rune
have been put back without the width, the rune is the space or number sign at the position and
the width, which belongs to a later rune, leads to a position inside the input without passing a
line feed. -/
def CursorOK (input : GoString) (pos ch w : Nat) : Prop :=
  (pos ≤ input.length ∧ DecodeRune (input.drop pos) = (ch, w)) ∨
  (pos = input.length ∧ ch = eof ∧ w = 0) ∨
  (pos < input.length ∧ input.getD pos 0 = ch ∧ ch < 128 ∧ (ch = 32 ∨ ch = 35) ∧
    pos + w ≤ input.length ∧ ∀ i, pos ≤ i → i < pos + w → input.getD i 0 ≠ 10)

/-- The cursor fits the input. -/
def parser.OK (p : parser) (input : GoString) : Prop := CursorOK input p.pos p.ch p.w

/-- The cursor is as `next` leaves it: it agrees with the input or is past the end. -/
def parser.Fresh (p : parser) (input : GoString) : Prop :=
  (p.pos ≤ input.length ∧ DecodeRune (input.drop p.pos) = (p.ch, p.w)) ∨
  (p.pos = input.length ∧ p.ch = eof ∧ p.w = 0)

/-- A result whose cursor fits the input and is not before `lo`; a value satisfies `Post`, a
diagnostic carries the position of the cursor. -/
def ResFits {α : Type} (input : GoString) (lo : Nat) (Post : α → parser → Prop) :
    Res α → Prop
  | Res.ok a q => q.OK input ∧ lo ≤ q.pos ∧ Post a q
  | Res.err e q => q.OK input ∧ lo ≤ q.pos ∧ e.pos = q.pos
  | _ => True

/-- From a cursor that fits the input and satisfies `Pre`, the operation `x` gives a result that
fits, at or after the position it started from. -/
def Spec {α : Type} (input : GoString) (Pre : parser → Prop) (Post : α → parser → Prop)
    (x : P α) : Prop :=
  ∀ p, p.OK input → Pre p → ResFits input p.pos Post (x p)

/-- The operation keeps the cursor fitting the input and does not move it back. -/
def Std {α : Type} (input : GoString) (x : P α) : Prop :=
  Spec input (fun _ => True) (fun _ _ => True) x

/-- The cursor `r` inside a loop that started at `p` and passes over a run of the rune `a`:
no line feed has been passed since the first step, and a cursor still at the position of `p`
holds `a`. -/
def Run (input : GoString) (a : Nat) (p r : parser) : Prop :=
  r.Fresh input ∧ (next input p).pos ≤ r.pos ∧
    (∀ i, (next input p).pos ≤ i → i < r.pos → input.getD i 0 ≠ 10) ∧ (r.pos = p.pos → r.ch = a)

/-- The result of a loop over a run that started at `p`: it is no error, its cursor fits the
input, and so does the cursor with the position and rune of `p` and the new width. -/
def RunRes {α : Type} (input : GoString) (p : parser) (Q : parser → Prop) : Res α → Prop
  | Res.ok _ q => q.OK input ∧ p.pos ≤ q.pos ∧ CursorOK input p.pos p.ch q.w ∧ Q q
  | Res.err _ _ => False
  | _ => True

/-- Where `parsePattern` stops: the rune is no space and does not end a line. -/
def AfterPattern (input : GoString) {α : Type} : α → parser → Prop :=
  fun _ q => q.ch ≠ 32 ∧ isEOL input q = false

/-- A position where an entry can start: at the start of the input or right after a line feed,
and holding a letter, `-` or `#`. -/
def isEntryStart (input : GoString) (i : Nat) : Prop :=
  (i = 0 ∨ input.getD (i - 1) 0 = 10) ∧ i < input.length ∧
    (isLetter (input.getD i 0) = true ∨ input.getD i 0 = 45 ∨ input.getD i 0 = 35)

/-- The position `e` is the recovery point for an error at `x`: the first position at or after
`x` that is the end of the input or a position where an entry can start. -/
def isRecoveryPoint (input : GoString) (x e : Nat) : Prop :=
  x ≤ e ∧ (e = input.length ∨ isEntryStart input e) ∧
    ∀ i, x ≤ i → i < e → ¬ isEntryStart input i

/-! ## Lines and columns of the input -/

/-- Go `utf8.RuneCount`, with the length of the slice as fuel. -/
def RuneCount.go : Nat → GoString → Nat
  | 0, _ => 0
  | n + 1, s => if s = [] then 0 else 1 + RuneCount.go n (s.drop (DecodeRune s).2)

/-- Go `utf8.RuneCount`: the number of runes of a byte sequence, an invalid byte counting as one
rune. -/
def RuneCount (s : GoString) : Nat := RuneCount.go s.length s

/-- The start of the line that contains the position `pos`: the position after the last line
feed before `pos`, or 0. -/
def lineStartOf (input : GoString) (pos : Nat) : Nat :=
  pos - ((input.take pos).reverse.takeWhile (fun b => b != 10)).length

/-- The 1-based column of the byte position `pos`: one plus the number of characters between the
start of its line and the position. -/
def columnOf (input : GoString) (pos : Nat) : Nat :=
  1 + RuneCount (slice input (lineStartOf input pos) pos)

/-- The 1-based line of the byte position `pos`: one plus the number of line feeds before it. -/
def lineOf (input : GoString) (pos : Nat) : Nat := 1 + (input.take pos).count 10

/-! ## The verbose rendering of diagnostics (error.go lines 56-90) -/

/-- Loop `for pos < len(pe.input) { if pe.input[pos] == '\n' { break }; pos++ }` of `Format`,
with fuel. -/
def formatScan : Nat → GoString → Nat → Nat
  | 0, _, pos => pos
  | n + 1, input, pos =>
    if pos < input.length then
      if input.getD pos 0 = 10 then pos else formatScan n input (pos + 1)
    else pos

/-- The line that `ParseErrors.Format` prints for one diagnostic with `%+v` (lines 67-79):
`start := perr.pos - perr.col + 1`, `pos` moved to the next line feed, and the slice
`pe.input[start:pos]`.  The result is `none` where the slice expression is out of bounds, which
is a run-time panic in Go; the capacity of the input is taken to be its length. -/
def ParseErrors.formatLine (pe : ParseErrors) (perr : parseError) : Option GoString :=
  let start : Int := (perr.pos : Int) - (perr.col : Int) + 1
  let pos := formatScan pe.input.length pe.input perr.pos
  if 0 ≤ start ∧ start ≤ (pos : Int) ∧ pos ≤ pe.input.length then
    some (slice pe.input start.toNat pos)
  else none

/-! ## The JSON rendering (ast.go, json.go) -/

/-- A JSON value as `encoding/json` writes it, before it is laid out in bytes: the members of
an object are in the order in which they are written.  A string is the value of the JSON string,
as a reader decodes it. -/
inductive JSON where
  | null
  | bool (b : Bool)
  | string (s : GoString)
  | array (items : List JSON)
  | object (members : List (String × JSON))

/-- The names of the members of an object, in order. -/
def JSON.keys : JSON → List String
  | JSON.object members => members.map Prod.fst
  | _ => []

/-- The string that a JSON reader gets back from what Go `encoding/json` writes for the Go string
`s`: every byte that `utf8.DecodeRune` reports as an encoding error (`RuneError` with width 1) is
written as U+FFFD, every other rune as it is.  The first argument bounds the iterations; each
one consumes at least one byte. -/
def coerceUTF8Loop : Nat → GoString → GoString
  | 0, _ => []
  | n + 1, s =>
    if s = [] then []
    else if (DecodeRune s).1 = RuneError ∧ (DecodeRune s).2 = 1 then
      [239, 191, 189] ++ coerceUTF8Loop n (s.drop 1)
    else s.take (DecodeRune s).2 ++ coerceUTF8Loop n (s.drop (DecodeRune s).2)

/-- The value of the JSON string that Go `encoding/json` writes for the Go string `s`. -/
def coerceUTF8 (s : GoString) : GoString := coerceUTF8Loop s.length s

/-- Loop of `validUTF8`. -/
def validUTF8Loop : Nat → GoString → Bool
  | 0, s => s.isEmpty
  | n + 1, s =>
    if s = [] then true
    else if (DecodeRune s).1 = RuneError ∧ (DecodeRune s).2 = 1 then false
    else validUTF8Loop n (s.drop (DecodeRune s).2)

/-- The bytes are valid UTF-8 (Go `utf8.Valid`): `utf8.DecodeRune` reports no encoding error at
the start of any rune. -/
def validUTF8 (s : GoString) : Bool := validUTF8Loop s.length s

/-- A Go string field in the rendering: `encoding/json` writes the string coerced to valid
UTF-8. -/
def jsonString (s : GoString) : JSON := JSON.string (coerceUTF8 s)

/-- A field of the struct value that a `MarshalJSON` of ast.go hands to `encoding/json`: a field
with the name of its `json` tag, or an embedded struct with its fields. -/
inductive GoField where
  | named (name : String) (value : JSON)
  | embedded (fields : List (String × JSON))

/-- The members that a field contributes to the object: the fields of an embedded struct are
promoted. -/
def GoField.members : GoField → List (String × JSON)
  | GoField.named name value => [(name, value)]
  | GoField.embedded fields => fields

/-- Go `encoding/json` on a struct value: an object whose members are the fields in the order of
their declaration, the fields of an embedded struct standing where the struct is embedded.  (No
struct of ast.go has a field named `type`, so no promoted field is hidden.) -/
def encodeStruct (fields : List GoField) : JSON :=
  JSON.object (fields.map GoField.members).flatten

/-- What every `MarshalJSON` of ast.go does: it renders
`struct { Type string; alias }` with the tag of the node in `Type` and the node itself as the
embedded `alias`.  The second argument is the fields of the node in the order of their
declaration in ast.go. -/
def tagged (tag : String) (fields : List (String × JSON)) : JSON :=
  encodeStruct [GoField.named "type" (jsonString (ascii tag)), GoField.embedded fields]

/-- A pointer field: `null` when nil. -/
def marshalPtr {α : Type} (f : α → JSON) : Option α → JSON
  | none => JSON.null
  | some a => f a

/-- A slice field that may be nil: `null` when nil, else an array. -/
def marshalSlice (s : Option (List JSON)) : JSON :=
  match s with
  | none => JSON.null
  | some items => JSON.array items

def Identifier.marshal (a : Identifier) : JSON :=
  tagged "Identifier" [("name", jsonString a.Name)]

def Annotation.marshal (_ : Annotation) : JSON := tagged "Annotation" []

def Comment.marshal (a : Comment) : JSON :=
  tagged "Comment" [("content", jsonString a.Content)]

def GroupComment.marshal (a : GroupComment) : JSON :=
  tagged "GroupComment" [("content", jsonString a.Content)]

def ResourceComment.marshal (a : ResourceComment) : JSON :=
  tagged "ResourceComment" [("content", jsonString a.Content)]

def Junk.marshal (a : Junk) : JSON :=
  tagged "Junk" [("annotations", JSON.array (a.Annotations.map Annotation.marshal)),
    ("content", jsonString a.Content)]

/-- A `VariantKey` is an `Identifier` or a `NumberLiteral`. -/
def VariantKey.marshal : VariantKey → JSON
  | VariantKey.identifier name => tagged "Identifier" [("name", jsonString name)]
  | VariantKey.numberLiteral value => tagged "NumberLiteral" [("value", jsonString value)]

mutual
def InlineExpression.marshal : InlineExpression → JSON
  | .stringLiteral v => tagged "StringLiteral" [("value", jsonString v)]
  | .numberLiteral v => tagged "NumberLiteral" [("value", jsonString v)]
  | .functionReference id args =>
    tagged "FunctionReference" [("id", id.marshal), ("arguments", args.marshal)]
  | .messageReference id attr =>
    tagged "MessageReference" [("id", id.marshal),
      ("attribute", marshalPtr Identifier.marshal attr)]
  | .termReference id attr args =>
    tagged "TermReference" [("id", id.marshal),
      ("attribute", marshalPtr Identifier.marshal attr),
      ("arguments", match args with
        | none => JSON.null
        | some a => a.marshal)]
  | .variableReference id => tagged "VariableReference" [("id", id.marshal)]
  | .placeable p => p.marshal
def Expression.marshal : Expression → JSON
  | .inline e => e.marshal
  | .selectExpression sel vs =>
    tagged "SelectExpression" [("selector", sel.marshal),
      ("variants", JSON.array (marshalVariants vs))]
def Placeable.marshal : Placeable → JSON
  | .mk e => tagged "Placeable" [("expression", e.marshal)]
def CallArguments.marshal : CallArguments → JSON
  | .mk positional named =>
    tagged "CallArguments" [("positional", JSON.array (marshalInlines positional)),
      ("named", JSON.array (marshalNamed named))]
def NamedArgument.marshal : NamedArgument → JSON
  | .mk name v => tagged "NamedArgument" [("name", name.marshal), ("value", v.marshal)]
def Variant.marshal : Variant → JSON
  | .mk k v d =>
    tagged "Variant" [("key", k.marshal), ("value", v.marshal), ("default", JSON.bool d)]
def Pattern.marshal : Pattern → JSON
  | .mk none => tagged "Pattern" [("elements", JSON.null)]
  | .mk (some es) => tagged "Pattern" [("elements", JSON.array (marshalElements es))]
def PatternElement.marshal : PatternElement → JSON
  | .textElement v => tagged "TextElement" [("value", jsonString v)]
  | .placeable p => p.marshal
def marshalVariants : List Variant → List JSON
  | [] => []
  | v :: vs => v.marshal :: marshalVariants vs
def marshalInlines : List InlineExpression → List JSON
  | [] => []
  | v :: vs => v.marshal :: marshalInlines vs
def marshalNamed : List NamedArgument → List JSON
  | [] => []
  | v :: vs => v.marshal :: marshalNamed vs
def marshalElements : List PatternElement → List JSON
  | [] => []
  | v :: vs => v.marshal :: marshalElements vs
end

def Attribute.marshal (a : Attribute) : JSON :=
  tagged "Attribute" [("id", a.ID.marshal), ("value", a.Value.marshal)]

def Message.marshal (a : Message) : JSON :=
  tagged "Message" [("id", a.ID.marshal), ("value", marshalPtr Pattern.marshal a.Value),
    ("attributes", JSON.array (a.Attributes.map Attribute.marshal)),
    ("comment", marshalPtr Comment.marshal a.Comment)]

def Term.marshal (a : Term) : JSON :=
  tagged "Term" [("id", a.ID.marshal), ("value", a.Value.marshal),
    ("attributes", JSON.array (a.Attributes.map Attribute.marshal)),
    ("comment", marshalPtr Comment.marshal a.Comment)]

def Entry.marshal : Entry → JSON
  | Entry.message m => m.marshal
  | Entry.term t => t.marshal
  | Entry.comment c => c.marshal
  | Entry.groupComment c => c.marshal
  | Entry.resourceComment c => c.marshal
  | Entry.junk j => j.marshal

def Resource.marshal (a : Resource) : JSON :=
  tagged "Resource" [("body", JSON.array (a.Body.map Entry.marshal))]

/-- The value is an object whose first member is `type` with the tag `tag`, followed by members
with the names `names`, in this order. -/
def JSON.isNode (j : JSON) (tag : String) (names : List String) : Prop :=
  ∃ fields, j = JSON.object (("type", JSON.string (ascii tag)) :: fields) ∧
    fields.map Prod.fst = names

/-- The fields of a node in the order in which the data model of the specification (section 3)
gives them, by the tag of the node. -/
def dataModelFields (tag : String) : List String :=
  match tag with
  | "Resource" => ["body"]
  | "Message" => ["id", "value", "attributes", "comment"]
  | "Term" => ["id", "value", "attributes", "comment"]
  | "Comment" => ["content"]
  | "GroupComment" => ["content"]
  | "ResourceComment" => ["content"]
  | "Junk" => ["content", "annotations"]
  | "Attribute" => ["id", "value"]
  | "Identifier" => ["name"]
  | "Pattern" => ["elements"]
  | "TextElement" => ["value"]
  | "Placeable" => ["expression"]
  | "StringLiteral" => ["value"]
  | "NumberLiteral" => ["value"]
  | "FunctionReference" => ["id", "arguments"]
  | "MessageReference" => ["id", "attribute"]
  | "TermReference" => ["id", "attribute", "arguments"]
  | "VariableReference" => ["id"]
  | "SelectExpression" => ["selector", "variants"]
  | "Variant" => ["key", "value", "default"]
  | "CallArguments" => ["positional", "named"]
  | "NamedArgument" => ["name", "value"]
  | _ => []

example : lineOf (ascii "foo =\n  bar \x7d\n") 12 = 2 := by decide

/-! ## Inputs of the scenarios on diagnostics and renderings -/

/-- The input of the fifth scenario of the specification: a select expression whose variants and
closing brace are on indented lines. -/
def selectInput : GoString :=
  ascii "msg = \x7b $name ->\n    [one] You have one\n   *[other] You have many\n  \x7d\n"

/-- The diagnostic that `Parse` records on `selectInput`, at the closing brace. -/
def selectError : parseError :=
  { line := 4, col := 5, pos := 68,
    message := errMessage.errorf "parse variants: %v" 4 5 68
      (errMessage.errorf "parse pattern: %v" 4 5 68
        (errMessage.str "unbalanced closing '\x7d'")) }

/-- The input `foo =`, line feed, `  bar }`: a text line of a block pattern, indented by two
spaces, with an unbalanced closing brace at byte 12, the seventh character of its line. -/
def indentInput : GoString := ascii "foo =\n  bar \x7d\n"

/-- The input `a=`, line feed, four spaces and a closing brace. -/
def deepInput : GoString := ascii "a=\n    \x7d"

/-- The diagnostic that `Parse` records on `deepInput`. -/
def deepError : parseError :=
  { line := 2, col := 9, pos := 7, message := errMessage.str "unbalanced closing '\x7d'" }

/-- The input `foo = x` followed by a line with the attribute `.a =` without a value. -/
def emptyAttrInput : GoString := ascii "foo = x\n .a =\n"

/-! ## Identifiers at the head of the input -/

/-- The longest prefix of a byte sequence that matches `[A-Za-z][A-Za-z0-9_-]*`; empty when the
sequence does not start with a letter. -/
def identPrefix : GoString → GoString
  | [] => []
  | c :: rest => if isLetter c then c :: rest.takeWhile isIdentChar else []

/-! ## Properties of every expression of a tree -/

/-- The grammar `[A-Z][A-Z0-9_-]*` of the names of functions, on bytes. -/
def isCalleeName (name : GoString) : Prop :=
  ∃ c rest, name = c :: rest ∧ isUppercase c = true ∧
    ∀ b ∈ rest, (isUppercase b || isDigit b || b == 95 || b == 45) = true

mutual
/-- Every inline expression inside the node satisfies `φI` and every expression satisfies
`φE`. -/
def InlineExpression.All (φI : InlineExpression → Prop) (φE : Expression → Prop) :
    InlineExpression → Prop
  | .stringLiteral v => φI (.stringLiteral v)
  | .numberLiteral v => φI (.numberLiteral v)
  | .functionReference id args =>
    φI (.functionReference id args) ∧ CallArguments.All φI φE args
  | .messageReference id attr => φI (.messageReference id attr)
  | .termReference id attr none => φI (.termReference id attr none)
  | .termReference id attr (some args) =>
    φI (.termReference id attr (some args)) ∧ CallArguments.All φI φE args
  | .variableReference id => φI (.variableReference id)
  | .placeable p => φI (.placeable p) ∧ Placeable.All φI φE p
def Expression.All (φI : InlineExpression → Prop) (φE : Expression → Prop) :
    Expression → Prop
  | .inline e => φE (.inline e) ∧ InlineExpression.All φI φE e
  | .selectExpression sel vs =>
    φE (.selectExpression sel vs) ∧ InlineExpression.All φI φE sel ∧ allVariants φI φE vs
def Placeable.All (φI : InlineExpression → Prop) (φE : Expression → Prop) : Placeable → Prop
  | .mk e => Expression.All φI φE e
def CallArguments.All (φI : InlineExpression → Prop) (φE : Expression → Prop) :
    CallArguments → Prop
  | .mk positional named => allInlines φI φE positional ∧ allNamed φI φE named
def NamedArgument.All (φI : InlineExpression → Prop) (φE : Expression → Prop) :
    NamedArgument → Prop
  | .mk _ v => InlineExpression.All φI φE v
def Variant.All (φI : InlineExpression → Prop) (φE : Expression → Prop) : Variant → Prop
  | .mk _ v _ => Pattern.All φI φE v
def Pattern.All (φI : InlineExpression → Prop) (φE : Expression → Prop) : Pattern → Prop
  | .mk none => True
  | .mk (some es) => allElements φI φE es
def PatternElement.All (φI : InlineExpression → Prop) (φE : Expression → Prop) :
    PatternElement → Prop
  | .textElement _ => True
  | .placeable p => Placeable.All φI φE p
def allVariants (φI : InlineExpression → Prop) (φE : Expression → Prop) : List Variant → Prop
  | [] => True
  | v :: vs => Variant.All φI φE v ∧ allVariants φI φE vs
def allInlines (φI : InlineExpression → Prop) (φE : Expression → Prop) :
    List InlineExpression → Prop
  | [] => True
  | v :: vs => InlineExpression.All φI φE v ∧ allInlines φI φE vs
def allNamed (φI : InlineExpression → Prop) (φE : Expression → Prop) :
    List NamedArgument → Prop
  | [] => True
  | v :: vs => NamedArgument.All φI φE v ∧ allNamed φI φE vs
def allElements (φI : InlineExpression → Prop) (φE : Expression → Prop) :
    List PatternElement → Prop
  | [] => True
  | v :: vs => PatternElement.All φI φE v ∧ allElements φI φE vs
end

def Attribute.All (φI : InlineExpression → Prop) (φE : Expression → Prop) (a : Attribute) :
    Prop := Pattern.All φI φE a.Value

/-- Every inline expression inside the entry satisfies `φI` and every expression `φE`. -/
def Entry.All (φI : InlineExpression → Prop) (φE : Expression → Prop) : Entry → Prop
  | Entry.message m =>
    (∀ v, m.Value = some v → Pattern.All φI φE v) ∧ ∀ a ∈ m.Attributes, Attribute.All φI φE a
  | Entry.term t => Pattern.All φI φE t.Value ∧ ∀ a ∈ t.Attributes, Attribute.All φI φE a
  | _ => True

/-- Every inline expression of the tree satisfies `φI` and every expression `φE`. -/
def Resource.All (φI : InlineExpression → Prop) (φE : Expression → Prop) (r : Resource) :
    Prop := ∀ e ∈ r.Body, Entry.All φI φE e

/-- What C17 says of an expression: a select expression has a selector that is no message
reference and, if it is a term reference, has an attribute; a term reference that is the
expression of a placeable has no attribute. -/
def selectorOK : Expression → Prop
  | .selectExpression sel _ =>
    (∀ id attr, sel ≠ .messageReference id attr) ∧
      ∀ id attr args, sel = .termReference id attr args → attr ≠ none
  | .inline e => ∀ id attr args, e = .termReference id attr args → attr = none

/-- What C18 says of an inline expression: the name of a function matches the grammar of
callees. -/
def calleeOK : InlineExpression → Prop
  | .functionReference id _ => isCalleeName id.Name
  | _ => True

/-- An input with a select expression on a term attribute, and a term reference as the
expression of a placeable. -/
def selectTermInput : GoString := ascii "x = \x7b -t.a ->\n *[k] \x7b -u \x7d\n\x7d\n"

/-- The tree that `Parse` returns on `selectTermInput`. -/
def selectTermResource : Resource :=
  { Body := [Entry.message
      { ID := { Name := ascii "x" },
        Value := some (Pattern.mk (some [PatternElement.placeable (Placeable.mk
          (Expression.selectExpression
            (InlineExpression.termReference { Name := ascii "t" } (some { Name := ascii "a" })
              none)
            [Variant.mk (VariantKey.identifier (ascii "k"))
              (Pattern.mk (some [PatternElement.placeable (Placeable.mk (Expression.inline
                (InlineExpression.termReference { Name := ascii "u" } none none)))]))
              true]))])),
        Attributes := [], Comment := none }] }

/-- An input with a call of the function `F`. -/
def callInput : GoString := ascii "x = \x7b F(1) \x7d\n"

/-- The tree that `Parse` returns on `callInput`. -/
def callResource : Resource :=
  { Body := [Entry.message
      { ID := { Name := ascii "x" },
        Value := some (Pattern.mk (some [PatternElement.placeable (Placeable.mk
          (Expression.inline (InlineExpression.functionReference { Name := ascii "F" }
            (CallArguments.mk [InlineExpression.numberLiteral (ascii "1")] []))))])),
        Attributes := [], Comment := none }] }

/-! ## Line endings -/

/-- The input with every line feed replaced by a carriage return and a line feed. -/
def crlf : GoString → GoString
  | [] => []
  | b :: rest => if b = 10 then 13 :: 10 :: crlf rest else b :: crlf rest

/-- The rune that stands in the converted input where the rune `c` stands in the input: the
carriage return for the line feed. -/
def crlfRune (c : Nat) : Nat := if c = 10 then 13 else c

/-- The position in the converted input of the position `i` of the input. -/
def crlfPos (input : GoString) (i : Nat) : Nat := (crlf (input.take i)).length

/-- No line feed at the positions from `a` up to `b`, `b` excluded. -/
def NoLF (input : GoString) (a b : Nat) : Prop := ∀ i, a ≤ i → i < b → input.getD i 0 ≠ 10

/-- The cursor `p1` is in the converted input where `p` is in the input.  The line and the column
are free. -/
def CR (input : GoString) (p p1 : parser) : Prop :=
  p1.pos = crlfPos input p.pos ∧ p1.ch = crlfRune p.ch ∧ p1.w = p.w

/-- Two results of the same kind: two values are equal, their cursors correspond and the cursor
on the input satisfies `Q`.  Two diagnostics are not compared. -/
def ResCR {α : Type} (input : GoString) (Q : parser → Prop) : Res α → Res α → Prop
  | Res.ok a q, Res.ok a1 q1 => a = a1 ∧ CR input q q1 ∧ Q q
  | Res.err _ _, Res.err _ _ => True
  | Res.panic _, Res.panic _ => True
  | Res.fuel, Res.fuel => True
  | _, _ => False

/-- An input of four lines: a comment, and a message whose value takes two indented lines. -/
def blockInput : GoString := ascii "# c\nfoo =\n    a\n    b\n"

/-- The tree that `Parse` returns on `blockInput`. -/
def blockResource : Resource :=
  { Body := [Entry.message
      { ID := { Name := ascii "foo" },
        Value := some (Pattern.mk (some [PatternElement.textElement (ascii "a\nb")])),
        Attributes := [], Comment := some { Content := ascii "c" } }] }

/-- The cursor at which `Parse` stops on `blockInput`. -/
def blockCursor : parser := { pos := 22, ch := 65533, w := 0, line := 5, col := 1 }

/-! ## The strings of the tree -/

/-- Every byte of the string satisfies `β`. -/
def allBytes (β : Nat → Prop) (s : GoString) : Prop := ∀ b ∈ s, β b

/-- The string of a variant key: the name of the identifier or the value of the number. -/
def VariantKey.text : VariantKey → GoString
  | .identifier name => name
  | .numberLiteral value => value

/-- The name of an optional identifier satisfies `φ`. -/
def optName (φ : GoString → Prop) (attr : Option Identifier) : Prop :=
  ∀ a, attr = some a → φ a.Name

mutual
/-- Every string inside the node satisfies `φ`: identifier names, literal values, variant keys
and text elements. -/
def InlineExpression.Texts (φ : GoString → Prop) : InlineExpression → Prop
  | .stringLiteral v => φ v
  | .numberLiteral v => φ v
  | .functionReference id args => φ id.Name ∧ CallArguments.Texts φ args
  | .messageReference id attr => φ id.Name ∧ optName φ attr
  | .termReference id attr none => φ id.Name ∧ optName φ attr
  | .termReference id attr (some args) =>
    φ id.Name ∧ optName φ attr ∧ CallArguments.Texts φ args
  | .variableReference id => φ id.Name
  | .placeable p => Placeable.Texts φ p
def Expression.Texts (φ : GoString → Prop) : Expression → Prop
  | .inline e => InlineExpression.Texts φ e
  | .selectExpression sel vs => InlineExpression.Texts φ sel ∧ textsVariants φ vs
def Placeable.Texts (φ : GoString → Prop) : Placeable → Prop
  | .mk e => Expression.Texts φ e
def CallArguments.Texts (φ : GoString → Prop) : CallArguments → Prop
  | .mk positional named => textsInlines φ positional ∧ textsNamed φ named
def NamedArgument.Texts (φ : GoString → Prop) : NamedArgument → Prop
  | .mk name v => φ name.Name ∧ InlineExpression.Texts φ v
def Variant.Texts (φ : GoString → Prop) : Variant → Prop
  | .mk key v _ => φ key.text ∧ Pattern.Texts φ v
def Pattern.Texts (φ : GoString → Prop) : Pattern → Prop
  | .mk none => True
  | .mk (some es) => textsElements φ es
def PatternElement.Texts (φ : GoString → Prop) : PatternElement → Prop
  | .textElement v => φ v
  | .placeable p => Placeable.Texts φ p
def textsVariants (φ : GoString → Prop) : List Variant → Prop
  | [] => True
  | v :: vs => Variant.Texts φ v ∧ textsVariants φ vs
def textsInlines (φ : GoString → Prop) : List InlineExpression → Prop
  | [] => True
  | v :: vs => InlineExpression.Texts φ v ∧ textsInlines φ vs
def textsNamed (φ : GoString → Prop) : List NamedArgument → Prop
  | [] => True
  | v :: vs => NamedArgument.Texts φ v ∧ textsNamed φ vs
def textsElements (φ : GoString → Prop) : List PatternElement → Prop
  | [] => True
  | v :: vs => PatternElement.Texts φ v ∧ textsElements φ vs
end

def Attribute.Texts (φ : GoString → Prop) (a : Attribute) : Prop :=
  φ a.ID.Name ∧ Pattern.Texts φ a.Value

/-- Every string inside the entry satisfies `φ`: names, values, keys, text and comments. -/
def Entry.Texts (φ : GoString → Prop) : Entry → Prop
  | Entry.message m =>
    φ m.ID.Name ∧ (∀ v, m.Value = some v → Pattern.Texts φ v) ∧
      (∀ a ∈ m.Attributes, Attribute.Texts φ a) ∧ ∀ c, m.Comment = some c → φ c.Content
  | Entry.term t =>
    φ t.ID.Name ∧ Pattern.Texts φ t.Value ∧
      (∀ a ∈ t.Attributes, Attribute.Texts φ a) ∧ ∀ c, t.Comment = some c → φ c.Content
  | Entry.comment c => φ c.Content
  | Entry.groupComment c => φ c.Content
  | Entry.resourceComment c => φ c.Content
  | Entry.junk j => φ j.Content

/-- Every string of the tree satisfies `φ`. -/
def Resource.Texts (φ : GoString → Prop) (r : Resource) : Prop :=
  ∀ e ∈ r.Body, Entry.Texts φ e

/-! ## Inputs of the last claims -/

/-- The placeable `{x}`: a reference to the message `x`. -/
def placeableX : PatternElement :=
  PatternElement.placeable (Placeable.mk (Expression.inline
    (InlineExpression.messageReference { Name := ascii "x" } none)))

/-- The input of C24: a block pattern with text after a placeable on the same line. -/
def placeableTextInput : GoString := ascii "foo =\n    \x7bx\x7dy\n"

/-- The diagnostic that `Parse` records on `placeableTextInput`. -/
def placeableTextError : parseError :=
  { line := 2, col := 2, pos := 14, message := errMessage.quoted2 "expected %q, got %q" 61 10 }

/-- The tree that `Parse` returns on `placeableTextInput`: the `y` is no part of the message. -/
def placeableTextResource : Resource :=
  { Body := [Entry.message
      { ID := { Name := ascii "foo" },
        Value := some (Pattern.mk (some [PatternElement.textElement [], placeableX])),
        Attributes := [], Comment := none },
     Entry.junk { Annotations := [], Content := ascii "y\n" }] }

/-- The input of C26: a block pattern that is an indented placeable. -/
def indentedPlaceableInput : GoString := ascii "foo =\n    \x7bx\x7d\n"

/-- The tree that `Parse` returns on `indentedPlaceableInput`, with an empty text element. -/
def indentedPlaceableResource : Resource :=
  { Body := [Entry.message
      { ID := { Name := ascii "foo" },
        Value := some (Pattern.mk (some [PatternElement.textElement [], placeableX])),
        Attributes := [], Comment := none }] }

/-- A string literal that the input ends without closing. -/
def openStringInput : GoString := ascii "\"abc"

/-- A message whose value is a string literal with the escape `\uzzzz`. -/
def badEscapeInput : GoString := ascii "a = \x7b \"\\uzzzz\" \x7d\n"

/-- The tree that `Parse` returns on `badEscapeInput`. -/
def badEscapeResource : Resource :=
  { Body := [Entry.message
      { ID := { Name := ascii "a" },
        Value := some (Pattern.mk (some [PatternElement.placeable (Placeable.mk
          (Expression.inline (InlineExpression.stringLiteral (ascii "\\uzzzz"))))])),
        Attributes := [], Comment := none }] }

/-- A space followed by the two bytes of U+00E9. -/
def spaceAccentInput : GoString := [32, 195, 169]

/-- The message `foo` whose value is on the next line: one space and U+00E9. -/
def accentInput : GoString := ascii "foo =\n" ++ [32, 195, 169, 10]

/-- The tree that `Parse` returns on `accentInput`: the space of the indent is kept. -/
def accentResource : Resource :=
  { Body := [Entry.message
      { ID := { Name := ascii "foo" },
        Value := some (Pattern.mk (some [PatternElement.textElement [32, 195, 169]])),
        Attributes := [], Comment := none }] }

/-! ## Joined text elements -/

/-- The byte starts a rune or stands alone: it is no continuation byte `10xxxxxx`. -/
def isStartByte (b : Nat) : Prop := b < 128 ∨ 192 ≤ b

/-- The element is a `TextElement`. -/
def PatternElement.isText : PatternElement → Bool
  | .textElement _ => true
  | .placeable _ => false

/-- Two adjacent elements of the list are both `TextElement`s. -/
def adjacentTexts : List PatternElement → Bool
  | a :: b :: rest => (a.isText && b.isText) || adjacentTexts (b :: rest)
  | _ => false

/-- A pattern with text on both sides of a placeable and blanks before the end of the line. -/
def trailingInput : GoString := ascii "a \x7bx\x7d b  \n"

/-- The pattern that `parsePattern` returns on `trailingInput`. -/
def trailingPattern : Pattern :=
  Pattern.mk (some [PatternElement.textElement (ascii "a "), placeableX,
    PatternElement.textElement (ascii " b")])

/-! ## Comment blocks -/

/-- One line of a comment block of level `k`, as the specification words it: `k` characters `#`,
then a space and the body `b` (nothing when `b` is empty), then a line feed. -/
def commentLine (k : Nat) (b : GoString) : GoString :=
  List.replicate k 35 ++ ((if b = [] then [] else 32 :: b) ++ [10])

/-- The comment block of level `k` with the line bodies `bs`. -/
def commentBlock (k : Nat) : List GoString → GoString
  | [] => []
  | b :: bs => commentLine k b ++ commentBlock k bs

/-- The entry of the variant for level `k`: 1 = Comment, 2 = GroupComment, 3 = ResourceComment. -/
def commentEntry (k : Nat) (content : GoString) : Entry :=
  if k = 1 then Entry.comment { Content := content }
  else if k = 2 then Entry.groupComment { Content := content }
  else Entry.resourceComment { Content := content }

/-- Length of the run of `#` that the bytes start with. -/
def hashRun : GoString → Nat
  | [] => 0
  | b :: rest => if b = 35 then hashRun rest + 1 else 0

/-- The line bodies `a`, the empty body and `b`. -/
def commentBodies : List GoString := [ascii "a", [], ascii "b"]

/-! ## Values made of text lines -/

/-- A line of text below the line of `=`: `l.1` spaces, at least one, then the text `l.2`, which
is not empty, has no NUL, line feed, carriage return or brace, and starts with none of the
space, `[`, `*` and `.`. -/
def isIndentedLine (l : Nat × GoString) : Prop :=
  1 ≤ l.1 ∧ l.2 ≠ [] ∧ (∀ b ∈ l.2, b ≠ 0 ∧ b ≠ 10 ∧ b ≠ 13 ∧ b ≠ 123 ∧ b ≠ 125) ∧
    l.2.head? ≠ some 32 ∧ l.2.head? ≠ some 91 ∧ l.2.head? ≠ some 42 ∧ l.2.head? ≠ some 46

/-- The text on the line of `=` (empty when the value starts on the next line): no NUL, line
feed, carriage return or brace, and no space at its start. -/
def isFirstLine (t : GoString) : Prop :=
  (∀ b ∈ t, b ≠ 0 ∧ b ≠ 10 ∧ b ≠ 13 ∧ b ≠ 123 ∧ b ≠ 125) ∧ t.head? ≠ some 32

/-- The bytes of an indented line, with the line feed that ends the line before it. -/
def indentedLine (l : Nat × GoString) : GoString := 10 :: (List.replicate l.1 32 ++ l.2)

/-- The bytes of the indented lines. -/
def indentedLines : List (Nat × GoString) → GoString
  | [] => []
  | l :: ls => indentedLine l ++ indentedLines ls

/-- The source of a value made of text lines: the text on the line of `=`, the indented lines,
and the line feed that ends the last line. -/
def valueSource (first : GoString) (lines : List (Nat × GoString)) : GoString :=
  first ++ (indentedLines lines ++ [10])

/-- The common indent as the specification words it: the minimum of the leading-space counts of
the indented lines, 0 when there is none. -/
def minIndent : List (Nat × GoString) → Nat
  | [] => 0
  | [l] => l.1
  | l :: ls => min l.1 (minIndent ls)

/-- The lines of the value: the text on the line of `=` as it is, and every indented line without
the common indent. -/
def dedentTexts (first : GoString) (lines : List (Nat × GoString)) : List GoString :=
  (if first = [] then [] else [first]) ++
    lines.map (fun l => List.replicate (l.1 - minIndent lines) 32 ++ l.2)

/-- The message `foo` with text on the line of `=` and one indented line. -/
def inlineFirstInput : GoString := ascii "foo = a\n    b\n"

/-- The tree that `Parse` returns on `inlineFirstInput`. -/
def inlineFirstResource : Resource :=
  { Body := [Entry.message
      { ID := { Name := ascii "foo" },
        Value := some (Pattern.mk (some [PatternElement.textElement (ascii "a\nb")])),
        Attributes := [], Comment := none }] }

/-- The message `foo` of the specification, with two indented lines. -/
def twoLinesInput : GoString := ascii "foo =\n    a\n      b\n"

/-- The tree that `Parse` returns on `twoLinesInput`. -/
def twoLinesResource : Resource :=
  { Body := [Entry.message
      { ID := { Name := ascii "foo" },
        Value := some (Pattern.mk (some [PatternElement.textElement (ascii "a\n  b")])),
        Attributes := [], Comment := none }] }

/-- The indented lines of `twoLinesInput`. -/
def twoLines : List (Nat × GoString) := [(4, ascii "a"), (6, ascii "b")]

/-! ## The calls of `parseEntry` in a run -/

/-- The calls of `parseEntry` that the loop of `parse` (lines 227-262) makes from the cursor `p`
with fuel `n`: the fuel and the cursor of each call, in order.  An iteration starts where
`skipBlankBlock` left the cursor, after the entry or, when `parseEntry` failed, after
`skipToNextEntryStart`; the cursor does not depend on the other variables of the loop. -/
def parseLoopCalls : Nat → GoString → parser → List (Nat × parser)
  | 0, _, _ => []
  | n + 1, input, p =>
    if p.pos < input.length then
      (n, p) :: (match parseEntry n input p with
        | Res.ok _ p1 =>
          (match skipBlankBlock n input p1 with
            | Res.ok _ p2 => parseLoopCalls n input p2
            | _ => [])
        | Res.err _ p1 =>
          (match skipToNextEntryStart n input p1 with
            | Res.ok _ q =>
              (match skipBlankBlock n input q with
                | Res.ok _ p2 => parseLoopCalls n input p2
                | _ => [])
            | _ => [])
        | _ => [])
    else []

/-- The calls of `parseEntry` in the run of `Parse` on `input` with fuel `n`. -/
def ParseCalls (n : Nat) (input : GoString) : List (Nat × parser) :=
  match skipBlankBlock n input (newParser input) with
  | Res.ok _ p => parseLoopCalls n input p
  | _ => []

/-- The Junk entry `j` comes from the call of `parseEntry` with fuel `c.1` at the cursor `c.2`:
the call failed with a diagnostic that is among the returned ones, and the content of `j` is
the input from the position of the cursor up to the recovery point of the diagnostic. -/
def JunkAt (input : GoString) (err : Option ParseErrors) (c : Nat × parser) (j : Junk) : Prop :=
  ∃ (e : parseError) (p1 : parser) (stop : Nat) (pe : ParseErrors),
    parseEntry c.1 input c.2 = Res.err e p1 ∧ err = some pe ∧ e ∈ pe.errors ∧
      c.2.pos ≤ e.pos ∧ isRecoveryPoint input e.pos stop ∧ j.Content = slice input c.2.pos stop

/-- The message `foo` whose first indented line starts with U+00E9 after two spaces and ends
with a space, and whose second line ends with a tab. -/
def accentLinesInput : GoString := ascii "foo =\n  " ++ [195, 169] ++ ascii " \n   b\t\n"

/-- The indented lines of `accentLinesInput`. -/
def accentLines : List (Nat × GoString) := [(2, [195, 169, 32]), (3, ascii "b\t")]

/-! # Theorems -/

/-! ## Reading operations of `P` -/

theorem bind_apply {α β : Type} (x : P α) (f : α → P β) (p : parser) :
    (x >>= f) p = match x p with
      | Res.ok a q => f a q
      | Res.err e q => Res.err e q
      | Res.panic m => Res.panic m
      | Res.fuel => Res.fuel := rfl

theorem pure_apply {α : Type} (a : α) (p : parser) : (pure a : P α) p = Res.ok a p := rfl

theorem getP_bind {β : Type} (f : parser → P β) (p : parser) : (getP >>= f) p = f p p := rfl

theorem nextP_bind {β : Type} (input : GoString) (f : Unit → P β) (p : parser) :
    (nextP input >>= f) p = f () (next input p) := rfl

theorem setP_bind {β : Type} (q : parser) (f : Unit → P β) (p : parser) :
    (setP q >>= f) p = f () q := rfl

theorem pure_bind_apply {α β : Type} (a : α) (f : α → P β) (p : parser) :
    ((pure a : P α) >>= f) p = f a p := rfl

theorem failWith_apply {α : Type} (m : errMessage) (p : parser) :
    (failWith m : P α) p = Res.err (p.error m) p := rfl

/-! ## The input that consists of one NUL byte -/

theorem skipBlankInline_nul (n : Nat) :
    skipBlankInline n [0] nulCursor = Res.fuel ∨
      skipBlankInline n [0] nulCursor = Res.ok 0 nulCursor := by
  cases n with
  | zero => left; rfl
  | succ n => right; rfl

theorem skipBlankBlock_nul (n : Nat) :
    skipBlankBlock n [0] nulCursor = Res.fuel ∨
      skipBlankBlock n [0] nulCursor = Res.ok 0 nulCursor := by
  cases n with
  | zero => left; rfl
  | succ n =>
    rcases skipBlankInline_nul n with h | h
    · left
      simp only [skipBlankBlock, skipBlankBlockLoop, bind_apply, getP, h]
    · right
      simp only [skipBlankBlock, skipBlankBlockLoop, bind_apply, getP, h]
      rfl

theorem parseEntry_nul (n : Nat) :
    parseEntry n [0] nulCursor
      = Res.err (nulCursor.error (errMessage.str "expected identifier")) nulCursor := rfl

theorem skipToNextEntryStart_nul (n : Nat) :
    skipToNextEntryStart n [0] nulCursor = Res.fuel ∨
      skipToNextEntryStart n [0] nulCursor = Res.ok () nulCursor := by
  cases n with
  | zero => left; rfl
  | succ n => right; rfl

theorem parseLoop_nul (n : Nat) : ∀ (errors : List parseError) (entries : List Entry)
    (lastComment : Option Comment),
    parseLoop n [0] errors entries lastComment nulCursor = Res.fuel := by
  induction n with
  | zero => intro _ _ _; rfl
  | succ n ih =>
    intro errors entries lastComment
    have hpos : nulCursor.pos < [0].length := by decide
    rcases skipToNextEntryStart_nul n with h1 | h1
    · simp only [parseLoop, bind_apply, getP, attempt, parseEntry_nul, h1, hpos, if_true]
    · rcases skipBlankBlock_nul n with h2 | h2
      · simp only [parseLoop, bind_apply, getP, attempt, parseEntry_nul, h1, h2, pure_apply, hpos,
          if_true]
      · simp only [parseLoop, bind_apply, getP, attempt, parseEntry_nul, h1, h2, pure_apply, hpos,
          if_true, Entry.asComment, ih]

/-- C2 (failing input): on the input that consists of one NUL byte the entry loop of `parse`
never ends.  Whatever the fuel, `Parse` is still running when it is used up: the end-of-input
marker `eof` is the rune 0, so `parseEntry` fails on the NUL byte without consuming it,
`skipToNextEntryStart` stops at once, and the loop meets the same cursor again. -/
theorem C2_Parse_nul_never_returns (n : Nat) : Parse n [0] = Res.fuel := by
  have h0 : newParser [0] = nulCursor := rfl
  rcases skipBlankBlock_nul n with h | h
  · simp only [Parse, parser.parse, bind_apply, h0, h]
  · simp only [Parse, parser.parse, bind_apply, h0, h, parseLoop_nul]

/-- C3 (failing input): a comment line that starts with four `#` reaches the branch
`panic("shouldn't happen")` of `parseComment`: the level of the block is 4 when the switch on
`lastLevel` is reached. -/
theorem C3_Parse_four_hashes_panics :
    Parse 20 (ascii "####\n") = Res.panic "shouldn't happen" := by rfl

/-- C7 (failing input): the term source `-t =` followed only by an attribute is accepted: `Parse`
returns no error and a body whose only entry is a Term with a nil pattern (no element) as its
value. -/
theorem C7_Parse_term_without_value :
    (Parse 30 (ascii "-t =\n .a = b\n")).value =
      some ({ Body := [Entry.term
                { ID := { Name := ascii "t" },
                  Value := Pattern.mk none,
                  Attributes := [{ ID := { Name := ascii "a" },
                                   Value := Pattern.mk
                                     (some [PatternElement.textElement (ascii "b")]) }],
                  Comment := none }] }, none) := by rfl

/-- C8 (failing input): in a select expression whose first variant is the starred one, the variant
after it is marked as default too, although it has no star: the flag `defaultVariant` of
`parseVariants` is never reset. -/
theorem C8_Parse_two_default_variants :
    (Parse 60 (ascii "x = \x7b $n ->\n   *[a] A\n    [b] B\n\x7d\n")).value =
      some ({ Body := [Entry.message
                { ID := { Name := ascii "x" },
                  Value := some (Pattern.mk (some [PatternElement.placeable (Placeable.mk
                    (Expression.selectExpression
                      (InlineExpression.variableReference { Name := ascii "n" })
                      [Variant.mk (VariantKey.identifier (ascii "a"))
                         (Pattern.mk (some [PatternElement.textElement (ascii "A")])) true,
                       Variant.mk (VariantKey.identifier (ascii "b"))
                         (Pattern.mk (some [PatternElement.textElement (ascii "B")])) true]))])),
                  Attributes := [],
                  Comment := none }] }, none) := by rfl

/-! ## The loop of `parse` -/

/-- What `parse` returns at the end of its loop (lines 265-282). -/
theorem parseLoop_exit (n : Nat) (input : GoString) (errors : List parseError)
    (entries : List Entry) (lastComment : Option Comment) (p : parser)
    (h : input.length ≤ p.pos) :
    parseLoop (n + 1) input errors entries lastComment p =
      Res.ok ({ Body := match lastComment with
                  | some c => entries ++ [Entry.comment c]
                  | none => entries },
        if 0 < errors.length then some { input := input, errors := errors } else none) p := by
  have h2 : ¬ p.pos < input.length := by omega
  simp only [parseLoop, bind_apply, getP, h2, if_false, pure_apply]

/-- Invariants of the loop of `parse`: a property `J` of the loop variables and the cursor that
every kind of iteration keeps holds when the loop returns. -/
theorem parseLoop_inv (input : GoString)
    (J : List parseError → List Entry → Option Comment → parser → Prop)
    (hheld : ∀ n p c p1 p2 errors entries lc, J errors entries lc p → p.pos < input.length →
      parseEntry n input p = Res.ok (Entry.comment c) p1 →
      skipBlankBlock n input p1 = Res.ok 0 p2 → J errors entries (some c) p2)
    (hok : ∀ n p entry p1 k p2 errors entries lc, J errors entries lc p →
      p.pos < input.length → parseEntry n input p = Res.ok entry p1 →
      skipBlankBlock n input p1 = Res.ok k p2 → (k = 0 → entry.asComment = none) →
      J errors (commitEntry entries lc entry) none p2)
    (herr : ∀ n p e p1 q k p2 errors entries lc, J errors entries lc p →
      p.pos < input.length → parseEntry n input p = Res.err e p1 →
      skipToNextEntryStart n input p1 = Res.ok () q →
      skipBlankBlock n input q = Res.ok k p2 →
      J (errors ++ [e]) (commitEntry entries lc
        (Entry.junk { Content := slice input p.pos q.pos, Annotations := [] })) none p2) :
    ∀ (n : Nat) (errors : List parseError) (entries : List Entry) (lc : Option Comment)
      (p : parser) (r : Resource × Option ParseErrors) (q : parser),
      J errors entries lc p → parseLoop n input errors entries lc p = Res.ok r q →
      ∃ errors1 entries1 lc1, J errors1 entries1 lc1 q ∧ input.length ≤ q.pos ∧
        r = ({ Body := match lc1 with
                  | some c => entries1 ++ [Entry.comment c]
                  | none => entries1 },
             if 0 < errors1.length then some { input := input, errors := errors1 } else none) := by
  intro n
  induction n with
  | zero => intro errors entries lc p r q _ h; simp [parseLoop] at h
  | succ n ih =>
    intro errors entries lc p r q hJ h
    by_cases hp : p.pos < input.length
    · simp only [parseLoop, bind_apply, getP, hp, if_true, attempt] at h
      cases hpe : parseEntry n input p with
      | ok entry p1 =>
        simp only [hpe, pure_apply] at h
        cases hsb : skipBlankBlock n input p1 with
        | ok k p2 =>
          simp only [hsb] at h
          by_cases hk : k = 0
          · subst hk
            cases hc : entry.asComment with
            | none =>
              simp only [hc, if_true] at h
              exact ih _ _ _ _ _ _ (hok n p entry p1 0 p2 errors entries lc hJ hp hpe hsb
                (fun _ => hc)) h
            | some c =>
              simp only [hc, if_true] at h
              have he : entry = Entry.comment c := by
                cases entry <;> simp [Entry.asComment] at hc
                rw [hc]
              subst he
              exact ih _ _ _ _ _ _ (hheld n p c p1 p2 errors entries lc hJ hp hpe hsb) h
          · simp only [hk, if_false] at h
            exact ih _ _ _ _ _ _ (hok n p entry p1 k p2 errors entries lc hJ hp hpe hsb
              (fun h0 => absurd h0 hk)) h
        | err e p2 => simp [hsb] at h
        | panic m => simp [hsb] at h
        | fuel => simp [hsb] at h
      | err e p1 =>
        simp only [hpe, bind_apply, getP, pure_apply] at h
        cases hsk : skipToNextEntryStart n input p1 with
        | ok u q1 =>
          simp only [hsk] at h
          cases hsb : skipBlankBlock n input q1 with
          | ok k p2 =>
            simp only [hsb, Entry.asComment, ite_self] at h
            exact ih _ _ _ _ _ _ (herr n p e p1 q1 k p2 errors entries lc hJ hp hpe hsk hsb) h
          | err e p2 => simp [hsb] at h
          | panic m => simp [hsb] at h
          | fuel => simp [hsb] at h
        | err e p2 => simp [hsk] at h
        | panic m => simp [hsk] at h
        | fuel => simp [hsk] at h
      | panic m => simp [hpe] at h
      | fuel => simp [hpe] at h
    · have hlen : input.length ≤ p.pos := by omega
      rw [parseLoop_exit n input errors entries lc p hlen] at h
      injection h with h1 h2
      subst h2
      exact ⟨errors, entries, lc, hJ, hlen, h1.symm⟩

theorem bind_ok {α β : Type} {x : P α} {f : α → P β} {p q : parser} {b : β}
    (h : (x >>= f) p = Res.ok b q) : ∃ a p1, x p = Res.ok a p1 ∧ f a p1 = Res.ok b q := by
  rw [bind_apply] at h
  cases hx : x p with
  | ok a p1 => rw [hx] at h; exact ⟨a, p1, rfl, h⟩
  | err e p1 => rw [hx] at h; simp at h
  | panic m => rw [hx] at h; simp at h
  | fuel => rw [hx] at h; simp at h

theorem parseComment_not_junk (n : Nat) (input : GoString) (p q : parser) (entry : Entry)
    (h : parseComment n input p = Res.ok entry q) : entry.isJunk = false := by
  unfold parseComment at h
  obtain ⟨r, p1, _, h2⟩ := bind_ok h
  by_cases h1 : r.2 = 1
  · simp only [h1, if_true, pure_apply] at h2
    injection h2 with h3 _
    rw [← h3]; rfl
  · by_cases h2' : r.2 = 2
    · simp only [h1, h2', if_true, if_false, pure_apply] at h2
      injection h2 with h3 _
      rw [← h3]; rfl
    · by_cases h3' : r.2 = 3
      · simp only [h1, h2', h3', if_true, if_false, pure_apply] at h2
        injection h2 with h3 _
        rw [← h3]; rfl
      · simp only [h1, h2', h3', if_false] at h2
        simp at h2

theorem parseEntry_not_junk (n : Nat) (input : GoString) (p q : parser) (entry : Entry)
    (h : parseEntry n input p = Res.ok entry q) : entry.isJunk = false := by
  unfold parseEntry at h
  obtain ⟨p0, p1, hg, h⟩ := bind_ok h
  simp only [getP] at hg
  injection hg with hg1 hg2
  subst hg1 hg2
  split at h
  · exact parseComment_not_junk n input _ q entry h
  · split at h
    · obtain ⟨t, p2, _, h3⟩ := bind_ok h
      simp only [pure_apply] at h3
      injection h3 with h3 _
      rw [← h3]; rfl
    · obtain ⟨t, p2, _, h3⟩ := bind_ok h
      simp only [pure_apply] at h3
      injection h3 with h3 _
      rw [← h3]; rfl

theorem junkCount_append (a b : List Entry) : junkCount (a ++ b) = junkCount a + junkCount b := by
  simp [junkCount, List.countP_append]

theorem junkCount_commitEntry (entries : List Entry) (lc : Option Comment) (entry : Entry) :
    junkCount (commitEntry entries lc entry) =
      junkCount entries + (if entry.isJunk then 1 else 0) := by
  cases lc with
  | none => cases entry <;> simp [commitEntry, junkCount, List.countP_append, Entry.isJunk]
  | some c => cases entry <;> simp [commitEntry, junkCount, List.countP_append, Entry.isJunk]

/-- C4: whenever `Parse` returns, the returned error is non-nil exactly when the body has a Junk
entry, and the number of diagnostics of the returned `ParseErrors` is the number of Junk entries
of the body. -/
theorem C4_errors_match_junk (n : Nat) (input : GoString) (r : Resource)
    (e : Option ParseErrors) (q : parser) (h : Parse n input = Res.ok (r, e) q) :
    (e ≠ none ↔ 0 < junkCount r.Body) ∧
      ∀ pe, e = some pe → pe.errors.length = junkCount r.Body := by
  unfold Parse parser.parse at h
  obtain ⟨k, p1, _, h2⟩ := bind_ok h
  obtain ⟨errors1, entries1, lc1, hJ, _, hr⟩ :=
    parseLoop_inv input (fun errors entries _ _ => errors.length = junkCount entries)
      (fun _ _ _ _ _ _ _ _ hJ _ _ _ => hJ)
      (fun n p entry p1 _ _ _ _ _ hJ _ hpe _ _ => by
        show _ = junkCount (commitEntry _ _ _)
        rw [junkCount_commitEntry, parseEntry_not_junk n input p p1 entry hpe]
        simpa using hJ)
      (fun _ _ _ _ _ _ _ _ _ _ hJ _ _ _ _ => by
        show _ = junkCount (commitEntry _ _ _)
        rw [junkCount_commitEntry]
        simpa [Entry.isJunk] using hJ)
      n [] [] none p1 (r, e) q (by simp [junkCount]) h2
  rw [Prod.mk.injEq] at hr
  obtain ⟨hr1, he⟩ := hr
  have hbody : junkCount r.Body = junkCount entries1 := by
    rw [hr1]
    cases lc1 <;> simp [junkCount, List.countP_append, Entry.isJunk]
  have hJ2 : errors1.length = junkCount entries1 := hJ
  rw [hbody, ← hJ2, he]
  constructor
  · by_cases h0 : 0 < errors1.length <;> simp [h0]
  · intro pe hpe
    by_cases h0 : 0 < errors1.length
    · simp only [h0, if_true] at hpe
      injection hpe with hpe
      rw [← hpe]
    · simp [h0] at hpe

/-- C4 (witness): `bad = { 1 + 2 }` is parsed into one Junk entry and one diagnostic. -/
theorem C4_errors_match_junk_witness :
    (some { input := badInput, errors := [badError] } ≠ (none : Option ParseErrors) ↔
      0 < junkCount [Entry.junk { Content := badInput, Annotations := [] }]) ∧
      ∀ pe : ParseErrors, some { input := badInput, errors := [badError] } = some pe →
        pe.errors.length = junkCount [Entry.junk { Content := badInput, Annotations := [] }] :=
  C4_errors_match_junk 40 badInput
    { Body := [Entry.junk { Content := badInput, Annotations := [] }] }
    (some { input := badInput, errors := [badError] }) badCursor (by rfl)


/-! ## Messages -/

theorem parseMessage_ok (n : Nat) (input : GoString) (p q : parser) (m : Message)
    (h : parseMessage n input p = Res.ok m q) : m.hasField ∧ m.Comment = none := by
  unfold parseMessage at h
  obtain ⟨id, p1, _, h⟩ := bind_ok h
  obtain ⟨k, p2, _, h⟩ := bind_ok h
  rw [getP_bind] at h
  split at h
  · simp [failWith_apply] at h
  · rw [nextP_bind] at h
    obtain ⟨pattern, p3, _, h⟩ := bind_ok h
    obtain ⟨b, p4, _, h⟩ := bind_ok h
    obtain ⟨attributes, p5, _, h⟩ := bind_ok h
    split at h
    · simp [failWith_apply] at h
    · rename_i hne
      simp only [pure_apply] at h
      injection h with h _
      subst h
      refine ⟨?_, rfl⟩
      by_cases hl : sliceLen pattern.Elements = 0
      · right
        intro ha
        have ha2 : attributes = [] := ha
        exact hne ⟨hl, by simp [ha2]⟩
      · left
        exact ⟨pattern, by simp [hl], by omega⟩

theorem parseMessage_rejects (n : Nat) (input : GoString) (p p1 p2 p3 p4 p5 : parser)
    (id : Identifier) (k b : Nat) (pattern : Pattern) (attributes : List Attribute)
    (h1 : parseIdentifier n input p = Res.ok id p1)
    (h2 : skipBlankInline n input p1 = Res.ok k p2) (h3 : p2.ch = 61)
    (h4 : parsePattern n input (next input p2) = Res.ok pattern p3)
    (h5 : skipBlankBlock n input p3 = Res.ok b p4)
    (h6 : parseAttributes n input p4 = Res.ok attributes p5)
    (h7 : sliceLen pattern.Elements = 0) (h8 : attributes = []) :
    parseMessage n input p = Res.err (p5.error (errMessage.str "expected message field")) p5 := by
  unfold parseMessage
  rw [bind_apply, h1]
  simp only []
  rw [bind_apply, h2]
  simp only []
  rw [getP_bind]
  simp only [h3, ne_eq, not_true_eq_false, if_false]
  rw [nextP_bind, bind_apply, h4]
  simp only []
  rw [bind_apply, h5]
  simp only []
  rw [bind_apply, h6]
  simp only [h7, h8, List.length_nil, and_self, if_true, failWith_apply]

theorem parseEntry_message (n : Nat) (input : GoString) (p q : parser) (m : Message)
    (h : parseEntry n input p = Res.ok (Entry.message m) q) :
    m.hasField ∧ m.Comment = none := by
  unfold parseEntry at h
  rw [getP_bind] at h
  split at h
  · have := parseComment_not_junk n input p q _ h
    unfold parseComment at h
    obtain ⟨r, p1, _, h2⟩ := bind_ok h
    split at h2
    · simp [pure_apply] at h2
    · split at h2
      · simp [pure_apply] at h2
      · split at h2
        · simp [pure_apply] at h2
        · simp at h2
  · split at h
    · obtain ⟨t, p2, _, h3⟩ := bind_ok h
      simp [pure_apply] at h3
    · obtain ⟨t, p2, ht, h3⟩ := bind_ok h
      simp only [pure_apply] at h3
      injection h3 with h3 _
      injection h3 with h3
      subst h3
      exact parseMessage_ok n input p p2 t ht

theorem commitEntry_message (entries : List Entry) (lc : Option Comment) (entry : Entry)
    (Q : Message → Prop) (hQ : ∀ m c, Q m → Q { m with Comment := c })
    (hentries : ∀ m, Entry.message m ∈ entries → Q m)
    (hentry : ∀ m, entry = Entry.message m → Q m) :
    ∀ m, Entry.message m ∈ commitEntry entries lc entry → Q m := by
  intro m hm
  cases lc with
  | none =>
    simp only [commitEntry, List.mem_append, List.mem_singleton] at hm
    rcases hm with hm | hm
    · exact hentries m hm
    · exact hentry m hm.symm
  | some c =>
    cases entry with
    | message v =>
      simp only [commitEntry, List.mem_append, List.mem_singleton] at hm
      rcases hm with hm | hm
      · exact hentries m hm
      · injection hm with hm
        rw [hm]
        exact hQ v (some c) (hentry v rfl)
    | term v =>
      simp only [commitEntry, List.mem_append, List.mem_singleton] at hm
      rcases hm with hm | hm
      · exact hentries m hm
      · simp at hm
    | comment v =>
      simp only [commitEntry, List.mem_append, List.mem_singleton] at hm
      rcases hm with (hm | hm) | hm
      · exact hentries m hm
      · simp at hm
      · simp at hm
    | groupComment v =>
      simp only [commitEntry, List.mem_append, List.mem_singleton] at hm
      rcases hm with (hm | hm) | hm
      · exact hentries m hm
      · simp at hm
      · simp at hm
    | resourceComment v =>
      simp only [commitEntry, List.mem_append, List.mem_singleton] at hm
      rcases hm with (hm | hm) | hm
      · exact hentries m hm
      · simp at hm
      · simp at hm
    | junk v =>
      simp only [commitEntry, List.mem_append, List.mem_singleton] at hm
      rcases hm with (hm | hm) | hm
      · exact hentries m hm
      · simp at hm
      · simp at hm

/-- C6: every Message in the body that `Parse` returns has a value with at least one pattern
element or at least one attribute; and `parseMessage` rejects, with the diagnostic
"expected message field", a message whose pattern has no element and that has no attribute
(the loop of `parse` turns every rejected entry into Junk). -/
theorem C6_message_has_field :
    (∀ (n : Nat) (input : GoString) (r : Resource) (e : Option ParseErrors) (q : parser),
      Parse n input = Res.ok (r, e) q → ∀ m, Entry.message m ∈ r.Body → m.hasField) ∧
    (∀ (n : Nat) (input : GoString) (p p1 p2 p3 p4 p5 : parser) (id : Identifier) (k b : Nat)
      (pattern : Pattern) (attributes : List Attribute),
      parseIdentifier n input p = Res.ok id p1 →
      skipBlankInline n input p1 = Res.ok k p2 → p2.ch = 61 →
      parsePattern n input (next input p2) = Res.ok pattern p3 →
      skipBlankBlock n input p3 = Res.ok b p4 →
      parseAttributes n input p4 = Res.ok attributes p5 →
      sliceLen pattern.Elements = 0 → attributes = [] →
      parseMessage n input p =
        Res.err (p5.error (errMessage.str "expected message field")) p5) := by
  refine ⟨?_, parseMessage_rejects⟩
  intro n input r e q h
  unfold Parse parser.parse at h
  obtain ⟨k, p1, _, h2⟩ := bind_ok h
  have hQ : ∀ (m : Message) (c : Option Comment), m.hasField →
      Message.hasField { m with Comment := c } := fun m c hm => hm
  obtain ⟨errors1, entries1, lc1, hJ, _, hr⟩ :=
    parseLoop_inv input (fun _ entries _ _ => ∀ m, Entry.message m ∈ entries → m.hasField)
      (fun _ _ _ _ _ _ _ _ hJ _ _ _ => hJ)
      (fun n p entry p1 _ _ _ entries lc hJ _ hpe _ _ =>
        commitEntry_message entries lc entry Message.hasField hQ hJ
          (fun m hm => (parseEntry_message n input p p1 m (hm ▸ hpe)).1))
      (fun _ _ _ _ _ _ _ _ entries lc hJ _ _ _ _ =>
        commitEntry_message entries lc _ Message.hasField hQ hJ (fun m hm => by simp at hm))
      n [] [] none p1 (r, e) q (by simp) h2
  rw [Prod.mk.injEq] at hr
  obtain ⟨hr1, _⟩ := hr
  intro m hm
  rw [hr1] at hm
  cases lc1 with
  | none => exact hJ m hm
  | some c =>
    simp only [List.mem_append, List.mem_singleton] at hm
    rcases hm with hm | hm
    · exact hJ m hm
    · simp at hm

/-- C6 (witness): the message of `foo = Foo` has a field. -/
theorem C6_message_has_field_witness : fooMessage.hasField :=
  C6_message_has_field.1 40 fooInput { Body := [Entry.message fooMessage] } none fooCursor
    (by rfl) fooMessage (by simp)

/-! ## Call arguments -/

theorem containsString_iff (a : List GoString) (x : GoString) :
    containsString a x = true ↔ x ∈ a := by
  simp [containsString, List.any_eq_true]

theorem parseCallArgumentsLoop_inv : ∀ (n : Nat) (input : GoString)
    (positional : List InlineExpression) (named : List NamedArgument) (names : List GoString)
    (p q : parser) (r : List InlineExpression × List NamedArgument),
    parseCallArgumentsLoop n input positional named names p = Res.ok r q →
    names = named.map NamedArgument.name → names.Nodup →
    (r.2.map NamedArgument.name).Nodup ∧ (named ≠ [] → r.1 = positional) := by
  intro n
  induction n with
  | zero => intro input positional named names p q r h; simp [parseCallArgumentsLoop] at h
  | succ n ih =>
    intro input positional named names p q r h hnames hnodup
    rw [parseCallArgumentsLoop, getP_bind] at h
    split at h
    · simp only [pure_apply] at h
      injection h with h _
      subst h
      exact ⟨hnames ▸ hnodup, fun _ => rfl⟩
    · split at h
      · simp only [pure_apply] at h
        injection h with h _
        subst h
        exact ⟨hnames ▸ hnodup, fun _ => rfl⟩
      · obtain ⟨exp, p1, _, h⟩ := bind_ok h
        obtain ⟨u, p2, _, h⟩ := bind_ok h
        rw [getP_bind] at h
        obtain ⟨vars, p3, hv, h⟩ := bind_ok h
        have hvars : vars.2.2 = vars.2.1.map NamedArgument.name ∧ vars.2.2.Nodup ∧
            (named ≠ [] → vars.1 = positional) ∧ (named ≠ [] → vars.2.1 ≠ []) := by
          split at hv
          · split at hv
            · rw [nextP_bind] at hv
              obtain ⟨u2, p4, _, hv⟩ := bind_ok hv
              obtain ⟨value, p5, _, hv⟩ := bind_ok hv
              split at hv
              · simp [failWith_apply] at hv
              · rename_i hc
                simp only [pure_apply] at hv
                injection hv with hv _
                subst hv
                have hnot : ¬ _ ∈ names := fun hm => hc ((containsString_iff _ _).2 hm)
                refine ⟨by simp [hnames, NamedArgument.name, NamedArgument.Name], ?_, fun _ => rfl,
                  fun _ => by simp⟩
                exact List.Nodup.append hnodup (List.nodup_singleton _)
                  (by
                    intro a ha hb
                    rw [List.mem_singleton] at hb
                    exact hnot (hb ▸ ha))
            · simp [failWith_apply] at hv
          · split at hv
            · simp [failWith_apply] at hv
            · rename_i hlen
              simp only [pure_apply] at hv
              injection hv with hv _
              subst hv
              have hnil : names = [] := by
                cases names with
                | nil => rfl
                | cons a b => simp at hlen
              refine ⟨hnames, hnodup, ?_, fun hne => hne⟩
              intro hne
              rw [hnil] at hnames
              cases named with
              | nil => exact absurd rfl hne
              | cons a b => simp at hnames
        obtain ⟨hv1, hv2, hv3, hv4⟩ := hvars
        obtain ⟨u3, p4, _, h⟩ := bind_ok h
        rw [getP_bind] at h
        split at h
        · rw [nextP_bind] at h
          obtain ⟨u4, p5, _, h⟩ := bind_ok h
          obtain ⟨h1, h2⟩ := ih input vars.1 vars.2.1 vars.2.2 _ q r h hv1 hv2
          exact ⟨h1, fun hne => (h2 (hv4 hne)).trans (hv3 hne)⟩
        · simp only [pure_apply] at h
          injection h with h _
          subst h
          exact ⟨hv1 ▸ hv2, hv3⟩

theorem parseCallArguments_nodup (n : Nat) (input : GoString) (p q : parser)
    (args : CallArguments) (h : parseCallArguments n input p = Res.ok args q) :
    (args.Named.map NamedArgument.name).Nodup := by
  cases n with
  | zero => simp [parseCallArguments] at h
  | succ n =>
    rw [parseCallArguments, nextP_bind] at h
    obtain ⟨u, p1, _, h⟩ := bind_ok h
    obtain ⟨r, p2, hloop, h⟩ := bind_ok h
    rw [getP_bind] at h
    split at h
    · simp [failWith_apply] at h
    · rw [nextP_bind] at h
      simp only [pure_apply] at h
      injection h with h _
      subst h
      exact (parseCallArgumentsLoop_inv n input [] [] [] p1 p2 r hloop rfl List.nodup_nil).1

theorem parseCallArgumentsLoop_duplicate (n : Nat) (input : GoString)
    (positional : List InlineExpression) (named : List NamedArgument) (names : List GoString)
    (p p1 p2 p3 p4 : parser) (id : Identifier) (value : InlineExpression)
    (h0 : p.ch ≠ eof) (h00 : p.ch ≠ 41)
    (h1 : parseInlineExpression n input p = Res.ok (InlineExpression.messageReference id none) p1)
    (h2 : skipBlank n input p1 = Res.ok () p2) (h3 : p2.ch = 58)
    (h4 : skipBlank n input (next input p2) = Res.ok () p3)
    (h5 : parseLiteral n input p3 = Res.ok value p4) (h6 : id.Name ∈ names) :
    parseCallArgumentsLoop (n + 1) input positional named names p =
      Res.err (p4.error (errMessage.str "named arguments must be unique")) p4 := by
  rw [parseCallArgumentsLoop, getP_bind]
  simp only [h0, h00, if_false]
  rw [bind_apply, h1]
  simp only []
  rw [bind_apply, h2]
  simp only []
  rw [getP_bind, bind_apply]
  simp only [h3, if_true]
  rw [nextP_bind, bind_apply, h4]
  simp only []
  rw [bind_apply, h5]
  simp only [(containsString_iff names id.Name).2 h6, if_true, failWith_apply]

theorem parseCallArgumentsLoop_positional_after_named (n : Nat) (input : GoString)
    (positional : List InlineExpression) (named : List NamedArgument) (names : List GoString)
    (p p1 p2 : parser) (exp : InlineExpression)
    (h0 : p.ch ≠ eof) (h00 : p.ch ≠ 41)
    (h1 : parseInlineExpression n input p = Res.ok exp p1)
    (h2 : skipBlank n input p1 = Res.ok () p2) (h3 : p2.ch ≠ 58) (h6 : names ≠ []) :
    parseCallArgumentsLoop (n + 1) input positional named names p =
      Res.err (p2.error (errMessage.str "positional argument follows names")) p2 := by
  rw [parseCallArgumentsLoop, getP_bind]
  simp only [h0, h00, if_false]
  rw [bind_apply, h1]
  simp only []
  rw [bind_apply, h2]
  simp only []
  rw [getP_bind, bind_apply]
  have hlen : 0 < names.length := List.length_pos.2 h6
  simp only [h3, if_false, hlen, if_true, failWith_apply]

/-- C9: when `parseCallArguments` returns a value, the names of its named arguments are pairwise
distinct; once the loop of `parseCallArguments` holds a named argument, no positional argument is
added any more (so every positional argument was read before the first named one); an argument
whose name was already read fails with "named arguments must be unique"; and an argument without
a colon that comes after a named one fails with "positional argument follows names". -/
theorem C9_call_arguments :
    (∀ (n : Nat) (input : GoString) (p q : parser) (args : CallArguments),
      parseCallArguments n input p = Res.ok args q →
      (args.Named.map NamedArgument.name).Nodup) ∧
    (∀ (n : Nat) (input : GoString) (positional : List InlineExpression)
      (named : List NamedArgument) (names : List GoString) (p q : parser)
      (r : List InlineExpression × List NamedArgument),
      parseCallArgumentsLoop n input positional named names p = Res.ok r q →
      names = named.map NamedArgument.name → names.Nodup → named ≠ [] → r.1 = positional) ∧
    (∀ (n : Nat) (input : GoString) (positional : List InlineExpression)
      (named : List NamedArgument) (names : List GoString) (p p1 p2 p3 p4 : parser)
      (id : Identifier) (value : InlineExpression),
      p.ch ≠ eof → p.ch ≠ 41 →
      parseInlineExpression n input p = Res.ok (InlineExpression.messageReference id none) p1 →
      skipBlank n input p1 = Res.ok () p2 → p2.ch = 58 →
      skipBlank n input (next input p2) = Res.ok () p3 →
      parseLiteral n input p3 = Res.ok value p4 → id.Name ∈ names →
      parseCallArgumentsLoop (n + 1) input positional named names p =
        Res.err (p4.error (errMessage.str "named arguments must be unique")) p4) ∧
    (∀ (n : Nat) (input : GoString) (positional : List InlineExpression)
      (named : List NamedArgument) (names : List GoString) (p p1 p2 : parser)
      (exp : InlineExpression),
      p.ch ≠ eof → p.ch ≠ 41 →
      parseInlineExpression n input p = Res.ok exp p1 →
      skipBlank n input p1 = Res.ok () p2 → p2.ch ≠ 58 → names ≠ [] →
      parseCallArgumentsLoop (n + 1) input positional named names p =
        Res.err (p2.error (errMessage.str "positional argument follows names")) p2) :=
  ⟨parseCallArguments_nodup,
   fun n input positional named names p q r h hn hd hne =>
     (parseCallArgumentsLoop_inv n input positional named names p q r h hn hd).2 hne,
   parseCallArgumentsLoop_duplicate, parseCallArgumentsLoop_positional_after_named⟩

/-- C9 (witness): the arguments `(1, b: 2)` have the one name `b`; in `(a: 1, a: 2)` the second
`a` is a duplicate; in `(a: 1, 2)` the argument `2` follows a name. -/
theorem C9_call_arguments_witness :
    ([NamedArgument.mk { Name := ascii "b" } (InlineExpression.numberLiteral (ascii "2"))].map
        NamedArgument.name).Nodup ∧
    parseCallArgumentsLoop 11 (ascii "(a: 1, a: 2)") []
        [NamedArgument.mk { Name := ascii "a" } (InlineExpression.numberLiteral (ascii "1"))]
        [ascii "a"] (cursorAt 7 97) =
      Res.err ((cursorAt 11 41).error (errMessage.str "named arguments must be unique"))
        (cursorAt 11 41) ∧
    parseCallArgumentsLoop 11 (ascii "(a: 1, 2)") []
        [NamedArgument.mk { Name := ascii "a" } (InlineExpression.numberLiteral (ascii "1"))]
        [ascii "a"] (cursorAt 7 50) =
      Res.err ((cursorAt 8 41).error (errMessage.str "positional argument follows names"))
        (cursorAt 8 41) :=
  ⟨C9_call_arguments.1 20 (ascii "(1, b: 2)") (newParser (ascii "(1, b: 2)"))
      { pos := 9, ch := 65533, w := 0, line := 1, col := 10 }
      (CallArguments.mk [InlineExpression.numberLiteral (ascii "1")]
        [NamedArgument.mk { Name := ascii "b" } (InlineExpression.numberLiteral (ascii "2"))])
      (by rfl),
   C9_call_arguments.2.2.1 10 (ascii "(a: 1, a: 2)") [] _ [ascii "a"] (cursorAt 7 97)
      (cursorAt 8 58) (cursorAt 8 58) (cursorAt 10 50) (cursorAt 11 41) { Name := ascii "a" }
      (InlineExpression.numberLiteral (ascii "2")) (by decide) (by decide) (by rfl) (by rfl)
      (by rfl) (by rfl) (by rfl) (by decide),
   C9_call_arguments.2.2.2 10 (ascii "(a: 1, 2)") [] _ [ascii "a"] (cursorAt 7 50)
      (cursorAt 8 41) (cursorAt 8 41) (InlineExpression.numberLiteral (ascii "2"))
      (by decide) (by decide) (by rfl) (by rfl) (by decide) (by decide)⟩

/-! ## Decoding -/

theorem DecodeRune_ascii (b : Nat) (s : GoString) (h : b < 128) :
    DecodeRune (b :: s) = (b, 1) := by
  simp [DecodeRune, h]

theorem DecodeRune_high_aux (s : GoString) (r w : Nat) (hr : 128 ≤ r) (hw1 : 1 ≤ w)
    (hw4 : w ≤ 4) (hs : ∀ i, i + 1 < w → ∃ c, s.get? i = some c ∧ 128 ≤ c) :
    128 ≤ (r, w).1 ∧ 1 ≤ (r, w).2 ∧ (r, w).2 ≤ 4 ∧
      ∀ i, i + 1 < (r, w).2 → ∃ c, s.get? i = some c ∧ 128 ≤ c := ⟨hr, hw1, hw4, hs⟩

theorem DecodeRune_high_err (s : GoString) :
    128 ≤ (RuneError, 1).1 ∧ 1 ≤ (RuneError, 1).2 ∧ (RuneError, 1).2 ≤ 4 ∧
      ∀ i, i + 1 < (RuneError, 1).2 → ∃ c, s.get? i = some c ∧ 128 ≤ c :=
  DecodeRune_high_aux s RuneError 1 (by decide) (by decide) (by decide)
    (fun i hi => absurd hi (by omega))

/-- A rune that starts with a byte outside ASCII is outside ASCII, its width is between one and
four, and the bytes it covers after the first are outside ASCII. -/
theorem DecodeRune_high (b : Nat) (s : GoString) (h : 128 ≤ b) :
    128 ≤ (DecodeRune (b :: s)).1 ∧ 1 ≤ (DecodeRune (b :: s)).2 ∧
      (DecodeRune (b :: s)).2 ≤ 4 ∧
      ∀ i, i + 1 < (DecodeRune (b :: s)).2 → ∃ c, s.get? i = some c ∧ 128 ≤ c := by
  have hb : ¬ b < 128 := by omega
  by_cases h1 : b < 194
  · simp only [DecodeRune, hb, h1, if_true, if_false]
    exact DecodeRune_high_err s
  by_cases h2 : b < 224
  · simp only [DecodeRune, hb, h1, h2, if_true, if_false]
    cases s with
    | nil => exact DecodeRune_high_err _
    | cons b1 s1 =>
      simp only []
      split
      · rename_i h5
        refine DecodeRune_high_aux _ _ _ (by omega) (by omega) (by omega) ?_
        intro i hi
        have : i = 0 := by omega
        subst this
        exact ⟨b1, rfl, h5.1⟩
      · exact DecodeRune_high_err _
  by_cases h3 : b < 240
  · simp only [DecodeRune, hb, h1, h2, h3, if_true, if_false]
    match s with
    | [] => exact DecodeRune_high_err _
    | [_] => exact DecodeRune_high_err _
    | b1 :: b2 :: s2 =>
      simp only []
      by_cases h5 : (if b = 224 then 160 else 128) ≤ b1 ∧ b1 ≤ (if b = 237 then 159 else 191)
      · rw [if_pos h5]
        have hb1 : 128 ≤ b1 := by
          have := h5.1
          split at this <;> omega
        have hb1u : b1 ≤ 191 := by
          have := h5.2
          split at this <;> omega
        split
        · rename_i h6
          refine DecodeRune_high_aux _ _ _ ?_ (by omega) (by omega) ?_
          · by_cases h7 : b = 224
            · rw [if_pos h7] at h5
              omega
            · omega
          · intro i hi
            have : i = 0 ∨ i = 1 := by omega
            rcases this with rfl | rfl
            · exact ⟨b1, rfl, hb1⟩
            · exact ⟨b2, rfl, h6.1⟩
        · exact DecodeRune_high_err _
      · rw [if_neg h5]
        exact DecodeRune_high_err _
  by_cases h4 : b < 245
  · simp only [DecodeRune, hb, h1, h2, h3, h4, if_true, if_false]
    match s with
    | [] => exact DecodeRune_high_err _
    | [_] => exact DecodeRune_high_err _
    | [_, _] => exact DecodeRune_high_err _
    | b1 :: b2 :: b3 :: s3 =>
      simp only []
      by_cases h5 : (if b = 240 then 144 else 128) ≤ b1 ∧ b1 ≤ (if b = 244 then 143 else 191)
      · rw [if_pos h5]
        have hb1 : 128 ≤ b1 := by
          have := h5.1
          split at this <;> omega
        have hb1u : b1 ≤ 191 := by
          have := h5.2
          split at this <;> omega
        split
        · rename_i h6
          split
          · rename_i h7
            refine DecodeRune_high_aux _ _ _ ?_ (by omega) (by omega) ?_
            · by_cases h8 : b = 240
              · have h9 := h5.1
                rw [if_pos h8] at h9
                omega
              · omega
            · intro i hi
              have : i = 0 ∨ i = 1 ∨ i = 2 := by omega
              rcases this with rfl | rfl | rfl
              · exact ⟨b1, rfl, hb1⟩
              · exact ⟨b2, rfl, h6.1⟩
              · exact ⟨b3, rfl, h7.1⟩
          · exact DecodeRune_high_err _
        · exact DecodeRune_high_err _
      · rw [if_neg h5]
        exact DecodeRune_high_err _
  · simp only [DecodeRune, hb, h1, h2, h3, h4, if_false]
    exact DecodeRune_high_err s

/-! ## Steps of a cursor that agrees with the input -/

theorem next_At (input : GoString) (p : parser) (k : Nat) (h : p.At input k)
    (hk : k < input.length) (hw : k + p.w ≤ input.length) :
    (next input p).At input (k + p.w) := by
  obtain ⟨h1, _, _⟩ := h
  have hlt : ¬ input.length ≤ p.pos := by omega
  unfold next
  by_cases hnl : p.ch = 10
  · simp only [hnl, if_true, hlt, if_false]
    exact ⟨by simp [h1], hw, by simp [h1]⟩
  · simp only [hnl, if_false, hlt]
    exact ⟨by simp [h1], hw, by simp [h1]⟩

/-- One step over the first rune of a segment `b :: t` of the input, when the segment is not
followed by a byte outside ASCII: the rune is `b` itself or lies outside ASCII, it ends inside the
segment, and `next` moves the cursor to its end. -/
theorem At_step (input : GoString) (b : Nat) (t post : GoString) (k : Nat) (p : parser)
    (hdrop : input.drop k = (b :: t) ++ post) (hAt : p.At input k)
    (hpost : ∀ c, post.head? = some c → c < 128) :
    (b < 128 → p.ch = b ∧ p.w = 1) ∧ (128 ≤ b → 128 ≤ p.ch) ∧ 1 ≤ p.w ∧ p.w ≤ (b :: t).length ∧
      k < input.length ∧ (next input p).At input (k + p.w) ∧
      input.drop (k + p.w) = (b :: t).drop p.w ++ post := by
  obtain ⟨h1, h2, h3⟩ := hAt
  have hklt : k < input.length := by
    by_contra hc
    have : input.drop k = [] := List.drop_eq_nil_of_le (by omega)
    rw [this] at hdrop
    simp at hdrop
  rw [hdrop] at h3
  have hw : 1 ≤ p.w ∧ p.w ≤ (b :: t).length ∧ (b < 128 → p.ch = b ∧ p.w = 1) ∧
      (128 ≤ b → 128 ≤ p.ch) := by
    by_cases hb : b < 128
    · rw [List.cons_append, DecodeRune_ascii b _ hb] at h3
      injection h3 with h4 h5
      refine ⟨by omega, by simp; omega, fun _ => ⟨h4.symm, h5.symm⟩, fun h => absurd hb (by omega)⟩
    · have hhigh := DecodeRune_high b (t ++ post) (by omega)
      rw [List.cons_append, ] at h3
      rw [h3] at hhigh
      obtain ⟨g1, g2, _, g4⟩ := hhigh
      refine ⟨g2, ?_, fun h => absurd h hb, fun _ => g1⟩
      by_contra hc
      have hlen : t.length + 1 < p.w := by simpa using hc
      obtain ⟨c, hc1, hc2⟩ := g4 t.length hlen
      rw [List.get?_eq_getElem?, List.getElem?_append_right (le_refl _)] at hc1
      simp only [Nat.sub_self] at hc1
      have := hpost c (by
        cases post with
        | nil => simp at hc1
        | cons x xs => simpa using hc1)
      omega
  obtain ⟨w1, w2, w3, w4⟩ := hw
  have hlen : (input.drop k).length = (b :: t).length + post.length := by
    rw [hdrop, List.length_append]
  rw [List.length_drop] at hlen
  have hkw : k + p.w ≤ input.length := by omega
  refine ⟨w3, w4, w1, w2, hklt, next_At input p k ⟨h1, h2, by rw [hdrop]; exact h3⟩ hklt hkw, ?_⟩
  rw [← List.drop_drop, hdrop, List.drop_append_of_le_length w2]

theorem At_ascii (input : GoString) (b : Nat) (rest : GoString) (k : Nat) (p : parser)
    (hdrop : input.drop k = b :: rest) (hAt : p.At input k) (hb : b < 128) :
    p.ch = b ∧ p.w = 1 ∧ k < input.length ∧ (next input p).At input (k + 1) ∧
      input.drop (k + 1) = rest := by
  have h := hAt.2.2
  rw [hdrop, DecodeRune_ascii b rest hb] at h
  injection h with h1 h2
  have hklt : k < input.length := by
    by_contra hc
    have : input.drop k = [] := List.drop_eq_nil_of_le (by omega)
    rw [this] at hdrop
    simp at hdrop
  have hn := next_At input p k hAt hklt (by omega)
  rw [← h2] at hn
  refine ⟨h1.symm, h2.symm, hklt, hn, ?_⟩
  rw [← List.drop_drop, hdrop]
  rfl

theorem At_end (input : GoString) (p : parser) (hAt : p.At input input.length) :
    p.ch = RuneError ∧ p.w = 0 := by
  have h := hAt.2.2
  rw [List.drop_length] at h
  injection h with h1 h2
  exact ⟨h1.symm, h2.symm⟩

/-- The rune at the head of a byte sequence is an ASCII character `a` only when the first byte is
`a`. -/
theorem DecodeRune_eq_ascii (s : GoString) (a : Nat) (ha : a < 128)
    (h : (DecodeRune s).1 = a) : s.head? = some a := by
  cases s with
  | nil =>
    have h2 : RuneError = a := h
    simp only [RuneError] at h2
    omega
  | cons b rest =>
    by_cases hb : b < 128
    · rw [DecodeRune_ascii b rest hb] at h
      have h2 : b = a := h
      simp [h2]
    · have := (DecodeRune_high b rest (by omega)).1
      rw [h] at this
      omega

theorem At_ch_ascii (input : GoString) (k : Nat) (p : parser) (a : Nat) (hAt : p.At input k)
    (ha : a < 128) (h : p.ch = a) : (input.drop k).head? = some a := by
  apply DecodeRune_eq_ascii _ a ha
  rw [hAt.2.2]
  exact h

theorem isIdentChar_lt {b : Nat} (h : isIdentChar b = true) : b < 128 ∧ b ≠ 0 := by
  simp only [isIdentChar, isLetter, isDigit, Bool.or_eq_true, Bool.and_eq_true, decide_eq_true_eq,
    beq_iff_eq] at h
  omega

theorem isLetter_lt {b : Nat} (h : isLetter b = true) : b < 128 ∧ b ≠ 0 := by
  simp only [isLetter, Bool.or_eq_true, Bool.and_eq_true, decide_eq_true_eq] at h
  omega

/-- The loop of `parseIdentifier` runs over the identifier characters that follow the first
one and stops on the first rune that is none. -/
theorem parseIdentifierLoop_scan (input post : GoString)
    (hpost : ∀ c, post.head? = some c → isIdentChar c = false) :
    ∀ (rest : GoString) (c k : Nat) (p : parser) (n : Nat),
      input.drop k = (c :: rest) ++ post → p.At input k → c < 128 → c ≠ 0 →
      (∀ b ∈ rest, isIdentChar b = true) → rest.length < n →
      ∃ q, parseIdentifierLoop n input p = Res.ok () q ∧ q.At input (k + 1 + rest.length) := by
  intro rest
  induction rest with
  | nil =>
    intro c k p n hdrop hAt hc hc0 _ hn
    obtain ⟨m, rfl⟩ : ∃ m, n = m + 1 := ⟨n - 1, by simp at hn; omega⟩
    obtain ⟨h1, _, _, h4, h5⟩ := At_ascii input c post k p hdrop hAt hc
    have hq : isIdentChar (next input p).ch = false := by
      by_contra hcon
      have hcon2 : isIdentChar (next input p).ch = true := by simpa using hcon
      have := At_ch_ascii input (k + 1) (next input p) _ h4 (isIdentChar_lt hcon2).1 rfl
      rw [h5] at this
      rw [hpost _ this] at hcon2
      exact absurd hcon2 (by simp)
    refine ⟨next input p, ?_, by simpa using h4⟩
    have hne : p.ch ≠ eof := by rw [h1]; exact hc0
    unfold parseIdentifierLoop
    simp only [hne, ne_eq, not_false_eq_true, if_true]
    simp only [isIdentChar] at hq
    simp [hq]
  | cons b rest ih =>
    intro c k p n hdrop hAt hc hc0 hrest hn
    obtain ⟨m, rfl⟩ : ∃ m, n = m + 1 := ⟨n - 1, by simp at hn; omega⟩
    obtain ⟨h1, _, _, h4, h5⟩ := At_ascii input c ((b :: rest) ++ post) k p hdrop hAt hc
    have hb := hrest b (by simp)
    obtain ⟨hb1, hb2⟩ := isIdentChar_lt hb
    have hqch : (next input p).ch = b := (At_ascii input b (rest ++ post) (k + 1) _ h5 h4 hb1).1
    obtain ⟨q, hq1, hq2⟩ := ih b (k + 1) (next input p) m h5 h4 hb1 hb2
      (fun x hx => hrest x (by simp [hx])) (by simp at hn; omega)
    have hpos : k + 1 + 1 + rest.length = k + 1 + (b :: rest).length := by
      simp only [List.length_cons]; omega
    refine ⟨q, ?_, hpos ▸ hq2⟩
    have hne : p.ch ≠ eof := by rw [h1]; exact hc0
    unfold parseIdentifierLoop
    simp only [hne, ne_eq, not_false_eq_true, if_true]
    simp only [isIdentChar] at hb
    simp [hqch, hb, hq1]

/-- The loop of `skipBlankInline` runs over `m` spaces and stops on the rune after them. -/
theorem skipBlankInlineLoop_scan (input post : GoString) (hpost : post.head? ≠ some 32) :
    ∀ (m k : Nat) (p : parser) (n : Nat),
      input.drop k = List.replicate m 32 ++ post → p.At input k → m < n →
      ∃ q, skipBlankInlineLoop n input p = Res.ok () q ∧ q.At input (k + m) ∧ q.ch ≠ 32 := by
  intro m
  induction m with
  | zero =>
    intro k p n hdrop hAt hn
    obtain ⟨j, rfl⟩ : ∃ j, n = j + 1 := ⟨n - 1, by omega⟩
    have hch : p.ch ≠ 32 := by
      intro hc
      have := At_ch_ascii input k p 32 hAt (by decide) hc
      rw [hdrop] at this
      exact hpost (by simpa using this)
    exact ⟨p, by simp [skipBlankInlineLoop, hch], hAt, hch⟩
  | succ m ih =>
    intro k p n hdrop hAt hn
    obtain ⟨j, rfl⟩ : ∃ j, n = j + 1 := ⟨n - 1, by omega⟩
    rw [List.replicate_succ, List.cons_append] at hdrop
    obtain ⟨h1, _, _, h4, h5⟩ := At_ascii input 32 _ k p hdrop hAt (by decide)
    obtain ⟨q, hq1, hq2, hq3⟩ := ih (k + 1) (next input p) j h5 h4 (by omega)
    have hpos : k + 1 + m = k + (m + 1) := by omega
    exact ⟨q, by simp [skipBlankInlineLoop, h1, hq1], hpos ▸ hq2, hq3⟩

/-- The bytes that end a text line or are not allowed in it: NUL, line feed, carriage return
and the two braces. -/
theorem parseTextElementLoop_scan (input post : GoString) :
    ∀ (len : Nat) (t : GoString) (k : Nat) (p : parser) (n : Nat), t.length = len →
      input.drop k = t ++ 10 :: post → p.At input k →
      (∀ b ∈ t, b ≠ 0 ∧ b ≠ 10 ∧ b ≠ 13 ∧ b ≠ 123 ∧ b ≠ 125) → t.length < n →
      ∃ q, parseTextElementLoop n input p = Res.ok () q ∧ q.At input (k + t.length) := by
  intro len
  induction len using Nat.strong_induction_on with
  | _ len ih =>
    intro t k p n hlen hdrop hAt ht hn
    obtain ⟨j, rfl⟩ : ∃ j, n = j + 1 := ⟨n - 1, by omega⟩
    cases t with
    | nil =>
      rw [List.nil_append] at hdrop
      obtain ⟨h1, _⟩ := At_ascii input 10 post k p hdrop hAt (by decide)
      refine ⟨p, ?_, by simpa using hAt⟩
      simp [parseTextElementLoop, h1, eof, isEOL]
    | cons b t1 =>
      obtain ⟨s1, s2, s3, s4, _, s6, s7⟩ := At_step input b t1 (10 :: post) k p hdrop hAt
        (by intro c hc; simp at hc; omega)
      obtain ⟨b0, b10, b13, b123, b125⟩ := ht b (by simp)
      have hch : p.ch ≠ 0 ∧ p.ch ≠ 10 ∧ p.ch ≠ 13 ∧ p.ch ≠ 123 ∧ p.ch ≠ 125 := by
        by_cases hb : b < 128
        · rw [(s1 hb).1]
          exact ⟨b0, b10, b13, b123, b125⟩
        · have := s2 (by omega)
          omega
      obtain ⟨c0, c10, c13, c123, c125⟩ := hch
      have hlen2 : ((b :: t1).drop p.w).length < len := by
        rw [List.length_drop, hlen]
        omega
      obtain ⟨q, hq1, hq2⟩ := ih _ hlen2 ((b :: t1).drop p.w) (k + p.w) (next input p) j rfl s7
        s6 (fun x hx => ht x (List.mem_of_mem_drop hx)) (by rw [List.length_drop]; omega)
      have hpos : k + p.w + ((b :: t1).drop p.w).length = k + (b :: t1).length := by
        rw [List.length_drop]
        omega
      refine ⟨q, ?_, hpos ▸ hq2⟩
      simp [parseTextElementLoop, eof, isEOL, c0, c10, c13, c123, c125, hq1]

/-! ## Trimming -/

theorem drop_eq_getD_cons (t : GoString) (i : Nat) (h : i < t.length) :
    t.drop i = t.getD i 0 :: t.drop (i + 1) := by
  rw [List.getD_eq_getElem _ _ h]
  exact List.drop_eq_getElem_cons h

theorem DecodeLastRune_spec_aux (t : GoString) (start : Nat) (hlen : 0 < t.length)
    (hr : 128 ≤ t.getD (t.length - 1) 0) (d : Nat × Nat)
    (hd : d = if start + (DecodeRune (t.drop start)).2 ≠ t.length then (RuneError, 1)
      else DecodeRune (t.drop start)) :
    d.2 ≤ t.length ∧
    (128 ≤ t.getD (t.length - d.2) 0 →
      t.length ≤ (t.length - d.2) + (DecodeRune (t.drop (t.length - d.2))).2) ∧
    (t.getD (t.length - d.2) 0 < 128 → d.2 ≤ 1) := by
  by_cases hs : start + (DecodeRune (t.drop start)).2 ≠ t.length
  · rw [if_pos hs] at hd
    subst hd
    refine ⟨hlen, fun _ => ?_, fun _ => le_refl _⟩
    show t.length ≤ t.length - 1 + (DecodeRune (t.drop (t.length - 1))).2
    rw [drop_eq_getD_cons t (t.length - 1) (by omega)]
    have := (DecodeRune_high (t.getD (t.length - 1) 0) (t.drop (t.length - 1 + 1)) hr).2.1
    omega
  · rw [if_neg hs] at hd
    subst hd
    have hs2 : start + (DecodeRune (t.drop start)).2 = t.length := not_not.1 hs
    have hsub : t.length - (DecodeRune (t.drop start)).2 = start := by omega
    refine ⟨by omega, ?_, ?_⟩
    · intro _
      rw [hsub]
      omega
    · rw [hsub]
      intro h128
      by_cases hst : start < t.length
      · rw [drop_eq_getD_cons t start hst, DecodeRune_ascii _ _ h128]
      · rw [List.drop_eq_nil_of_le (by omega)]
        simp [DecodeRune]

theorem DecodeLastRune_spec (t : GoString) (ht : t ≠ []) :
    (DecodeLastRune t).2 ≤ t.length ∧
    (128 ≤ t.getD (t.length - (DecodeLastRune t).2) 0 →
      t.length ≤ (t.length - (DecodeLastRune t).2) +
        (DecodeRune (t.drop (t.length - (DecodeLastRune t).2))).2) ∧
    (t.getD (t.length - (DecodeLastRune t).2) 0 < 128 → (DecodeLastRune t).2 ≤ 1) := by
  have hlen : 0 < t.length := List.length_pos.2 ht
  have hne : ¬ t.length = 0 := by omega
  by_cases hr : t.getD (t.length - 1) 0 < 128
  · have hd : DecodeLastRune t = (t.getD (t.length - 1) 0, 1) := by
      unfold DecodeLastRune
      simp only [hne, hr, if_true, if_false]
    rw [hd]
    refine ⟨hlen, fun h => ?_, fun _ => le_refl _⟩
    have h2 : 128 ≤ t.getD (t.length - 1) 0 := h
    omega
  · refine DecodeLastRune_spec_aux t
      (if DecodeLastRune.scan t (if (t.length : Int) - 4 < 0 then 0 else (t.length : Int) - 4)
          5 ((t.length : Int) - 2) < 0 then 0
        else (DecodeLastRune.scan t
          (if (t.length : Int) - 4 < 0 then 0 else (t.length : Int) - 4) 5
          ((t.length : Int) - 2)).toNat) hlen (by omega) _ ?_
    unfold DecodeLastRune
    simp only [hne, hr, if_false, List.take_length]

/-- Trimming leaves alone a string whose last rune is not a space. -/
theorem TrimRightFunc_eq_self (t : GoString) (ht : t ≠ [])
    (hlast : IsSpace (DecodeLastRune t).1 = false) : TrimRightFunc t IsSpace = t := by
  obtain ⟨h1, h2, h3⟩ := DecodeLastRune_spec t ht
  have hlen : 0 < t.length := List.length_pos.2 ht
  obtain ⟨j, hj⟩ : ∃ j, t.length = j + 1 := ⟨t.length - 1, by omega⟩
  have hidx : lastIndexNotFunc t IsSpace t.length t.length =
      ((t.length - (DecodeLastRune t).2 : Nat) : Int) := by
    conv_lhs => rw [hj]
    rw [lastIndexNotFunc]
    simp only [← hj, hlen, if_true, List.take_length, hlast]
  unfold TrimRightFunc
  simp only [hidx, Int.toNat_ofNat]
  split
  · rename_i hc
    exact List.take_of_length_le (h2 hc.2)
  · rename_i hc
    have hlt : t.getD (t.length - (DecodeLastRune t).2) 0 < 128 := by
      by_contra hcon
      exact hc ⟨Int.ofNat_nonneg _, by omega⟩
    have := h3 hlt
    apply List.take_of_length_le
    omega

/-! ## Scanning of identifiers, blanks and text -/

theorem slice_of_drop (input t post : GoString) (k : Nat)
    (hdrop : input.drop k = t ++ post) : slice input k (k + t.length) = t := by
  unfold slice
  rw [List.drop_take]
  have : k + t.length - k = t.length := by omega
  rw [this, hdrop, List.take_left]

theorem parseIdentifier_scan (input post id : GoString) (k : Nat) (p : parser) (n : Nat)
    (hid : isIdentifierName id) (hdrop : input.drop k = id ++ post)
    (hpost : ∀ c, post.head? = some c → isIdentChar c = false) (hAt : p.At input k)
    (hn : id.length ≤ n) :
    ∃ q, parseIdentifier n input p = Res.ok { Name := id } q ∧ q.At input (k + id.length) := by
  obtain ⟨c, rest, rfl, hc, hrest⟩ := hid
  obtain ⟨hc1, hc2⟩ := isLetter_lt hc
  obtain ⟨h1, _⟩ := At_ascii input c (rest ++ post) k p hdrop hAt hc1
  obtain ⟨q, hq1, hq2⟩ := parseIdentifierLoop_scan input post hpost rest c k p n hdrop hAt hc1 hc2
    hrest (by simpa using hn)
  have hpos : k + 1 + rest.length = k + (c :: rest).length := by
    simp only [List.length_cons]; omega
  rw [hpos] at hq2
  refine ⟨q, ?_, hq2⟩
  unfold parseIdentifier
  rw [getP_bind]
  simp only [h1, hc, Bool.not_true, Bool.false_eq_true, if_false]
  rw [bind_apply, hq1]
  simp only []
  rw [getP_bind, pure_apply, hq2.1, hAt.1, slice_of_drop input (c :: rest) post k hdrop]

theorem skipBlankInline_scan (input post : GoString) (m k : Nat) (p : parser) (n : Nat)
    (hpost : post.head? ≠ some 32) (hdrop : input.drop k = List.replicate m 32 ++ post)
    (hAt : p.At input k) (hn : m < n) :
    ∃ q, skipBlankInline n input p = Res.ok m q ∧ q.At input (k + m) ∧ q.ch ≠ 32 := by
  obtain ⟨q, hq1, hq2, hq3⟩ := skipBlankInlineLoop_scan input post hpost m k p n hdrop hAt hn
  refine ⟨q, ?_, hq2, hq3⟩
  unfold skipBlankInline
  rw [getP_bind, bind_apply, hq1]
  simp only []
  rw [getP_bind, pure_apply, hq2.1, hAt.1]
  simp

theorem parseTextElement_scan (input post t : GoString) (k : Nat) (p : parser) (n : Nat)
    (hdrop : input.drop k = t ++ 10 :: post) (hAt : p.At input k)
    (ht : ∀ b ∈ t, b ≠ 0 ∧ b ≠ 10 ∧ b ≠ 13 ∧ b ≠ 123 ∧ b ≠ 125) (hn : t.length < n) :
    ∃ q, parseTextElement n input p = Res.ok t q ∧ q.At input (k + t.length) := by
  obtain ⟨q, hq1, hq2⟩ := parseTextElementLoop_scan input post t.length t k p n rfl hdrop hAt ht hn
  refine ⟨q, ?_, hq2⟩
  unfold parseTextElement
  rw [getP_bind, bind_apply, hq1]
  simp only []
  rw [getP_bind, pure_apply, hq2.1, hAt.1, slice_of_drop input t (10 :: post) k hdrop]

theorem skipEOL_false (input : GoString) (p : parser) (h10 : p.ch ≠ 10) (h13 : p.ch ≠ 13) :
    skipEOL input p = Res.ok false p := by
  simp [skipEOL, h10, h13]

theorem skipEOL_lf (input : GoString) (p : parser) (h10 : p.ch = 10) :
    skipEOL input p = Res.ok true (next input p) := by
  simp [skipEOL, h10]

theorem isEOL_false (input : GoString) (p : parser) (h10 : p.ch ≠ 10) (h13 : p.ch ≠ 13) :
    isEOL input p = false := by
  simp [isEOL, h10, h13]

/-- The rune under a cursor that agrees with the input is not an ASCII character that the input
does not have there. -/
theorem At_ch_ne (input : GoString) (k : Nat) (p : parser) (a : Nat) (hAt : p.At input k)
    (ha : a < 128) (h : (input.drop k).head? ≠ some a) : p.ch ≠ a :=
  fun hc => h (At_ch_ascii input k p a hAt ha hc)

theorem dedent_single (t : GoString) (ht : t ≠ []) (hlast : IsSpace (DecodeLastRune t).1 = false) :
    dedent [PatternElement.textElement t] 0 =
      Pattern.mk (some [PatternElement.textElement t]) := by
  have h1 : TrimPrefix t [] = t := by simp [TrimPrefix]
  simp [dedent, dedentStep, h1, Join, TrimRightFunc_eq_self t ht hlast, ht, sliceAppend]

/-- `parsePattern` on a simple text that follows `m` spaces and is followed by a line feed and
then by the end of the input or by a line that starts with neither a space, an end of line nor an
opening brace: the pattern is the text alone, and the cursor is left after the line feed. -/
theorem parsePattern_simple (input post t : GoString) (m k : Nat) (p : parser) (n : Nat)
    (ht : isSimpleText t) (hdrop : input.drop k = List.replicate m 32 ++ (t ++ 10 :: post))
    (hpost : ∀ c, post.head? = some c → c ≠ 32 ∧ c ≠ 10 ∧ c ≠ 13 ∧ c ≠ 123)
    (hAt : p.At input k) (hn : m + t.length + 5 ≤ n) :
    ∃ q, parsePattern n input p = Res.ok (Pattern.mk (some [PatternElement.textElement t])) q ∧
      q.At input (k + m + t.length + 1) ∧ input.drop (k + m + t.length + 1) = post := by
  obtain ⟨htne, htb, hthead, htlast⟩ := ht
  obtain ⟨b, t1, rfl⟩ : ∃ b t1, t = b :: t1 := by
    cases t with
    | nil => exact absurd rfl htne
    | cons b t1 => exact ⟨b, t1, rfl⟩
  obtain ⟨b0, b10, b13, b123, b125⟩ := htb b (by simp)
  have hb32 : b ≠ 32 := by simpa using hthead
  obtain ⟨n1, rfl⟩ : ∃ n1, n = n1 + 1 := ⟨n - 1, by omega⟩
  obtain ⟨n2, rfl⟩ : ∃ n2, n1 = n2 + 1 := ⟨n1 - 1, by omega⟩
  obtain ⟨n3, rfl⟩ : ∃ n3, n2 = n3 + 1 := ⟨n2 - 1, by omega⟩
  -- the blanks before the text
  obtain ⟨q1, hq1, hq1At, _⟩ := skipBlankInline_scan input ((b :: t1) ++ 10 :: post) m k p
    (n3 + 1 + 1) (by simpa using hb32) hdrop hAt (by omega)
  have hdrop1 : input.drop (k + m) = (b :: t1) ++ 10 :: post := by
    rw [← List.drop_drop, hdrop, List.drop_left' (by simp)]
  have hhead1 : ∀ a, a ≠ b → (input.drop (k + m)).head? ≠ some a := by
    intro a ha
    rw [hdrop1]
    simpa using fun h => ha h.symm
  have c0 : q1.ch ≠ eof := At_ch_ne input _ q1 0 hq1At (by decide) (hhead1 0 (Ne.symm b0))
  have c10 : q1.ch ≠ 10 := At_ch_ne input _ q1 10 hq1At (by decide) (hhead1 10 (Ne.symm b10))
  have c13 : q1.ch ≠ 13 := At_ch_ne input _ q1 13 hq1At (by decide) (hhead1 13 (Ne.symm b13))
  have c123 : q1.ch ≠ 123 :=
    At_ch_ne input _ q1 123 hq1At (by decide) (hhead1 123 (Ne.symm b123))
  -- the text line
  obtain ⟨q2, hq2, hq2At⟩ := parseTextElement_scan input post (b :: t1) (k + m) q1 (n3 + 1)
    hdrop1 hq1At htb (by simp only [List.length_cons] at hn ⊢; omega)
  have hdrop2 : input.drop (k + m + (b :: t1).length) = 10 :: post := by
    rw [← List.drop_drop, hdrop1, List.drop_left' rfl]
  obtain ⟨d1, _, _, hq3At, hdrop3⟩ := At_ascii input 10 post _ q2 hdrop2 hq2At (by decide)
  have hhead3 : ∀ a, (a = 32 ∨ a = 10 ∨ a = 13 ∨ a = 123) →
      (input.drop (k + m + (b :: t1).length + 1)).head? ≠ some a := by
    intro a ha hc
    rw [hdrop3] at hc
    have := hpost a hc
    omega
  -- the measure of the indent of the next line
  have hpost32 : post.head? ≠ some 32 := fun hc => (hpost 32 hc).1 rfl
  obtain ⟨q4, hq4, hq4At, _⟩ := skipBlankInline_scan input post 0 _ (next input q2) n3
    hpost32 (by simpa using hdrop3) hq3At (by omega)
  have e10 : q4.ch ≠ 10 := At_ch_ne input _ q4 10 hq4At (by decide) (hhead3 10 (by simp))
  have e13 : q4.ch ≠ 13 := At_ch_ne input _ q4 13 hq4At (by decide) (hhead3 13 (by simp))
  have f123 : (next input q2).ch ≠ 123 :=
    At_ch_ne input _ _ 123 hq3At (by decide) (hhead3 123 (by simp))
  have hind : ∀ ci, parsePatternIndent n3 input ci (next input q2) = Res.ok none q4 := by
    intro ci
    unfold parsePatternIndent
    rw [getP_bind, bind_apply, hq4]
    simp only []
    rw [getP_bind]
    simp [isEOL_false input q4 e10 e13, pure_apply]
  have hloop2 : ∀ st : patternVars,
      parsePatternLoop (n3 + 1) input st q2 = Res.ok { st with block := true } q4 := by
    intro st
    rw [parsePatternLoop, getP_bind]
    have : q2.ch ≠ eof := by rw [d1]; decide
    simp only [this, if_false]
    rw [bind_apply, skipEOL_lf input q2 d1]
    simp only [Bool.or_true]
    rw [getP_bind]
    simp only [f123, if_false, if_true]
    rw [bind_apply, hind]
    simp only [pure_apply]
  refine ⟨q4, ?_, by simpa using hq4At, hdrop3⟩
  rw [parsePattern, bind_apply, hq1]
  simp only []
  rw [bind_apply, skipEOL_false input q1 c10 c13]
  simp only [Bool.false_eq_true, if_false]
  rw [pure_bind_apply, bind_apply, parsePatternLoop, getP_bind]
  simp only [c0, if_false]
  rw [bind_apply, skipEOL_false input q1 c10 c13]
  simp only [Bool.or_false]
  rw [getP_bind]
  simp only [c123, if_false, Bool.false_eq_true]
  rw [pure_bind_apply]
  simp only []
  rw [bind_apply, hq2]
  simp only []
  rw [hloop2]
  simp only [List.nil_append, List.length_nil, ne_eq, not_false_eq_true, if_true,
    reduceCtorEq, Int.ofNat_zero, Nat.cast_zero, lt_self_iff_false, if_false, pure_apply]
  rw [dedent_single (b :: t1) htne htlast]

/-! ## A simple message -/

theorem newParser_At (input : GoString) (h : input ≠ []) : (newParser input).At input 0 := by
  have hlen : ¬ input.length ≤ 0 := by
    have := List.length_pos.2 h
    omega
  simp [newParser, next, parser.At, hlen]

/-- `skipBlankBlock` where the line is not blank: nothing is skipped. -/
theorem skipBlankBlock_none (input : GoString) (k : Nat) (p : parser) (n : Nat)
    (hhead : ∀ c, (input.drop k).head? = some c → c ≠ 32 ∧ c ≠ 10 ∧ c ≠ 13)
    (hAt : p.At input k) (hn : 2 ≤ n) :
    ∃ q, skipBlankBlock n input p = Res.ok 0 q ∧ q.At input k := by
  obtain ⟨n1, rfl⟩ : ∃ n1, n = n1 + 1 := ⟨n - 1, by omega⟩
  have h32 : (input.drop k).head? ≠ some 32 := fun hc => (hhead 32 hc).1 rfl
  obtain ⟨q, hq, hqAt, _⟩ := skipBlankInline_scan input (input.drop k) 0 k p n1 h32
    (by simp) hAt (by omega)
  have e10 : q.ch ≠ 10 :=
    At_ch_ne input _ q 10 hqAt (by decide) (fun hc => (hhead 10 hc).2.1 rfl)
  have e13 : q.ch ≠ 13 :=
    At_ch_ne input _ q 13 hqAt (by decide) (fun hc => (hhead 13 hc).2.2 rfl)
  refine ⟨{ q with col := 1, pos := p.pos, ch := p.ch }, ?_, ?_⟩
  · unfold skipBlankBlock
    rw [skipBlankBlockLoop, getP_bind, bind_apply, hq]
    simp only []
    rw [bind_apply, skipEOL_false input q e10 e13]
    simp only [Bool.false_eq_true, if_false]
    rw [getP_bind, setP_bind, pure_apply]
  · have h1 := hAt.2.2
    have h2 := hqAt.2.2
    simp only [Nat.add_zero] at h2
    rw [h1] at h2
    injection h2 with h3 h4
    exact ⟨hAt.1, hAt.2.1, by rw [hAt.2.2, h4]⟩

/-- `parseAttributes` where the line does not start with a dot or a space: no attribute. -/
theorem parseAttributes_none (input : GoString) (k : Nat) (p : parser) (n : Nat)
    (hhead : ∀ c, (input.drop k).head? = some c → c ≠ 32 ∧ c ≠ 46)
    (hAt : p.At input k) (hn : 2 ≤ n) :
    ∃ q, parseAttributes n input p = Res.ok [] q ∧ q.At input k := by
  obtain ⟨n1, rfl⟩ : ∃ n1, n = n1 + 1 := ⟨n - 1, by omega⟩
  by_cases hch : p.ch = eof
  · refine ⟨p, ?_, hAt⟩
    unfold parseAttributes
    rw [parseAttributesLoop, getP_bind]
    simp only [hch, if_true, pure_apply]
  · have h32 : (input.drop k).head? ≠ some 32 := fun hc => (hhead 32 hc).1 rfl
    obtain ⟨q, hq, hqAt, _⟩ := skipBlankInline_scan input (input.drop k) 0 k p n1 h32
      (by simp) hAt (by omega)
    have e46 : q.ch ≠ 46 :=
      At_ch_ne input _ q 46 hqAt (by decide) (fun hc => (hhead 46 hc).2 rfl)
    refine ⟨{ q with pos := p.pos }, ?_, ?_⟩
    · unfold parseAttributes
      rw [parseAttributesLoop, getP_bind]
      simp only [hch, if_false]
      rw [bind_apply, hq]
      simp only []
      rw [getP_bind]
      simp only [e46, ne_eq, not_false_eq_true, if_true]
      rw [setP_bind, pure_apply]
    · exact ⟨hAt.1, hAt.2.1, by simpa using hqAt.2.2⟩

/-- `parseMessage` on `id = t` followed by a line feed, for an identifier `id` and a simple
text `t`, when the next line does not belong to the message. -/
theorem parseMessage_simple (input post id t : GoString) (k : Nat) (p : parser) (n : Nat)
    (hid : isIdentifierName id) (ht : isSimpleText t)
    (hdrop : input.drop k = id ++ ([32, 61, 32] ++ (t ++ 10 :: post)))
    (hpost : ∀ c, post.head? = some c → c ≠ 32 ∧ c ≠ 10 ∧ c ≠ 13 ∧ c ≠ 123 ∧ c ≠ 46)
    (hAt : p.At input k) (hn : id.length + t.length + 10 ≤ n) :
    ∃ q, parseMessage n input p = Res.ok
        { ID := { Name := id },
          Value := some (Pattern.mk (some [PatternElement.textElement t])),
          Attributes := [], Comment := none } q ∧
      q.At input (k + id.length + 3 + t.length + 1) ∧
      input.drop (k + id.length + 3 + t.length + 1) = post := by
  obtain ⟨q1, hq1, hq1At⟩ := parseIdentifier_scan input _ id k p n hid hdrop
    (by intro c hc; simp at hc; subst hc; rfl) hAt (by omega)
  have hdrop1 : input.drop (k + id.length) = 32 :: 61 :: 32 :: (t ++ 10 :: post) := by
    rw [← List.drop_drop, hdrop, List.drop_left' rfl]
    rfl
  obtain ⟨q2, hq2, hq2At, _⟩ := skipBlankInline_scan input (61 :: 32 :: (t ++ 10 :: post)) 1
    (k + id.length) q1 n (by simp) hdrop1 hq1At (by omega)
  have hdrop2 : input.drop (k + id.length + 1) = 61 :: 32 :: (t ++ 10 :: post) := by
    rw [← List.drop_drop, hdrop1]
    rfl
  obtain ⟨d1, _, _, hq3At, hdrop3⟩ := At_ascii input 61 _ _ q2 hdrop2 hq2At (by decide)
  obtain ⟨q4, hq4, hq4At, hdrop4⟩ := parsePattern_simple input post t 1 _ (next input q2) n ht
    hdrop3 (fun c hc => by have := hpost c hc; omega) hq3At (by omega)
  have hposeq : k + id.length + 1 + 1 + 1 + t.length + 1 = k + id.length + 3 + t.length + 1 := by
    omega
  rw [hposeq] at hq4At hdrop4
  obtain ⟨q5, hq5, hq5At⟩ := skipBlankBlock_none input _ q4 n
    (fun c hc => by rw [hdrop4] at hc; have := hpost c hc; omega) hq4At (by omega)
  obtain ⟨q6, hq6, hq6At⟩ := parseAttributes_none input _ q5 n
    (fun c hc => by rw [hdrop4] at hc; have := hpost c hc; omega) hq5At (by omega)
  refine ⟨q6, ?_, hq6At, hdrop4⟩
  unfold parseMessage
  rw [bind_apply, hq1]
  simp only []
  rw [bind_apply, hq2]
  simp only []
  rw [getP_bind]
  simp only [d1, ne_eq, not_true_eq_false, if_false]
  rw [nextP_bind, bind_apply, hq4]
  simp only []
  rw [bind_apply, hq5]
  simp only []
  rw [bind_apply, hq6]
  simp [sliceLen, Pattern.Elements, pure_apply]

theorem parseEntry_simple_message (input post id t : GoString) (k : Nat) (p : parser) (n : Nat)
    (hid : isIdentifierName id) (ht : isSimpleText t)
    (hdrop : input.drop k = id ++ ([32, 61, 32] ++ (t ++ 10 :: post)))
    (hpost : ∀ c, post.head? = some c → c ≠ 32 ∧ c ≠ 10 ∧ c ≠ 13 ∧ c ≠ 123 ∧ c ≠ 46)
    (hAt : p.At input k) (hn : id.length + t.length + 10 ≤ n) :
    ∃ q, parseEntry n input p = Res.ok (Entry.message
        { ID := { Name := id },
          Value := some (Pattern.mk (some [PatternElement.textElement t])),
          Attributes := [], Comment := none }) q ∧
      q.At input (k + id.length + 3 + t.length + 1) ∧
      input.drop (k + id.length + 3 + t.length + 1) = post := by
  obtain ⟨q, hq, hqAt, hqdrop⟩ := parseMessage_simple input post id t k p n hid ht hdrop hpost
    hAt hn
  refine ⟨q, ?_, hqAt, hqdrop⟩
  obtain ⟨c, rest, rfl, hc, _⟩ := hid
  obtain ⟨hc1, _⟩ := isLetter_lt hc
  obtain ⟨h1, _⟩ := At_ascii input c _ k p hdrop hAt hc1
  have h35 : p.ch ≠ 35 := by
    rw [h1]; intro h; rw [h] at hc; exact absurd hc (by decide)
  have h45 : p.ch ≠ 45 := by
    rw [h1]; intro h; rw [h] at hc; exact absurd hc (by decide)
  unfold parseEntry
  rw [getP_bind]
  simp only [h35, h45, if_false]
  rw [bind_apply, hq]
  simp only [pure_apply]

/-- C1: for every identifier `id` and every simple single-line text `t`, `Parse` of
`id = t` followed by a line feed returns (with any fuel from `len(id) + len(t) + 12` on) a nil
error and a body that is exactly one Message with ID `id`, the value `Pattern[TextElement t]`,
no attribute and no comment. -/
theorem C1_simple_message (id t : GoString) (hid : isIdentifierName id) (ht : isSimpleText t)
    (n : Nat) (hn : id.length + t.length + 12 ≤ n) :
    (Parse n (id ++ ascii " = " ++ t ++ ascii "\n")).value =
      some ({ Body := [Entry.message
                { ID := { Name := id },
                  Value := some (Pattern.mk (some [PatternElement.textElement t])),
                  Attributes := [], Comment := none }] }, none) := by
  have hinput : id ++ ascii " = " ++ t ++ ascii "\n" = id ++ ([32, 61, 32] ++ (t ++ 10 :: [])) := by
    have h1 : ascii " = " = [32, 61, 32] := rfl
    have h2 : ascii "\n" = [10] := rfl
    rw [h1, h2]
    simp
  rw [hinput]
  generalize hI : id ++ ([32, 61, 32] ++ (t ++ 10 :: [])) = input
  have hlen : input.length = id.length + 3 + t.length + 1 := by
    rw [← hI]
    simp
    omega
  have hne : input ≠ [] := by
    intro h
    rw [h] at hlen
    simp at hlen
  obtain ⟨n1, rfl⟩ : ∃ n1, n = n1 + 1 := ⟨n - 1, by omega⟩
  have hAt0 := newParser_At input hne
  obtain ⟨c, rest, hidc, hc, hrest⟩ := hid
  obtain ⟨hc1, hc2⟩ := isLetter_lt hc
  have hhead0 : ∀ x, (input.drop 0).head? = some x → x ≠ 32 ∧ x ≠ 10 ∧ x ≠ 13 := by
    intro x hx
    rw [List.drop_zero, ← hI, hidc] at hx
    simp at hx
    subst hx
    refine ⟨?_, ?_, ?_⟩ <;> (intro h; rw [h] at hc; exact absurd hc (by decide))
  obtain ⟨p1, hp1, hp1At⟩ := skipBlankBlock_none input 0 (newParser input) (n1 + 1) hhead0
    hAt0 (by omega)
  obtain ⟨q, hq, hqAt, hqdrop⟩ := parseEntry_simple_message input [] id t 0 p1 n1
    ⟨c, rest, hidc, hc, hrest⟩ ht (by rw [List.drop_zero, hI]) (by simp) hp1At (by omega)
  have hposq : 0 + id.length + 3 + t.length + 1 = input.length := by omega
  rw [hposq] at hqAt hqdrop
  obtain ⟨q2, hq2, hq2At⟩ := skipBlankBlock_none input _ q n1
    (by intro x hx; rw [hqdrop] at hx; simp at hx) hqAt (by omega)
  obtain ⟨n2, rfl⟩ : ∃ n2, n1 = n2 + 1 := ⟨n1 - 1, by omega⟩
  have hexit := parseLoop_exit n2 input []
    [Entry.message { ID := { Name := id },
                     Value := some (Pattern.mk (some [PatternElement.textElement t])),
                     Attributes := [], Comment := none }] none q2 (by rw [hq2At.1])
  have hpos1 : p1.pos < input.length := by rw [hp1At.1]; omega
  unfold Parse parser.parse
  rw [bind_apply, hp1]
  simp only []
  rw [parseLoop, getP_bind]
  simp only [hpos1, if_true]
  rw [bind_apply]
  simp only [attempt, hq]
  rw [pure_bind_apply, bind_apply, hq2]
  simp only [if_true, Entry.asComment, commitEntry, List.nil_append]
  rw [hexit]
  simp [Res.value]

/-- C1 (witness): the first scenario of the specification, `foo = Foo`. -/
theorem C1_simple_message_witness :
    (Parse 20 (ascii "foo" ++ ascii " = " ++ ascii "Foo" ++ ascii "\n")).value =
      some ({ Body := [Entry.message
                { ID := { Name := ascii "foo" },
                  Value := some (Pattern.mk (some [PatternElement.textElement (ascii "Foo")])),
                  Attributes := [], Comment := none }] }, none) :=
  C1_simple_message (ascii "foo") (ascii "Foo") ⟨102, [111, 111], rfl, by decide, by decide⟩
    ⟨by decide, by decide, by decide, by decide⟩ 20 (by decide)

/-! ## The same parse at another offset

Every operation below `parseEntry` reads the input only from the cursor on, so that it does the
same on `pre ++ input`, `pre.length` bytes further, as on `input`. -/

theorem psim_bind {α β : Type} {k : Nat} {R : α → α → Prop} {S : β → β → Prop}
    {x x1 : P α} {f f1 : α → P β} (hx : PSim k R x x1)
    (hf : ∀ a a1, R a a1 → PSim k S (f a) (f1 a1)) : PSim k S (x >>= f) (x1 >>= f1) := by
  intro p p1 hs
  have h := hx p p1 hs
  rw [bind_apply, bind_apply]
  cases hxp : x p <;> cases hxp1 : x1 p1 <;> rw [hxp, hxp1] at h <;>
    simp only [ResSim] at h ⊢
  · exact hf _ _ h.1 _ _ h.2
  · exact h
  · exact h

theorem psim_pure {α : Type} {k : Nat} {R : α → α → Prop} {a a1 : α} (h : R a a1) :
    PSim k R (pure a : P α) (pure a1) := fun _ _ hs => ⟨h, hs⟩

theorem psim_getP (k : Nat) : PSim k (Sim k) getP getP := fun _ _ hs => ⟨hs, hs⟩

theorem psim_setP {k : Nat} {q q1 : parser} (h : Sim k q q1) :
    PSim k Eq (setP q) (setP q1) := fun _ _ _ => ⟨rfl, h⟩

theorem psim_failWith {α : Type} (k : Nat) (R : α → α → Prop) (m m1 : errMessage) :
    PSim k R (failWith m : P α) (failWith m1) := fun _ _ hs => hs

theorem psim_ite {α : Type} {k : Nat} {R : α → α → Prop} {c c1 : Prop} [Decidable c]
    [Decidable c1] {x y x1 y1 : P α} (hc : c ↔ c1) (hx : PSim k R x x1) (hy : PSim k R y y1) :
    PSim k R (if c then x else y) (if c1 then x1 else y1) := by
  by_cases h : c
  · rw [if_pos h, if_pos (hc.1 h)]; exact hx
  · rw [if_neg h, if_neg (fun h1 => h (hc.2 h1))]; exact hy

theorem psim_wrapErr {α : Type} {k : Nat} {R : α → α → Prop} {x x1 : P α} (format : String)
    (hx : PSim k R x x1) : PSim k R (wrapErr format x) (wrapErr format x1) := by
  intro p p1 hs
  have h := hx p p1 hs
  unfold wrapErr
  cases hxp : x p <;> cases hxp1 : x1 p1 <;> rw [hxp, hxp1] at h <;>
    simp only [ResSim] at h ⊢ <;> exact h

theorem psim_replaceErr {α : Type} {k : Nat} {R : α → α → Prop} {x x1 : P α}
    (m : errMessage) (hx : PSim k R x x1) : PSim k R (replaceErr m x) (replaceErr m x1) := by
  intro p p1 hs
  have h := hx p p1 hs
  unfold replaceErr
  cases hxp : x p <;> cases hxp1 : x1 p1 <;> rw [hxp, hxp1] at h <;>
    simp only [ResSim] at h ⊢ <;> exact h

theorem psim_fuel {α : Type} (k : Nat) (R : α → α → Prop) :
    PSim k R (fun _ => (Res.fuel : Res α)) (fun _ => Res.fuel) := fun _ _ _ => trivial

theorem drop_shift (pre input : GoString) (j : Nat) :
    (pre ++ input).drop (j + pre.length) = input.drop j := by
  rw [Nat.add_comm, ← List.drop_drop, List.drop_left]

theorem slice_shift (pre input : GoString) (s e : Nat) :
    slice (pre ++ input) (s + pre.length) (e + pre.length) = slice input s e := by
  unfold slice
  rw [Nat.add_comm e, List.take_append, Nat.add_comm s, ← List.drop_drop, List.drop_left]

theorem next_sim (pre input : GoString) (p p1 : parser) (hs : Sim pre.length p p1) :
    Sim pre.length (next input p) (next (pre ++ input) p1) := by
  obtain ⟨h1, h2, h3⟩ := hs
  unfold next
  simp only [h2, List.length_append]
  by_cases hlen : input.length ≤ p.pos
  · have hlen1 : pre.length + input.length ≤ p1.pos := by omega
    by_cases hnl : p.ch = 10
    · simp only [hnl, if_true, hlen, hlen1]
      exact ⟨h1, rfl, h3⟩
    · simp only [hnl, if_false, hlen, hlen1, if_true]
      exact ⟨h1, rfl, h3⟩
  · have hlen1 : ¬ pre.length + input.length ≤ p1.pos := by omega
    have hd : (pre ++ input).drop (p1.pos + p1.w) = input.drop (p.pos + p.w) := by
      rw [h1, h3, Nat.add_right_comm, drop_shift]
    by_cases hnl : p.ch = 10
    · simp only [hnl, if_true, hlen, hlen1, if_false, hd]
      exact ⟨by show p1.pos + p1.w = p.pos + p.w + pre.length; omega, rfl, rfl⟩
    · simp only [hnl, if_false, hlen, hlen1, hd]
      exact ⟨by show p1.pos + p1.w = p.pos + p.w + pre.length; omega, rfl, rfl⟩

theorem peek_sim (pre input : GoString) (p p1 : parser) (hs : Sim pre.length p p1) :
    peek (pre ++ input) p1 = peek input p := by
  obtain ⟨h1, _, h3⟩ := hs
  unfold peek
  have hd : (pre ++ input).drop (p1.pos + p1.w) = input.drop (p.pos + p.w) := by
    rw [h1, h3, Nat.add_right_comm, drop_shift]
  by_cases hlen : input.length ≤ p.pos
  · have hlen1 : (pre ++ input).length ≤ p1.pos := by rw [List.length_append]; omega
    rw [if_pos hlen, if_pos hlen1]
  · have hlen1 : ¬ (pre ++ input).length ≤ p1.pos := by rw [List.length_append]; omega
    rw [if_neg hlen, if_neg hlen1, hd]

theorem isEOL_sim (pre input : GoString) (p p1 : parser) (hs : Sim pre.length p p1) :
    isEOL (pre ++ input) p1 = isEOL input p := by
  unfold isEOL
  rw [peek_sim pre input p p1 hs, hs.2.1]

theorem nextP_sim (pre input : GoString) :
    PSim pre.length Eq (nextP input) (nextP (pre ++ input)) :=
  fun p p1 hs => ⟨rfl, next_sim pre input p p1 hs⟩

theorem skipEOL_sim (pre input : GoString) :
    PSim pre.length Eq (skipEOL input) (skipEOL (pre ++ input)) := by
  intro p p1 hs
  unfold skipEOL
  rw [peek_sim pre input p p1 hs, hs.2.1]
  by_cases h10 : p.ch = 10
  · simp only [h10, if_true]
    exact ⟨rfl, next_sim pre input p p1 hs⟩
  · by_cases h13 : p.ch = 13 ∧ peek input p = 10
    · simp only [h10, if_false, h13, and_self, if_true]
      exact ⟨rfl, next_sim pre input _ _ (next_sim pre input p p1 hs)⟩
    · simp only [h10, if_false, h13]
      exact ⟨rfl, hs⟩

theorem skipBlankInlineLoop_sim (pre input : GoString) : ∀ n,
    PSim pre.length Eq (skipBlankInlineLoop n input) (skipBlankInlineLoop n (pre ++ input)) := by
  intro n
  induction n with
  | zero => exact psim_fuel _ _
  | succ n ih =>
    intro p p1 hs
    rw [skipBlankInlineLoop, skipBlankInlineLoop]
    dsimp only
    rw [hs.2.1]
    split
    · exact ih _ _ (next_sim pre input p p1 hs)
    · exact ⟨rfl, hs⟩

theorem skipBlankInline_sim (pre input : GoString) (n : Nat) :
    PSim pre.length Eq (skipBlankInline n input) (skipBlankInline n (pre ++ input)) := by
  unfold skipBlankInline
  apply psim_bind (psim_getP _)
  intro p p1 hs
  apply psim_bind (skipBlankInlineLoop_sim pre input n)
  intro _ _ _
  apply psim_bind (psim_getP _)
  intro q q1 hs2
  apply psim_pure
  rw [hs.1, hs2.1]
  omega

theorem skipBlankBlockLoop_sim (pre input : GoString) : ∀ n count,
    PSim pre.length Eq (skipBlankBlockLoop n input count)
      (skipBlankBlockLoop n (pre ++ input) count) := by
  intro n
  induction n with
  | zero => intro _; exact psim_fuel _ _
  | succ n ih =>
    intro count
    rw [skipBlankBlockLoop, skipBlankBlockLoop]
    apply psim_bind (psim_getP _)
    intro p p1 hs
    apply psim_bind (skipBlankInline_sim pre input n)
    intro _ _ _
    apply psim_bind (skipEOL_sim pre input)
    intro eol eol1 he
    subst he
    cases eol with
    | true => exact ih _
    | false =>
      apply psim_bind (psim_getP _)
      intro q q1 hs2
      refine psim_bind (psim_setP ?_) ?_
      · exact ⟨hs.1, hs.2.1, hs2.2.2⟩
      · intro _ _ _
        exact psim_pure rfl

theorem skipBlankBlock_sim (pre input : GoString) (n : Nat) :
    PSim pre.length Eq (skipBlankBlock n input) (skipBlankBlock n (pre ++ input)) :=
  skipBlankBlockLoop_sim pre input n 0

theorem skipBlank_sim (pre input : GoString) : ∀ n,
    PSim pre.length Eq (skipBlank n input) (skipBlank n (pre ++ input)) := by
  intro n
  induction n with
  | zero => exact psim_fuel _ _
  | succ n ih =>
    rw [skipBlank, skipBlank]
    apply psim_bind (skipBlankInline_sim pre input n)
    intro _ _ _
    apply psim_bind (skipEOL_sim pre input)
    intro eol eol1 he
    subst he
    cases eol with
    | true => exact ih
    | false => exact psim_pure rfl

theorem skipUnicodeEscapeSequenceLoop_sim (pre input : GoString) : ∀ n need taken,
    PSim pre.length Eq (skipUnicodeEscapeSequenceLoop n input need taken)
      (skipUnicodeEscapeSequenceLoop n (pre ++ input) need taken) := by
  intro n
  induction n with
  | zero => intro _ _; exact psim_fuel _ _
  | succ n ih =>
    intro need taken p p1 hs
    rw [skipUnicodeEscapeSequenceLoop, skipUnicodeEscapeSequenceLoop]
    dsimp only
    rw [hs.2.1]
    split
    · split
      · exact ⟨rfl, hs⟩
      · split
        · exact ⟨rfl, hs⟩
        · exact ih _ _ _ _ (next_sim pre input p p1 hs)
    · exact ⟨rfl, hs⟩

theorem skipUnicodeEscapeSequence_sim (pre input : GoString) (n : Nat) :
    PSim pre.length Eq (skipUnicodeEscapeSequence n input)
      (skipUnicodeEscapeSequence n (pre ++ input)) := by
  unfold skipUnicodeEscapeSequence
  apply psim_bind (psim_getP _)
  intro p p1 hs
  rw [hs.2.1]
  apply psim_bind (nextP_sim pre input)
  intro _ _ _
  apply psim_bind (skipUnicodeEscapeSequenceLoop_sim pre input n _ _)
  intro taken taken1 ht
  subst ht
  exact psim_ite Iff.rfl (psim_failWith _ _ _ _) (psim_pure rfl)

theorem skipDigitsLoop_sim (pre input : GoString) : ∀ n count,
    PSim pre.length Eq (skipDigitsLoop n input count) (skipDigitsLoop n (pre ++ input) count) := by
  intro n
  induction n with
  | zero => intro _; exact psim_fuel _ _
  | succ n ih =>
    intro count p p1 hs
    rw [skipDigitsLoop, skipDigitsLoop]
    dsimp only
    rw [hs.2.1]
    split
    · exact ih _ _ _ (next_sim pre input p p1 hs)
    · exact ⟨rfl, hs⟩

theorem skipDigits_sim (pre input : GoString) (n : Nat) :
    PSim pre.length Eq (skipDigits n input) (skipDigits n (pre ++ input)) :=
  skipDigitsLoop_sim pre input n 0

theorem parseIdentifierLoop_sim (pre input : GoString) : ∀ n,
    PSim pre.length Eq (parseIdentifierLoop n input) (parseIdentifierLoop n (pre ++ input)) := by
  intro n
  induction n with
  | zero => exact psim_fuel _ _
  | succ n ih =>
    intro p p1 hs
    have hn := next_sim pre input p p1 hs
    rw [parseIdentifierLoop, parseIdentifierLoop]
    dsimp only
    rw [hs.2.1, hn.2.1]
    split
    · split
      · exact ⟨rfl, hn⟩
      · exact ih _ _ hn
    · exact ⟨rfl, hs⟩

theorem parseIdentifier_sim (pre input : GoString) (n : Nat) :
    PSim pre.length Eq (parseIdentifier n input) (parseIdentifier n (pre ++ input)) := by
  unfold parseIdentifier
  apply psim_bind (psim_getP _)
  intro p p1 hs
  rw [hs.2.1]
  refine psim_ite Iff.rfl (psim_failWith _ _ _ _) ?_
  apply psim_bind (parseIdentifierLoop_sim pre input n)
  intro _ _ _
  apply psim_bind (psim_getP _)
  intro q q1 hs2
  apply psim_pure
  rw [hs.1, hs2.1, slice_shift]

theorem parseNumberLiteral_sim (pre input : GoString) (n : Nat) :
    PSim pre.length Eq (parseNumberLiteral n input) (parseNumberLiteral n (pre ++ input)) := by
  unfold parseNumberLiteral
  apply psim_bind (psim_getP _)
  intro p p1 hs
  rw [hs.2.1]
  apply psim_bind (psim_ite Iff.rfl (nextP_sim pre input) (psim_pure rfl))
  intro _ _ _
  apply psim_bind (skipDigits_sim pre input n)
  intro c c1 hc
  subst hc
  refine psim_ite Iff.rfl (psim_failWith _ _ _ _) ?_
  apply psim_bind (psim_getP _)
  intro q q1 hs2
  rw [hs2.2.1]
  refine psim_ite Iff.rfl ?_ ?_
  · apply psim_bind (nextP_sim pre input)
    intro _ _ _
    apply psim_bind (skipDigits_sim pre input n)
    intro c2 c3 hc
    subst hc
    refine psim_ite Iff.rfl (psim_failWith _ _ _ _) ?_
    apply psim_bind (psim_getP _)
    intro r r1 hs3
    apply psim_pure
    rw [hs.1, hs3.1, slice_shift]
  · apply psim_pure
    rw [hs.1, hs2.1, slice_shift]

theorem parseStringLiteralLoop_sim (pre input : GoString) : ∀ n,
    PSim pre.length Eq (parseStringLiteralLoop n input)
      (parseStringLiteralLoop n (pre ++ input)) := by
  intro n
  induction n with
  | zero => exact psim_fuel _ _
  | succ n ih =>
    rw [parseStringLiteralLoop, parseStringLiteralLoop]
    apply psim_bind (psim_getP _)
    intro p p1 hs
    rw [hs.2.1, isEOL_sim pre input p p1 hs]
    refine psim_ite Iff.rfl ?_ (psim_pure rfl)
    refine psim_ite Iff.rfl (psim_failWith _ _ _ _) ?_
    refine psim_ite Iff.rfl ?_ ?_
    · apply psim_bind (nextP_sim pre input)
      intro _ _ _
      apply psim_bind (psim_getP _)
      intro q q1 hs2
      rw [hs2.2.1]
      refine psim_ite Iff.rfl ?_ ?_
      · apply psim_bind (nextP_sim pre input)
        intro _ _ _
        exact ih
      · refine psim_ite Iff.rfl ?_ (psim_failWith _ _ _ _)
        apply psim_bind (skipUnicodeEscapeSequence_sim pre input n)
        intro _ _ _
        exact ih
    · refine psim_ite Iff.rfl (psim_pure rfl) ?_
      apply psim_bind (nextP_sim pre input)
      intro _ _ _
      exact ih

theorem parseStringLiteral_sim (pre input : GoString) (n : Nat) :
    PSim pre.length Eq (parseStringLiteral n input) (parseStringLiteral n (pre ++ input)) := by
  unfold parseStringLiteral
  apply psim_bind (nextP_sim pre input)
  intro _ _ _
  apply psim_bind (psim_getP _)
  intro p p1 hs
  apply psim_bind (parseStringLiteralLoop_sim pre input n)
  intro _ _ _
  apply psim_bind (psim_getP _)
  intro q q1 hs2
  apply psim_bind (nextP_sim pre input)
  intro _ _ _
  apply psim_pure
  rw [hs.1, hs2.1, slice_shift]

theorem parseLiteral_sim (pre input : GoString) (n : Nat) :
    PSim pre.length Eq (parseLiteral n input) (parseLiteral n (pre ++ input)) := by
  unfold parseLiteral
  apply psim_bind (psim_getP _)
  intro p p1 hs
  rw [hs.2.1]
  refine psim_ite Iff.rfl ?_ ?_
  · apply psim_bind (parseNumberLiteral_sim pre input n)
    intro v v1 hv
    subst hv
    exact psim_pure rfl
  · refine psim_ite Iff.rfl ?_ (psim_failWith _ _ _ _)
    apply psim_bind (parseStringLiteral_sim pre input n)
    intro v v1 hv
    subst hv
    exact psim_pure rfl

theorem parseTextElementLoop_sim (pre input : GoString) : ∀ n,
    PSim pre.length Eq (parseTextElementLoop n input) (parseTextElementLoop n (pre ++ input)) := by
  intro n
  induction n with
  | zero => exact psim_fuel _ _
  | succ n ih =>
    intro p p1 hs
    rw [parseTextElementLoop, parseTextElementLoop]
    dsimp only
    rw [hs.2.1, isEOL_sim pre input p p1 hs]
    split
    · split
      · exact ⟨rfl, hs⟩
      · split
        · exact ⟨rfl, hs⟩
        · split
          · exact hs
          · exact ih _ _ (next_sim pre input p p1 hs)
    · exact ⟨rfl, hs⟩

theorem parseTextElement_sim (pre input : GoString) (n : Nat) :
    PSim pre.length Eq (parseTextElement n input) (parseTextElement n (pre ++ input)) := by
  unfold parseTextElement
  apply psim_bind (psim_getP _)
  intro p p1 hs
  apply psim_bind (parseTextElementLoop_sim pre input n)
  intro _ _ _
  apply psim_bind (psim_getP _)
  intro q q1 hs2
  apply psim_pure
  rw [hs.1, hs2.1, slice_shift]

theorem parseVariantKey_sim (pre input : GoString) (n : Nat) :
    PSim pre.length Eq (parseVariantKey n input) (parseVariantKey n (pre ++ input)) := by
  unfold parseVariantKey
  apply psim_bind (psim_getP _)
  intro p p1 hs
  rw [hs.2.1]
  refine psim_ite Iff.rfl (psim_failWith _ _ _ _) ?_
  apply psim_bind (nextP_sim pre input)
  intro _ _ _
  apply psim_bind (skipBlank_sim pre input n)
  intro _ _ _
  apply psim_bind (psim_getP _)
  intro q q1 hs2
  rw [hs2.2.1]
  refine psim_bind (R := Eq) ?_ ?_
  · refine psim_ite Iff.rfl ?_ ?_
    · apply psim_bind (parseNumberLiteral_sim pre input n)
      intro v v1 hv
      subst hv
      exact psim_pure rfl
    · apply psim_bind (parseIdentifier_sim pre input n)
      intro v v1 hv
      subst hv
      exact psim_pure rfl
  · intro key key1 hk
    subst hk
    apply psim_bind (skipBlank_sim pre input n)
    intro _ _ _
    apply psim_bind (psim_getP _)
    intro r r1 hs3
    rw [hs3.2.1]
    refine psim_ite Iff.rfl (psim_failWith _ _ _ _) ?_
    apply psim_bind (nextP_sim pre input)
    intro _ _ _
    exact psim_pure rfl

theorem parsePatternIndent_sim (pre input : GoString) (n ci : Nat) :
    PSim pre.length Eq (parsePatternIndent n input ci) (parsePatternIndent n (pre ++ input) ci) := by
  unfold parsePatternIndent
  apply psim_bind (psim_getP _)
  intro p p1 hs
  apply psim_bind (skipBlankInline_sim pre input n)
  intro indent indent1 hi
  subst hi
  apply psim_bind (psim_getP _)
  intro q q1 hs2
  rw [hs2.2.1, isEOL_sim pre input q q1 hs2]
  refine psim_ite Iff.rfl (psim_pure rfl) ?_
  refine psim_ite Iff.rfl (psim_pure rfl) ?_
  refine psim_bind (psim_setP ?_) ?_
  · exact ⟨hs.1, hs.2.1, hs2.2.2⟩
  · intro _ _ _
    exact psim_pure rfl

/-- The mutually recursive operations on patterns and expressions do the same at another
offset. -/
theorem pattern_sim (pre input : GoString) : ∀ n,
    (∀ st, PSim pre.length Eq (parsePatternLoop n input st)
      (parsePatternLoop n (pre ++ input) st)) ∧
    PSim pre.length Eq (parsePattern n input) (parsePattern n (pre ++ input)) ∧
    PSim pre.length Eq (parsePlaceable n input) (parsePlaceable n (pre ++ input)) ∧
    PSim pre.length Eq (parseExpression n input) (parseExpression n (pre ++ input)) ∧
    PSim pre.length Eq (parseInlineExpression n input)
      (parseInlineExpression n (pre ++ input)) ∧
    (∀ a b c, PSim pre.length Eq (parseCallArgumentsLoop n input a b c)
      (parseCallArgumentsLoop n (pre ++ input) a b c)) ∧
    PSim pre.length Eq (parseCallArguments n input) (parseCallArguments n (pre ++ input)) ∧
    (∀ vs d, PSim pre.length Eq (parseVariantsLoop n input vs d)
      (parseVariantsLoop n (pre ++ input) vs d)) ∧
    PSim pre.length Eq (parseVariants n input) (parseVariants n (pre ++ input)) := by
  intro n
  induction n with
  | zero =>
    refine ⟨fun _ => ?_, ?_, ?_, ?_, ?_, fun _ _ _ => ?_, ?_, fun _ _ => ?_, ?_⟩
    · rw [parsePatternLoop, parsePatternLoop]; exact psim_fuel _ _
    · rw [parsePattern, parsePattern]; exact psim_fuel _ _
    · rw [parsePlaceable, parsePlaceable]; exact psim_fuel _ _
    · rw [parseExpression, parseExpression]; exact psim_fuel _ _
    · rw [parseInlineExpression, parseInlineExpression]; exact psim_fuel _ _
    · rw [parseCallArgumentsLoop, parseCallArgumentsLoop]; exact psim_fuel _ _
    · rw [parseCallArguments, parseCallArguments]; exact psim_fuel _ _
    · rw [parseVariantsLoop, parseVariantsLoop]; exact psim_fuel _ _
    · rw [parseVariants, parseVariants]; exact psim_fuel _ _
  | succ n ih =>
    obtain ⟨ihPL, ihP, ihPl, ihE, ihIE, ihCAL, ihCA, ihVL, ihV⟩ := ih
    refine ⟨fun st => ?_, ?_, ?_, ?_, ?_, fun positional named names => ?_, ?_,
      fun vs d => ?_, ?_⟩
    · -- parsePatternLoop
      rw [parsePatternLoop, parsePatternLoop]
      apply psim_bind (psim_getP _)
      intro p p1 hs
      rw [hs.2.1]
      refine psim_ite Iff.rfl (psim_pure rfl) ?_
      apply psim_bind (skipEOL_sim pre input)
      intro eol eol1 he
      subst he
      dsimp only
      apply psim_bind (psim_getP _)
      intro q q1 hs2
      rw [hs2.2.1]
      refine psim_ite Iff.rfl ?_ ?_
      · apply psim_bind ihPl
        intro e e1 he
        subst he
        exact ihPL _
      · refine psim_bind (R := Eq)
          (psim_ite Iff.rfl (parsePatternIndent_sim pre input n _) (psim_pure rfl)) ?_
        intro m m1 hm
        subst hm
        cases m with
        | none => exact psim_pure rfl
        | some ci =>
          apply psim_bind (parseTextElement_sim pre input n)
          intro v v1 hv
          subst hv
          exact ihPL _
    · -- parsePattern
      rw [parsePattern, parsePattern]
      apply psim_bind (skipBlankInline_sim pre input n)
      intro _ _ _
      apply psim_bind (skipEOL_sim pre input)
      intro eol eol1 he
      subst he
      refine psim_bind (R := Eq)
        (psim_ite Iff.rfl (skipBlankBlock_sim pre input n) (psim_pure rfl)) ?_
      intro _ _ _
      apply psim_bind (ihPL _)
      intro st st1 hst
      subst hst
      exact psim_ite Iff.rfl (psim_pure rfl) (psim_pure rfl)
    · -- parsePlaceable
      rw [parsePlaceable, parsePlaceable]
      apply psim_bind (nextP_sim pre input)
      intro _ _ _
      apply psim_bind (skipBlank_sim pre input n)
      intro _ _ _
      apply psim_bind ihE
      intro e e1 he
      subst he
      apply psim_bind (skipBlankInline_sim pre input n)
      intro _ _ _
      apply psim_bind (psim_getP _)
      intro p p1 hs
      rw [hs.2.1]
      refine psim_ite Iff.rfl (psim_failWith _ _ _ _) ?_
      apply psim_bind (nextP_sim pre input)
      intro _ _ _
      exact psim_pure rfl
    · -- parseExpression
      rw [parseExpression, parseExpression]
      apply psim_bind ihIE
      intro sel sel1 he
      subst he
      apply psim_bind (skipBlank_sim pre input n)
      intro _ _ _
      apply psim_bind (psim_getP _)
      intro p p1 hs
      rw [hs.2.1, peek_sim pre input p p1 hs]
      have hrest : PSim pre.length Eq
          (do
            nextP input
            nextP input
            let _ ← skipBlankInline n input
            let eol ← skipEOL input
            if eol = false then failWith (errMessage.str "expected eol")
            else do
              skipBlank n input
              let variants ← wrapErr "parse variants: %v" (parseVariants n input)
              return Expression.selectExpression sel variants)
          (do
            nextP (pre ++ input)
            nextP (pre ++ input)
            let _ ← skipBlankInline n (pre ++ input)
            let eol ← skipEOL (pre ++ input)
            if eol = false then failWith (errMessage.str "expected eol")
            else do
              skipBlank n (pre ++ input)
              let variants ← wrapErr "parse variants: %v" (parseVariants n (pre ++ input))
              return Expression.selectExpression sel variants) := by
        apply psim_bind (nextP_sim pre input)
        intro _ _ _
        apply psim_bind (nextP_sim pre input)
        intro _ _ _
        apply psim_bind (skipBlankInline_sim pre input n)
        intro _ _ _
        apply psim_bind (skipEOL_sim pre input)
        intro eol eol1 he
        subst he
        refine psim_ite Iff.rfl (psim_failWith _ _ _ _) ?_
        apply psim_bind (skipBlank_sim pre input n)
        intro _ _ _
        apply psim_bind (psim_wrapErr _ ihV)
        intro v v1 hv
        subst hv
        exact psim_pure rfl
      refine psim_ite Iff.rfl ?_ ?_
      · cases sel with
        | termReference id attr args =>
          cases attr with
          | none => exact psim_pure rfl
          | some a => exact psim_failWith _ _ _ _
        | _ => exact psim_pure rfl
      · cases sel with
        | messageReference id attr =>
          cases attr with
          | none => exact psim_failWith _ _ _ _
          | some a => exact psim_failWith _ _ _ _
        | termReference id attr args =>
          cases attr with
          | none => exact psim_failWith _ _ _ _
          | some a => exact hrest
        | _ => exact hrest
    · -- parseInlineExpression
      rw [parseInlineExpression, parseInlineExpression]
      apply psim_bind (psim_getP _)
      intro p p1 hs
      rw [hs.2.1, peek_sim pre input p p1 hs]
      have hattr : PSim pre.length Eq
          (do
            nextP input
            let a ← parseIdentifier n input
            pure (some a))
          (do
            nextP (pre ++ input)
            let a ← parseIdentifier n (pre ++ input)
            pure (some a)) := by
        apply psim_bind (nextP_sim pre input)
        intro _ _ _
        apply psim_bind (parseIdentifier_sim pre input n)
        intro a a1 ha
        subst ha
        exact psim_pure rfl
      refine psim_ite Iff.rfl ?_ ?_
      · apply psim_bind (parseStringLiteral_sim pre input n)
        intro v v1 hv
        subst hv
        exact psim_pure rfl
      refine psim_ite Iff.rfl ?_ ?_
      · apply psim_bind (parseNumberLiteral_sim pre input n)
        intro v v1 hv
        subst hv
        exact psim_pure rfl
      refine psim_ite Iff.rfl ?_ ?_
      · refine psim_ite Iff.rfl ?_ ?_
        · apply psim_bind (nextP_sim pre input)
          intro _ _ _
          apply psim_bind (parseIdentifier_sim pre input n)
          intro id id1 hid
          subst hid
          apply psim_bind (psim_getP _)
          intro q q1 hs2
          rw [hs2.2.1]
          refine psim_bind (R := Eq) (psim_ite Iff.rfl hattr (psim_pure rfl)) ?_
          intro attr attr1 ha
          subst ha
          apply psim_bind (psim_getP _)
          intro r r1 hs3
          rw [hs3.2.1]
          refine psim_bind (R := Eq) (psim_ite Iff.rfl ?_ (psim_pure rfl)) ?_
          · apply psim_bind ihCA
            intro args args1 ha
            subst ha
            exact psim_pure rfl
          · intro args args1 ha
            subst ha
            exact psim_pure rfl
        · apply psim_bind (parseNumberLiteral_sim pre input n)
          intro v v1 hv
          subst hv
          exact psim_pure rfl
      refine psim_ite Iff.rfl ?_ ?_
      · apply psim_bind (nextP_sim pre input)
        intro _ _ _
        apply psim_bind (parseIdentifier_sim pre input n)
        intro id id1 hid
        subst hid
        exact psim_pure rfl
      refine psim_ite Iff.rfl ?_ ?_
      · apply psim_bind (parseIdentifier_sim pre input n)
        intro id id1 hid
        subst hid
        apply psim_bind (psim_getP _)
        intro q q1 hs2
        rw [hs2.2.1]
        refine psim_ite Iff.rfl ?_ ?_
        · refine psim_ite Iff.rfl ?_ (psim_failWith _ _ _ _)
          apply psim_bind ihCA
          intro args args1 ha
          subst ha
          exact psim_pure rfl
        · refine psim_bind (R := Eq) (psim_ite Iff.rfl hattr (psim_pure rfl)) ?_
          intro attr attr1 ha
          subst ha
          exact psim_pure rfl
      refine psim_ite Iff.rfl ?_ (psim_failWith _ _ _ _)
      apply psim_bind ihPl
      intro pl pl1 hpl
      subst hpl
      exact psim_pure rfl
    · -- parseCallArgumentsLoop
      rw [parseCallArgumentsLoop, parseCallArgumentsLoop]
      apply psim_bind (psim_getP _)
      intro p p1 hs
      rw [hs.2.1]
      refine psim_ite Iff.rfl (psim_pure rfl) ?_
      refine psim_ite Iff.rfl (psim_pure rfl) ?_
      apply psim_bind ihIE
      intro exp exp1 he
      subst he
      apply psim_bind (skipBlank_sim pre input n)
      intro _ _ _
      apply psim_bind (psim_getP _)
      intro q q1 hs2
      rw [hs2.2.1]
      refine psim_bind (R := Eq) ?_ ?_
      · refine psim_ite Iff.rfl ?_ ?_
        · have hnamed : ∀ id : Identifier, PSim pre.length Eq
              (do
                nextP input
                skipBlank n input
                let value ← parseLiteral n input
                if containsString names id.Name then
                  failWith (errMessage.str "named arguments must be unique")
                else pure (positional, named ++ [NamedArgument.mk id value],
                  names ++ [id.Name]))
              (do
                nextP (pre ++ input)
                skipBlank n (pre ++ input)
                let value ← parseLiteral n (pre ++ input)
                if containsString names id.Name then
                  failWith (errMessage.str "named arguments must be unique")
                else pure (positional, named ++ [NamedArgument.mk id value],
                  names ++ [id.Name])) := by
            intro id
            apply psim_bind (nextP_sim pre input)
            intro _ _ _
            apply psim_bind (skipBlank_sim pre input n)
            intro _ _ _
            apply psim_bind (parseLiteral_sim pre input n)
            intro v v1 hv
            subst hv
            exact psim_ite Iff.rfl (psim_failWith _ _ _ _) (psim_pure rfl)
          cases exp with
          | messageReference id attr =>
            cases attr with
            | none => exact hnamed id
            | some a => exact psim_failWith _ _ _ _
          | _ => exact psim_failWith _ _ _ _
        · exact psim_ite Iff.rfl (psim_failWith _ _ _ _) (psim_pure rfl)
      · intro vars vars1 hv
        subst hv
        apply psim_bind (skipBlank_sim pre input n)
        intro _ _ _
        apply psim_bind (psim_getP _)
        intro r r1 hs3
        rw [hs3.2.1]
        refine psim_ite Iff.rfl ?_ (psim_pure rfl)
        apply psim_bind (nextP_sim pre input)
        intro _ _ _
        apply psim_bind (skipBlank_sim pre input n)
        intro _ _ _
        exact ihCAL _ _ _
    · -- parseCallArguments
      rw [parseCallArguments, parseCallArguments]
      apply psim_bind (nextP_sim pre input)
      intro _ _ _
      apply psim_bind (skipBlank_sim pre input n)
      intro _ _ _
      apply psim_bind (ihCAL _ _ _)
      intro args args1 ha
      subst ha
      apply psim_bind (psim_getP _)
      intro p p1 hs
      rw [hs.2.1]
      refine psim_ite Iff.rfl (psim_failWith _ _ _ _) ?_
      apply psim_bind (nextP_sim pre input)
      intro _ _ _
      exact psim_pure rfl
    · -- parseVariantsLoop
      rw [parseVariantsLoop, parseVariantsLoop]
      apply psim_bind (psim_getP _)
      intro p p1 hs
      rw [hs.2.1]
      refine psim_ite Iff.rfl ?_ (psim_pure rfl)
      refine psim_bind (R := Eq) ?_ ?_
      · refine psim_ite Iff.rfl ?_ (psim_pure rfl)
        apply psim_bind (nextP_sim pre input)
        intro _ _ _
        exact psim_pure rfl
      · intro dv dv1 hdv
        subst hdv
        apply psim_bind (psim_wrapErr _ (parseVariantKey_sim pre input n))
        intro key key1 hk
        subst hk
        apply psim_bind (psim_wrapErr _ ihP)
        intro v v1 hv
        subst hv
        apply psim_bind (skipBlank_sim pre input n)
        intro _ _ _
        exact ihVL _ _
    · -- parseVariants
      rw [parseVariants, parseVariants]
      apply psim_bind (ihVL _ _)
      intro r r1 hr
      subst hr
      exact psim_ite Iff.rfl (psim_failWith _ _ _ _) (psim_pure rfl)

theorem parsePattern_sim (pre input : GoString) (n : Nat) :
    PSim pre.length Eq (parsePattern n input) (parsePattern n (pre ++ input)) :=
  (pattern_sim pre input n).2.1

theorem parseAttribute_sim (pre input : GoString) (n : Nat) :
    PSim pre.length Eq (parseAttribute n input) (parseAttribute n (pre ++ input)) := by
  unfold parseAttribute
  apply psim_bind (nextP_sim pre input)
  intro _ _ _
  apply psim_bind (parseIdentifier_sim pre input n)
  intro id id1 hid
  subst hid
  apply psim_bind (skipBlankInline_sim pre input n)
  intro _ _ _
  apply psim_bind (psim_getP _)
  intro p p1 hs
  rw [hs.2.1]
  refine psim_ite Iff.rfl (psim_failWith _ _ _ _) ?_
  apply psim_bind (nextP_sim pre input)
  intro _ _ _
  apply psim_bind (skipBlankInline_sim pre input n)
  intro _ _ _
  apply psim_bind (parsePattern_sim pre input n)
  intro v v1 hv
  subst hv
  exact psim_pure rfl

theorem parseAttributesLoop_sim (pre input : GoString) : ∀ n attributes,
    PSim pre.length Eq (parseAttributesLoop n input attributes)
      (parseAttributesLoop n (pre ++ input) attributes) := by
  intro n
  induction n with
  | zero => intro _; exact psim_fuel _ _
  | succ n ih =>
    intro attributes
    rw [parseAttributesLoop, parseAttributesLoop]
    apply psim_bind (psim_getP _)
    intro p p1 hs
    rw [hs.2.1]
    refine psim_ite Iff.rfl (psim_pure rfl) ?_
    apply psim_bind (skipBlankInline_sim pre input n)
    intro _ _ _
    apply psim_bind (psim_getP _)
    intro q q1 hs2
    rw [hs2.2.1]
    refine psim_ite Iff.rfl ?_ ?_
    · refine psim_bind (psim_setP ?_) ?_
      · exact ⟨hs.1, rfl, hs2.2.2⟩
      · intro _ _ _
        exact psim_pure rfl
    · apply psim_bind (parseAttribute_sim pre input n)
      intro a a1 ha
      subst ha
      exact ih _

theorem parseAttributes_sim (pre input : GoString) (n : Nat) :
    PSim pre.length Eq (parseAttributes n input) (parseAttributes n (pre ++ input)) :=
  parseAttributesLoop_sim pre input n []

theorem parseMessage_sim (pre input : GoString) (n : Nat) :
    PSim pre.length Eq (parseMessage n input) (parseMessage n (pre ++ input)) := by
  unfold parseMessage
  apply psim_bind (parseIdentifier_sim pre input n)
  intro id id1 hid
  subst hid
  apply psim_bind (skipBlankInline_sim pre input n)
  intro _ _ _
  apply psim_bind (psim_getP _)
  intro p p1 hs
  rw [hs.2.1]
  refine psim_ite Iff.rfl (psim_failWith _ _ _ _) ?_
  apply psim_bind (nextP_sim pre input)
  intro _ _ _
  apply psim_bind (parsePattern_sim pre input n)
  intro v v1 hv
  subst hv
  apply psim_bind (skipBlankBlock_sim pre input n)
  intro _ _ _
  apply psim_bind (parseAttributes_sim pre input n)
  intro a a1 ha
  subst ha
  exact psim_ite Iff.rfl (psim_failWith _ _ _ _) (psim_pure rfl)

theorem parseTerm_sim (pre input : GoString) (n : Nat) :
    PSim pre.length Eq (parseTerm n input) (parseTerm n (pre ++ input)) := by
  unfold parseTerm
  apply psim_bind (psim_getP _)
  intro p p1 hs
  rw [hs.2.1]
  refine psim_ite Iff.rfl (psim_failWith _ _ _ _) ?_
  apply psim_bind (nextP_sim pre input)
  intro _ _ _
  apply psim_bind (psim_replaceErr _ (parseIdentifier_sim pre input n))
  intro id id1 hid
  subst hid
  apply psim_bind (skipBlankInline_sim pre input n)
  intro _ _ _
  apply psim_bind (psim_getP _)
  intro q q1 hs2
  rw [hs2.2.1]
  refine psim_ite Iff.rfl (psim_failWith _ _ _ _) ?_
  apply psim_bind (nextP_sim pre input)
  intro _ _ _
  apply psim_bind (skipBlankInline_sim pre input n)
  intro _ _ _
  apply psim_bind (parsePattern_sim pre input n)
  intro v v1 hv
  subst hv
  apply psim_bind (skipBlankBlock_sim pre input n)
  intro _ _ _
  apply psim_bind (parseAttributes_sim pre input n)
  intro a a1 ha
  subst ha
  exact psim_pure rfl

theorem parseCommentLevelLoop_sim (pre input : GoString) : ∀ n level,
    PSim pre.length Eq (parseCommentLevelLoop n input level)
      (parseCommentLevelLoop n (pre ++ input) level) := by
  intro n
  induction n with
  | zero => intro _; exact psim_fuel _ _
  | succ n ih =>
    intro level p p1 hs
    rw [parseCommentLevelLoop, parseCommentLevelLoop]
    dsimp only
    rw [hs.2.1]
    split
    · split
      · exact ⟨rfl, hs⟩
      · exact ih _ _ _ (next_sim pre input p p1 hs)
    · exact ⟨rfl, hs⟩

theorem parseCommentLineLoop_sim (pre input : GoString) : ∀ n,
    PSim pre.length Eq (parseCommentLineLoop n input) (parseCommentLineLoop n (pre ++ input)) := by
  intro n
  induction n with
  | zero => exact psim_fuel _ _
  | succ n ih =>
    intro p p1 hs
    rw [parseCommentLineLoop, parseCommentLineLoop]
    dsimp only
    rw [hs.2.1, isEOL_sim pre input p p1 hs]
    split
    · split
      · exact ⟨rfl, hs⟩
      · exact ih _ _ (next_sim pre input p p1 hs)
    · exact ⟨rfl, hs⟩

theorem parseCommentLine_sim (pre input : GoString) (n : Nat) :
    PSim pre.length Eq (parseCommentLine n input) (parseCommentLine n (pre ++ input)) := by
  unfold parseCommentLine
  apply psim_bind (psim_getP _)
  intro p p1 hs
  apply psim_bind (parseCommentLineLoop_sim pre input n)
  intro _ _ _
  apply psim_bind (psim_getP _)
  intro q q1 hs2
  apply psim_pure
  rw [hs.1, hs2.1, slice_shift]

theorem parseCommentLoop_sim (pre input : GoString) : ∀ n lines lastLevel,
    PSim pre.length Eq (parseCommentLoop n input lines lastLevel)
      (parseCommentLoop n (pre ++ input) lines lastLevel) := by
  intro n
  induction n with
  | zero => intro _ _; exact psim_fuel _ _
  | succ n ih =>
    intro lines lastLevel
    rw [parseCommentLoop, parseCommentLoop]
    apply psim_bind (psim_getP _)
    intro p p1 hs
    rw [hs.2.1]
    refine psim_ite Iff.rfl (psim_pure rfl) ?_
    apply psim_bind (parseCommentLevelLoop_sim pre input n 0)
    intro level level1 hl
    subst hl
    refine psim_ite Iff.rfl (psim_pure rfl) ?_
    refine psim_ite Iff.rfl ?_ ?_
    · apply psim_bind (psim_getP _)
      intro q q1 hs2
      refine psim_bind (psim_setP ?_) ?_
      · exact ⟨hs.1, rfl, hs2.2.2⟩
      · intro _ _ _
        exact psim_pure rfl
    · apply psim_bind (psim_getP _)
      intro q q1 hs2
      rw [hs2.2.1, isEOL_sim pre input q q1 hs2]
      refine psim_bind (R := Eq) ?_ ?_
      · refine psim_ite Iff.rfl ?_ (psim_pure rfl)
        refine psim_ite Iff.rfl (psim_failWith _ _ _ _) ?_
        apply psim_bind (nextP_sim pre input)
        intro _ _ _
        exact parseCommentLine_sim pre input n
      · intro line line1 hl
        subst hl
        apply psim_bind (skipEOL_sim pre input)
        intro _ _ _
        exact ih _ _

theorem parseComment_sim (pre input : GoString) (n : Nat) :
    PSim pre.length Eq (parseComment n input) (parseComment n (pre ++ input)) := by
  unfold parseComment
  apply psim_bind (parseCommentLoop_sim pre input n [] 0)
  intro r r1 hr
  subst hr
  refine psim_ite Iff.rfl (psim_pure rfl) ?_
  refine psim_ite Iff.rfl (psim_pure rfl) ?_
  refine psim_ite Iff.rfl (psim_pure rfl) ?_
  intro _ _ _
  rfl

theorem parseEntry_sim (pre input : GoString) (n : Nat) :
    PSim pre.length Eq (parseEntry n input) (parseEntry n (pre ++ input)) := by
  unfold parseEntry
  apply psim_bind (psim_getP _)
  intro p p1 hs
  rw [hs.2.1]
  refine psim_ite Iff.rfl (parseComment_sim pre input n) ?_
  refine psim_ite Iff.rfl ?_ ?_
  · apply psim_bind (parseTerm_sim pre input n)
    intro t t1 ht
    subst ht
    exact psim_pure rfl
  · apply psim_bind (parseMessage_sim pre input n)
    intro t t1 ht
    subst ht
    exact psim_pure rfl

/-! ## A comment of one line -/

theorem parseCommentLineLoop_scan (input post : GoString) :
    ∀ (len : Nat) (t : GoString) (k : Nat) (p : parser) (n : Nat), t.length = len →
      input.drop k = t ++ 10 :: post → p.At input k →
      (∀ b ∈ t, b ≠ 0 ∧ b ≠ 10 ∧ b ≠ 13) → t.length < n →
      ∃ q, parseCommentLineLoop n input p = Res.ok () q ∧ q.At input (k + t.length) := by
  intro len
  induction len using Nat.strong_induction_on with
  | _ len ih =>
    intro t k p n hlen hdrop hAt ht hn
    obtain ⟨j, rfl⟩ : ∃ j, n = j + 1 := ⟨n - 1, by omega⟩
    cases t with
    | nil =>
      rw [List.nil_append] at hdrop
      obtain ⟨h1, _⟩ := At_ascii input 10 post k p hdrop hAt (by decide)
      refine ⟨p, ?_, by simpa using hAt⟩
      simp [parseCommentLineLoop, h1, eof, isEOL]
    | cons b t1 =>
      obtain ⟨s1, s2, s3, s4, _, s6, s7⟩ := At_step input b t1 (10 :: post) k p hdrop hAt
        (by intro c hc; simp at hc; omega)
      obtain ⟨b0, b10, b13⟩ := ht b (by simp)
      have hch : p.ch ≠ 0 ∧ p.ch ≠ 10 ∧ p.ch ≠ 13 := by
        by_cases hb : b < 128
        · rw [(s1 hb).1]
          exact ⟨b0, b10, b13⟩
        · have := s2 (by omega)
          omega
      obtain ⟨c0, c10, c13⟩ := hch
      have hlen2 : ((b :: t1).drop p.w).length < len := by
        rw [List.length_drop, hlen]
        omega
      obtain ⟨q, hq1, hq2⟩ := ih _ hlen2 ((b :: t1).drop p.w) (k + p.w) (next input p) j rfl s7
        s6 (fun x hx => ht x (List.mem_of_mem_drop hx)) (by rw [List.length_drop]; omega)
      have hpos : k + p.w + ((b :: t1).drop p.w).length = k + (b :: t1).length := by
        rw [List.length_drop]
        omega
      refine ⟨q, ?_, hpos ▸ hq2⟩
      simp [parseCommentLineLoop, eof, isEOL, c0, c10, c13, hq1]

/-- `parseComment` on a line `# c` that is not followed by a line starting with `#`: the level-1
comment with content `c`, the cursor at the start of the next line. -/
theorem parseComment_single (input post c : GoString) (k : Nat) (p : parser) (n : Nat)
    (hc : ∀ b ∈ c, b ≠ 0 ∧ b ≠ 10 ∧ b ≠ 13)
    (hdrop : input.drop k = 35 :: 32 :: (c ++ 10 :: post)) (hpost : post.head? ≠ some 35)
    (hAt : p.At input k) (hn : c.length + 5 ≤ n) :
    ∃ q, parseComment n input p = Res.ok (Entry.comment { Content := c }) q ∧
      q.At input (k + c.length + 3) ∧ input.drop (k + c.length + 3) = post := by
  obtain ⟨n1, rfl⟩ : ∃ n1, n = n1 + 1 := ⟨n - 1, by omega⟩
  obtain ⟨n2, rfl⟩ : ∃ n2, n1 = n2 + 1 := ⟨n1 - 1, by omega⟩
  obtain ⟨n3, rfl⟩ : ∃ n3, n2 = n3 + 1 := ⟨n2 - 1, by omega⟩
  -- the cursors on `#`, on the space, on the first byte of `c`
  obtain ⟨a1, _, _, hA1, hd1⟩ := At_ascii input 35 _ k p hdrop hAt (by decide)
  obtain ⟨a2, _, _, hA2, hd2⟩ := At_ascii input 32 _ (k + 1) _ hd1 hA1 (by decide)
  have hlevel : parseCommentLevel (n3 + 1 + 1) input p = Res.ok 1 (next input p) := by
    unfold parseCommentLevel
    rw [parseCommentLevelLoop]
    simp only [a1, eof, ne_eq, not_true_eq_false, if_false, Nat.succ_ne_zero, not_false_eq_true,
      if_true, OfNat.ofNat_ne_zero]
    rw [parseCommentLevelLoop]
    simp [a2, eof]
  obtain ⟨q3, hq3, hq3At⟩ := parseCommentLineLoop_scan input post c.length c (k + 1 + 1)
    (next input (next input p)) (n3 + 1 + 1) rfl hd2 hA2 hc (by omega)
  have hd3 : input.drop (k + 1 + 1 + c.length) = 10 :: post := by
    rw [← List.drop_drop, hd2, List.drop_left' rfl]
  obtain ⟨a3, _, _, hA4, hd4⟩ := At_ascii input 10 post _ q3 hd3 hq3At (by decide)
  have hposeq : k + 1 + 1 + c.length + 1 = k + c.length + 3 := by omega
  rw [hposeq] at hA4 hd4
  have h35 : (next input q3).ch ≠ 35 := by
    apply At_ch_ne input _ _ 35 hA4 (by decide)
    rw [hd4]
    exact hpost
  have hline : parseCommentLine (n3 + 1 + 1) input (next input (next input p)) = Res.ok c q3 := by
    unfold parseCommentLine
    rw [getP_bind, bind_apply, hq3]
    simp only []
    rw [getP_bind, pure_apply, hq3At.1, hA2.1, slice_of_drop input c (10 :: post) _ hd2]
  have hloop2 : parseCommentLoop (n3 + 1 + 1) input [c] 1 (next input q3) =
      Res.ok ([c], 1) (next input q3) := by
    rw [parseCommentLoop, getP_bind]
    by_cases heof : (next input q3).ch = eof
    · simp only [heof, if_true, pure_apply]
    · simp only [heof, if_false]
      have hlevel0 : parseCommentLevel (n3 + 1) input (next input q3) =
          Res.ok 0 (next input q3) := by
        unfold parseCommentLevel
        rw [parseCommentLevelLoop]
        simp [heof, h35]
      rw [bind_apply, hlevel0]
      simp only [if_true, pure_apply]
  refine ⟨next input q3, ?_, hA4, hd4⟩
  unfold parseComment
  rw [bind_apply, parseCommentLoop, getP_bind]
  have hne : p.ch ≠ eof := by rw [a1]; decide
  simp only [hne, if_false]
  rw [bind_apply, hlevel]
  simp only [one_ne_zero, if_false, ne_eq, not_true_eq_false, false_and]
  rw [getP_bind, bind_apply]
  have heol : isEOL input (next input p) = false := by
    simp [isEOL, a2]
  simp only [heol, if_true, a2, ne_eq, not_true_eq_false, if_false]
  rw [nextP_bind, hline]
  simp only []
  rw [bind_apply, skipEOL_lf input q3 a3]
  simp only [List.nil_append]
  rw [hloop2]
  simp [Join, pure_apply]

/-! ## Comments and the entry after them -/

theorem skipBlankBlockLoop_none (input : GoString) (k : Nat) (p : parser) (n count : Nat)
    (hhead : ∀ c, (input.drop k).head? = some c → c ≠ 32 ∧ c ≠ 10 ∧ c ≠ 13)
    (hAt : p.At input k) (hn : 2 ≤ n) :
    ∃ q, skipBlankBlockLoop n input count p = Res.ok count q ∧ q.At input k := by
  obtain ⟨n1, rfl⟩ : ∃ n1, n = n1 + 1 := ⟨n - 1, by omega⟩
  have h32 : (input.drop k).head? ≠ some 32 := fun hc => (hhead 32 hc).1 rfl
  obtain ⟨q, hq, hqAt, _⟩ := skipBlankInline_scan input (input.drop k) 0 k p n1 h32
    (by simp) hAt (by omega)
  have e10 : q.ch ≠ 10 :=
    At_ch_ne input _ q 10 hqAt (by decide) (fun hc => (hhead 10 hc).2.1 rfl)
  have e13 : q.ch ≠ 13 :=
    At_ch_ne input _ q 13 hqAt (by decide) (fun hc => (hhead 13 hc).2.2 rfl)
  refine ⟨{ q with col := 1, pos := p.pos, ch := p.ch }, ?_, ?_⟩
  · rw [skipBlankBlockLoop, getP_bind, bind_apply, hq]
    simp only []
    rw [bind_apply, skipEOL_false input q e10 e13]
    simp only [Bool.false_eq_true, if_false]
    rw [getP_bind, setP_bind, pure_apply]
  · have h1 := hAt.2.2
    have h2 := hqAt.2.2
    simp only [Nat.add_zero] at h2
    rw [h1] at h2
    injection h2 with h3 h4
    exact ⟨hAt.1, hAt.2.1, by rw [hAt.2.2, h4]⟩

/-- `skipBlankBlock` over one empty line. -/
theorem skipBlankBlock_one (input post : GoString) (k : Nat) (p : parser) (n : Nat)
    (hdrop : input.drop k = 10 :: post)
    (hpost : ∀ c, post.head? = some c → c ≠ 32 ∧ c ≠ 10 ∧ c ≠ 13)
    (hAt : p.At input k) (hn : 3 ≤ n) :
    ∃ q, skipBlankBlock n input p = Res.ok 1 q ∧ q.At input (k + 1) := by
  obtain ⟨n1, rfl⟩ : ∃ n1, n = n1 + 1 := ⟨n - 1, by omega⟩
  obtain ⟨q, hq, hqAt, _⟩ := skipBlankInline_scan input (10 :: post) 0 k p n1 (by simp)
    (by simpa using hdrop) hAt (by omega)
  obtain ⟨a1, _, _, hA1, hd1⟩ := At_ascii input 10 post k q hdrop (by simpa using hqAt)
    (by decide)
  obtain ⟨q2, hq2, hq2At⟩ := skipBlankBlockLoop_none input (k + 1) (next input q) n1 1
    (by rw [hd1]; exact hpost) hA1 (by omega)
  refine ⟨q2, ?_, hq2At⟩
  unfold skipBlankBlock
  rw [skipBlankBlockLoop, getP_bind, bind_apply, hq]
  simp only []
  rw [bind_apply, skipEOL_lf input q a1]
  simp only [if_true]
  exact hq2

theorem parseIdentifier_ok_letter (n : Nat) (input : GoString) (p q : parser) (id : Identifier)
    (h : parseIdentifier n input p = Res.ok id q) : isLetter p.ch = true := by
  unfold parseIdentifier at h
  rw [getP_bind] at h
  by_contra hc
  have hc2 : isLetter p.ch = false := by simpa using hc
  simp [hc2, failWith_apply] at h

/-- A message or a term starts with a letter or a hyphen, and comes without a comment. -/
theorem parseEntry_ok_head (n : Nat) (input : GoString) (p q : parser) (entry : Entry)
    (h : parseEntry n input p = Res.ok entry q)
    (he : (∃ v, entry = Entry.message v) ∨ (∃ v, entry = Entry.term v)) :
    (isLetter p.ch = true ∨ p.ch = 45) ∧ entry.attached = none := by
  unfold parseEntry at h
  rw [getP_bind] at h
  split at h
  · exfalso
    unfold parseComment at h
    obtain ⟨r, p1, _, h2⟩ := bind_ok h
    rcases he with ⟨v, rfl⟩ | ⟨v, rfl⟩ <;>
    · split at h2
      · simp [pure_apply] at h2
      · split at h2
        · simp [pure_apply] at h2
        · split at h2
          · simp [pure_apply] at h2
          · simp at h2
  · split at h
    · rename_i h45
      obtain ⟨t, p2, ht, h3⟩ := bind_ok h
      simp only [pure_apply] at h3
      injection h3 with h3 _
      subst h3
      refine ⟨Or.inr h45, ?_⟩
      unfold parseTerm at ht
      rw [getP_bind] at ht
      simp only [h45, ne_eq, not_true_eq_false, if_false] at ht
      rw [nextP_bind] at ht
      obtain ⟨id, p3, _, ht⟩ := bind_ok ht
      obtain ⟨_, p4, _, ht⟩ := bind_ok ht
      rw [getP_bind] at ht
      split at ht
      · simp [failWith_apply] at ht
      · rw [nextP_bind] at ht
        obtain ⟨_, p5, _, ht⟩ := bind_ok ht
        obtain ⟨v, p6, _, ht⟩ := bind_ok ht
        obtain ⟨_, p7, _, ht⟩ := bind_ok ht
        obtain ⟨a, p8, _, ht⟩ := bind_ok ht
        simp only [pure_apply] at ht
        injection ht with ht _
        rw [← ht]
        rfl
    · obtain ⟨t, p2, ht, h3⟩ := bind_ok h
      simp only [pure_apply] at h3
      injection h3 with h3 _
      subst h3
      refine ⟨Or.inl ?_, (parseMessage_ok n input p p2 t ht).2⟩
      unfold parseMessage at ht
      obtain ⟨id, p3, hid, _⟩ := bind_ok ht
      exact parseIdentifier_ok_letter n input p p3 id hid

theorem ResSim_ok_inv {α : Type} {k : Nat} {a : α} {q : parser} {r : Res α}
    (h : ResSim k Eq (Res.ok a q) r) : ∃ q1, r = Res.ok a q1 ∧ Sim k q q1 := by
  cases r with
  | ok a1 q1 =>
    obtain ⟨h1, h2⟩ := h
    exact ⟨q1, by rw [h1], h2⟩
  | err e q1 => exact absurd h (by simp [ResSim])
  | panic m => exact absurd h (by simp [ResSim])
  | fuel => exact absurd h (by simp [ResSim])

theorem parseEntry_nil (n : Nat) :
    parseEntry n [] (newParser [])
      = Res.err ((newParser []).error (errMessage.str "expected identifier")) (newParser []) :=
  rfl

theorem isEntrySource_ne_nil (m : GoString) (entry : Entry) (N : Nat)
    (h : isEntrySource m entry N) : m ≠ [] := by
  intro hm
  subst hm
  obtain ⟨q, k, q1, h1, _⟩ := h.2 N (le_refl _)
  rw [parseEntry_nil] at h1
  simp at h1

theorem commitEntry_entry (entries : List Entry) (c : Comment) (entry : Entry)
    (he : (∃ v, entry = Entry.message v) ∨ (∃ v, entry = Entry.term v)) :
    commitEntry entries (some c) entry = entries ++ [entry.withComment c] := by
  rcases he with ⟨v, rfl⟩ | ⟨v, rfl⟩ <;> rfl

/-- One iteration of the loop of `parse` in which `parseEntry` returns an entry. -/
theorem parseLoop_step (n : Nat) (input : GoString) (errors : List parseError)
    (entries : List Entry) (lc : Option Comment) (p q q2 : parser) (entry : Entry) (k : Nat)
    (hpos : p.pos < input.length) (hpe : parseEntry n input p = Res.ok entry q)
    (hsb : skipBlankBlock n input q = Res.ok k q2) :
    parseLoop (n + 1) input errors entries lc p =
      match (if k = 0 then entry.asComment else none) with
      | some comment => parseLoop n input errors entries (some comment) q2
      | none => parseLoop n input errors (commitEntry entries lc entry) none q2 := by
  cases lc <;>
  · rw [parseLoop, getP_bind]
    simp only [hpos, if_true]
    rw [bind_apply]
    simp only [attempt, hpe]
    rw [pure_bind_apply, bind_apply, hsb]
    dsimp only
    generalize (if k = 0 then entry.asComment else none) = d
    cases d <;> rfl

/-- The loop of `parse` on a well-formed source `m` of a message or term that ends the input:
the entry is committed and the loop returns. -/
theorem parseLoop_entry_at_end (pre m : GoString) (entry : Entry) (N : Nat)
    (hsrc : isEntrySource m entry N) (p : parser) (hAt : p.At (pre ++ m) pre.length)
    (errors : List parseError) (entries : List Entry) (lc : Option Comment) (n : Nat)
    (hn : N + 2 ≤ n) :
    (parseLoop n (pre ++ m) errors entries lc p).value =
      some ({ Body := commitEntry entries lc entry },
        if 0 < errors.length then some { input := pre ++ m, errors := errors } else none) := by
  have hm := isEntrySource_ne_nil m entry N hsrc
  obtain ⟨he, hrun⟩ := hsrc
  obtain ⟨n1, rfl⟩ : ∃ n1, n = n1 + 1 := ⟨n - 1, by omega⟩
  obtain ⟨n2, rfl⟩ : ∃ n2, n1 = n2 + 1 := ⟨n1 - 1, by omega⟩
  obtain ⟨qm, k, qm1, h1, h2, h3⟩ := hrun (n2 + 1) (by omega)
  have hsim : Sim pre.length (newParser m) p := by
    have hA := newParser_At m hm
    have hd := hAt.2.2
    have hA2 := hA.2.2
    rw [List.drop_zero] at hA2
    rw [List.drop_left, hA2] at hd
    injection hd with hd1 hd2
    exact ⟨by rw [hAt.1, hA.1]; omega, hd1.symm, hd2.symm⟩
  have hs1 := parseEntry_sim pre m (n2 + 1) _ _ hsim
  rw [h1] at hs1
  obtain ⟨q2, hq2, hsim2⟩ := ResSim_ok_inv hs1
  have hs2 := skipBlankBlock_sim pre m (n2 + 1) _ _ hsim2
  rw [h2] at hs2
  obtain ⟨q3, hq3, hsim3⟩ := ResSim_ok_inv hs2
  have hlen : 0 < m.length := List.length_pos.2 hm
  have hpos : p.pos < (pre ++ m).length := by
    rw [hAt.1, List.length_append]; omega
  have hend : (pre ++ m).length ≤ q3.pos := by
    rw [hsim3.1, List.length_append]; omega
  have hnc : entry.asComment = none := by
    rcases he with ⟨v, rfl⟩ | ⟨v, rfl⟩ <;> rfl
  rw [parseLoop_step (n2 + 1) _ errors entries lc p q2 q3 entry k hpos hq2 hq3]
  simp only [hnc, ite_self]
  rw [parseLoop_exit n2 _ _ _ _ q3 hend]
  rfl

/-- The loop of `parse` when what is left of the input is the one comment line `# c`: the
comment is held back, then committed at the end of the input. -/
theorem parseLoop_last_comment (input c : GoString) (k : Nat) (p : parser)
    (errors : List parseError) (entries : List Entry) (n : Nat)
    (hc : ∀ b ∈ c, b ≠ 0 ∧ b ≠ 10 ∧ b ≠ 13)
    (hdrop : input.drop k = 35 :: 32 :: (c ++ 10 :: [])) (hAt : p.At input k)
    (hn : c.length + 8 ≤ n) :
    (parseLoop n input errors entries none p).value =
      some ({ Body := entries ++ [Entry.comment { Content := c }] },
        if 0 < errors.length then some { input := input, errors := errors } else none) := by
  obtain ⟨n1, rfl⟩ : ∃ n1, n = n1 + 1 := ⟨n - 1, by omega⟩
  obtain ⟨n2, rfl⟩ : ∃ n2, n1 = n2 + 1 := ⟨n1 - 1, by omega⟩
  obtain ⟨q, hq, hqAt, hqd⟩ := parseComment_single input [] c k p (n2 + 1) hc hdrop (by simp)
    hAt (by omega)
  obtain ⟨q2, hq2, hq2At⟩ := skipBlankBlock_none input _ q (n2 + 1)
    (by rw [hqd]; simp) hqAt (by omega)
  have hlen : input.length = k + c.length + 3 := by
    have := congrArg List.length hdrop
    rw [List.length_drop] at this
    simp at this
    omega
  have hpos : p.pos < input.length := by rw [hAt.1]; omega
  have hch : p.ch = 35 := (At_ascii input 35 _ k p hdrop hAt (by decide)).1
  have hpe : parseEntry (n2 + 1) input p = Res.ok (Entry.comment { Content := c }) q := by
    unfold parseEntry
    rw [getP_bind]
    simp only [hch, if_true]
    exact hq
  rw [parseLoop_step (n2 + 1) _ errors entries none p q q2 _ 0 hpos hpe hq2]
  simp only [if_true, Entry.asComment]
  rw [parseLoop_exit n2 _ _ _ _ q2 (by rw [hq2At.1]; omega)]
  rfl

/-- The first byte of a well-formed source of a message or term is a letter or a hyphen. -/
theorem isEntrySource_head (m : GoString) (entry : Entry) (N : Nat)
    (h : isEntrySource m entry N) :
    (∃ x, m.head? = some x ∧ (isLetter x = true ∨ x = 45)) ∧ entry.attached = none := by
  have hm := isEntrySource_ne_nil m entry N h
  obtain ⟨he, hrun⟩ := h
  obtain ⟨q, k, q1, h1, _⟩ := hrun N (le_refl _)
  obtain ⟨hh, ha⟩ := parseEntry_ok_head N m _ q entry h1 he
  refine ⟨⟨(newParser m).ch, ?_, hh⟩, ha⟩
  have hA := newParser_At m hm
  have hlt : (newParser m).ch < 128 := by
    rcases hh with hh | hh
    · exact (isLetter_lt hh).1
    · omega
  have := At_ch_ascii m 0 _ _ hA hlt rfl
  simpa using this

/-- The start of `Parse` on an input whose first line is the comment `# c`: the cursor after
the leading blank block, and the comment that `parseEntry` returns there. -/
theorem Parse_comment_first (c post : GoString) (n : Nat)
    (hc : ∀ b ∈ c, b ≠ 0 ∧ b ≠ 10 ∧ b ≠ 13) (hpost : post.head? ≠ some 35)
    (hn : c.length + 6 ≤ n) :
    ∃ p0 q, skipBlankBlock (n + 1) (35 :: 32 :: (c ++ 10 :: post))
        (newParser (35 :: 32 :: (c ++ 10 :: post))) = Res.ok 0 p0 ∧
      p0.pos < (35 :: 32 :: (c ++ 10 :: post)).length ∧
      parseEntry n (35 :: 32 :: (c ++ 10 :: post)) p0 =
        Res.ok (Entry.comment { Content := c }) q ∧
      q.At (35 :: 32 :: (c ++ 10 :: post)) (c.length + 3) ∧
      (35 :: 32 :: (c ++ 10 :: post)).drop (c.length + 3) = post := by
  generalize hI : 35 :: 32 :: (c ++ 10 :: post) = input
  have hne : input ≠ [] := by rw [← hI]; simp
  have hA0 := newParser_At input hne
  obtain ⟨p0, hp0, hp0At⟩ := skipBlankBlock_none input 0 (newParser input) (n + 1)
    (by intro x hx; rw [List.drop_zero, ← hI] at hx; simp at hx; omega) hA0 (by omega)
  obtain ⟨q, hq, hqAt, hqd⟩ := parseComment_single input post c 0 p0 n hc
    (by rw [List.drop_zero, hI]) hpost hp0At (by omega)
  have hch : p0.ch = 35 :=
    (At_ascii input 35 _ 0 p0 (by rw [List.drop_zero, ← hI]) hp0At (by decide)).1
  refine ⟨p0, q, hp0, ?_, ?_, by simpa using hqAt, by simpa using hqd⟩
  · rw [hp0At.1, ← hI]
    simp
  · unfold parseEntry
    rw [getP_bind]
    simp only [hch, if_true]
    exact hq

/-- C10: comment attachment.  For every one-line comment content `c` (without NUL, line feed
and carriage return) and every well-formed source `m` of a message or term `entry`: `Parse` of
`# c`, a line feed and `m` returns the single entry `entry` with the comment `c` attached;
`Parse` of `# c`, two line feeds and `m` returns the comment `c` followed by `entry`, which has
no comment.  And when the comment line `# c` is all that is left of the input (no comment is
pending), the loop of `parse` ends with the comment as an entry of its own. -/
theorem C10_comment_attachment :
    (∀ (c m : GoString) (entry : Entry) (N n : Nat),
      (∀ b ∈ c, b ≠ 0 ∧ b ≠ 10 ∧ b ≠ 13) → isEntrySource m entry N → N + c.length + 10 ≤ n →
      (Parse n (ascii "# " ++ c ++ ascii "\n" ++ m)).value =
          some ({ Body := [entry.withComment { Content := c }] }, none) ∧
      (Parse n (ascii "# " ++ c ++ ascii "\n\n" ++ m)).value =
          some ({ Body := [Entry.comment { Content := c }, entry] }, none) ∧
      entry.attached = none) ∧
    (∀ (c input : GoString) (k : Nat) (p : parser) (errors : List parseError)
      (entries : List Entry) (n : Nat),
      (∀ b ∈ c, b ≠ 0 ∧ b ≠ 10 ∧ b ≠ 13) → input.drop k = ascii "# " ++ c ++ ascii "\n" →
      p.At input k → c.length + 8 ≤ n →
      (parseLoop n input errors entries none p).value =
        some ({ Body := entries ++ [Entry.comment { Content := c }] },
          if 0 < errors.length then some { input := input, errors := errors } else none)) := by
  have ha1 : ascii "# " = [35, 32] := rfl
  have ha2 : ascii "\n" = [10] := rfl
  have ha3 : ascii "\n\n" = [10, 10] := rfl
  constructor
  · intro c m entry N n hc hsrc hn
    obtain ⟨⟨x, hx, hxl⟩, hatt⟩ := isEntrySource_head m entry N hsrc
    have hx128 : x ≠ 35 ∧ x ≠ 32 ∧ x ≠ 10 ∧ x ≠ 13 := by
      rcases hxl with hxl | hxl
      · simp only [isLetter, Bool.or_eq_true, Bool.and_eq_true, decide_eq_true_eq] at hxl
        omega
      · omega
    have hmhead : ∀ y, m.head? = some y → y ≠ 32 ∧ y ≠ 10 ∧ y ≠ 13 := by
      intro y hy
      rw [hx] at hy
      injection hy with hy
      omega
    obtain ⟨n1, rfl⟩ : ∃ n1, n = n1 + 1 := ⟨n - 1, by omega⟩
    refine ⟨?_, ?_, hatt⟩
    · -- no blank line between the comment and the entry
      have hinput : ascii "# " ++ c ++ ascii "\n" ++ m = 35 :: 32 :: (c ++ 10 :: m) := by
        rw [ha1, ha2]; simp
      have hsplit : 35 :: 32 :: (c ++ 10 :: m) = (35 :: 32 :: (c ++ [10])) ++ m := by simp
      rw [hinput]
      obtain ⟨p0, q, hp0, hpos0, hq, hqAt, hqd⟩ := Parse_comment_first c m n1 hc
        (by rw [hx]; simp; omega) (by omega)
      obtain ⟨q2, hq2, hq2At⟩ := skipBlankBlock_none _ _ q n1
        (by rw [hqd]; exact hmhead) hqAt (by omega)
      obtain ⟨n2, rfl⟩ : ∃ n2, n1 = n2 + 1 := ⟨n1 - 1, by omega⟩
      unfold Parse parser.parse
      rw [bind_apply, hp0]
      simp only []
      rw [parseLoop_step (n2 + 1) _ [] [] none p0 q q2 _ 0 hpos0 hq hq2]
      simp only [if_true, Entry.asComment]
      rw [hsplit] at hq2At ⊢
      have hlenpre : (35 :: 32 :: (c ++ [10])).length = c.length + 3 := by simp
      rw [← hlenpre] at hq2At
      rw [parseLoop_entry_at_end _ m entry N hsrc q2 hq2At [] [] _ (n2 + 1) (by omega),
        commitEntry_entry [] _ entry hsrc.1]
      rfl
    · -- one blank line between the comment and the entry
      have hinput : ascii "# " ++ c ++ ascii "\n\n" ++ m = 35 :: 32 :: (c ++ 10 :: (10 :: m)) := by
        rw [ha1, ha3]; simp
      have hsplit : 35 :: 32 :: (c ++ 10 :: (10 :: m)) = (35 :: 32 :: (c ++ [10, 10])) ++ m := by
        simp
      rw [hinput]
      obtain ⟨p0, q, hp0, hpos0, hq, hqAt, hqd⟩ := Parse_comment_first c (10 :: m) n1 hc
        (by simp) (by omega)
      obtain ⟨q2, hq2, hq2At⟩ := skipBlankBlock_one _ m _ q n1 hqd hmhead hqAt (by omega)
      obtain ⟨n2, rfl⟩ : ∃ n2, n1 = n2 + 1 := ⟨n1 - 1, by omega⟩
      unfold Parse parser.parse
      rw [bind_apply, hp0]
      simp only []
      rw [parseLoop_step (n2 + 1) _ [] [] none p0 q q2 _ 1 hpos0 hq hq2]
      simp only [one_ne_zero, if_false]
      rw [hsplit] at hq2At ⊢
      have hlenpre : (35 :: 32 :: (c ++ [10, 10])).length = c.length + 3 + 1 := by simp
      rw [← hlenpre] at hq2At
      rw [parseLoop_entry_at_end _ m entry N hsrc q2 hq2At [] _ _ (n2 + 1) (by omega)]
      rfl
  · intro c input k p errors entries n hc hdrop hAt hn
    rw [ha1, ha2] at hdrop
    exact parseLoop_last_comment input c k p errors entries n hc (by simpa using hdrop) hAt hn

/-- The source `foo = Foo` is a well-formed source of its message. -/
theorem fooInput_isEntrySource : isEntrySource fooInput (Entry.message fooMessage) 16 := by
  refine ⟨Or.inl ⟨fooMessage, rfl⟩, ?_⟩
  intro n hn
  have hA := newParser_At fooInput (by decide)
  obtain ⟨q, hq, hqAt, hqd⟩ := parseEntry_simple_message fooInput [] (ascii "foo") (ascii "Foo")
    0 (newParser fooInput) n ⟨102, [111, 111], rfl, by decide, by decide⟩
    ⟨by decide, by decide, by decide, by decide⟩ rfl (by simp) hA
    (by
      have h1 : (ascii "foo").length = 3 := rfl
      have h2 : (ascii "Foo").length = 3 := rfl
      omega)
  obtain ⟨q2, hq2, hq2At⟩ := skipBlankBlock_none fooInput _ q n
    (by rw [hqd]; simp) hqAt (by omega)
  refine ⟨q, 0, q2, hq, hq2, ?_⟩
  rw [hq2At.1]
  decide

/-- C10 (witness): the third and fourth scenarios of the specification on the source
`foo = Foo`, and the comment `# x` alone in the input. -/
theorem C10_comment_attachment_witness :
    ((Parse 40 (ascii "# " ++ ascii "attached" ++ ascii "\n" ++ fooInput)).value =
          some ({ Body := [(Entry.message fooMessage).withComment
            { Content := ascii "attached" }] }, none) ∧
      (Parse 40 (ascii "# " ++ ascii "attached" ++ ascii "\n\n" ++ fooInput)).value =
          some ({ Body := [Entry.comment { Content := ascii "attached" },
            Entry.message fooMessage] }, none) ∧
      (Entry.message fooMessage).attached = none) ∧
    (parseLoop 20 (ascii "# x\n") [] [] none (newParser (ascii "# x\n"))).value =
        some ({ Body := [] ++ [Entry.comment { Content := ascii "x" }] },
          if 0 < ([] : List parseError).length then
            some { input := ascii "# x\n", errors := [] } else none) :=
  ⟨C10_comment_attachment.1 (ascii "attached") fooInput (Entry.message fooMessage) 16 40
      (by decide) fooInput_isEntrySource (by decide),
   C10_comment_attachment.2 (ascii "x") (ascii "# x\n") 0 (newParser (ascii "# x\n")) [] [] 20
      (by decide) rfl (newParser_At _ (by decide)) (by decide)⟩

/-! ## Cursors that fit the input

Every operation of the parser keeps the cursor fitting the input (`parser.OK`), does not move
it back, and reports a diagnostic at the position of the cursor. -/

theorem getD_drop (input : GoString) (k i : Nat) :
    (input.drop k).getD i 0 = input.getD (k + i) 0 := by
  simp [List.getD_eq_getElem?_getD, List.getElem?_drop]

theorem DecodeRune_span (s : GoString) :
    (DecodeRune s).2 ≤ s.length ∧ (s ≠ [] → 1 ≤ (DecodeRune s).2) ∧
      (∀ i, i + 1 < (DecodeRune s).2 → s.getD i 0 ≠ 10) ∧
      (∀ a, a < 128 → (DecodeRune s).1 = a → s ≠ [] ∧ s.getD 0 0 = a ∧ (DecodeRune s).2 = 1) ∧
      (s ≠ [] → s.getD 0 0 < 128 → DecodeRune s = (s.getD 0 0, 1)) := by
  cases s with
  | nil =>
    refine ⟨by simp [DecodeRune], by simp, by simp [DecodeRune], ?_, by simp⟩
    intro a ha h
    have h2 : RuneError = a := h
    simp only [RuneError] at h2
    omega
  | cons b rest =>
    by_cases hb : b < 128
    · rw [DecodeRune_ascii b rest hb]
      refine ⟨by simp, by simp, by simp, ?_, by simp⟩
      intro a _ h
      have h2 : b = a := h
      simp [h2]
    · obtain ⟨g1, g2, g3, g4⟩ := DecodeRune_high b rest (by omega)
      refine ⟨?_, fun _ => g2, ?_, ?_, ?_⟩
      · by_contra hc
        have hlen : rest.length + 1 < (DecodeRune (b :: rest)).2 := by simpa using hc
        obtain ⟨c, hc1, _⟩ := g4 rest.length hlen
        simp at hc1
      · intro i hi
        cases i with
        | zero => simp; omega
        | succ j =>
          obtain ⟨c, hc1, hc2⟩ := g4 j (by omega)
          rw [List.get?_eq_getElem?] at hc1
          rw [List.getD_eq_getElem?_getD, List.getElem?_cons_succ, hc1]
          simp only [Option.getD_some]
          omega
      · intro a ha h
        rw [h] at g1
        omega
      · intro _ h
        simp at h
        omega

theorem next_pos (input : GoString) (p : parser) :
    (next input p).pos = if input.length ≤ p.pos then p.pos else p.pos + p.w := by
  unfold next
  by_cases h1 : p.ch = 10 <;> by_cases h2 : input.length ≤ p.pos <;> simp [h1, h2]

theorem next_ch (input : GoString) (p : parser) :
    (next input p).ch =
      if input.length ≤ p.pos then eof else (DecodeRune (input.drop (p.pos + p.w))).1 := by
  unfold next
  by_cases h1 : p.ch = 10 <;> by_cases h2 : input.length ≤ p.pos <;> simp [h1, h2]

theorem next_w (input : GoString) (p : parser) :
    (next input p).w =
      if input.length ≤ p.pos then p.w else (DecodeRune (input.drop (p.pos + p.w))).2 := by
  unfold next
  by_cases h1 : p.ch = 10 <;> by_cases h2 : input.length ≤ p.pos <;> simp [h1, h2]

theorem Fresh_OK {input : GoString} {p : parser} (h : p.Fresh input) : p.OK input := by
  rcases h with h | h
  · exact Or.inl h
  · exact Or.inr (Or.inl h)

/-- A step of `next` from a cursor that fits the input: the new cursor agrees with the input or
is past the end, the position does not go back, and no byte that is passed over, the last one
apart, is a line feed. -/
theorem next_Fresh (input : GoString) (p : parser) (h : p.OK input) :
    (next input p).Fresh input ∧ p.pos ≤ (next input p).pos ∧
      (next input p).pos ≤ input.length ∧
      (∀ i, p.pos ≤ i → i + 1 < (next input p).pos → input.getD i 0 ≠ 10) ∧
      (p.ch < 128 → p.ch ≠ 10 → p.ch ≠ eof →
        (p.pos < input.length ∧ input.getD p.pos 0 = p.ch) ∧
        (∀ i, p.pos ≤ i → i < (next input p).pos → input.getD i 0 ≠ 10) ∧
        ((next input p).pos = p.pos → (next input p).ch = p.ch)) := by
  unfold parser.Fresh
  rw [next_pos, next_ch, next_w]
  rcases h with ⟨h1, h2⟩ | ⟨h1, h2, h3⟩ | ⟨h1, h2, h3, _, h4, h5⟩
  · obtain ⟨s1, s2, s3, s4, _⟩ := DecodeRune_span (input.drop p.pos)
    rw [h2] at s1 s2 s3 s4
    simp only [List.length_drop] at s1
    by_cases hlen : input.length ≤ p.pos
    · have hd : input.drop p.pos = [] := List.drop_eq_nil_of_le hlen
      rw [hd] at h2
      injection h2 with h3 h4
      simp only [hlen, if_true]
      refine ⟨Or.inr ⟨by omega, trivial, h4.symm⟩, le_refl _, h1, fun i _ _ => by omega, ?_⟩
      intro ha _ _
      have := (s4 p.ch ha rfl).1
      exact absurd hd this
    · simp only [hlen, if_false]
      have hne : input.drop p.pos ≠ [] := by
        intro hc
        have := List.drop_eq_nil_iff.1 hc
        omega
      have hw := s2 hne
      refine ⟨Or.inl ⟨by omega, trivial⟩, by omega, by omega, ?_, ?_⟩
      · intro i hi1 hi2
        have := s3 (i - p.pos) (by omega)
        rw [getD_drop] at this
        rwa [show p.pos + (i - p.pos) = i by omega] at this
      · intro ha h10 _
        obtain ⟨_, t2, t3⟩ := s4 p.ch ha rfl
        rw [getD_drop] at t2
        refine ⟨⟨by omega, t2⟩, ?_, fun hc => by omega⟩
        intro i hi1 hi2
        have : i = p.pos := by omega
        rw [this]
        simpa using (show input.getD (p.pos + 0) 0 ≠ 10 by rw [t2]; exact h10)
  · have hlen : input.length ≤ p.pos := by omega
    simp only [hlen, if_true]
    refine ⟨Or.inr ⟨h1, trivial, h3⟩, le_refl _, by omega, fun i _ _ => by omega, ?_⟩
    intro _ _ hc
    exact absurd h2 hc
  · have hlen : ¬ input.length ≤ p.pos := by omega
    simp only [hlen, if_false]
    refine ⟨Or.inl ⟨h4, trivial⟩, by omega, h4, fun i hi1 hi2 => h5 i hi1 (by omega), ?_⟩
    intro _ _ _
    refine ⟨⟨h1, h2⟩, h5, ?_⟩
    intro hc
    have hw : p.w = 0 := by omega
    rw [hw]
    obtain ⟨_, _, _, _, s5⟩ := DecodeRune_span (input.drop (p.pos + 0))
    have hne : input.drop (p.pos + 0) ≠ [] := by
      intro hc
      have := List.drop_eq_nil_iff.1 hc
      omega
    rw [getD_drop] at s5
    have := s5 hne (by rw [show p.pos + 0 + 0 = p.pos from rfl, h2]; exact h3)
    rw [this]
    simpa using h2

theorem ResFits_mono {α : Type} {input : GoString} {lo lo1 : Nat}
    {Post Post1 : α → parser → Prop} {r : Res α} (hlo : lo1 ≤ lo)
    (hpost : ∀ a q, Post a q → Post1 a q) (h : ResFits input lo Post r) :
    ResFits input lo1 Post1 r := by
  cases r with
  | ok a q => exact ⟨h.1, le_trans hlo h.2.1, hpost a q h.2.2⟩
  | err e q => exact ⟨h.1, le_trans hlo h.2.1, h.2.2⟩
  | panic m => trivial
  | fuel => trivial

theorem spec_bind {α β : Type} {input : GoString} {Pre : parser → Prop}
    {Mid : α → parser → Prop} {Post : β → parser → Prop} {x : P α} {f : α → P β}
    (hx : Spec input Pre Mid x) (hf : ∀ a, Spec input (Mid a) Post (f a)) :
    Spec input Pre Post (x >>= f) := by
  intro p hOK hpre
  have h := hx p hOK hpre
  rw [bind_apply]
  cases hxp : x p with
  | ok a q =>
    rw [hxp] at h
    exact ResFits_mono h.2.1 (fun _ _ hq => hq) (hf a q h.1 h.2.2)
  | err e q => rw [hxp] at h; exact h
  | panic m => trivial
  | fuel => trivial

theorem std_bind {α β : Type} {input : GoString} {x : P α} {f : α → P β}
    (hx : Std input x) (hf : ∀ a, Std input (f a)) : Std input (x >>= f) :=
  spec_bind hx hf

/-- The same with a postcondition that the first operation need not establish. -/
theorem spec_bind_std {α β : Type} {input : GoString} {Post : β → parser → Prop} {x : P α}
    {f : α → P β} (hx : Std input x) (hf : ∀ a, Spec input (fun _ => True) Post (f a)) :
    Spec input (fun _ => True) Post (x >>= f) :=
  spec_bind hx hf

theorem spec_weaken {α : Type} {input : GoString} {Pre Pre1 : parser → Prop}
    {Post Post1 : α → parser → Prop} {x : P α} (hx : Spec input Pre Post x)
    (hpre : ∀ p, Pre1 p → Pre p) (hpost : ∀ a q, Post a q → Post1 a q) :
    Spec input Pre1 Post1 x := fun p hOK h =>
  ResFits_mono (le_refl _) hpost (hx p hOK (hpre p h))

theorem spec_std {α : Type} {input : GoString} {Pre : parser → Prop}
    {Post : α → parser → Prop} {x : P α} (hx : Spec input (fun _ => True) Post x) :
    Spec input Pre (fun _ _ => True) x :=
  spec_weaken hx (fun _ _ => trivial) (fun _ _ _ => trivial)

theorem spec_pure {α : Type} {input : GoString} {Pre : parser → Prop}
    {Post : α → parser → Prop} {a : α} (h : ∀ p, Pre p → Post a p) :
    Spec input Pre Post (pure a) := fun p hOK hpre => ⟨hOK, le_refl _, h p hpre⟩

theorem std_pure {α : Type} (input : GoString) (a : α) : Std input (pure a : P α) :=
  spec_pure (fun _ _ => trivial)

theorem std_getP (input : GoString) : Std input getP := fun _ hOK _ => ⟨hOK, le_refl _, trivial⟩

theorem spec_failWith {α : Type} (input : GoString) (Pre : parser → Prop)
    (Post : α → parser → Prop) (m : errMessage) : Spec input Pre Post (failWith m) :=
  fun _ hOK _ => ⟨hOK, le_refl _, rfl⟩

theorem spec_fuel {α : Type} (input : GoString) (Pre : parser → Prop)
    (Post : α → parser → Prop) : Spec input Pre Post (fun _ => (Res.fuel : Res α)) :=
  fun _ _ _ => trivial

theorem spec_panic {α : Type} (input : GoString) (Pre : parser → Prop)
    (Post : α → parser → Prop) (m : String) :
    Spec input Pre Post (fun _ => (Res.panic m : Res α)) :=
  fun _ _ _ => trivial

theorem spec_ite {α : Type} {input : GoString} {Pre : parser → Prop}
    {Post : α → parser → Prop} {c : Prop} [Decidable c] {x y : P α}
    (hx : Spec input Pre Post x) (hy : Spec input Pre Post y) :
    Spec input Pre Post (if c then x else y) := by
  by_cases h : c
  · rw [if_pos h]; exact hx
  · rw [if_neg h]; exact hy

theorem spec_wrapErr {α : Type} {input : GoString} {Pre : parser → Prop}
    {Post : α → parser → Prop} {x : P α} (format : String) (hx : Spec input Pre Post x) :
    Spec input Pre Post (wrapErr format x) := by
  intro p hOK hpre
  have h := hx p hOK hpre
  unfold wrapErr
  cases hxp : x p with
  | ok a q => rw [hxp] at h; exact h
  | err e q => rw [hxp] at h; exact ⟨h.1, h.2.1, rfl⟩
  | panic m => trivial
  | fuel => trivial

theorem spec_replaceErr {α : Type} {input : GoString} {Pre : parser → Prop}
    {Post : α → parser → Prop} {x : P α} (m : errMessage) (hx : Spec input Pre Post x) :
    Spec input Pre Post (replaceErr m x) := by
  intro p hOK hpre
  have h := hx p hOK hpre
  unfold replaceErr
  cases hxp : x p with
  | ok a q => rw [hxp] at h; exact h
  | err e q => rw [hxp] at h; exact ⟨h.1, h.2.1, rfl⟩
  | panic m => trivial
  | fuel => trivial

theorem std_nextP (input : GoString) : Std input (nextP input) := fun p hOK _ =>
  ⟨Fresh_OK (next_Fresh input p hOK).1, (next_Fresh input p hOK).2.1, trivial⟩

theorem std_skipEOL (input : GoString) : Std input (skipEOL input) := by
  intro p hOK _
  unfold skipEOL
  have h1 := next_Fresh input p hOK
  have h2 := next_Fresh input _ (Fresh_OK h1.1)
  split_ifs
  · exact ⟨Fresh_OK h1.1, h1.2.1, trivial⟩
  · exact ⟨Fresh_OK h2.1, le_trans h1.2.1 h2.2.1, trivial⟩
  · exact ⟨hOK, le_refl _, trivial⟩

/-- The loops that pass over a run of one ASCII character `a` (spaces, number signs): the
cursor they leave fits the input, and so does the cursor with the position and rune of the start
and the width of the end. -/
theorem run_exit (input : GoString) (a : Nat) (ha : a < 128) (_ : a ≠ 10) (ha0 : a ≠ eof)
    (ha32 : a = 32 ∨ a = 35) (p q : parser) (hOK : p.OK input) (hch : p.ch = a)
    (hq : q.Fresh input) (hpq : (next input p).pos ≤ q.pos)
    (hnl : ∀ i, (next input p).pos ≤ i → i < q.pos → input.getD i 0 ≠ 10)
    (hsame : q.pos = p.pos → q.ch = a) (hqa : q.ch ≠ a) :
    q.OK input ∧ p.pos ≤ q.pos ∧ CursorOK input p.pos p.ch q.w := by
  obtain ⟨_, h2, _, _, h5⟩ := next_Fresh input p hOK
  obtain ⟨⟨g1, g2⟩, g3, _⟩ := h5 (by omega) (by omega) (by omega)
  have hlt : p.pos < q.pos := by
    rcases Nat.lt_or_ge p.pos q.pos with h | h
    · exact h
    · exact absurd (hsame (by omega)) hqa
  refine ⟨Fresh_OK hq, by omega, Or.inr (Or.inr ⟨g1, g2, by omega, by omega, ?_, ?_⟩)⟩
  · rcases hq with ⟨_, e2⟩ | ⟨e1, _, e3⟩
    · have := (DecodeRune_span (input.drop q.pos)).1
      rw [e2, List.length_drop] at this
      simp only at this
      omega
    · omega
  · intro i hi1 hi2
    by_cases hin : i < (next input p).pos
    · exact g3 i hi1 hin
    · by_cases hiq : i < q.pos
      · exact hnl i (by omega) hiq
      · rcases hq with ⟨_, e2⟩ | ⟨e1, _, e3⟩
        · have := (DecodeRune_span (input.drop q.pos)).2.2.1 (i - q.pos) (by rw [e2]; simp only; omega)
          rw [getD_drop] at this
          rwa [show q.pos + (i - q.pos) = i by omega] at this
        · omega

theorem Run_first (input : GoString) (a : Nat) (ha : a < 128) (ha10 : a ≠ 10) (ha0 : a ≠ eof)
    (p : parser) (hOK : p.OK input) (hch : p.ch = a) : Run input a p (next input p) := by
  obtain ⟨h1, _, _, _, h5⟩ := next_Fresh input p hOK
  obtain ⟨_, _, g3⟩ := h5 (by omega) (by omega) (by omega)
  exact ⟨h1, le_refl _, fun i _ _ => by omega, fun h => by rw [g3 h, hch]⟩

theorem Run_next (input : GoString) (a : Nat) (ha : a < 128) (ha10 : a ≠ 10) (ha0 : a ≠ eof)
    (p r : parser) (hOK : p.OK input) (hr : Run input a p r) (hch : r.ch = a) :
    Run input a p (next input r) := by
  obtain ⟨r1, r2, r3, r4⟩ := hr
  obtain ⟨h1, h2, _, _, h5⟩ := next_Fresh input r (Fresh_OK r1)
  obtain ⟨_, g2, g3⟩ := h5 (by omega) (by omega) (by omega)
  have hp := (next_Fresh input p hOK).2.1
  refine ⟨h1, by omega, ?_, ?_⟩
  · intro i hi1 hi2
    by_cases hir : i < r.pos
    · exact r3 i hi1 hir
    · exact g2 i (by omega) hi2
  · intro h
    rw [g3 (by omega), hch]

theorem Run_exit (input : GoString) (a : Nat) (ha : a < 128) (ha10 : a ≠ 10) (ha0 : a ≠ eof)
    (ha32 : a = 32 ∨ a = 35) (p q : parser) (hOK : p.OK input) (hch : p.ch = a)
    (hq : Run input a p q) (hqa : q.ch ≠ a) :
    q.OK input ∧ p.pos ≤ q.pos ∧ CursorOK input p.pos p.ch q.w :=
  run_exit input a ha ha10 ha0 ha32 p q hOK hch hq.1 hq.2.1 hq.2.2.1 hq.2.2.2 hqa

theorem skipBlankInlineLoop_Run (input : GoString) (p : parser) (hOK : p.OK input) :
    ∀ (n : Nat) (r : parser), Run input 32 p r →
      match skipBlankInlineLoop n input r with
      | Res.ok _ q => Run input 32 p q ∧ q.ch ≠ 32
      | Res.err _ _ => False
      | _ => True := by
  intro n
  induction n with
  | zero => intro r _; trivial
  | succ n ih =>
    intro r hr
    rw [skipBlankInlineLoop]
    by_cases h : r.ch = 32
    · simp only [h, if_true]
      exact ih _ (Run_next input 32 (by decide) (by decide) (by decide) p r hOK hr h)
    · simp only [h, if_false]
      exact ⟨hr, h⟩

theorem skipBlankInlineLoop_run (input : GoString) (n : Nat) (p : parser) (hOK : p.OK input) :
    RunRes input p (fun q => q.ch ≠ 32 ∧ (p.ch ≠ 32 → q = p)) (skipBlankInlineLoop n input p) := by
  cases n with
  | zero => trivial
  | succ n =>
    rw [skipBlankInlineLoop]
    by_cases h : p.ch = 32
    · simp only [h, if_true]
      have h1 := skipBlankInlineLoop_Run input p hOK n _
        (Run_first input 32 (by decide) (by decide) (by decide) p hOK h)
      cases hx : skipBlankInlineLoop n input (next input p) with
      | ok u q =>
        rw [hx] at h1
        obtain ⟨g1, g2, g3⟩ := Run_exit input 32 (by decide) (by decide) (by decide)
          (Or.inl rfl) p q hOK h
          h1.1 h1.2
        exact ⟨g1, g2, g3, h1.2, fun hc => absurd rfl hc⟩
      | err e q => rw [hx] at h1; exact h1
      | panic m => trivial
      | fuel => trivial
    · simp only [h, if_false]
      exact ⟨hOK, le_refl _, hOK, h, fun _ => rfl⟩

theorem skipBlankInline_run (input : GoString) (n : Nat) (p : parser) (hOK : p.OK input) :
    RunRes input p (fun q => q.ch ≠ 32 ∧ (p.ch ≠ 32 → q = p)) (skipBlankInline n input p) := by
  have h := skipBlankInlineLoop_run input n p hOK
  unfold skipBlankInline
  rw [getP_bind, bind_apply]
  cases hx : skipBlankInlineLoop n input p with
  | ok u q => rw [hx] at h; exact h
  | err e q => rw [hx] at h; exact h
  | panic m => trivial
  | fuel => trivial

theorem RunRes_fits {α : Type} {input : GoString} {p : parser} {Q : parser → Prop}
    {r : Res α} (h : RunRes input p Q r) : ResFits input p.pos (fun _ q => Q q) r := by
  cases r with
  | ok a q => exact ⟨h.1, h.2.1, h.2.2.2⟩
  | err e q => exact absurd h id
  | panic m => trivial
  | fuel => trivial

theorem skipBlankInline_spec (input : GoString) (n : Nat) :
    Spec input (fun _ => True) (fun _ q => q.ch ≠ 32) (skipBlankInline n input) :=
  fun p hOK _ => ResFits_mono (le_refl _) (fun _ _ h => h.1)
    (RunRes_fits (skipBlankInline_run input n p hOK))

theorem std_skipBlankInline (input : GoString) (n : Nat) : Std input (skipBlankInline n input) :=
  spec_std (skipBlankInline_spec input n)

theorem parseCommentLevelLoop_Run (input : GoString) (p : parser) (hOK : p.OK input) :
    ∀ (n level : Nat) (r : parser), Run input 35 p r →
      match parseCommentLevelLoop n input level r with
      | Res.ok _ q => Run input 35 p q ∧ q.ch ≠ 35
      | Res.err _ _ => False
      | _ => True := by
  intro n
  induction n with
  | zero => intro level r _; trivial
  | succ n ih =>
    intro level r hr
    rw [parseCommentLevelLoop]
    by_cases h : r.ch = 35
    · have h0 : r.ch ≠ eof := by rw [h]; decide
      simp only [h0, h, ne_eq, not_true_eq_false, not_false_eq_true, if_true, if_false]
      exact ih _ _ (Run_next input 35 (by decide) (by decide) (by decide) p r hOK hr h)
    · by_cases h0 : r.ch = eof
      · simp only [h0, ne_eq, not_true_eq_false, if_false]
        exact ⟨hr, by rw [← h0]; exact h⟩
      · simp only [h0, h, ne_eq, not_false_eq_true, if_true]
        exact ⟨hr, trivial⟩

theorem parseCommentLevel_run (input : GoString) (n : Nat) (p : parser) (hOK : p.OK input) :
    RunRes input p (fun _ => True) (parseCommentLevel n input p) := by
  unfold parseCommentLevel
  cases n with
  | zero => trivial
  | succ n =>
    rw [parseCommentLevelLoop]
    by_cases h : p.ch = 35
    · have h0 : p.ch ≠ eof := by rw [h]; decide
      simp only [h0, h, ne_eq, not_true_eq_false, not_false_eq_true, if_true, if_false]
      have h1 := parseCommentLevelLoop_Run input p hOK n (0 + 1) _
        (Run_first input 35 (by decide) (by decide) (by decide) p hOK h)
      cases hx : parseCommentLevelLoop n input (0 + 1) (next input p) with
      | ok u q =>
        rw [hx] at h1
        obtain ⟨g1, g2, g3⟩ := Run_exit input 35 (by decide) (by decide) (by decide)
          (Or.inr rfl) p q hOK h
          h1.1 h1.2
        exact ⟨g1, g2, g3, trivial⟩
      | err e q => rw [hx] at h1; exact h1
      | panic m => trivial
      | fuel => trivial
    · by_cases h0 : p.ch = eof
      · simp only [h0, ne_eq, not_true_eq_false, if_false]
        exact ⟨hOK, le_refl _, hOK, trivial⟩
      · simp only [h0, h, ne_eq, not_false_eq_true, if_true]
        exact ⟨hOK, le_refl _, hOK, trivial⟩

theorem skipEOL_cases (input : GoString) (p : parser) (hOK : p.OK input) :
    (skipEOL input p = Res.ok false p ∧ isEOL input p = false) ∨
      (∃ q, skipEOL input p = Res.ok true q ∧ q.OK input ∧ p.pos ≤ q.pos ∧
        isEOL input p = true) := by
  have h1 := next_Fresh input p hOK
  have h2 := next_Fresh input _ (Fresh_OK h1.1)
  unfold skipEOL isEOL
  by_cases h10 : p.ch = 10
  · right
    exact ⟨_, by simp [h10], Fresh_OK h1.1, h1.2.1, by simp [h10]⟩
  · by_cases h13 : p.ch = 13 ∧ peek input p = 10
    · right
      exact ⟨_, by simp [h10, h13], Fresh_OK h2.1, le_trans h1.2.1 h2.2.1, by simp [h13]⟩
    · left
      refine ⟨by simp [h10, h13], ?_⟩
      simp only [not_and] at h13
      simp only [Bool.or_eq_false_iff, Bool.and_eq_false_imp, beq_iff_eq, beq_eq_false_iff_ne]
      exact ⟨h10, h13⟩

theorem isEOL_of_ch (input : GoString) (p : parser) (h10 : p.ch ≠ 10) (h13 : p.ch ≠ 13) :
    isEOL input p = false := by
  simp [isEOL, h10, h13]

/-- The loop of `skipBlankBlock` leaves a cursor that fits the input; from a rune that is no
space and does not end a line the rune stays. -/
theorem skipBlankBlockLoop_fits (input : GoString) : ∀ (n count : Nat) (p : parser),
    p.OK input →
    ResFits input p.pos
      (fun _ q => p.ch ≠ 32 → isEOL input p = false → q.ch = p.ch ∧ q.pos = p.pos)
      (skipBlankBlockLoop n input count p) := by
  intro n
  induction n with
  | zero => intro count p _; trivial
  | succ n ih =>
    intro count p hOK
    rw [skipBlankBlockLoop, getP_bind, bind_apply]
    have h := skipBlankInline_run input n p hOK
    cases hx : skipBlankInline n input p with
    | ok m q =>
      rw [hx] at h
      obtain ⟨g1, g2, g3, g4, g5⟩ := h
      simp only []
      rw [bind_apply]
      rcases skipEOL_cases input q g1 with ⟨e1, e2⟩ | ⟨q1, e1, e2, e3, e4⟩
      · rw [e1]
        simp only [Bool.false_eq_true, if_false]
        rw [getP_bind, setP_bind, pure_apply]
        exact ⟨g3, le_refl _, fun _ _ => ⟨rfl, rfl⟩⟩
      · rw [e1]
        simp only [if_true]
        refine ResFits_mono (le_trans g2 e3) ?_ (ih (count + 1) q1 e2)
        intro _ r _ hc1 hc2
        rw [g5 hc1, hc2] at e4
        exact absurd e4 (by decide)
    | err e q => rw [hx] at h; exact absurd h id
    | panic m => trivial
    | fuel => trivial

theorem std_skipBlankBlock (input : GoString) (n : Nat) : Std input (skipBlankBlock n input) :=
  fun p hOK _ => ResFits_mono (le_refl _) (fun _ _ _ => trivial)
    (skipBlankBlockLoop_fits input n 0 p hOK)

theorem skipBlankBlock_spec (input : GoString) (n : Nat) :
    Spec input (fun p => p.ch ≠ 32 ∧ isEOL input p = false) (fun _ q => q.ch ≠ 32)
      (skipBlankBlock n input) :=
  fun p hOK hpre => ResFits_mono (le_refl _)
    (fun _ _ h => by rw [(h hpre.1 hpre.2).1]; exact hpre.1)
    (skipBlankBlockLoop_fits input n 0 p hOK)

theorem std_skipBlank (input : GoString) : ∀ n, Std input (skipBlank n input) := by
  intro n
  induction n with
  | zero => exact spec_fuel _ _ _
  | succ n ih =>
    rw [skipBlank]
    refine std_bind (std_skipBlankInline input n) (fun _ => ?_)
    refine std_bind (std_skipEOL input) (fun eol => ?_)
    exact spec_ite ih (std_pure _ _)

theorem fits_next {α : Type} {input : GoString} {p : parser} {Post : α → parser → Prop}
    {x : P α} (hOK : p.OK input) (hx : Std input x) (hpost : ∀ a q, Post a q) :
    ResFits input p.pos Post (x (next input p)) :=
  ResFits_mono (next_Fresh input p hOK).2.1 (fun a q _ => hpost a q)
    (hx (next input p) (Fresh_OK (next_Fresh input p hOK).1) trivial)

theorem std_skipUnicodeEscapeSequenceLoop (input : GoString) : ∀ n need taken,
    Std input (skipUnicodeEscapeSequenceLoop n input need taken) := by
  intro n
  induction n with
  | zero => intro _ _; exact spec_fuel _ _ _
  | succ n ih =>
    intro need taken p hOK _
    rw [skipUnicodeEscapeSequenceLoop]
    dsimp only
    split_ifs
    · exact ⟨hOK, le_refl _, trivial⟩
    · exact ⟨hOK, le_refl _, trivial⟩
    · exact fits_next hOK (ih _ _) (fun _ _ => trivial)
    · exact ⟨hOK, le_refl _, trivial⟩

theorem std_skipUnicodeEscapeSequence (input : GoString) (n : Nat) :
    Std input (skipUnicodeEscapeSequence n input) := by
  unfold skipUnicodeEscapeSequence
  repeat' (first
    | exact std_getP _ | exact std_nextP _ | exact std_pure _ _ | exact spec_failWith _ _ _ _
    | exact std_skipUnicodeEscapeSequenceLoop _ _ _ _ | refine spec_ite ?_ ?_
    | refine std_bind ?_ (fun _ => ?_))

theorem std_skipDigitsLoop (input : GoString) : ∀ n count,
    Std input (skipDigitsLoop n input count) := by
  intro n
  induction n with
  | zero => intro _; exact spec_fuel _ _ _
  | succ n ih =>
    intro count p hOK _
    rw [skipDigitsLoop]
    dsimp only
    split_ifs
    · exact fits_next hOK (ih _) (fun _ _ => trivial)
    · exact ⟨hOK, le_refl _, trivial⟩

theorem std_skipDigits (input : GoString) (n : Nat) : Std input (skipDigits n input) :=
  std_skipDigitsLoop input n 0

theorem std_parseIdentifierLoop (input : GoString) : ∀ n,
    Std input (parseIdentifierLoop n input) := by
  intro n
  induction n with
  | zero => exact spec_fuel _ _ _
  | succ n ih =>
    intro p hOK _
    rw [parseIdentifierLoop]
    dsimp only
    have h := next_Fresh input p hOK
    split_ifs
    · exact ⟨Fresh_OK h.1, h.2.1, trivial⟩
    · exact fits_next hOK ih (fun _ _ => trivial)
    · exact ⟨hOK, le_refl _, trivial⟩

theorem std_parseIdentifier (input : GoString) (n : Nat) :
    Std input (parseIdentifier n input) := by
  unfold parseIdentifier
  repeat' (first
    | exact std_getP _ | exact std_nextP _ | exact std_pure _ _ | exact spec_failWith _ _ _ _
    | exact std_parseIdentifierLoop _ _ | refine spec_ite ?_ ?_
    | refine std_bind ?_ (fun _ => ?_))

theorem std_parseNumberLiteral (input : GoString) (n : Nat) :
    Std input (parseNumberLiteral n input) := by
  unfold parseNumberLiteral
  repeat' (first
    | exact std_getP _ | exact std_nextP _ | exact std_pure _ _ | exact spec_failWith _ _ _ _
    | exact std_skipDigits _ _ | refine spec_ite ?_ ?_
    | refine std_bind ?_ (fun _ => ?_))

theorem std_parseStringLiteralLoop (input : GoString) : ∀ n,
    Std input (parseStringLiteralLoop n input) := by
  intro n
  induction n with
  | zero => exact spec_fuel _ _ _
  | succ n ih =>
    rw [parseStringLiteralLoop]
    repeat' (first
      | exact std_getP _ | exact std_nextP _ | exact std_pure _ _ | exact spec_failWith _ _ _ _
      | exact std_skipUnicodeEscapeSequence _ _ | exact ih | refine spec_ite ?_ ?_
      | refine std_bind ?_ (fun _ => ?_))

theorem std_parseStringLiteral (input : GoString) (n : Nat) :
    Std input (parseStringLiteral n input) := by
  unfold parseStringLiteral
  repeat' (first
    | exact std_getP _ | exact std_nextP _ | exact std_pure _ _ | exact spec_failWith _ _ _ _
    | exact std_parseStringLiteralLoop _ _ | refine spec_ite ?_ ?_
    | refine std_bind ?_ (fun _ => ?_))

theorem std_parseLiteral (input : GoString) (n : Nat) : Std input (parseLiteral n input) := by
  unfold parseLiteral
  repeat' (first
    | exact std_getP _ | exact std_nextP _ | exact std_pure _ _ | exact spec_failWith _ _ _ _
    | exact std_parseNumberLiteral _ _ | exact std_parseStringLiteral _ _ | refine spec_ite ?_ ?_
    | refine std_bind ?_ (fun _ => ?_))

theorem std_parseTextElementLoop (input : GoString) : ∀ n,
    Std input (parseTextElementLoop n input) := by
  intro n
  induction n with
  | zero => exact spec_fuel _ _ _
  | succ n ih =>
    intro p hOK _
    rw [parseTextElementLoop]
    dsimp only
    split_ifs
    · exact ⟨hOK, le_refl _, trivial⟩
    · exact ⟨hOK, le_refl _, trivial⟩
    · exact ⟨hOK, le_refl _, rfl⟩
    · exact fits_next hOK ih (fun _ _ => trivial)
    · exact ⟨hOK, le_refl _, trivial⟩

theorem std_parseTextElement (input : GoString) (n : Nat) :
    Std input (parseTextElement n input) := by
  unfold parseTextElement
  repeat' (first
    | exact std_getP _ | exact std_nextP _ | exact std_pure _ _ | exact spec_failWith _ _ _ _
    | exact std_parseTextElementLoop _ _ | refine spec_ite ?_ ?_
    | refine std_bind ?_ (fun _ => ?_))

theorem std_parseVariantKey (input : GoString) (n : Nat) :
    Std input (parseVariantKey n input) := by
  unfold parseVariantKey
  repeat' (first
    | exact std_getP _ | exact std_nextP _ | exact std_pure _ _ | exact spec_failWith _ _ _ _
    | exact std_parseNumberLiteral _ _ | exact std_parseIdentifier _ _
    | exact std_skipBlank _ _ | refine spec_ite ?_ ?_
    | refine std_bind ?_ (fun _ => ?_))

theorem parsePatternIndent_spec (input : GoString) (n commonIndent : Nat) :
    Spec input (fun _ => True) (fun m q => m = none → q.ch ≠ 32 ∧ isEOL input q = false)
      (parsePatternIndent n input commonIndent) := by
  intro p hOK _
  unfold parsePatternIndent
  rw [getP_bind, bind_apply]
  have h := skipBlankInline_run input n p hOK
  cases hx : skipBlankInline n input p with
  | ok indent q =>
    rw [hx] at h
    obtain ⟨g1, g2, g3, g4, _⟩ := h
    simp only []
    rw [getP_bind]
    by_cases c1 : indent = 0 ∧ isEOL input q = false
    · rw [if_pos c1]
      exact ⟨g1, g2, fun _ => ⟨g4, c1.2⟩⟩
    · rw [if_neg c1]
      by_cases c2 : q.ch = 91 ∨ q.ch = 42 ∨ q.ch = 46
      · rw [if_pos c2]
        exact ⟨g1, g2, fun _ => ⟨g4, isEOL_of_ch input q (by omega) (by omega)⟩⟩
      · rw [if_neg c2, setP_bind, pure_apply]
        exact ⟨g3, le_refl _, fun hc => by simp at hc⟩
  | err e q => rw [hx] at h; exact absurd h id
  | panic m => trivial
  | fuel => trivial

/-- The measure of the indent when the pattern is in block mode, else the indent as it is: where
the loop of `parsePattern` is left, the rune is no space and does not end a line. -/
theorem parsePatternIndent_or (input : GoString) (n : Nat) (st : patternVars) (eol : Bool) :
    Spec input (fun _ => True) (fun m q => m = none → q.ch ≠ 32 ∧ isEOL input q = false)
      (if (st.block || eol) = true then parsePatternIndent n input st.commonIndent
        else pure (some st.commonIndent)) :=
  spec_ite (parsePatternIndent_spec input n st.commonIndent)
    (spec_pure (fun _ _ hc => by simp at hc))

theorem pattern_fits (input : GoString) : ∀ n,
    (∀ st, Spec input (fun _ => True) (AfterPattern input) (parsePatternLoop n input st)) ∧
    Spec input (fun _ => True) (AfterPattern input) (parsePattern n input) ∧
    Std input (parsePlaceable n input) ∧
    Std input (parseExpression n input) ∧
    Std input (parseInlineExpression n input) ∧
    (∀ a b c, Std input (parseCallArgumentsLoop n input a b c)) ∧
    Std input (parseCallArguments n input) ∧
    (∀ vs d, Std input (parseVariantsLoop n input vs d)) ∧
    Std input (parseVariants n input) := by
  intro n
  induction n with
  | zero =>
    refine ⟨fun _ => ?_, ?_, ?_, ?_, ?_, fun _ _ _ => ?_, ?_, fun _ _ => ?_, ?_⟩
    · rw [parsePatternLoop]; exact spec_fuel _ _ _
    · rw [parsePattern]; exact spec_fuel _ _ _
    · rw [parsePlaceable]; exact spec_fuel _ _ _
    · rw [parseExpression]; exact spec_fuel _ _ _
    · rw [parseInlineExpression]; exact spec_fuel _ _ _
    · rw [parseCallArgumentsLoop]; exact spec_fuel _ _ _
    · rw [parseCallArguments]; exact spec_fuel _ _ _
    · rw [parseVariantsLoop]; exact spec_fuel _ _ _
    · rw [parseVariants]; exact spec_fuel _ _ _
  | succ n ih =>
    obtain ⟨ihPL, ihP, ihPl, ihE, ihIE, ihCAL, ihCA, ihVL, ihV⟩ := ih
    have ihP1 : Std input (parsePattern n input) := spec_std ihP
    refine ⟨fun st => ?_, ?_, ?_, ?_, ?_, fun positional named names => ?_, ?_,
      fun vs d => ?_, ?_⟩
    · -- parsePatternLoop
      intro p hOK _
      rw [parsePatternLoop, getP_bind]
      by_cases h : p.ch = eof
      · rw [if_pos h, pure_apply]
        exact ⟨hOK, le_refl _, by rw [h]; decide,
          isEOL_of_ch input p (by rw [h]; decide) (by rw [h]; decide)⟩
      · rw [if_neg h]
        refine (?_ : Spec input (fun _ => True) (AfterPattern input) _) p hOK trivial
        refine spec_bind_std (std_skipEOL input) (fun eol => ?_)
        refine spec_bind_std (std_getP input) (fun p1 => ?_)
        refine spec_ite ?_ ?_
        · exact spec_bind_std ihPl (fun _ => ihPL _)
        · refine spec_bind (parsePatternIndent_or input n st eol) (fun m => ?_)
          cases m with
          | none => exact spec_pure (fun q hq => hq rfl)
          | some ci => exact spec_bind (spec_std (std_parseTextElement input n)) (fun _ => ihPL _)
    · -- parsePattern
      rw [parsePattern]
      refine spec_bind_std (std_skipBlankInline input n) (fun _ => ?_)
      refine spec_bind_std (std_skipEOL input) (fun eol => ?_)
      refine spec_bind_std (spec_ite (std_skipBlankBlock input n) (std_pure _ _)) (fun _ => ?_)
      refine spec_bind (ihPL _) (fun st => ?_)
      exact spec_ite (spec_pure (fun _ h => h)) (spec_pure (fun _ h => h))
    · -- parsePlaceable
      rw [parsePlaceable]
      repeat' (first
        | exact std_getP _ | exact std_nextP _ | exact std_pure _ _
        | exact spec_failWith _ _ _ _ | exact std_skipBlank _ _ | exact std_skipBlankInline _ _
        | assumption | refine spec_ite ?_ ?_ | refine std_bind ?_ (fun _ => ?_))
    · -- parseExpression
      rw [parseExpression]
      repeat' (first
        | exact std_getP _ | exact std_nextP _ | exact std_pure _ _
        | exact spec_failWith _ _ _ _ | exact std_skipBlank _ _ | exact std_skipBlankInline _ _
        | exact std_skipEOL _
        | assumption | refine spec_ite ?_ ?_ | refine spec_wrapErr _ ?_
        | refine std_bind ?_ (fun _ => ?_) | split)
    · -- parseInlineExpression
      rw [parseInlineExpression]
      repeat' (first
        | exact std_getP _ | exact std_nextP _ | exact std_pure _ _
        | exact spec_failWith _ _ _ _ | exact std_skipBlank _ _
        | exact std_parseStringLiteral _ _ | exact std_parseNumberLiteral _ _
        | exact std_parseIdentifier _ _
        | assumption | refine spec_ite ?_ ?_
        | refine std_bind ?_ (fun _ => ?_))
    · -- parseCallArgumentsLoop
      rw [parseCallArgumentsLoop]
      repeat' (first
        | exact std_getP _ | exact std_nextP _ | exact std_pure _ _
        | exact spec_failWith _ _ _ _ | exact std_skipBlank _ _
        | exact std_parseLiteral _ _ | exact ihCAL _ _ _
        | assumption | refine spec_ite ?_ ?_
        | refine std_bind ?_ (fun _ => ?_) | split)
    · -- parseCallArguments
      rw [parseCallArguments]
      repeat' (first
        | exact std_getP _ | exact std_nextP _ | exact std_pure _ _
        | exact spec_failWith _ _ _ _ | exact std_skipBlank _ _
        | exact ihCAL _ _ _
        | assumption | refine spec_ite ?_ ?_
        | refine std_bind ?_ (fun _ => ?_))
    · -- parseVariantsLoop
      rw [parseVariantsLoop]
      repeat' (first
        | exact std_getP _ | exact std_nextP _ | exact std_pure _ _
        | exact spec_failWith _ _ _ _ | exact std_skipBlank _ _
        | exact std_parseVariantKey _ _ | exact ihVL _ _
        | assumption | refine spec_ite ?_ ?_ | refine spec_wrapErr _ ?_
        | refine std_bind ?_ (fun _ => ?_))
    · -- parseVariants
      rw [parseVariants]
      repeat' (first
        | exact std_getP _ | exact std_nextP _ | exact std_pure _ _
        | exact spec_failWith _ _ _ _ | exact ihVL _ _
        | assumption | refine spec_ite ?_ ?_
        | refine std_bind ?_ (fun _ => ?_))

theorem parsePattern_spec (input : GoString) (n : Nat) :
    Spec input (fun _ => True) (AfterPattern input) (parsePattern n input) :=
  (pattern_fits input n).2.1

theorem parseAttribute_spec (input : GoString) (n : Nat) :
    Spec input (fun _ => True) (AfterPattern input) (parseAttribute n input) := by
  unfold parseAttribute
  refine spec_bind_std (std_nextP input) (fun _ => ?_)
  refine spec_bind_std (std_parseIdentifier input n) (fun _ => ?_)
  refine spec_bind_std (std_skipBlankInline input n) (fun _ => ?_)
  refine spec_bind_std (std_getP input) (fun _ => ?_)
  refine spec_ite (spec_failWith _ _ _ _) ?_
  refine spec_bind_std (std_nextP input) (fun _ => ?_)
  refine spec_bind_std (std_skipBlankInline input n) (fun _ => ?_)
  exact spec_bind (parsePattern_spec input n) (fun _ => spec_pure (fun _ h => h))

/-- The loop of `parseAttributes` from a rune that is no space: putting back the position alone
changes nothing, as no space has been passed over. -/
theorem parseAttributesLoop_spec (input : GoString) : ∀ n attributes,
    Spec input (fun p => p.ch ≠ 32) (fun _ _ => True) (parseAttributesLoop n input attributes) := by
  intro n
  induction n with
  | zero => intro _; exact spec_fuel _ _ _
  | succ n ih =>
    intro attributes p hOK hpre
    rw [parseAttributesLoop, getP_bind]
    by_cases h : p.ch = eof
    · rw [if_pos h, pure_apply]
      exact ⟨hOK, le_refl _, trivial⟩
    · rw [if_neg h, bind_apply]
      have hr := skipBlankInline_run input n p hOK
      cases hx : skipBlankInline n input p with
      | ok m q =>
        rw [hx] at hr
        obtain ⟨_, _, _, _, g5⟩ := hr
        have hq : q = p := g5 hpre
        subst hq
        simp only []
        rw [getP_bind]
        by_cases h46 : q.ch ≠ 46
        · rw [if_pos h46, setP_bind, pure_apply]
          exact ⟨hOK, le_refl _, trivial⟩
        · rw [if_neg h46]
          exact (spec_bind (parseAttribute_spec input n)
            (fun attr => spec_weaken (ih (attributes ++ [attr])) (fun _ hc => hc.1)
              (fun _ _ hc => hc))) q hOK trivial
      | err e q => rw [hx] at hr; exact absurd hr id
      | panic m => trivial
      | fuel => trivial

theorem parseAttributes_spec (input : GoString) (n : Nat) :
    Spec input (fun p => p.ch ≠ 32) (fun _ _ => True) (parseAttributes n input) :=
  parseAttributesLoop_spec input n []

/-- What follows the value in `parseMessage` and `parseTerm`: the value ends before a rune that
is no space and does not end a line, `skipBlankBlock` leaves that rune, and `parseAttributes`
starts from it. -/
theorem std_pattern_attributes {β : Type} (input : GoString) (n : Nat)
    (f : Pattern → List Attribute → P β) (hf : ∀ a b, Std input (f a b)) :
    Std input (do
      let pattern ← parsePattern n input
      let _ ← skipBlankBlock n input
      let attributes ← parseAttributes n input
      f pattern attributes) := by
  refine spec_bind (parsePattern_spec input n) (fun pattern => ?_)
  refine spec_bind (skipBlankBlock_spec input n) (fun _ => ?_)
  exact spec_bind (parseAttributes_spec input n) (fun attributes => hf pattern attributes)

theorem std_parseMessage (input : GoString) (n : Nat) : Std input (parseMessage n input) := by
  unfold parseMessage
  refine std_bind (std_parseIdentifier input n) (fun _ => ?_)
  refine std_bind (std_skipBlankInline input n) (fun _ => ?_)
  refine std_bind (std_getP input) (fun _ => ?_)
  refine spec_ite (spec_failWith _ _ _ _) ?_
  refine std_bind (std_nextP input) (fun _ => ?_)
  refine std_pattern_attributes input n _ (fun _ _ => ?_)
  exact spec_ite (spec_failWith _ _ _ _) (std_pure _ _)

theorem std_parseTerm (input : GoString) (n : Nat) : Std input (parseTerm n input) := by
  unfold parseTerm
  refine std_bind (std_getP input) (fun _ => ?_)
  refine spec_ite (spec_failWith _ _ _ _) ?_
  refine std_bind (std_nextP input) (fun _ => ?_)
  refine std_bind (spec_replaceErr _ (std_parseIdentifier input n)) (fun _ => ?_)
  refine std_bind (std_skipBlankInline input n) (fun _ => ?_)
  refine std_bind (std_getP input) (fun _ => ?_)
  refine spec_ite (spec_failWith _ _ _ _) ?_
  refine std_bind (std_nextP input) (fun _ => ?_)
  refine std_bind (std_skipBlankInline input n) (fun _ => ?_)
  exact std_pattern_attributes input n _ (fun _ _ => std_pure _ _)

theorem std_parseCommentLineLoop (input : GoString) : ∀ n,
    Std input (parseCommentLineLoop n input) := by
  intro n
  induction n with
  | zero => exact spec_fuel _ _ _
  | succ n ih =>
    intro p hOK _
    rw [parseCommentLineLoop]
    dsimp only
    split_ifs
    · exact ⟨hOK, le_refl _, trivial⟩
    · exact fits_next hOK ih (fun _ _ => trivial)
    · exact ⟨hOK, le_refl _, trivial⟩

theorem std_parseCommentLine (input : GoString) (n : Nat) :
    Std input (parseCommentLine n input) := by
  unfold parseCommentLine
  repeat' (first
    | exact std_getP _ | exact std_pure _ _ | exact std_parseCommentLineLoop _ _
    | refine std_bind ?_ (fun _ => ?_))

theorem std_parseCommentLoop (input : GoString) : ∀ n lines lastLevel,
    Std input (parseCommentLoop n input lines lastLevel) := by
  intro n
  induction n with
  | zero => intro _ _; exact spec_fuel _ _ _
  | succ n ih =>
    intro lines lastLevel p hOK _
    rw [parseCommentLoop, getP_bind]
    by_cases h : p.ch = eof
    · rw [if_pos h, pure_apply]
      exact ⟨hOK, le_refl _, trivial⟩
    · rw [if_neg h, bind_apply]
      have hr := parseCommentLevel_run input n p hOK
      cases hx : parseCommentLevel n input p with
      | ok level q =>
        rw [hx] at hr
        obtain ⟨g1, g2, g3, _⟩ := hr
        simp only []
        by_cases h0 : level = 0
        · rw [if_pos h0, pure_apply]
          exact ⟨g1, g2, trivial⟩
        · rw [if_neg h0]
          by_cases hl : lastLevel ≠ 0 ∧ level ≠ lastLevel
          · rw [if_pos hl, getP_bind, setP_bind, pure_apply]
            exact ⟨g3, le_refl _, trivial⟩
          · rw [if_neg hl]
            refine ResFits_mono g2 (fun _ _ hc => hc) ((?_ : Std input _) q g1 trivial)
            refine std_bind (std_getP input) (fun _ => ?_)
            refine std_bind ?_ (fun _ => ?_)
            · refine spec_ite (spec_ite (spec_failWith _ _ _ _) ?_) (std_pure _ _)
              exact std_bind (std_nextP input) (fun _ => std_parseCommentLine input n)
            · exact std_bind (std_skipEOL input) (fun _ => ih _ _)
      | err e q => rw [hx] at hr; exact absurd hr id
      | panic m => trivial
      | fuel => trivial

theorem std_parseComment (input : GoString) (n : Nat) : Std input (parseComment n input) := by
  unfold parseComment
  refine std_bind (std_parseCommentLoop input n [] 0) (fun _ => ?_)
  exact spec_ite (std_pure _ _) (spec_ite (std_pure _ _) (spec_ite (std_pure _ _)
    (spec_panic _ _ _ _)))

theorem std_parseEntry (input : GoString) (n : Nat) : Std input (parseEntry n input) := by
  unfold parseEntry
  refine std_bind (std_getP input) (fun _ => ?_)
  refine spec_ite (std_parseComment input n) (spec_ite ?_ ?_)
  · exact std_bind (std_parseTerm input n) (fun _ => std_pure _ _)
  · exact std_bind (std_parseMessage input n) (fun _ => std_pure _ _)

theorem OK_le {input : GoString} {p : parser} (h : p.OK input) : p.pos ≤ input.length := by
  rcases h with ⟨h, _⟩ | ⟨h, _⟩ | ⟨h, _⟩ <;> omega

/-- Under a cursor that fits the input, an ASCII byte of the input is the rune of the cursor. -/
theorem OK_ch {input : GoString} {p : parser} (h : p.OK input) (hlt : p.pos < input.length)
    (ha : input.getD p.pos 0 < 128) : p.ch = input.getD p.pos 0 := by
  rcases h with ⟨_, h2⟩ | ⟨h1, _⟩ | ⟨_, h2, _⟩
  · have hne : input.drop p.pos ≠ [] := by
      intro hc
      have := List.drop_eq_nil_iff.1 hc
      omega
    have h5 := (DecodeRune_span (input.drop p.pos)).2.2.2.2 hne
    rw [getD_drop] at h5
    have h6 := h5 ha
    rw [h2] at h6
    injection h6 with h7 _
  · omega
  · exact h2.symm

theorem skipToNextEntryStart_to (input : GoString) : ∀ (n : Nat) (p q : parser),
    p.OK input → skipToNextEntryStart n input p = Res.ok () q →
    q.OK input ∧ p.pos ≤ q.pos ∧ (∀ i, p.pos ≤ i → i < q.pos → ¬ isEntryStart input i) ∧
      (q.pos = input.length ∨ isEntryStart input q.pos ∨
        (q.ch = eof ∧ q.pos < input.length)) := by
  intro n
  induction n with
  | zero => intro p q _ h; simp [skipToNextEntryStart] at h
  | succ n ih =>
    intro p q hOK h
    rw [skipToNextEntryStart] at h
    have hle := OK_le hOK
    obtain ⟨f1, f2, _, f4, f5⟩ := next_Fresh input p hOK
    by_cases h0 : p.ch = eof
    · simp only [h0, ne_eq, not_true_eq_false, if_false] at h
      injection h with _ hq
      subst hq
      refine ⟨hOK, le_refl _, fun i _ _ => by omega, ?_⟩
      rcases Nat.lt_or_ge p.pos input.length with hlt | hge
      · exact Or.inr (Or.inr ⟨h0, hlt⟩)
      · exact Or.inl (by omega)
    · simp only [h0, ne_eq, not_false_eq_true, if_true] at h
      by_cases hc : ((p.pos == 0 || input.getD (p.pos - 1) 0 == 10) &&
          (isLetter p.ch || p.ch == 45 || p.ch == 35)) = true
      · rw [if_pos hc] at h
        injection h with _ hq
        subst hq
        simp only [Bool.and_eq_true, Bool.or_eq_true, beq_iff_eq] at hc
        obtain ⟨c1, c2⟩ := hc
        have hasc : p.ch < 128 ∧ p.ch ≠ 10 := by
          rcases c2 with (c | c) | c
          · have := isLetter_lt c
            simp only [isLetter, Bool.or_eq_true, Bool.and_eq_true, decide_eq_true_eq] at c
            omega
          · omega
          · omega
        obtain ⟨⟨g1, g2⟩, _⟩ := f5 hasc.1 hasc.2 h0
        refine ⟨hOK, le_refl _, fun i _ _ => by omega, Or.inr (Or.inl ⟨c1, g1, ?_⟩)⟩
        rw [g2]
        exact or_assoc.1 c2
      · rw [if_neg hc] at h
        obtain ⟨r1, r2, r3, r4⟩ := ih _ q (Fresh_OK f1) h
        refine ⟨r1, le_trans f2 r2, ?_, r4⟩
        intro i hi1 hi2 hstart
        by_cases hin : (next input p).pos ≤ i
        · exact r3 i hin hi2 hstart
        · obtain ⟨s1, s2, s3⟩ := hstart
          by_cases hip : i = p.pos
          · subst hip
            have hasc : input.getD p.pos 0 < 128 := by
              rcases s3 with c | c | c
              · exact (isLetter_lt c).1
              · omega
              · omega
            have hch := OK_ch hOK s2 hasc
            apply hc
            simp only [Bool.and_eq_true, Bool.or_eq_true, beq_iff_eq]
            rw [hch]
            exact ⟨s1, or_assoc.2 s3⟩
          · have := f4 (i - 1) (by omega) (by omega)
            rcases s1 with c | c
            · omega
            · exact this c

theorem parseEntry_eof (input : GoString) (n : Nat) (p : parser) (h : p.ch = eof) :
    parseEntry n input p = Res.err (p.error (errMessage.str "expected identifier")) p := by
  have h0 : p.ch = 0 := h
  simp [parseEntry, parseMessage, parseIdentifier, bind_apply, getP, h0, failWith, isLetter]

theorem skipToNextEntryStart_eof (input : GoString) (n : Nat) (p q : parser) (h : p.ch = eof)
    (hq : skipToNextEntryStart n input p = Res.ok () q) : q = p := by
  cases n with
  | zero => simp [skipToNextEntryStart] at hq
  | succ n =>
    simp only [skipToNextEntryStart, h, ne_eq, not_true_eq_false, if_false] at hq
    injection hq with _ hq
    exact hq.symm

theorem skipBlankBlock_eof (input : GoString) (n k : Nat) (p q : parser) (hOK : p.OK input)
    (h : p.ch = eof) (hq : skipBlankBlock n input p = Res.ok k q) :
    q.ch = eof ∧ q.pos = p.pos := by
  have hf := skipBlankBlockLoop_fits input n 0 p hOK
  unfold skipBlankBlock at hq
  rw [hq] at hf
  have := hf.2.2 (by rw [h]; decide) (isEOL_of_ch input p (by rw [h]; decide) (by rw [h]; decide))
  rw [h] at this
  exact this

theorem mem_commitEntry (entries : List Entry) (lc : Option Comment) (entry : Entry) (j : Junk)
    (h : Entry.junk j ∈ commitEntry entries lc entry) :
    Entry.junk j ∈ entries ∨ entry = Entry.junk j := by
  cases lc with
  | none =>
    simp only [commitEntry, List.mem_append, List.mem_singleton] at h
    rcases h with h | h
    · exact Or.inl h
    · exact Or.inr h.symm
  | some c =>
    cases entry <;> simp only [commitEntry, List.mem_append, List.mem_singleton] at h <;>
      first
      | (rcases h with h | h
         · exact Or.inl h
         · exact absurd h (by simp))
      | (rcases h with (h | h) | h
         · exact Or.inl h
         · exact absurd h (by simp)
         · exact Or.inr h.symm)

theorem newParser_OK (input : GoString) : (newParser input).OK input := by
  cases input with
  | nil => right; left; exact ⟨rfl, rfl, rfl⟩
  | cons b rest =>
    have h := newParser_At (b :: rest) (by simp)
    exact Or.inl ⟨h.2.1, by rw [← h.1] at h; exact h.2.2⟩

/-- From a cursor on a NUL byte inside the input the loop of `parse` does not return. -/
theorem parseLoop_stuck (input : GoString) (n : Nat) (errors : List parseError)
    (entries : List Entry) (lc : Option Comment) (p : parser)
    (r : Resource × Option ParseErrors) (q : parser) (hOK : p.OK input) (h0 : p.ch = eof)
    (hlt : p.pos < input.length) :
    parseLoop n input errors entries lc p ≠ Res.ok r q := by
  intro h
  have hinv := parseLoop_inv input
    (fun _ _ _ p => p.OK input ∧ p.ch = eof ∧ p.pos < input.length)
    ?_ ?_ ?_ n errors entries lc p r q ⟨hOK, h0, hlt⟩ h
  · obtain ⟨_, _, _, ⟨_, _, hq⟩, hlen, _⟩ := hinv
    omega
  · intro n p c p1 p2 errors entries lc hJ hp hpe hsb
    rw [parseEntry_eof input n p hJ.2.1] at hpe
    exact absurd hpe (by simp)
  · intro n p entry p1 k p2 errors entries lc hJ hp hpe hsb _
    rw [parseEntry_eof input n p hJ.2.1] at hpe
    exact absurd hpe (by simp)
  · intro n p e p1 q k p2 errors entries lc hJ hp hpe hsk hsb
    rw [parseEntry_eof input n p hJ.2.1] at hpe
    injection hpe with _ hp1
    subst hp1
    have := skipToNextEntryStart_eof input n p q hJ.2.1 hsk
    subst this
    have h2 := std_skipBlankBlock input n q hJ.1 trivial
    rw [hsb] at h2
    obtain ⟨c1, c2⟩ := skipBlankBlock_eof input n k q p2 hJ.1 hJ.2.1 hsb
    exact ⟨h2.1, c1, by rw [c2]; exact hJ.2.2⟩

theorem parseLoopCalls_ok (n : Nat) (input : GoString) (p p1 p2 : parser) (entry : Entry)
    (k : Nat) (hp : p.pos < input.length) (hpe : parseEntry n input p = Res.ok entry p1)
    (hsb : skipBlankBlock n input p1 = Res.ok k p2) :
    parseLoopCalls (n + 1) input p = (n, p) :: parseLoopCalls n input p2 := by
  rw [parseLoopCalls]
  simp only [hp, if_true, hpe, hsb]

theorem parseLoopCalls_err (n : Nat) (input : GoString) (p p1 q p2 : parser) (e : parseError)
    (k : Nat) (hp : p.pos < input.length) (hpe : parseEntry n input p = Res.err e p1)
    (hsk : skipToNextEntryStart n input p1 = Res.ok () q)
    (hsb : skipBlankBlock n input q = Res.ok k p2) :
    parseLoopCalls (n + 1) input p = (n, p) :: parseLoopCalls n input p2 := by
  rw [parseLoopCalls]
  simp only [hp, if_true, hpe, hsk, hsb]

/-- Every Junk entry that the loop of `parse` adds comes from one of its calls of
`parseEntry`, and every diagnostic of the loop is among the returned ones. -/
theorem parseLoop_junk_calls (input : GoString) :
    ∀ (n : Nat) (errors : List parseError) (entries : List Entry) (lc : Option Comment)
      (p : parser) (r : Resource × Option ParseErrors) (q : parser),
      p.OK input → parseLoop n input errors entries lc p = Res.ok r q →
      (∀ e ∈ errors, ∃ pe, r.2 = some pe ∧ e ∈ pe.errors) ∧
      ∀ j, Entry.junk j ∈ r.1.Body → Entry.junk j ∈ entries ∨
        ∃ c ∈ parseLoopCalls n input p, JunkAt input r.2 c j := by
  intro n
  induction n with
  | zero => intro errors entries lc p r q _ h; simp [parseLoop] at h
  | succ n ih =>
    intro errors entries lc p r q hOK h
    by_cases hp : p.pos < input.length
    · have hstep : ∀ (errors1 : List parseError) (entries1 : List Entry)
          (lc1 : Option Comment) (p2 : parser), p2.OK input →
          parseLoop n input errors1 entries1 lc1 p2 = Res.ok r q →
          (∀ e ∈ errors, e ∈ errors1) →
          (∀ j, Entry.junk j ∈ entries1 → Entry.junk j ∈ entries ∨
            JunkAt input r.2 (n, p) j) →
          parseLoopCalls (n + 1) input p = (n, p) :: parseLoopCalls n input p2 →
          (∀ e ∈ errors, ∃ pe, r.2 = some pe ∧ e ∈ pe.errors) ∧
            ∀ j, Entry.junk j ∈ r.1.Body → Entry.junk j ∈ entries ∨
              ∃ c ∈ parseLoopCalls (n + 1) input p, JunkAt input r.2 c j := by
        intro errors1 entries1 lc1 p2 hOK2 h2 herrs hjunk hcalls
        obtain ⟨g1, g2⟩ := ih errors1 entries1 lc1 p2 r q hOK2 h2
        refine ⟨fun e he => g1 e (herrs e he), ?_⟩
        intro j hj
        rw [hcalls]
        rcases g2 j hj with g | ⟨c, hc, g⟩
        · rcases hjunk j g with g3 | g3
          · exact Or.inl g3
          · exact Or.inr ⟨(n, p), List.mem_cons_self _ _, g3⟩
        · exact Or.inr ⟨c, List.mem_cons_of_mem _ hc, g⟩
      simp only [parseLoop, bind_apply, getP, hp, if_true, attempt] at h
      have hpeOK := std_parseEntry input n p hOK trivial
      cases hpe : parseEntry n input p with
      | ok entry p1 =>
        rw [hpe] at hpeOK
        simp only [hpe, pure_apply] at h
        have hsbOK := std_skipBlankBlock input n p1 hpeOK.1 trivial
        cases hsb : skipBlankBlock n input p1 with
        | ok k p2 =>
          rw [hsb] at hsbOK
          simp only [hsb] at h
          have hcalls := parseLoopCalls_ok n input p p1 p2 entry k hp hpe hsb
          have hnj : ∀ j, entry ≠ Entry.junk j := by
            intro j hj
            have := parseEntry_not_junk n input p p1 entry hpe
            rw [hj] at this
            exact absurd this (by simp [Entry.isJunk])
          have hcommit : ∀ j, Entry.junk j ∈ commitEntry entries lc entry →
              Entry.junk j ∈ entries ∨ JunkAt input r.2 (n, p) j := by
            intro j hmem
            rcases mem_commitEntry entries lc entry j hmem with hm | hm
            · exact Or.inl hm
            · exact absurd hm (hnj j)
          by_cases hk : k = 0
          · subst hk
            cases hc : entry.asComment with
            | none =>
              simp only [hc, if_true] at h
              exact hstep _ _ _ p2 hsbOK.1 h (fun e he => he) hcommit hcalls
            | some c =>
              simp only [hc, if_true] at h
              exact hstep _ _ _ p2 hsbOK.1 h (fun e he => he) (fun j hj => Or.inl hj) hcalls
          · simp only [hk, if_false] at h
            exact hstep _ _ _ p2 hsbOK.1 h (fun e he => he) hcommit hcalls
        | err e p2 => simp [hsb] at h
        | panic m => simp [hsb] at h
        | fuel => simp [hsb] at h
      | err e p1 =>
        rw [hpe] at hpeOK
        obtain ⟨a1, a2, a3⟩ := hpeOK
        simp only [hpe, bind_apply, getP, pure_apply] at h
        cases hsk : skipToNextEntryStart n input p1 with
        | ok u q1 =>
          simp only [hsk] at h
          obtain ⟨b1, b2, b3, b4⟩ := skipToNextEntryStart_to input n p1 q1 a1 hsk
          have hsbOK := std_skipBlankBlock input n q1 b1 trivial
          cases hsb : skipBlankBlock n input q1 with
          | ok k p2 =>
            rw [hsb] at hsbOK
            simp only [hsb, Entry.asComment, ite_self] at h
            have hcalls := parseLoopCalls_err n input p p1 q1 p2 e k hp hpe hsk hsb
            have hnot : ¬ (q1.ch = eof ∧ q1.pos < input.length) := by
              intro hstuck
              obtain ⟨c1, c2⟩ := skipBlankBlock_eof input n k q1 p2 b1 hstuck.1 hsb
              exact parseLoop_stuck input n _ _ _ p2 r q hsbOK.1 c1
                (by rw [c2]; exact hstuck.2) h
            obtain ⟨g1, _⟩ := ih _ _ _ p2 r q hsbOK.1 h
            obtain ⟨pe, hpe1, hpe2⟩ := g1 e (by simp)
            refine hstep _ _ _ p2 hsbOK.1 h (fun x hx => List.mem_append_left _ hx) ?_ hcalls
            intro j hmem
            rcases mem_commitEntry entries lc _ j hmem with hm | hm
            · exact Or.inl hm
            · right
              injection hm with hm
              refine ⟨e, p1, q1.pos, pe, hpe, hpe1, hpe2, (by show p.pos ≤ e.pos; omega),
                ⟨by omega, ?_, ?_⟩, ?_⟩
              · rcases b4 with c | c | c
                · exact Or.inl c
                · exact Or.inr c
                · exact absurd c hnot
              · intro i hi1 hi2
                exact b3 i (by omega) hi2
              · rw [← hm]
          | err e p2 => simp [hsb] at h
          | panic m => simp [hsb] at h
          | fuel => simp [hsb] at h
        | err e p2 => simp [hsk] at h
        | panic m => simp [hsk] at h
        | fuel => simp [hsk] at h
      | panic m => simp [hpe] at h
      | fuel => simp [hpe] at h
    · have hlen : input.length ≤ p.pos := by omega
      rw [parseLoop_exit n input errors entries lc p hlen] at h
      injection h with h1 h2
      rw [← h1]
      refine ⟨?_, ?_⟩
      · intro e he
        have hpos : 0 < errors.length := List.length_pos_of_mem he
        exact ⟨{ input := input, errors := errors }, by simp only [hpos, if_true], he⟩
      · intro j hmem
        left
        cases lc with
        | none => exact hmem
        | some c =>
          simp only [List.mem_append, List.mem_singleton] at hmem
          rcases hmem with hmem | hmem
          · exact hmem
          · exact absurd hmem (by simp)

/-- C5: whenever `Parse` returns, every Junk entry `j` of the body comes from a call of
`parseEntry` of this run (`ParseCalls`: the cursor of the call is the one at which the loop of
`parse` started the entry) that failed with a diagnostic `e` among the returned diagnostics, and
its content is the raw input `input[s:stop]`, where `s` is the position at which that call
started and `stop` is the recovery point for the position of the diagnostic: the first position
at or after it that is the end of the input or that is at the start of the input or right after
a line feed and holds a letter, `-` or `#`. -/
theorem C5_junk_content (n : Nat) (input : GoString) (r : Resource)
    (err : Option ParseErrors) (q : parser) (h : Parse n input = Res.ok (r, err) q)
    (j : Junk) (hj : Entry.junk j ∈ r.Body) :
    ∃ (m : Nat) (p : parser) (e : parseError) (p1 : parser) (stop : Nat) (pe : ParseErrors),
      (m, p) ∈ ParseCalls n input ∧
      parseEntry m input p = Res.err e p1 ∧ err = some pe ∧ e ∈ pe.errors ∧
      p.pos ≤ e.pos ∧ isRecoveryPoint input e.pos stop ∧
      j.Content = slice input p.pos stop := by
  unfold Parse parser.parse at h
  obtain ⟨k, p1, h1, h2⟩ := bind_ok h
  have hOK := std_skipBlankBlock input n (newParser input) (newParser_OK input) trivial
  rw [h1] at hOK
  obtain ⟨_, hJ⟩ := parseLoop_junk_calls input n [] [] none p1 (r, err) q hOK.1 h2
  rcases hJ j hj with hc | ⟨c, hc, e, p2, stop, pe, g1, g2, g3, g4, g5, g6⟩
  · exact absurd hc (by simp)
  · refine ⟨c.1, c.2, e, p2, stop, pe, ?_, g1, g2, g3, g4, g5, g6⟩
    unfold ParseCalls
    rw [h1]
    exact hc

/-- C5 (witness): `bad = { 1 + 2 }` followed by a line feed is parsed into one Junk entry.  The
run calls `parseEntry` once, at position 0, so the theorem gives the content of the Junk entry
as the input from position 0 to the recovery point of the diagnostic: the whole input. -/
theorem C5_junk_content_witness :
    Parse 40 badInput = Res.ok ({ Body := [Entry.junk { Content := badInput, Annotations := [] }] },
        some { input := badInput, errors := [badError] }) badCursor ∧
      ParseCalls 40 badInput = [(39, { pos := 0, ch := 98, w := 1, line := 1, col := 1 })] ∧
      ∃ (m : Nat) (p : parser) (e : parseError) (p1 : parser) (stop : Nat) (pe : ParseErrors),
        (m, p) ∈ ParseCalls 40 badInput ∧
        parseEntry m badInput p = Res.err e p1 ∧
        some { input := badInput, errors := [badError] } = some pe ∧ e ∈ pe.errors ∧
        p.pos ≤ e.pos ∧ isRecoveryPoint badInput e.pos stop ∧
        badInput = slice badInput p.pos stop :=
  ⟨by rfl, by rfl,
   C5_junk_content 40 badInput
    { Body := [Entry.junk { Content := badInput, Annotations := [] }] }
    (some { input := badInput, errors := [badError] }) badCursor (by rfl)
    { Content := badInput, Annotations := [] } (List.mem_singleton.2 rfl)⟩

/-! ## Scenarios on select expressions, diagnostics and renderings -/

/-- C11 (failing input): on the select expression of the fifth scenario, whose closing brace is
on an indented line, `Parse` returns an error and a body that is one Junk entry holding the whole
input.  The indented line of the brace is read as a text line of the pattern of the last
variant (the test of lines 444-446 for `[`, `*` and `.` has no case for the brace), and
`parseTextElement` fails on it with "unbalanced closing brace". -/
theorem C11_Parse_select_indented_brace :
    Parse 100 selectInput =
      Res.ok ({ Body := [Entry.junk { Content := selectInput, Annotations := [] }] },
        some { input := selectInput, errors := [selectError] })
        { pos := 70, ch := 0, w := 0, line := 5, col := 1 } := by rfl

/-- C13 (failing input): on `foo =`, line feed, `  bar }` the diagnostic for the closing brace
at byte 12 has column 9, whereas the brace is the seventh character of its line (the line of the
diagnostic, 2, is right).  `parsePattern` puts the position and the rune back to the start of
the line after it has measured the indent, and keeps the column it has reached. -/
theorem C13_Parse_column_after_indent :
    Parse 40 indentInput =
      Res.ok ({ Body := [Entry.junk { Content := indentInput, Annotations := [] }] },
        some { input := indentInput,
               errors := [{ line := 2, col := 9, pos := 12,
                            message := errMessage.str "unbalanced closing '\x7d'" }] })
        { pos := 14, ch := 0, w := 0, line := 3, col := 1 } ∧
      columnOf indentInput 12 = 7 ∧ lineOf indentInput 12 = 2 ∧ indentInput.getD 12 0 = 125 :=
  ⟨by rfl, by decide, by decide, by decide⟩

/-- C14 (failing input): on `a=`, line feed, four spaces and a closing brace `Parse` returns a
diagnostic at position 7 with column 9, so that `start := perr.pos - perr.col + 1` of `Format` is
-1 and the slice expression `pe.input[start:pos]` is out of bounds. -/
theorem C14_Format_slice_out_of_bounds :
    Parse 40 deepInput =
      Res.ok ({ Body := [Entry.junk { Content := deepInput, Annotations := [] }] },
        some { input := deepInput, errors := [deepError] })
        { pos := 8, ch := 0, w := 0, line := 2, col := 1 } ∧
      (deepError.pos : Int) - (deepError.col : Int) + 1 = -1 ∧
      ParseErrors.formatLine { input := deepInput, errors := [deepError] } deepError = none :=
  ⟨by rfl, by decide, by decide⟩

/-- C15 (failing input): on `foo = x` followed by the attribute line `.a =` `Parse` returns no
error and a message whose attribute has the pattern `Pattern{}` that `parsePattern` returns when
it has read nothing: its `Elements` is the nil slice, and the attribute is rendered with
`"elements": null`. -/
theorem C15_Parse_attribute_nil_elements :
    Parse 40 emptyAttrInput =
      Res.ok ({ Body := [Entry.message
          { ID := { Name := ascii "foo" },
            Value := some (Pattern.mk (some [PatternElement.textElement (ascii "x")])),
            Attributes := [{ ID := { Name := ascii "a" }, Value := Pattern.mk none }],
            Comment := none }] }, none)
        { pos := 14, ch := 65533, w := 0, line := 3, col := 1 } ∧
      Attribute.marshal { ID := { Name := ascii "a" }, Value := Pattern.mk none } =
        tagged "Attribute" [("id", tagged "Identifier" [("name", JSON.string (ascii "a"))]),
          ("value", tagged "Pattern" [("elements", JSON.null)])] :=
  ⟨by rfl, by rfl⟩

/-- C16 (counterexample): a Junk node is rendered with the members `type`, `annotations`,
`content`, in this order, not `type`, `content`, `annotations`; and the content of the comment
whose bytes are `a`, 0xFF, `b` is rendered as `a`, U+FFFD, `b`, which is not the string of the
comment. -/
theorem C16_Junk_member_order :
    (Entry.junk { Content := ascii "bad", Annotations := [] }).marshal =
        JSON.object [("type", JSON.string (ascii "Junk")), ("annotations", JSON.array []),
          ("content", JSON.string (ascii "bad"))] ∧
      (Entry.junk { Content := ascii "bad", Annotations := [] }).marshal.keys ≠
        "type" :: dataModelFields "Junk" ∧
      (Entry.comment { Content := [97, 255, 98] }).marshal =
        JSON.object [("type", JSON.string (ascii "Comment")),
          ("content", JSON.string [97, 239, 191, 189, 98])] ∧
      (Entry.comment { Content := [97, 255, 98] }).marshal ≠
        JSON.object [("type", JSON.string (ascii "Comment")),
          ("content", JSON.string [97, 255, 98])] :=
  ⟨by rfl, by decide, by rfl, by
    intro h
    injection h with h
    injection h with _ h
    injection h with h _
    injection h with _ h
    injection h with h
    exact absurd h (by decide)⟩

theorem coerceUTF8Loop_valid : ∀ (n : Nat) (s : GoString), validUTF8Loop n s = true →
    coerceUTF8Loop n s = s := by
  intro n
  induction n with
  | zero =>
    intro s h
    cases s with
    | nil => rfl
    | cons b t => simp [validUTF8Loop] at h
  | succ n ih =>
    intro s h
    rw [validUTF8Loop] at h
    rw [coerceUTF8Loop]
    by_cases hs : s = []
    · simp [hs]
    · rw [if_neg hs] at h ⊢
      by_cases he : (DecodeRune s).1 = RuneError ∧ (DecodeRune s).2 = 1
      · rw [if_pos he] at h
        exact absurd h (by simp)
      · rw [if_neg he] at h ⊢
        rw [ih _ h, List.take_append_drop]

/-- Valid UTF-8 is written as it is. -/
theorem coerceUTF8_valid (s : GoString) (h : validUTF8 s = true) : coerceUTF8 s = s :=
  coerceUTF8Loop_valid s.length s h

/-- C16 (amended): the rendering of every node is an object whose first member is `type` with
the tag of the node, followed by the fields of the node in the order of their declaration in
ast.go.  For every node but Junk this is the order of the data model of the specification
(`dataModelFields`); a Junk node is rendered as `type`, `annotations`, `content`.  `Comment{c}`
is rendered as the object with `type` = `Comment` and `content` = `c` with every byte that is no
part of a valid UTF-8 sequence replaced by U+FFFD: for a valid `c`, `content` = `c`. -/
theorem C16_marshal_type_first :
    (∀ a : Resource, a.marshal.isNode "Resource" (dataModelFields "Resource")) ∧
    (∀ a : Message, (Entry.message a).marshal.isNode "Message" (dataModelFields "Message")) ∧
    (∀ a : Term, (Entry.term a).marshal.isNode "Term" (dataModelFields "Term")) ∧
    (∀ c : GoString, (Entry.comment { Content := c }).marshal =
        JSON.object [("type", JSON.string (ascii "Comment")),
          ("content", JSON.string (coerceUTF8 c))] ∧
      (validUTF8 c = true → (Entry.comment { Content := c }).marshal =
        JSON.object [("type", JSON.string (ascii "Comment")), ("content", JSON.string c)])) ∧
    (∀ a : GroupComment,
      (Entry.groupComment a).marshal.isNode "GroupComment" (dataModelFields "GroupComment")) ∧
    (∀ a : ResourceComment, (Entry.resourceComment a).marshal.isNode "ResourceComment"
      (dataModelFields "ResourceComment")) ∧
    (∀ a : Junk, (Entry.junk a).marshal.isNode "Junk" ["annotations", "content"]) ∧
    (∀ a : Annotation, a.marshal.isNode "Annotation" []) ∧
    (∀ a : Attribute, a.marshal.isNode "Attribute" (dataModelFields "Attribute")) ∧
    (∀ a : Identifier, a.marshal.isNode "Identifier" (dataModelFields "Identifier")) ∧
    (∀ a : Pattern, a.marshal.isNode "Pattern" (dataModelFields "Pattern")) ∧
    (∀ v, (PatternElement.textElement v).marshal.isNode "TextElement"
      (dataModelFields "TextElement")) ∧
    (∀ a : Placeable,
      (PatternElement.placeable a).marshal.isNode "Placeable" (dataModelFields "Placeable") ∧
      (InlineExpression.placeable a).marshal.isNode "Placeable"
        (dataModelFields "Placeable")) ∧
    (∀ v, (InlineExpression.stringLiteral v).marshal.isNode "StringLiteral"
      (dataModelFields "StringLiteral")) ∧
    (∀ v, (InlineExpression.numberLiteral v).marshal.isNode "NumberLiteral"
      (dataModelFields "NumberLiteral")) ∧
    (∀ id args, (InlineExpression.functionReference id args).marshal.isNode "FunctionReference"
      (dataModelFields "FunctionReference")) ∧
    (∀ id attr, (InlineExpression.messageReference id attr).marshal.isNode "MessageReference"
      (dataModelFields "MessageReference")) ∧
    (∀ id attr args, (InlineExpression.termReference id attr args).marshal.isNode "TermReference"
      (dataModelFields "TermReference")) ∧
    (∀ id, (InlineExpression.variableReference id).marshal.isNode "VariableReference"
      (dataModelFields "VariableReference")) ∧
    (∀ sel vs, (Expression.selectExpression sel vs).marshal.isNode "SelectExpression"
      (dataModelFields "SelectExpression")) ∧
    (∀ a : Variant, a.marshal.isNode "Variant" (dataModelFields "Variant")) ∧
    (∀ name, (VariantKey.identifier name).marshal.isNode "Identifier"
      (dataModelFields "Identifier")) ∧
    (∀ v, (VariantKey.numberLiteral v).marshal.isNode "NumberLiteral"
      (dataModelFields "NumberLiteral")) ∧
    (∀ a : CallArguments, a.marshal.isNode "CallArguments" (dataModelFields "CallArguments")) ∧
    (∀ a : NamedArgument, a.marshal.isNode "NamedArgument"
      (dataModelFields "NamedArgument")) := by
  refine ⟨?_, ?_, ?_, ?_, ?_, ?_, ?_, ?_, ?_, ?_, ?_, ?_, ?_, ?_, ?_, ?_, ?_, ?_, ?_, ?_, ?_, ?_,
    ?_, ?_, ?_⟩
  · intro a; exact ⟨_, rfl, rfl⟩
  · intro a; exact ⟨_, rfl, rfl⟩
  · intro a; exact ⟨_, rfl, rfl⟩
  · intro c
    refine ⟨rfl, fun h => ?_⟩
    have h1 : (Entry.comment { Content := c }).marshal =
        JSON.object [("type", JSON.string (ascii "Comment")),
          ("content", JSON.string (coerceUTF8 c))] := rfl
    rw [h1, coerceUTF8_valid c h]
  · intro a; exact ⟨_, rfl, rfl⟩
  · intro a; exact ⟨_, rfl, rfl⟩
  · intro a; exact ⟨_, rfl, rfl⟩
  · intro a; exact ⟨_, rfl, rfl⟩
  · intro a; exact ⟨_, rfl, rfl⟩
  · intro a; exact ⟨_, rfl, rfl⟩
  · intro a
    cases a with
    | mk es => cases es <;> (rw [JSON.isNode, Pattern.marshal]; exact ⟨_, rfl, rfl⟩)
  · intro v; (rw [JSON.isNode, PatternElement.marshal]; exact ⟨_, rfl, rfl⟩)
  · intro a
    cases a
    constructor
    · rw [JSON.isNode, PatternElement.marshal, Placeable.marshal]; exact ⟨_, rfl, rfl⟩
    · rw [JSON.isNode, InlineExpression.marshal, Placeable.marshal]; exact ⟨_, rfl, rfl⟩
  · intro v; (rw [JSON.isNode, InlineExpression.marshal]; exact ⟨_, rfl, rfl⟩)
  · intro v; (rw [JSON.isNode, InlineExpression.marshal]; exact ⟨_, rfl, rfl⟩)
  · intro id args; (rw [JSON.isNode, InlineExpression.marshal]; exact ⟨_, rfl, rfl⟩)
  · intro id attr; (rw [JSON.isNode, InlineExpression.marshal]; exact ⟨_, rfl, rfl⟩)
  · intro id attr args
    cases args <;> (rw [JSON.isNode, InlineExpression.marshal]; exact ⟨_, rfl, rfl⟩)
  · intro id; (rw [JSON.isNode, InlineExpression.marshal]; exact ⟨_, rfl, rfl⟩)
  · intro sel vs; (rw [JSON.isNode, Expression.marshal]; exact ⟨_, rfl, rfl⟩)
  · intro a; cases a; (rw [JSON.isNode, Variant.marshal]; exact ⟨_, rfl, rfl⟩)
  · intro name; exact ⟨_, rfl, rfl⟩
  · intro v; exact ⟨_, rfl, rfl⟩
  · intro a; cases a; (rw [JSON.isNode, CallArguments.marshal]; exact ⟨_, rfl, rfl⟩)
  · intro a; cases a; (rw [JSON.isNode, NamedArgument.marshal]; exact ⟨_, rfl, rfl⟩)

/-- C16 (witness): the comment of the test `TestMarshalJSON`, `Standalone Comment`, is valid
UTF-8 and is rendered with `type` first and its content as it is. -/
theorem C16_marshal_type_first_witness :
    validUTF8 (ascii "Standalone Comment") = true ∧
      (Entry.comment { Content := ascii "Standalone Comment" }).marshal =
        JSON.object [("type", JSON.string (ascii "Comment")),
          ("content", JSON.string (ascii "Standalone Comment"))] :=
  ⟨rfl, (C16_marshal_type_first.2.2.2.1 (ascii "Standalone Comment")).2 rfl⟩

/-! ## A term with one attribute -/

/-- `parsePattern` on a simple text that follows `m` spaces and is followed by a line feed and
then by a line of `j` spaces and a dot: the pattern is the text alone, and the cursor is left on
the dot. -/
theorem parsePattern_simple_dot (input rest t : GoString) (m j k : Nat) (p : parser) (n : Nat)
    (ht : isSimpleText t)
    (hdrop : input.drop k =
      List.replicate m 32 ++ (t ++ 10 :: (List.replicate j 32 ++ 46 :: rest)))
    (hAt : p.At input k) (hn : m + t.length + j + 5 ≤ n) :
    ∃ q, parsePattern n input p = Res.ok (Pattern.mk (some [PatternElement.textElement t])) q ∧
      q.At input (k + m + t.length + 1 + j) ∧
      input.drop (k + m + t.length + 1 + j) = 46 :: rest := by
  obtain ⟨htne, htb, hthead, htlast⟩ := ht
  obtain ⟨b, t1, rfl⟩ : ∃ b t1, t = b :: t1 := by
    cases t with
    | nil => exact absurd rfl htne
    | cons b t1 => exact ⟨b, t1, rfl⟩
  obtain ⟨b0, b10, b13, b123, b125⟩ := htb b (by simp)
  have hb32 : b ≠ 32 := by simpa using hthead
  obtain ⟨n1, rfl⟩ : ∃ n1, n = n1 + 1 := ⟨n - 1, by omega⟩
  obtain ⟨n2, rfl⟩ : ∃ n2, n1 = n2 + 1 := ⟨n1 - 1, by omega⟩
  obtain ⟨n3, rfl⟩ : ∃ n3, n2 = n3 + 1 := ⟨n2 - 1, by omega⟩
  generalize hpostdef : List.replicate j 32 ++ 46 :: rest = post at hdrop
  -- the blanks before the text
  obtain ⟨q1, hq1, hq1At, _⟩ := skipBlankInline_scan input ((b :: t1) ++ 10 :: post) m k p
    (n3 + 1 + 1) (by simpa using hb32) hdrop hAt (by omega)
  have hdrop1 : input.drop (k + m) = (b :: t1) ++ 10 :: post := by
    rw [← List.drop_drop, hdrop, List.drop_left' (by simp)]
  have hhead1 : ∀ a, a ≠ b → (input.drop (k + m)).head? ≠ some a := by
    intro a ha
    rw [hdrop1]
    simpa using fun h => ha h.symm
  have c0 : q1.ch ≠ eof := At_ch_ne input _ q1 0 hq1At (by decide) (hhead1 0 (Ne.symm b0))
  have c10 : q1.ch ≠ 10 := At_ch_ne input _ q1 10 hq1At (by decide) (hhead1 10 (Ne.symm b10))
  have c13 : q1.ch ≠ 13 := At_ch_ne input _ q1 13 hq1At (by decide) (hhead1 13 (Ne.symm b13))
  have c123 : q1.ch ≠ 123 :=
    At_ch_ne input _ q1 123 hq1At (by decide) (hhead1 123 (Ne.symm b123))
  -- the text line
  obtain ⟨q2, hq2, hq2At⟩ := parseTextElement_scan input post (b :: t1) (k + m) q1 (n3 + 1)
    hdrop1 hq1At htb (by simp only [List.length_cons] at hn ⊢; omega)
  have hdrop2 : input.drop (k + m + (b :: t1).length) = 10 :: post := by
    rw [← List.drop_drop, hdrop1, List.drop_left' rfl]
  obtain ⟨d1, _, _, hq3At, hdrop3⟩ := At_ascii input 10 post _ q2 hdrop2 hq2At (by decide)
  rw [← hpostdef] at hdrop3
  -- the measure of the indent of the next line
  obtain ⟨q4, hq4, hq4At, _⟩ := skipBlankInline_scan input (46 :: rest) j _ (next input q2) n3
    (by simp) hdrop3 hq3At (by simp only [List.length_cons] at hn; omega)
  have hdrop4 : input.drop (k + m + (b :: t1).length + 1 + j) = 46 :: rest := by
    rw [← List.drop_drop, hdrop3, List.drop_left' (by simp)]
  obtain ⟨d46, _⟩ := At_ascii input 46 rest _ q4 hdrop4 hq4At (by decide)
  have f123 : (next input q2).ch ≠ 123 := by
    apply At_ch_ne input _ _ 123 hq3At (by decide)
    rw [hdrop3]
    cases j <;> simp [List.replicate]
  have hind : ∀ ci, parsePatternIndent n3 input ci (next input q2) = Res.ok none q4 := by
    intro ci
    unfold parsePatternIndent
    rw [getP_bind, bind_apply, hq4]
    simp only []
    rw [getP_bind]
    simp [d46, pure_apply]
  have hloop2 : ∀ st : patternVars,
      parsePatternLoop (n3 + 1) input st q2 = Res.ok { st with block := true } q4 := by
    intro st
    rw [parsePatternLoop, getP_bind]
    have : q2.ch ≠ eof := by rw [d1]; decide
    simp only [this, if_false]
    rw [bind_apply, skipEOL_lf input q2 d1]
    simp only [Bool.or_true]
    rw [getP_bind]
    simp only [f123, if_false, if_true]
    rw [bind_apply, hind]
    simp only [pure_apply]
  refine ⟨q4, ?_, hq4At, hdrop4⟩
  rw [parsePattern, bind_apply, hq1]
  simp only []
  rw [bind_apply, skipEOL_false input q1 c10 c13]
  simp only [Bool.false_eq_true, if_false]
  rw [pure_bind_apply, bind_apply, parsePatternLoop, getP_bind]
  simp only [c0, if_false]
  rw [bind_apply, skipEOL_false input q1 c10 c13]
  simp only [Bool.or_false]
  rw [getP_bind]
  simp only [c123, if_false, Bool.false_eq_true]
  rw [pure_bind_apply]
  simp only []
  rw [bind_apply, hq2]
  simp only []
  rw [hloop2]
  simp only [List.nil_append, List.length_nil, ne_eq, not_false_eq_true, if_true,
    reduceCtorEq, Int.ofNat_zero, Nat.cast_zero, lt_self_iff_false, if_false, pure_apply]
  rw [dedent_single (b :: t1) htne htlast]

/-- The loop of `parseAttributes` where the line does not start with a dot or a space: the
attributes read so far are returned. -/
theorem parseAttributesLoop_none (input : GoString) (k : Nat) (p : parser) (n : Nat)
    (attributes : List Attribute)
    (hhead : ∀ c, (input.drop k).head? = some c → c ≠ 32 ∧ c ≠ 46)
    (hAt : p.At input k) (hn : 2 ≤ n) :
    ∃ q, parseAttributesLoop n input attributes p = Res.ok attributes q ∧ q.At input k := by
  obtain ⟨n1, rfl⟩ : ∃ n1, n = n1 + 1 := ⟨n - 1, by omega⟩
  by_cases hch : p.ch = eof
  · refine ⟨p, ?_, hAt⟩
    rw [parseAttributesLoop, getP_bind]
    simp only [hch, if_true, pure_apply]
  · have h32 : (input.drop k).head? ≠ some 32 := fun hc => (hhead 32 hc).1 rfl
    obtain ⟨q, hq, hqAt, _⟩ := skipBlankInline_scan input (input.drop k) 0 k p n1 h32
      (by simp) hAt (by omega)
    have e46 : q.ch ≠ 46 :=
      At_ch_ne input _ q 46 hqAt (by decide) (fun hc => (hhead 46 hc).2 rfl)
    refine ⟨{ q with pos := p.pos }, ?_, ?_⟩
    · rw [parseAttributesLoop, getP_bind]
      simp only [hch, if_false]
      rw [bind_apply, hq]
      simp only []
      rw [getP_bind]
      simp only [e46, ne_eq, not_false_eq_true, if_true]
      rw [setP_bind, pure_apply]
    · exact ⟨hAt.1, hAt.2.1, by simpa using hqAt.2.2⟩

/-- `parseAttribute` on `.aid = u` followed by a line feed, when the next line does not go on
with the pattern. -/
theorem parseAttribute_simple (input post aid u : GoString) (k : Nat) (p : parser) (n : Nat)
    (hid : isIdentifierName aid) (hu : isSimpleText u)
    (hdrop : input.drop k = 46 :: (aid ++ ([32, 61, 32] ++ (u ++ 10 :: post))))
    (hpost : ∀ c, post.head? = some c → c ≠ 32 ∧ c ≠ 10 ∧ c ≠ 13 ∧ c ≠ 123)
    (hAt : p.At input k) (hn : aid.length + u.length + 10 ≤ n) :
    ∃ q, parseAttribute n input p = Res.ok
        { ID := { Name := aid },
          Value := Pattern.mk (some [PatternElement.textElement u]) } q ∧
      q.At input (k + 1 + aid.length + 3 + u.length + 1) ∧
      input.drop (k + 1 + aid.length + 3 + u.length + 1) = post := by
  obtain ⟨_, _, _, hq0At, hdrop0⟩ := At_ascii input 46 _ k p hdrop hAt (by decide)
  obtain ⟨q1, hq1, hq1At⟩ := parseIdentifier_scan input _ aid (k + 1) (next input p) n hid hdrop0
    (by intro c hc; simp at hc; subst hc; rfl) hq0At (by omega)
  have hdrop1 : input.drop (k + 1 + aid.length) = 32 :: 61 :: 32 :: (u ++ 10 :: post) := by
    rw [← List.drop_drop, hdrop0, List.drop_left' rfl]
    rfl
  obtain ⟨q2, hq2, hq2At, _⟩ := skipBlankInline_scan input (61 :: 32 :: (u ++ 10 :: post)) 1
    (k + 1 + aid.length) q1 n (by simp) hdrop1 hq1At (by omega)
  have hdrop2 : input.drop (k + 1 + aid.length + 1) = 61 :: 32 :: (u ++ 10 :: post) := by
    rw [← List.drop_drop, hdrop1]
    rfl
  obtain ⟨d1, _, _, hq3At, hdrop3⟩ := At_ascii input 61 _ _ q2 hdrop2 hq2At (by decide)
  have hu32 : (u ++ 10 :: post).head? ≠ some 32 := by
    obtain ⟨hne, _, hh, _⟩ := hu
    cases u with
    | nil => exact absurd rfl hne
    | cons b u1 => simpa using hh
  obtain ⟨q4, hq4, hq4At, _⟩ := skipBlankInline_scan input (u ++ 10 :: post) 1
    (k + 1 + aid.length + 1 + 1) (next input q2) n hu32 hdrop3 hq3At (by omega)
  have hdrop4 : input.drop (k + 1 + aid.length + 1 + 1 + 1) = u ++ 10 :: post := by
    rw [← List.drop_drop, hdrop3]
    rfl
  obtain ⟨q5, hq5, hq5At, hdrop5⟩ := parsePattern_simple input post u 0 _ q4 n hu
    (by simpa using hdrop4) hpost hq4At (by omega)
  have hposeq : k + 1 + aid.length + 1 + 1 + 1 + 0 + u.length + 1 =
      k + 1 + aid.length + 3 + u.length + 1 := by omega
  rw [hposeq] at hq5At hdrop5
  refine ⟨q5, ?_, hq5At, hdrop5⟩
  unfold parseAttribute
  rw [nextP_bind, bind_apply, hq1]
  simp only []
  rw [bind_apply, hq2]
  simp only []
  rw [getP_bind]
  simp only [d1, ne_eq, not_true_eq_false, if_false]
  rw [nextP_bind, bind_apply, hq4]
  simp only []
  rw [bind_apply, hq5]
  simp only [pure_apply]

/-- `parseAttributes` on a line of one attribute `.aid = u`, when the next line does not go on
with the attributes. -/
theorem parseAttributes_one (input post aid u : GoString) (k : Nat) (p : parser) (n : Nat)
    (hid : isIdentifierName aid) (hu : isSimpleText u)
    (hdrop : input.drop k = 46 :: (aid ++ ([32, 61, 32] ++ (u ++ 10 :: post))))
    (hpost : ∀ c, post.head? = some c → c ≠ 32 ∧ c ≠ 10 ∧ c ≠ 13 ∧ c ≠ 123 ∧ c ≠ 46)
    (hAt : p.At input k) (hn : aid.length + u.length + 13 ≤ n) :
    ∃ q, parseAttributes n input p = Res.ok
        [{ ID := { Name := aid },
           Value := Pattern.mk (some [PatternElement.textElement u]) }] q ∧
      q.At input (k + 1 + aid.length + 3 + u.length + 1) ∧
      input.drop (k + 1 + aid.length + 3 + u.length + 1) = post := by
  obtain ⟨n1, rfl⟩ : ∃ n1, n = n1 + 1 := ⟨n - 1, by omega⟩
  obtain ⟨d46, _⟩ := At_ascii input 46 _ k p hdrop hAt (by decide)
  obtain ⟨q1, hq1, hq1At, _⟩ := skipBlankInline_scan input (input.drop k) 0 k p n1
    (by rw [hdrop]; simp) (by simp) hAt (by omega)
  have hq1ch : q1.ch = 46 := (At_ascii input 46 _ (k + 0) q1 hdrop hq1At (by decide)).1
  obtain ⟨q2, hq2, hq2At, hdrop2⟩ := parseAttribute_simple input post aid u (k + 0) q1 n1 hid hu
    hdrop (fun c hc => by have := hpost c hc; omega) hq1At (by omega)
  obtain ⟨q3, hq3, hq3At⟩ := parseAttributesLoop_none input _ q2 n1
    [{ ID := { Name := aid }, Value := Pattern.mk (some [PatternElement.textElement u]) }]
    (fun c hc => by rw [hdrop2] at hc; have := hpost c hc; omega) hq2At (by omega)
  refine ⟨q3, ?_, by simpa using hq3At, by simpa using hdrop2⟩
  unfold parseAttributes
  rw [parseAttributesLoop, getP_bind]
  have h0 : p.ch ≠ eof := by rw [d46]; decide
  simp only [h0, if_false]
  rw [bind_apply, hq1]
  simp only []
  rw [getP_bind]
  simp only [hq1ch, ne_eq, not_true_eq_false, if_false]
  rw [bind_apply, hq2]
  simp only [List.nil_append]
  exact hq3

/-- `parseTerm` on `-id = t`, a line feed, `j` spaces and `.aid = u`, a line feed, for
identifiers `id`, `aid` and simple texts `t`, `u`, when the next line does not belong to the
term. -/
theorem parseTerm_simple (input post id t aid u : GoString) (j k : Nat) (p : parser) (n : Nat)
    (hid : isIdentifierName id) (ht : isSimpleText t) (haid : isIdentifierName aid)
    (hu : isSimpleText u)
    (hdrop : input.drop k = 45 :: (id ++ ([32, 61, 32] ++ (t ++ 10 ::
      (List.replicate j 32 ++ 46 :: (aid ++ ([32, 61, 32] ++ (u ++ 10 :: post))))))))
    (hpost : ∀ c, post.head? = some c → c ≠ 32 ∧ c ≠ 10 ∧ c ≠ 13 ∧ c ≠ 123 ∧ c ≠ 46)
    (hAt : p.At input k)
    (hn : id.length + t.length + j + aid.length + u.length + 20 ≤ n) :
    ∃ q, parseTerm n input p = Res.ok
        { ID := { Name := id },
          Value := Pattern.mk (some [PatternElement.textElement t]),
          Attributes :=
            [{ ID := { Name := aid },
               Value := Pattern.mk (some [PatternElement.textElement u]) }],
          Comment := none } q ∧
      q.At input (k + 1 + id.length + 3 + t.length + 1 + j + 1 + aid.length + 3 + u.length + 1) ∧
      input.drop (k + 1 + id.length + 3 + t.length + 1 + j + 1 + aid.length + 3 + u.length + 1)
        = post := by
  obtain ⟨d45, _, _, hq0At, hdrop0⟩ := At_ascii input 45 _ k p hdrop hAt (by decide)
  obtain ⟨q1, hq1, hq1At⟩ := parseIdentifier_scan input _ id (k + 1) (next input p) n hid hdrop0
    (by intro c hc; simp at hc; subst hc; rfl) hq0At (by omega)
  generalize hrestdef : List.replicate j 32 ++ 46 :: (aid ++ ([32, 61, 32] ++ (u ++ 10 :: post)))
    = rest1 at hdrop hdrop0
  have hdrop1 : input.drop (k + 1 + id.length) = 32 :: 61 :: 32 :: (t ++ 10 :: rest1) := by
    rw [← List.drop_drop, hdrop0, List.drop_left' rfl]
    rfl
  obtain ⟨q2, hq2, hq2At, _⟩ := skipBlankInline_scan input (61 :: 32 :: (t ++ 10 :: rest1)) 1
    (k + 1 + id.length) q1 n (by simp) hdrop1 hq1At (by omega)
  have hdrop2 : input.drop (k + 1 + id.length + 1) = 61 :: 32 :: (t ++ 10 :: rest1) := by
    rw [← List.drop_drop, hdrop1]
    rfl
  obtain ⟨d61, _, _, hq3At, hdrop3⟩ := At_ascii input 61 _ _ q2 hdrop2 hq2At (by decide)
  have ht32 : (t ++ 10 :: rest1).head? ≠ some 32 := by
    obtain ⟨hne, _, hh, _⟩ := ht
    cases t with
    | nil => exact absurd rfl hne
    | cons b t1 => simpa using hh
  obtain ⟨q4, hq4, hq4At, _⟩ := skipBlankInline_scan input (t ++ 10 :: rest1) 1
    (k + 1 + id.length + 1 + 1) (next input q2) n ht32 hdrop3 hq3At (by omega)
  have hdrop4 : input.drop (k + 1 + id.length + 1 + 1 + 1) = t ++ 10 :: rest1 := by
    rw [← List.drop_drop, hdrop3]
    rfl
  rw [← hrestdef] at hdrop4
  obtain ⟨q5, hq5, hq5At, hdrop5⟩ := parsePattern_simple_dot input _ t 0 j _ q4 n ht
    (by simpa using hdrop4) hq4At (by omega)
  obtain ⟨q6, hq6, hq6At⟩ := skipBlankBlock_none input _ q5 n
    (fun c hc => by rw [hdrop5] at hc; simp at hc; omega) hq5At (by omega)
  obtain ⟨q7, hq7, hq7At, hdrop7⟩ := parseAttributes_one input post aid u _ q6 n haid hu hdrop5
    hpost hq6At (by omega)
  have hposeq : k + 1 + id.length + 1 + 1 + 1 + 0 + t.length + 1 + j + 1 + aid.length + 3 +
      u.length + 1 =
      k + 1 + id.length + 3 + t.length + 1 + j + 1 + aid.length + 3 + u.length + 1 := by omega
  rw [hposeq] at hq7At hdrop7
  refine ⟨q7, ?_, hq7At, hdrop7⟩
  unfold parseTerm
  rw [getP_bind]
  simp only [d45, ne_eq, not_true_eq_false, if_false]
  rw [nextP_bind, bind_apply]
  simp only [replaceErr, hq1]
  rw [bind_apply, hq2]
  simp only []
  rw [getP_bind]
  simp only [d61, ne_eq, not_true_eq_false, if_false]
  rw [nextP_bind, bind_apply, hq4]
  simp only []
  rw [bind_apply, hq5]
  simp only []
  rw [bind_apply, hq6]
  simp only []
  rw [bind_apply, hq7]
  simp only [pure_apply]

/-- C12: for all identifiers `id`, `aid` and all simple single-line texts `t`, `u`, `Parse` of
`-id = t`, a line feed, four spaces, `.aid = u` and a line feed returns (with any fuel from
`len(id) + len(t) + len(aid) + len(u) + 27` on) no error and a body that is exactly one Term
with ID `id`, the value `Pattern[TextElement t]`, the single attribute
`Attribute{aid, Pattern[TextElement u]}` and no comment. -/
theorem C12_term_with_attribute (id t aid u : GoString) (hid : isIdentifierName id)
    (ht : isSimpleText t) (haid : isIdentifierName aid) (hu : isSimpleText u)
    (n : Nat) (hn : id.length + t.length + aid.length + u.length + 27 ≤ n) :
    (Parse n (ascii "-" ++ id ++ ascii " = " ++ t ++ ascii "\n    ." ++ aid ++ ascii " = " ++ u
        ++ ascii "\n")).value =
      some ({ Body := [Entry.term
                { ID := { Name := id },
                  Value := Pattern.mk (some [PatternElement.textElement t]),
                  Attributes :=
                    [{ ID := { Name := aid },
                       Value := Pattern.mk (some [PatternElement.textElement u]) }],
                  Comment := none }] }, none) := by
  have hinput : ascii "-" ++ id ++ ascii " = " ++ t ++ ascii "\n    ." ++ aid ++ ascii " = " ++ u
      ++ ascii "\n" = 45 :: (id ++ ([32, 61, 32] ++ (t ++ 10 ::
      (List.replicate 4 32 ++ 46 :: (aid ++ ([32, 61, 32] ++ (u ++ 10 :: []))))))) := by
    have h1 : ascii " = " = [32, 61, 32] := rfl
    have h2 : ascii "\n" = [10] := rfl
    have h3 : ascii "-" = [45] := rfl
    have h4 : ascii "\n    ." = [10, 32, 32, 32, 32, 46] := rfl
    rw [h1, h2, h3, h4]
    simp [List.replicate]
  rw [hinput]
  generalize hI : 45 :: (id ++ ([32, 61, 32] ++ (t ++ 10 ::
      (List.replicate 4 32 ++ 46 :: (aid ++ ([32, 61, 32] ++ (u ++ 10 :: []))))))) = input
  have hlen : input.length = 1 + id.length + 3 + t.length + 1 + 4 + 1 + aid.length + 3 +
      u.length + 1 := by
    rw [← hI]
    simp
    omega
  have hne : input ≠ [] := by
    intro h
    rw [h] at hlen
    simp at hlen
  obtain ⟨n1, rfl⟩ : ∃ n1, n = n1 + 1 := ⟨n - 1, by omega⟩
  have hAt0 := newParser_At input hne
  have hhead0 : ∀ x, (input.drop 0).head? = some x → x ≠ 32 ∧ x ≠ 10 ∧ x ≠ 13 := by
    intro x hx
    rw [List.drop_zero, ← hI] at hx
    simp at hx
    omega
  obtain ⟨p1, hp1, hp1At⟩ := skipBlankBlock_none input 0 (newParser input) (n1 + 1) hhead0
    hAt0 (by omega)
  obtain ⟨d45, _⟩ := At_ascii input 45 _ 0 p1 (by rw [List.drop_zero, ← hI]) hp1At (by decide)
  obtain ⟨q, hq, hqAt, hqdrop⟩ := parseTerm_simple input [] id t aid u 4 0 p1 n1 hid ht haid hu
    (by rw [List.drop_zero, hI]) (by simp) hp1At (by omega)
  have hposq : 0 + 1 + id.length + 3 + t.length + 1 + 4 + 1 + aid.length + 3 + u.length + 1 =
      input.length := by omega
  rw [hposq] at hqAt hqdrop
  obtain ⟨q2, hq2, hq2At⟩ := skipBlankBlock_none input _ q n1
    (by intro x hx; rw [hqdrop] at hx; simp at hx) hqAt (by omega)
  obtain ⟨n2, rfl⟩ : ∃ n2, n1 = n2 + 1 := ⟨n1 - 1, by omega⟩
  have hexit := parseLoop_exit n2 input []
    [Entry.term { ID := { Name := id },
                  Value := Pattern.mk (some [PatternElement.textElement t]),
                  Attributes :=
                    [{ ID := { Name := aid },
                       Value := Pattern.mk (some [PatternElement.textElement u]) }],
                  Comment := none }] none q2 (by rw [hq2At.1])
  have hpos1 : p1.pos < input.length := by rw [hp1At.1]; omega
  have hentry : parseEntry (n2 + 1) input p1 = Res.ok (Entry.term
      { ID := { Name := id },
        Value := Pattern.mk (some [PatternElement.textElement t]),
        Attributes :=
          [{ ID := { Name := aid },
             Value := Pattern.mk (some [PatternElement.textElement u]) }],
        Comment := none }) q := by
    unfold parseEntry
    rw [getP_bind]
    have h35 : p1.ch ≠ 35 := by rw [d45]; decide
    rw [if_neg h35, if_pos d45, bind_apply, hq]
    simp only [pure_apply]
  unfold Parse parser.parse
  rw [bind_apply, hp1]
  simp only []
  rw [parseLoop, getP_bind]
  simp only [hpos1, if_true]
  rw [bind_apply]
  simp only [attempt, hentry]
  rw [pure_bind_apply, bind_apply, hq2]
  simp only [if_true, Entry.asComment, commitEntry, List.nil_append]
  rw [hexit]
  simp [Res.value]

/-- C12 (witness): the second scenario of the specification, the term `-brand-name` with the
attribute `.gender`. -/
theorem C12_term_with_attribute_witness :
    (Parse 60 (ascii "-" ++ ascii "brand-name" ++ ascii " = " ++ ascii "Firefox" ++
        ascii "\n    ." ++ ascii "gender" ++ ascii " = " ++ ascii "masculine" ++ ascii "\n")).value =
      some ({ Body := [Entry.term
                { ID := { Name := ascii "brand-name" },
                  Value := Pattern.mk (some [PatternElement.textElement (ascii "Firefox")]),
                  Attributes :=
                    [{ ID := { Name := ascii "gender" },
                       Value := Pattern.mk (some [PatternElement.textElement (ascii "masculine")]) }],
                  Comment := none }] }, none) :=
  C12_term_with_attribute (ascii "brand-name") (ascii "Firefox") (ascii "gender")
    (ascii "masculine") ⟨98, ascii "rand-name", rfl, by decide, by decide⟩
    ⟨by decide, by decide, by decide, by decide⟩
    ⟨103, ascii "ender", rfl, by decide, by decide⟩
    ⟨by decide, by decide, by decide, by decide⟩ 60 (by decide)

/-! ## `parseIdentifier` -/

theorem dropWhile_head (f : Nat → Bool) (l : List Nat) :
    ∀ c, (l.dropWhile f).head? = some c → f c = false := by
  induction l with
  | nil => intro c h; simp at h
  | cons b rest ih =>
    intro c h
    by_cases hb : f b = true
    · rw [List.dropWhile_cons_of_pos hb] at h
      exact ih c h
    · rw [List.dropWhile_cons_of_neg hb] at h
      simp only [List.head?_cons, Option.some.injEq] at h
      rw [← h]
      simpa using hb

theorem prefix_takeWhile_length (f : Nat → Bool) : ∀ (l s : List Nat),
    l <+: s → (∀ b ∈ l, f b = true) → l.length ≤ (s.takeWhile f).length := by
  intro l
  induction l with
  | nil => intro s _ _; simp
  | cons b rest ih =>
    intro s hp hall
    cases s with
    | nil => simp at hp
    | cons c t =>
      rw [List.cons_prefix_cons] at hp
      obtain ⟨hbc, hp2⟩ := hp
      subst hbc
      rw [List.takeWhile_cons_of_pos (hall b (by simp))]
      simp only [List.length_cons]
      have := ih t hp2 (fun x hx => hall x (by simp [hx]))
      omega

theorem parseIdentifierLoop_mono (input : GoString) : ∀ (n : Nat) (p q : parser),
    parseIdentifierLoop n input p = Res.ok () q →
    parseIdentifierLoop (n + 1) input p = Res.ok () q := by
  intro n
  induction n with
  | zero => intro p q h; simp [parseIdentifierLoop] at h
  | succ n ih =>
    intro p q h
    rw [parseIdentifierLoop] at h ⊢
    by_cases h0 : p.ch ≠ eof
    · simp only [h0, if_true] at h ⊢
      split_ifs at h ⊢ with hc
      · exact h
      · exact ih _ _ h
    · simp only [h0, if_false] at h ⊢
      exact h

theorem parseIdentifierLoop_mono_add (input : GoString) (n m : Nat) (p q : parser)
    (h : parseIdentifierLoop n input p = Res.ok () q) :
    parseIdentifierLoop (n + m) input p = Res.ok () q := by
  induction m with
  | zero => exact h
  | succ m ih => exact parseIdentifierLoop_mono input _ p q ih

theorem parseIdentifier_mono_add (input : GoString) (n m : Nat) (p q : parser)
    (id : Identifier) (h : parseIdentifier n input p = Res.ok id q) :
    parseIdentifier (n + m) input p = Res.ok id q := by
  unfold parseIdentifier at h ⊢
  rw [getP_bind] at h ⊢
  split_ifs at h ⊢ with hc
  · simp [failWith_apply] at h
  · obtain ⟨u, q1, h1, h2⟩ := bind_ok h
    rw [bind_apply, parseIdentifierLoop_mono_add input n m p q1 h1]
    exact h2

theorem parseIdentifierLoop_no_err (input : GoString) : ∀ (n : Nat) (p : parser)
    (e : parseError) (q : parser), parseIdentifierLoop n input p ≠ Res.err e q := by
  intro n
  induction n with
  | zero => intro p e q h; simp [parseIdentifierLoop] at h
  | succ n ih =>
    intro p e q h
    rw [parseIdentifierLoop] at h
    dsimp only at h
    split_ifs at h
    exact ih _ e q h

/-- C19: from a cursor that agrees with the input at position `k`.  When the rune is an ASCII
letter: the longest prefix of the remaining input that matches `[A-Za-z][A-Za-z0-9_-]*` is an
identifier name (so it is not empty), no prefix that matches is longer, `parseIdentifier` returns
it with every fuel from its length on and leaves the cursor right after it, and whenever
`parseIdentifier` returns a value it is this one.  When the rune is no ASCII letter:
`parseIdentifier` fails with "expected identifier" and leaves the cursor as it is.  It fails only
then. -/
theorem C19_parseIdentifier (input : GoString) (k : Nat) (p : parser)
    (hAt : p.At input k) :
    (isLetter p.ch = true →
      isIdentifierName (identPrefix (input.drop k)) ∧
      identPrefix (input.drop k) <+: input.drop k ∧
      (∀ id, isIdentifierName id → id <+: input.drop k →
        id.length ≤ (identPrefix (input.drop k)).length) ∧
      (∀ n, (identPrefix (input.drop k)).length ≤ n →
        ∃ q, parseIdentifier n input p = Res.ok { Name := identPrefix (input.drop k) } q ∧
          q.At input (k + (identPrefix (input.drop k)).length)) ∧
      (∀ n id q, parseIdentifier n input p = Res.ok id q →
        id.Name = identPrefix (input.drop k) ∧
          q.At input (k + (identPrefix (input.drop k)).length))) ∧
    (isLetter p.ch = false → ∀ n, parseIdentifier n input p =
      Res.err (p.error (errMessage.str "expected identifier")) p) ∧
    (∀ n e q, parseIdentifier n input p = Res.err e q → isLetter p.ch = false) := by
  refine ⟨?_, ?_, ?_⟩
  · intro hl
    have hhead := At_ch_ascii input k p p.ch hAt (isLetter_lt hl).1 rfl
    obtain ⟨tail, hdrop⟩ : ∃ tail, input.drop k = p.ch :: tail := by
      cases hd : input.drop k with
      | nil => rw [hd] at hhead; simp at hhead
      | cons b t =>
        rw [hd] at hhead
        simp only [List.head?_cons, Option.some.injEq] at hhead
        exact ⟨t, by rw [hhead]⟩
    have hid : identPrefix (input.drop k) = p.ch :: tail.takeWhile isIdentChar := by
      rw [hdrop]
      simp [identPrefix, hl]
    have hname : isIdentifierName (p.ch :: tail.takeWhile isIdentChar) :=
      ⟨p.ch, _, rfl, hl, fun b hb => (List.mem_takeWhile_imp hb)⟩
    have hsplit : input.drop k =
        (p.ch :: tail.takeWhile isIdentChar) ++ tail.dropWhile isIdentChar := by
      rw [hdrop, List.cons_append, List.takeWhile_append_dropWhile]
    have hscan := fun n hn => parseIdentifier_scan input (tail.dropWhile isIdentChar)
      (p.ch :: tail.takeWhile isIdentChar) k p n hname hsplit
      (dropWhile_head isIdentChar tail) hAt hn
    rw [hid]
    refine ⟨hname, ?_, ?_, hscan, ?_⟩
    · rw [hdrop]
      exact (List.prefix_cons_inj _).2 (List.takeWhile_prefix _)
    · intro id hidn hpre
      obtain ⟨c, rest, rfl, _, hrest⟩ := hidn
      rw [hdrop, List.cons_prefix_cons] at hpre
      have := prefix_takeWhile_length isIdentChar rest tail hpre.2 hrest
      simp only [List.length_cons]
      omega
    · intro n id q h
      have h1 := parseIdentifier_mono_add input n (tail.takeWhile isIdentChar).length.succ p q id h
      obtain ⟨q2, h2, h3⟩ := hscan (n + (tail.takeWhile isIdentChar).length.succ)
        (by simp only [List.length_cons]; omega)
      rw [h1] at h2
      injection h2 with h4 h5
      rw [h4, h5]
      exact ⟨rfl, h3⟩
  · intro hl n
    unfold parseIdentifier
    rw [getP_bind]
    simp [hl, failWith_apply]
  · intro n e q h
    by_contra hc
    have hl : isLetter p.ch = true := by simpa using hc
    unfold parseIdentifier at h
    rw [getP_bind] at h
    simp only [hl, Bool.not_true, Bool.false_eq_true, if_false] at h
    rw [bind_apply] at h
    cases hx : parseIdentifierLoop n input p with
    | ok u q1 => rw [hx] at h; simp [getP_bind, pure_apply] at h
    | err e1 q1 => exact parseIdentifierLoop_no_err input n p e1 q1 hx
    | panic m => rw [hx] at h; simp at h
    | fuel => rw [hx] at h; simp at h

/-- C19 (witness): on `foo = Foo`, from the first byte, `parseIdentifier` returns `foo` and leaves
the cursor at position 3. -/
theorem C19_parseIdentifier_witness :
    (newParser fooInput).At fooInput 0 ∧
      ∃ q, parseIdentifier 5 fooInput (newParser fooInput) = Res.ok { Name := ascii "foo" } q ∧
        q.At fooInput 3 :=
  ⟨newParser_At fooInput (by decide),
   ((C19_parseIdentifier fooInput 0 (newParser fooInput)
     (newParser_At fooInput (by decide))).1 (by decide)).2.2.2.1 5 (by decide)⟩

theorem allElements_append (φI : InlineExpression → Prop) (φE : Expression → Prop) :
    ∀ (a b : List PatternElement),
      allElements φI φE (a ++ b) ↔ allElements φI φE a ∧ allElements φI φE b := by
  intro a
  induction a with
  | nil => intro b; simp [allElements]
  | cons x xs ih => intro b; simp [allElements, ih, and_assoc]

/-! ## Properties of the values that the parser returns -/

theorem spec_and {α : Type} {input : GoString} {Pre : parser → Prop}
    {P1 P2 : α → parser → Prop} {x : P α} (h1 : Spec input Pre P1 x)
    (h2 : Spec input Pre P2 x) : Spec input Pre (fun a q => P1 a q ∧ P2 a q) x := by
  intro p hOK hpre
  have g1 := h1 p hOK hpre
  have g2 := h2 p hOK hpre
  cases hx : x p with
  | ok a q => rw [hx] at g1 g2; exact ⟨g1.1, g1.2.1, g1.2.2, g2.2.2⟩
  | err e q => rw [hx] at g1; exact g1
  | panic m => trivial
  | fuel => trivial

/-- A bind whose first value has a property that the rest may use. -/
theorem spec_bind_val {α β : Type} {input : GoString} {G : α → Prop}
    {Post : β → parser → Prop} {x : P α} {f : α → P β}
    (hx : Spec input (fun _ => True) (fun a _ => G a) x)
    (hf : ∀ a, G a → Spec input (fun _ => True) Post (f a)) :
    Spec input (fun _ => True) Post (x >>= f) :=
  spec_bind hx (fun a p hOK hG => hf a hG p hOK trivial)

/-- The rule `spec_bind` with the condition between the two operations given. -/
theorem spec_bind_at {α β : Type} {input : GoString} {Pre : parser → Prop}
    (Mid : α → parser → Prop) {Post : β → parser → Prop} {x : P α} {f : α → P β}
    (hx : Spec input Pre Mid x) (hf : ∀ a, Spec input (Mid a) Post (f a)) :
    Spec input Pre Post (x >>= f) :=
  spec_bind hx hf

theorem spec_ite_cond {α : Type} {input : GoString} {Pre : parser → Prop}
    {Post : α → parser → Prop} {c : Prop} [Decidable c] {x y : P α}
    (hx : c → Spec input Pre Post x) (hy : ¬ c → Spec input Pre Post y) :
    Spec input Pre Post (if c then x else y) := by
  by_cases h : c
  · rw [if_pos h]; exact hx h
  · rw [if_neg h]; exact hy h

theorem slice_head (input : GoString) (a b : Nat) (hab : a < b) (hb : b ≤ input.length) :
    ∃ rest, slice input a b = input.getD a 0 :: rest := by
  unfold slice
  have hlen : a < (input.take b).length := by rw [List.length_take]; omega
  have h1 : (input.take b).drop a = (input.take b)[a] :: (input.take b).drop (a + 1) :=
    List.drop_eq_getElem_cons hlen
  refine ⟨(input.take b).drop (a + 1), ?_⟩
  rw [h1]
  congr 1
  rw [List.getElem_take, List.getD_eq_getElem?_getD, List.getElem?_eq_getElem (by omega)]
  rfl

theorem parseIdentifierLoop_advance (input : GoString) : ∀ (n : Nat) (p q : parser),
    p.OK input → isIdentChar p.ch = true → parseIdentifierLoop n input p = Res.ok () q →
    p.pos < q.pos := by
  intro n
  induction n with
  | zero => intro p q _ _ h; simp [parseIdentifierLoop] at h
  | succ n ih =>
    intro p q hOK hch h
    obtain ⟨f1, f2, _, _, f5⟩ := next_Fresh input p hOK
    obtain ⟨c1, c2⟩ := isIdentChar_lt hch
    have c10 : p.ch ≠ 10 := by
      intro hc; rw [hc] at hch; exact absurd hch (by decide)
    obtain ⟨_, _, g3⟩ := f5 c1 c10 c2
    rw [parseIdentifierLoop] at h
    have h0 : p.ch ≠ eof := c2
    simp only [h0, ne_eq, not_false_eq_true, if_true] at h
    by_cases hq : isIdentChar (next input p).ch = true
    · have hq2 := hq
      simp only [isIdentChar] at hq2
      simp only [hq2, Bool.not_true, Bool.false_eq_true, if_false] at h
      have := ih _ q (Fresh_OK f1) hq h
      omega
    · have hq2 : isIdentChar (next input p).ch = false := by simpa using hq
      have hq3 := hq2
      simp only [isIdentChar] at hq3
      simp only [hq3, Bool.not_false, if_true] at h
      injection h with _ hqe
      subst hqe
      rcases Nat.lt_or_ge p.pos (next input p).pos with hlt | hge
      · exact hlt
      · have := g3 (by omega)
        rw [this] at hq2
        rw [hq2] at hch
        exact absurd hch (by decide)

/-- The name that `parseIdentifier` returns starts with an ASCII letter. -/
theorem parseIdentifier_start (input : GoString) (n : Nat) :
    Spec input (fun _ => True)
      (fun id _ => ∃ c rest, id.Name = c :: rest ∧ isLetter c = true)
      (parseIdentifier n input) := by
  intro p hOK _
  have hstd := std_parseIdentifier input n p hOK trivial
  cases hx : parseIdentifier n input p with
  | ok id q =>
    rw [hx] at hstd
    refine ⟨hstd.1, hstd.2.1, ?_⟩
    have hl := parseIdentifier_ok_letter n input p q id hx
    unfold parseIdentifier at hx
    rw [getP_bind] at hx
    simp only [hl, Bool.not_true, Bool.false_eq_true, if_false] at hx
    obtain ⟨u, q1, h1, h2⟩ := bind_ok hx
    rw [getP_bind, pure_apply] at h2
    injection h2 with h3 h4
    subst h4
    have hic : isIdentChar p.ch = true := by simp [isIdentChar, hl]
    have hadv := parseIdentifierLoop_advance input n p q1 hOK hic h1
    obtain ⟨c1, c2⟩ := isLetter_lt hl
    have c10 : p.ch ≠ 10 := by
      intro hc; rw [hc] at hl; exact absurd hl (by decide)
    obtain ⟨⟨g1, g2⟩, _⟩ := (next_Fresh input p hOK).2.2.2.2 c1 c10 c2
    obtain ⟨rest, hrest⟩ := slice_head input p.pos q1.pos hadv (OK_le hstd.1)
    rw [← h3]
    exact ⟨_, rest, hrest, by rw [g2]; exact hl⟩
  | err e q => rw [hx] at hstd; exact hstd
  | panic m => trivial
  | fuel => trivial

theorem allInlines_append (φI : InlineExpression → Prop) (φE : Expression → Prop) :
    ∀ (a b : List InlineExpression),
      allInlines φI φE (a ++ b) ↔ allInlines φI φE a ∧ allInlines φI φE b := by
  intro a
  induction a with
  | nil => intro b; simp [allInlines]
  | cons x xs ih => intro b; simp [allInlines, ih, and_assoc]

theorem allNamed_append (φI : InlineExpression → Prop) (φE : Expression → Prop) :
    ∀ (a b : List NamedArgument),
      allNamed φI φE (a ++ b) ↔ allNamed φI φE a ∧ allNamed φI φE b := by
  intro a
  induction a with
  | nil => intro b; simp [allNamed]
  | cons x xs ih => intro b; simp [allNamed, ih, and_assoc]

theorem allVariants_append (φI : InlineExpression → Prop) (φE : Expression → Prop) :
    ∀ (a b : List Variant),
      allVariants φI φE (a ++ b) ↔ allVariants φI φE a ∧ allVariants φI φE b := by
  intro a
  induction a with
  | nil => intro b; simp [allVariants]
  | cons x xs ih => intro b; simp [allVariants, ih, and_assoc]

theorem Pattern_All_mk (φI : InlineExpression → Prop) (φE : Expression → Prop)
    (s : Option (List PatternElement)) :
    Pattern.All φI φE (Pattern.mk s) ↔ allElements φI φE (s.getD []) := by
  cases s <;> simp [Pattern.All, allElements]

theorem dedent_foldl_all (φI : InlineExpression → Prop) (φE : Expression → Prop)
    (indent : GoString) : ∀ (es : List PatternElement)
    (acc : Option (List PatternElement) × List GoString),
    allElements φI φE (acc.1.getD []) → allElements φI φE es →
    allElements φI φE ((es.foldl (dedentStep indent) acc).1.getD []) := by
  intro es
  induction es with
  | nil => intro acc h _; exact h
  | cons e es ih =>
    intro acc hacc hes
    rw [allElements] at hes
    rw [List.foldl_cons]
    apply ih _ _ hes.2
    cases e with
    | textElement v => exact hacc
    | placeable pl =>
      simp only [dedentStep]
      split_ifs
      · simp only [sliceAppend, Option.getD_some]
        rw [allElements_append, allElements_append]
        exact ⟨⟨hacc, by simp [allElements, PatternElement.All]⟩,
          by simpa [allElements] using hes.1⟩
      · simp only [sliceAppend, Option.getD_some]
        rw [allElements_append]
        exact ⟨hacc, by simpa [allElements] using hes.1⟩

theorem dedent_all (φI : InlineExpression → Prop) (φE : Expression → Prop)
    (es : List PatternElement) (ci : Nat) (h : allElements φI φE es) :
    Pattern.All φI φE (dedent es ci) := by
  have hf := dedent_foldl_all φI φE (List.replicate ci 32) es (none, [])
    (by simp [allElements]) h
  unfold dedent
  dsimp only
  split_ifs
  · rw [Pattern_All_mk]
    simp only [sliceAppend, Option.getD_some]
    rw [allElements_append]
    exact ⟨hf, by simp [allElements, PatternElement.All]⟩
  · rw [Pattern_All_mk]; exact hf
  · rw [Pattern_All_mk]; exact hf

theorem callee_of_start (name : GoString)
    (hs : ∃ c rest, name = c :: rest ∧ isLetter c = true)
    (hall : name.all (fun ch => isUppercase ch || isDigit ch || ch == 95 || ch == 45) = true) :
    isCalleeName name := by
  obtain ⟨c, rest, rfl, hc⟩ := hs
  rw [List.all_cons, Bool.and_eq_true] at hall
  refine ⟨c, rest, rfl, ?_, ?_⟩
  · have h1 := hall.1
    simp only [isLetter, isUppercase, isDigit, Bool.or_eq_true, Bool.and_eq_true,
      decide_eq_true_eq, beq_iff_eq] at h1 hc ⊢
    omega
  · intro b hb
    exact List.all_eq_true.1 hall.2 b hb

theorem parseLiteral_all (input : GoString) (φI : InlineExpression → Prop)
    (φE : Expression → Prop) (hI : ∀ e, calleeOK e → φI e) (n : Nat) :
    Spec input (fun _ => True) (fun v _ => InlineExpression.All φI φE v)
      (parseLiteral n input) := by
  unfold parseLiteral
  refine spec_bind_std (std_getP _) (fun p => ?_)
  refine spec_ite ?_ (spec_ite ?_ (spec_failWith _ _ _ _))
  · exact spec_bind_std (std_parseNumberLiteral input n)
      (fun v => spec_pure (fun _ _ => by rw [InlineExpression.All]; exact hI _ trivial))
  · exact spec_bind_std (std_parseStringLiteral input n)
      (fun v => spec_pure (fun _ _ => by rw [InlineExpression.All]; exact hI _ trivial))

/-- Every inline expression that the parser puts into a pattern satisfies `φI` and every
expression `φE`, for properties that follow from `calleeOK` and `selectorOK`. -/
theorem pattern_all (input : GoString) (φI : InlineExpression → Prop) (φE : Expression → Prop)
    (hI : ∀ e, calleeOK e → φI e) (hE : ∀ e, selectorOK e → φE e) : ∀ n,
    (∀ st, allElements φI φE st.elements →
      Spec input (fun _ => True) (fun r _ => allElements φI φE r.elements)
        (parsePatternLoop n input st)) ∧
    Spec input (fun _ => True) (fun v _ => Pattern.All φI φE v) (parsePattern n input) ∧
    Spec input (fun _ => True) (fun v _ => Placeable.All φI φE v) (parsePlaceable n input) ∧
    Spec input (fun _ => True) (fun v _ => Expression.All φI φE v) (parseExpression n input) ∧
    Spec input (fun _ => True) (fun v _ => InlineExpression.All φI φE v)
      (parseInlineExpression n input) ∧
    (∀ a b c, allInlines φI φE a → allNamed φI φE b →
      Spec input (fun _ => True) (fun r _ => allInlines φI φE r.1 ∧ allNamed φI φE r.2)
        (parseCallArgumentsLoop n input a b c)) ∧
    Spec input (fun _ => True) (fun v _ => CallArguments.All φI φE v)
      (parseCallArguments n input) ∧
    (∀ vs d, allVariants φI φE vs →
      Spec input (fun _ => True) (fun r _ => allVariants φI φE r.1)
        (parseVariantsLoop n input vs d)) ∧
    Spec input (fun _ => True) (fun v _ => allVariants φI φE v) (parseVariants n input) := by
  intro n
  induction n with
  | zero =>
    refine ⟨fun _ _ => ?_, ?_, ?_, ?_, ?_, fun _ _ _ _ _ => ?_, ?_, fun _ _ _ => ?_, ?_⟩
    · rw [parsePatternLoop]; exact spec_fuel _ _ _
    · rw [parsePattern]; exact spec_fuel _ _ _
    · rw [parsePlaceable]; exact spec_fuel _ _ _
    · rw [parseExpression]; exact spec_fuel _ _ _
    · rw [parseInlineExpression]; exact spec_fuel _ _ _
    · rw [parseCallArgumentsLoop]; exact spec_fuel _ _ _
    · rw [parseCallArguments]; exact spec_fuel _ _ _
    · rw [parseVariantsLoop]; exact spec_fuel _ _ _
    · rw [parseVariants]; exact spec_fuel _ _ _
  | succ n ih =>
    obtain ⟨ihPL, ihP, ihPl, ihE, ihIE, ihCAL, ihCA, ihVL, ihV⟩ := ih
    refine ⟨fun st hst => ?_, ?_, ?_, ?_, ?_, fun positional named names hpos hnamed => ?_, ?_,
      fun vs d hvs => ?_, ?_⟩
    · -- parsePatternLoop
      rw [parsePatternLoop]
      refine spec_bind_std (std_getP _) (fun p => ?_)
      refine spec_ite (spec_pure (fun _ _ => hst)) ?_
      refine spec_bind_std (std_skipEOL _) (fun eol => ?_)
      refine spec_bind_std (std_getP _) (fun p1 => ?_)
      refine spec_ite ?_ ?_
      · refine spec_bind_val ihPl (fun el hel => ?_)
        refine ihPL _ ?_
        rw [allElements_append]
        exact ⟨hst, by simpa [allElements, PatternElement.All] using hel⟩
      · refine spec_bind_std (spec_std (parsePatternIndent_or input n st eol)) (fun m => ?_)
        cases m with
        | none => exact spec_pure (fun _ _ => hst)
        | some ci =>
          refine spec_bind_std (std_parseTextElement input n) (fun v => ?_)
          refine ihPL _ ?_
          rw [allElements_append]
          exact ⟨hst, by simp [allElements, PatternElement.All]⟩
    · -- parsePattern
      rw [parsePattern]
      refine spec_bind_std (std_skipBlankInline input n) (fun _ => ?_)
      refine spec_bind_std (std_skipEOL input) (fun eol => ?_)
      refine spec_bind_std (spec_ite (std_skipBlankBlock input n) (std_pure _ _)) (fun _ => ?_)
      refine spec_bind_val (ihPL _ (by simp [allElements])) (fun st hst => ?_)
      refine spec_ite (spec_pure (fun _ _ => by simp [Pattern.All])) ?_
      exact spec_pure (fun _ _ => dedent_all φI φE _ _ hst)
    · -- parsePlaceable
      rw [parsePlaceable]
      refine spec_bind_std (std_nextP _) (fun _ => ?_)
      refine spec_bind_std (std_skipBlank _ _) (fun _ => ?_)
      refine spec_bind_val ihE (fun e he => ?_)
      refine spec_bind_std (std_skipBlankInline _ _) (fun _ => ?_)
      refine spec_bind_std (std_getP _) (fun _ => ?_)
      refine spec_ite (spec_failWith _ _ _ _) ?_
      refine spec_bind_std (std_nextP _) (fun _ => ?_)
      exact spec_pure (fun _ _ => by rw [Placeable.All]; exact he)
    · -- parseExpression
      rw [parseExpression]
      refine spec_bind_val ihIE (fun selector hsel => ?_)
      refine spec_bind_std (std_skipBlank _ _) (fun _ => ?_)
      refine spec_bind_std (std_getP _) (fun p => ?_)
      rcases selector with v | v | ⟨id, args⟩ | ⟨id, attr⟩ | ⟨id, attr, args⟩ | id | pl
      case messageReference =>
        cases attr <;> refine spec_ite ?_ (spec_failWith _ _ _ _) <;>
          exact spec_pure (fun _ _ => by
            rw [Expression.All]; exact ⟨hE _ (by simp [selectorOK]), hsel⟩)
      case termReference =>
        cases attr with
        | none =>
          refine spec_ite ?_ (spec_failWith _ _ _ _)
          exact spec_pure (fun _ _ => by
            rw [Expression.All]; exact ⟨hE _ (by simp [selectorOK]), hsel⟩)
        | some a =>
          refine spec_ite (spec_failWith _ _ _ _) ?_
          refine spec_bind_std (std_nextP _) (fun _ => ?_)
          refine spec_bind_std (std_nextP _) (fun _ => ?_)
          refine spec_bind_std (std_skipBlankInline _ _) (fun _ => ?_)
          refine spec_bind_std (std_skipEOL _) (fun _ => ?_)
          refine spec_ite (spec_failWith _ _ _ _) ?_
          refine spec_bind_std (std_skipBlank _ _) (fun _ => ?_)
          refine spec_bind_val (spec_wrapErr _ ihV) (fun vs hvs => ?_)
          exact spec_pure (fun _ _ => by
            rw [Expression.All]; exact ⟨hE _ (by simp [selectorOK]), hsel, hvs⟩)
      all_goals
        refine spec_ite ?_ ?_
        · exact spec_pure (fun _ _ => by
            rw [Expression.All]; exact ⟨hE _ (by simp [selectorOK]), hsel⟩)
        · refine spec_bind_std (std_nextP _) (fun _ => ?_)
          refine spec_bind_std (std_nextP _) (fun _ => ?_)
          refine spec_bind_std (std_skipBlankInline _ _) (fun _ => ?_)
          refine spec_bind_std (std_skipEOL _) (fun _ => ?_)
          refine spec_ite (spec_failWith _ _ _ _) ?_
          refine spec_bind_std (std_skipBlank _ _) (fun _ => ?_)
          refine spec_bind_val (spec_wrapErr _ ihV) (fun vs hvs => ?_)
          exact spec_pure (fun _ _ => by
            rw [Expression.All]; exact ⟨hE _ (by simp [selectorOK]), hsel, hvs⟩)
    · -- parseInlineExpression
      rw [parseInlineExpression]
      have hattr : ∀ q : parser, Std input (if q.ch = 46 then do
            nextP input
            let a ← parseIdentifier n input
            pure (some a)
          else pure none) := fun q =>
        spec_ite (std_bind (std_nextP _) (fun _ => std_bind (std_parseIdentifier _ _)
          (fun _ => std_pure _ _))) (std_pure _ _)
      refine spec_bind_std (std_getP _) (fun p => ?_)
      refine spec_ite ?_ (spec_ite ?_ (spec_ite (spec_ite ?_ ?_) (spec_ite ?_
        (spec_ite ?_ (spec_ite ?_ (spec_failWith _ _ _ _))))))
      · exact spec_bind_std (std_parseStringLiteral input n)
          (fun v => spec_pure (fun _ _ => by rw [InlineExpression.All]; exact hI _ trivial))
      · exact spec_bind_std (std_parseNumberLiteral input n)
          (fun v => spec_pure (fun _ _ => by rw [InlineExpression.All]; exact hI _ trivial))
      · refine spec_bind_std (std_nextP _) (fun _ => ?_)
        refine spec_bind_std (std_parseIdentifier _ _) (fun id => ?_)
        refine spec_bind_std (std_getP _) (fun q => ?_)
        refine spec_bind_std (hattr q) (fun attr => ?_)
        refine spec_bind_std (std_getP _) (fun r => ?_)
        refine spec_bind_val (G := fun a => ∀ args, a = some args → CallArguments.All φI φE args)
          ?_ (fun arguments harg => ?_)
        · refine spec_ite ?_ (spec_pure (fun _ _ args hc => by simp at hc))
          refine spec_bind_val ihCA (fun args hargs => ?_)
          exact spec_pure (fun _ _ a ha => by
            simp only [Option.some.injEq] at ha; rw [← ha]; exact hargs)
        · refine spec_pure (fun _ _ => ?_)
          cases arguments with
          | none => rw [InlineExpression.All]; exact hI _ trivial
          | some args => rw [InlineExpression.All]; exact ⟨hI _ trivial, harg args rfl⟩
      · exact spec_bind_std (std_parseNumberLiteral input n)
          (fun v => spec_pure (fun _ _ => by rw [InlineExpression.All]; exact hI _ trivial))
      · refine spec_bind_std (std_nextP _) (fun _ => ?_)
        exact spec_bind_std (std_parseIdentifier input n)
          (fun v => spec_pure (fun _ _ => by rw [InlineExpression.All]; exact hI _ trivial))
      · refine spec_bind_val (parseIdentifier_start input n) (fun id hid => ?_)
        refine spec_bind_std (std_getP _) (fun q => ?_)
        refine spec_ite ?_ ?_
        · refine spec_ite_cond (fun hall => ?_) (fun _ => spec_failWith _ _ _ _)
          refine spec_bind_val ihCA (fun args hargs => ?_)
          exact spec_pure (fun _ _ => by
            rw [InlineExpression.All]
            exact ⟨hI _ (callee_of_start id.Name hid hall), hargs⟩)
        · refine spec_bind_std (hattr q) (fun attr => ?_)
          exact spec_pure (fun _ _ => by rw [InlineExpression.All]; exact hI _ trivial)
      · refine spec_bind_val ihPl (fun pl hpl => ?_)
        exact spec_pure (fun _ _ => by rw [InlineExpression.All]; exact ⟨hI _ trivial, hpl⟩)
    · -- parseCallArgumentsLoop
      rw [parseCallArgumentsLoop]
      refine spec_bind_std (std_getP _) (fun p => ?_)
      refine spec_ite (spec_pure (fun _ _ => ⟨hpos, hnamed⟩))
        (spec_ite (spec_pure (fun _ _ => ⟨hpos, hnamed⟩)) ?_)
      refine spec_bind_val ihIE (fun exp hexp => ?_)
      refine spec_bind_std (std_skipBlank _ _) (fun _ => ?_)
      refine spec_bind_std (std_getP _) (fun q => ?_)
      refine spec_bind_val
        (G := fun vars : List InlineExpression × List NamedArgument × List GoString =>
          allInlines φI φE vars.1 ∧ allNamed φI φE vars.2.1) ?_ (fun vars hvars => ?_)
      · refine spec_ite ?_ (spec_ite (spec_failWith _ _ _ _) (spec_pure (fun _ _ => ?_)))
        · rcases exp with v | v | ⟨id, args⟩ | ⟨id, attr⟩ | ⟨id, attr, args⟩ | id | pl
          case messageReference =>
            cases attr with
            | none =>
              refine spec_bind_std (std_nextP _) (fun _ => ?_)
              refine spec_bind_std (std_skipBlank _ _) (fun _ => ?_)
              refine spec_bind_val (parseLiteral_all input φI φE hI n) (fun value hv => ?_)
              refine spec_ite (spec_failWith _ _ _ _) (spec_pure (fun _ _ => ?_))
              refine ⟨hpos, ?_⟩
              rw [allNamed_append]
              exact ⟨hnamed, by simpa [allNamed, NamedArgument.All] using hv⟩
            | some a => exact spec_failWith _ _ _ _
          all_goals exact spec_failWith _ _ _ _
        · refine ⟨?_, hnamed⟩
          rw [allInlines_append]
          exact ⟨hpos, by simpa [allInlines] using hexp⟩
      · refine spec_bind_std (std_skipBlank _ _) (fun _ => ?_)
        refine spec_bind_std (std_getP _) (fun r => ?_)
        refine spec_ite ?_ (spec_pure (fun _ _ => hvars))
        refine spec_bind_std (std_nextP _) (fun _ => ?_)
        refine spec_bind_std (std_skipBlank _ _) (fun _ => ?_)
        exact ihCAL _ _ _ hvars.1 hvars.2
    · -- parseCallArguments
      rw [parseCallArguments]
      refine spec_bind_std (std_nextP _) (fun _ => ?_)
      refine spec_bind_std (std_skipBlank _ _) (fun _ => ?_)
      refine spec_bind_val (ihCAL [] [] [] (by simp [allInlines]) (by simp [allNamed]))
        (fun args hargs => ?_)
      refine spec_bind_std (std_getP _) (fun _ => ?_)
      refine spec_ite (spec_failWith _ _ _ _) ?_
      refine spec_bind_std (std_nextP _) (fun _ => ?_)
      exact spec_pure (fun _ _ => by rw [CallArguments.All]; exact hargs)
    · -- parseVariantsLoop
      rw [parseVariantsLoop]
      refine spec_bind_std (std_getP _) (fun p => ?_)
      refine spec_ite ?_ (spec_pure (fun _ _ => hvs))
      refine spec_bind_std (spec_ite (std_bind (std_nextP _) (fun _ => std_pure _ _))
        (std_pure _ _)) (fun dv => ?_)
      refine spec_bind_std (spec_wrapErr _ (std_parseVariantKey input n)) (fun key => ?_)
      refine spec_bind_val (spec_wrapErr _ ihP) (fun value hvalue => ?_)
      refine spec_bind_std (std_skipBlank _ _) (fun _ => ?_)
      refine ihVL _ _ ?_
      rw [allVariants_append]
      exact ⟨hvs, by simpa [allVariants, Variant.All] using hvalue⟩
    · -- parseVariants
      rw [parseVariants]
      refine spec_bind_val (ihVL [] false (by simp [allVariants])) (fun r hr => ?_)
      exact spec_ite (spec_failWith _ _ _ _) (spec_pure (fun _ _ => hr))

theorem parsePattern_all (input : GoString) (φI : InlineExpression → Prop)
    (φE : Expression → Prop) (hI : ∀ e, calleeOK e → φI e) (hE : ∀ e, selectorOK e → φE e)
    (n : Nat) :
    Spec input (fun _ => True) (fun v q => AfterPattern input v q ∧ Pattern.All φI φE v)
      (parsePattern n input) :=
  spec_and (parsePattern_spec input n) (pattern_all input φI φE hI hE n).2.1

theorem parseAttribute_all (input : GoString) (φI : InlineExpression → Prop)
    (φE : Expression → Prop) (hI : ∀ e, calleeOK e → φI e) (hE : ∀ e, selectorOK e → φE e)
    (n : Nat) :
    Spec input (fun _ => True) (fun a q => AfterPattern input a q ∧ Attribute.All φI φE a)
      (parseAttribute n input) := by
  unfold parseAttribute
  refine spec_bind_std (std_nextP input) (fun _ => ?_)
  refine spec_bind_std (std_parseIdentifier input n) (fun _ => ?_)
  refine spec_bind_std (std_skipBlankInline input n) (fun _ => ?_)
  refine spec_bind_std (std_getP input) (fun _ => ?_)
  refine spec_ite (spec_failWith _ _ _ _) ?_
  refine spec_bind_std (std_nextP input) (fun _ => ?_)
  refine spec_bind_std (std_skipBlankInline input n) (fun _ => ?_)
  exact spec_bind (parsePattern_all input φI φE hI hE n) (fun _ => spec_pure (fun _ h => h))

theorem parseAttributesLoop_all (input : GoString) (φI : InlineExpression → Prop)
    (φE : Expression → Prop) (hI : ∀ e, calleeOK e → φI e) (hE : ∀ e, selectorOK e → φE e) :
    ∀ n attributes, (∀ a ∈ attributes, Attribute.All φI φE a) →
    Spec input (fun p => p.ch ≠ 32) (fun r _ => ∀ a ∈ r, Attribute.All φI φE a)
      (parseAttributesLoop n input attributes) := by
  intro n
  induction n with
  | zero => intro _ _; exact spec_fuel _ _ _
  | succ n ih =>
    intro attributes hattrs p hOK hpre
    rw [parseAttributesLoop, getP_bind]
    by_cases h : p.ch = eof
    · rw [if_pos h, pure_apply]
      exact ⟨hOK, le_refl _, hattrs⟩
    · rw [if_neg h, bind_apply]
      have hr := skipBlankInline_run input n p hOK
      cases hx : skipBlankInline n input p with
      | ok m q =>
        rw [hx] at hr
        obtain ⟨_, _, _, _, g5⟩ := hr
        have hq : q = p := g5 hpre
        subst hq
        simp only []
        rw [getP_bind]
        by_cases h46 : q.ch ≠ 46
        · rw [if_pos h46, setP_bind, pure_apply]
          exact ⟨hOK, le_refl _, hattrs⟩
        · rw [if_neg h46]
          refine (spec_bind (parseAttribute_all input φI φE hI hE n)
            (fun attr p1 hOK1 hpre1 => ?_)) q hOK trivial
          refine ih (attributes ++ [attr]) ?_ p1 hOK1 hpre1.1.1
          intro a ha
          rcases List.mem_append.1 ha with ha | ha
          · exact hattrs a ha
          · rw [List.mem_singleton.1 ha]; exact hpre1.2
      | err e q => rw [hx] at hr; exact absurd hr id
      | panic m => trivial
      | fuel => trivial

/-- What follows the value in `parseMessage` and `parseTerm`, with the properties of the value
and of the attributes. -/
theorem spec_pattern_attributes {β : Type} (input : GoString) (φI : InlineExpression → Prop)
    (φE : Expression → Prop) (hI : ∀ e, calleeOK e → φI e) (hE : ∀ e, selectorOK e → φE e)
    (n : Nat) (Post : β → parser → Prop) (f : Pattern → List Attribute → P β)
    (hf : ∀ a b, Pattern.All φI φE a → (∀ x ∈ b, Attribute.All φI φE x) →
      Spec input (fun _ => True) Post (f a b)) :
    Spec input (fun _ => True) Post (do
      let pattern ← parsePattern n input
      let _ ← skipBlankBlock n input
      let attributes ← parseAttributes n input
      f pattern attributes) := by
  refine spec_bind (parsePattern_all input φI φE hI hE n) (fun pattern => ?_)
  refine spec_bind_at (fun _ q => q.ch ≠ 32 ∧ Pattern.All φI φE pattern) ?_ (fun _ => ?_)
  · intro p hOK hpre
    exact ResFits_mono (le_refl _) (fun _ _ h => ⟨h, hpre.2⟩)
      (skipBlankBlock_spec input n p hOK hpre.1)
  · refine spec_bind_at (fun attrs _ => (∀ x ∈ attrs, Attribute.All φI φE x) ∧
      Pattern.All φI φE pattern) ?_ (fun attrs p hOK hpre => hf pattern attrs hpre.2 hpre.1 p
        hOK trivial)
    intro p hOK hpre
    exact ResFits_mono (le_refl _) (fun _ _ h => ⟨h, hpre.2⟩)
      (parseAttributesLoop_all input φI φE hI hE n [] (by simp) p hOK hpre.1)

theorem parseEntry_all (input : GoString) (φI : InlineExpression → Prop)
    (φE : Expression → Prop) (hI : ∀ e, calleeOK e → φI e) (hE : ∀ e, selectorOK e → φE e)
    (n : Nat) :
    Spec input (fun _ => True) (fun e _ => Entry.All φI φE e) (parseEntry n input) := by
  unfold parseEntry
  refine spec_bind_std (std_getP input) (fun _ => ?_)
  refine spec_ite ?_ (spec_ite ?_ ?_)
  · unfold parseComment
    refine spec_bind_std (std_parseCommentLoop input n [] 0) (fun _ => ?_)
    exact spec_ite (spec_pure (fun _ _ => trivial)) (spec_ite (spec_pure (fun _ _ => trivial))
      (spec_ite (spec_pure (fun _ _ => trivial)) (spec_panic _ _ _ _)))
  · refine spec_bind_val (G := fun t : Term => Entry.All φI φE (Entry.term t)) ?_
      (fun t ht => spec_pure (fun _ _ => ht))
    unfold parseTerm
    refine spec_bind_std (std_getP input) (fun _ => ?_)
    refine spec_ite (spec_failWith _ _ _ _) ?_
    refine spec_bind_std (std_nextP input) (fun _ => ?_)
    refine spec_bind_std (spec_replaceErr _ (std_parseIdentifier input n)) (fun _ => ?_)
    refine spec_bind_std (std_skipBlankInline input n) (fun _ => ?_)
    refine spec_bind_std (std_getP input) (fun _ => ?_)
    refine spec_ite (spec_failWith _ _ _ _) ?_
    refine spec_bind_std (std_nextP input) (fun _ => ?_)
    refine spec_bind_std (std_skipBlankInline input n) (fun _ => ?_)
    refine spec_pattern_attributes input φI φE hI hE n _ _ (fun a b ha hb => ?_)
    exact spec_pure (fun _ _ => ⟨ha, hb⟩)
  · refine spec_bind_val (G := fun m : Message => Entry.All φI φE (Entry.message m)) ?_
      (fun m hm => spec_pure (fun _ _ => hm))
    unfold parseMessage
    refine spec_bind_std (std_parseIdentifier input n) (fun _ => ?_)
    refine spec_bind_std (std_skipBlankInline input n) (fun _ => ?_)
    refine spec_bind_std (std_getP input) (fun _ => ?_)
    refine spec_ite (spec_failWith _ _ _ _) ?_
    refine spec_bind_std (std_nextP input) (fun _ => ?_)
    refine spec_pattern_attributes input φI φE hI hE n _ _ (fun a b ha hb => ?_)
    refine spec_ite (spec_failWith _ _ _ _) (spec_pure (fun _ _ => ⟨?_, hb⟩))
    intro v hv
    split_ifs at hv
    · injection hv with hv; rw [← hv]; exact ha

theorem commitEntry_all (φI : InlineExpression → Prop) (φE : Expression → Prop)
    (entries : List Entry) (lc : Option Comment) (entry : Entry)
    (h : ∀ e ∈ entries, Entry.All φI φE e) (he : Entry.All φI φE entry) :
    ∀ e ∈ commitEntry entries lc entry, Entry.All φI φE e := by
  intro e hmem
  cases lc with
  | none =>
    simp only [commitEntry, List.mem_append, List.mem_singleton] at hmem
    rcases hmem with hm | hm
    · exact h e hm
    · rw [hm]; exact he
  | some c =>
    cases entry <;> simp only [commitEntry, List.mem_append, List.mem_singleton] at hmem
    case message m =>
      rcases hmem with hm | hm
      · exact h e hm
      · rw [hm]; exact he
    case term t =>
      rcases hmem with hm | hm
      · exact h e hm
      · rw [hm]; exact he
    all_goals
      rcases hmem with (hm | hm) | hm
      · exact h e hm
      · rw [hm]; trivial
      · rw [hm]; trivial

/-- Every inline expression of the tree that `Parse` returns satisfies `φI` and every
expression `φE`, for properties that follow from `calleeOK` and `selectorOK`. -/
theorem Parse_all (input : GoString) (φI : InlineExpression → Prop) (φE : Expression → Prop)
    (hI : ∀ e, calleeOK e → φI e) (hE : ∀ e, selectorOK e → φE e) (n : Nat) (r : Resource)
    (err : Option ParseErrors) (q : parser) (h : Parse n input = Res.ok (r, err) q) :
    Resource.All φI φE r := by
  unfold Parse parser.parse at h
  obtain ⟨k, p1, h1, h2⟩ := bind_ok h
  have hOK := std_skipBlankBlock input n (newParser input) (newParser_OK input) trivial
  rw [h1] at hOK
  have hinv := parseLoop_inv input
    (fun _ entries _ p => p.OK input ∧ ∀ e ∈ entries, Entry.All φI φE e)
    ?_ ?_ ?_ n [] [] none p1 (r, err) q ⟨hOK.1, by simp⟩ h2
  · obtain ⟨errors1, entries1, lc1, ⟨_, hJ⟩, _, hr⟩ := hinv
    rw [Prod.mk.injEq] at hr
    intro e hmem
    rw [hr.1] at hmem
    cases lc1 with
    | none => exact hJ e hmem
    | some c =>
      simp only [List.mem_append, List.mem_singleton] at hmem
      rcases hmem with hm | hm
      · exact hJ e hm
      · rw [hm]; trivial
  · intro n p c p1 p2 errors entries lc hJ hp hpe hsb
    have g1 := std_parseEntry input n p hJ.1 trivial
    rw [hpe] at g1
    have g2 := std_skipBlankBlock input n p1 g1.1 trivial
    rw [hsb] at g2
    exact ⟨g2.1, hJ.2⟩
  · intro n p entry p1 k p2 errors entries lc hJ hp hpe hsb _
    have g1 := parseEntry_all input φI φE hI hE n p hJ.1 trivial
    rw [hpe] at g1
    have g2 := std_skipBlankBlock input n p1 g1.1 trivial
    rw [hsb] at g2
    exact ⟨g2.1, commitEntry_all φI φE entries lc entry hJ.2 g1.2.2⟩
  · intro n p e p1 q k p2 errors entries lc hJ hp hpe hsk hsb
    have g1 := std_parseEntry input n p hJ.1 trivial
    rw [hpe] at g1
    obtain ⟨b1, _⟩ := skipToNextEntryStart_to input n p1 q g1.1 hsk
    have g2 := std_skipBlankBlock input n q b1 trivial
    rw [hsb] at g2
    exact ⟨g2.1, commitEntry_all φI φE entries lc _ hJ.2 trivial⟩

/-! ## Selectors and callees -/

/-- C17: whenever `Parse` returns, every expression of the tree satisfies `selectorOK`: the
selector of a select expression is no message reference (with or without attribute) and, if it
is a term reference, has an attribute; and a term reference that is directly the expression of a
placeable has no attribute. -/
theorem C17_selector_constraints (n : Nat) (input : GoString) (r : Resource)
    (err : Option ParseErrors) (q : parser) (h : Parse n input = Res.ok (r, err) q) :
    Resource.All (fun _ => True) selectorOK r :=
  Parse_all input (fun _ => True) selectorOK (fun _ _ => trivial) (fun _ he => he) n r err q h

/-- C17 (witness): the tree of `x = { -t.a -> *[k] { -u } }`, with a term attribute as selector
and a term reference without attribute as placeable. -/
theorem C17_selector_constraints_witness :
    Parse 60 selectTermInput = Res.ok (selectTermResource, none)
        { pos := 29, ch := 65533, w := 0, line := 4, col := 1 } ∧
      Resource.All (fun _ => True) selectorOK selectTermResource :=
  ⟨by rfl, C17_selector_constraints 60 selectTermInput selectTermResource none
    { pos := 29, ch := 65533, w := 0, line := 4, col := 1 } (by rfl)⟩

/-- C18: whenever `Parse` returns, every function reference of the tree has a name that matches
`[A-Z][A-Z0-9_-]*` (`calleeOK`); and where `parseInlineExpression` starts at an identifier that
is followed by `(` and holds a byte that is none of `A-Z`, `0-9`, `_`, `-`, it fails with
"forbidden callee" at the parenthesis. -/
theorem C18_function_names :
    (∀ (n : Nat) (input : GoString) (r : Resource) (err : Option ParseErrors) (q : parser),
      Parse n input = Res.ok (r, err) q → Resource.All calleeOK (fun _ => True) r) ∧
    (∀ (n : Nat) (input : GoString) (p q : parser) (id : Identifier),
      parseIdentifier n input p = Res.ok id q → q.ch = 40 →
      (∃ b ∈ id.Name, (isUppercase b || isDigit b || b == 95 || b == 45) = false) →
      parseInlineExpression (n + 1) input p =
        Res.err (q.error (errMessage.str "forbidden callee")) q) := by
  refine ⟨fun n input r err q h =>
    Parse_all input calleeOK (fun _ => True) (fun _ he => he) (fun _ _ => trivial) n r err q h,
    ?_⟩
  intro n input p q id hid hq ⟨b, hb, hbad⟩
  have hl := parseIdentifier_ok_letter n input p q id hid
  have h34 : p.ch ≠ 34 := by intro hc; rw [hc] at hl; exact absurd hl (by decide)
  have h45 : p.ch ≠ 45 := by intro hc; rw [hc] at hl; exact absurd hl (by decide)
  have h36 : p.ch ≠ 36 := by intro hc; rw [hc] at hl; exact absurd hl (by decide)
  have hdig : isDigit p.ch = false := by
    by_contra hc
    have hd : isDigit p.ch = true := by simpa using hc
    simp only [isLetter, isDigit, Bool.or_eq_true, Bool.and_eq_true, decide_eq_true_eq] at hl hd
    omega
  have hall : id.Name.all (fun ch => isUppercase ch || isDigit ch || ch == 95 || ch == 45)
      = false := by
    rw [List.all_eq_false]
    exact ⟨b, hb, by simp [hbad]⟩
  rw [parseInlineExpression, getP_bind]
  simp only [h34, hdig, h45, h36, hl, if_false, if_true, Bool.false_eq_true]
  rw [bind_apply, hid]
  simp only []
  rw [getP_bind]
  simp only [hq, if_true, hall, Bool.false_eq_true, if_false, failWith_apply]

/-- C18 (witness): the tree of `x = { F(1) }`, and the call `f()` with a lower-case name. -/
theorem C18_function_names_witness :
    (Parse 60 callInput = Res.ok (callResource, none)
        { pos := 13, ch := 65533, w := 0, line := 2, col := 1 } ∧
      Resource.All calleeOK (fun _ => True) callResource) ∧
    parseInlineExpression 6 (ascii "f()") (newParser (ascii "f()")) =
      Res.err ((cursorAt 1 40).error (errMessage.str "forbidden callee")) (cursorAt 1 40) :=
  ⟨⟨by rfl, C18_function_names.1 60 callInput callResource none
      { pos := 13, ch := 65533, w := 0, line := 2, col := 1 } (by rfl)⟩,
   C18_function_names.2 5 (ascii "f()") (newParser (ascii "f()")) (cursorAt 1 40)
     { Name := ascii "f" } (by rfl) (by rfl) ⟨102, by decide, by decide⟩⟩

/-! ## Line feed and carriage return with line feed

The parser on the input with every line feed replaced by carriage return and line feed goes
through the same steps as on the input: `skipEOL` passes the two bytes where it passed one, and
every other step of the cursor stays inside a line.  The cursors of the two runs correspond
(`CR`), and a run that records no diagnostic returns the same tree. -/

theorem crlf_append (a b : GoString) : crlf (a ++ b) = crlf a ++ crlf b := by
  induction a with
  | nil => rfl
  | cons x a ih =>
    rw [List.cons_append, crlf, crlf, ih]
    split <;> rfl

theorem crlf_noLF (s : GoString) (h : ∀ b ∈ s, b ≠ 10) : crlf s = s := by
  induction s with
  | nil => rfl
  | cons x s ih =>
    rw [crlf, if_neg (h x (by simp)), ih (fun b hb => h b (by simp [hb]))]

theorem crlf_length_le (s : GoString) : s.length ≤ (crlf s).length := by
  induction s with
  | nil => simp [crlf]
  | cons x s ih =>
    rw [crlf]
    split <;> simp <;> omega

theorem crlf_ne_nil (s : GoString) (h : s ≠ []) : crlf s ≠ [] := by
  cases s with
  | nil => exact absurd rfl h
  | cons x s =>
    rw [crlf]
    split <;> simp

theorem drop_crlfPos (input : GoString) (i : Nat) :
    (crlf input).drop (crlfPos input i) = crlf (input.drop i) := by
  unfold crlfPos
  have h : crlf input = crlf (input.take i) ++ crlf (input.drop i) := by
    rw [← crlf_append, List.take_append_drop]
  rw [h, List.drop_left]

theorem take_crlfPos (input : GoString) (i : Nat) :
    (crlf input).take (crlfPos input i) = crlf (input.take i) := by
  unfold crlfPos
  have h : crlf input = crlf (input.take i) ++ crlf (input.drop i) := by
    rw [← crlf_append, List.take_append_drop]
  rw [h, List.take_left]

theorem crlfPos_zero (input : GoString) : crlfPos input 0 = 0 := by
  simp [crlfPos, crlf]

theorem crlfPos_length (input : GoString) (i : Nat) (h : input.length ≤ i) :
    crlfPos input i = (crlf input).length := by
  unfold crlfPos
  rw [List.take_of_length_le h]

theorem crlfPos_lt (input : GoString) (i : Nat) (h : i < input.length) :
    crlfPos input i < (crlf input).length := by
  have h1 : (crlf input).length = crlfPos input i + (crlf (input.drop i)).length := by
    unfold crlfPos
    have h : crlf input = crlf (input.take i) ++ crlf (input.drop i) := by
      rw [← crlf_append, List.take_append_drop]
    rw [h, List.length_append]
  have h2 : input.drop i ≠ [] := by
    intro hc
    have := List.drop_eq_nil_iff.1 hc
    omega
  have h3 := crlf_ne_nil _ h2
  have h4 : 0 < (crlf (input.drop i)).length := List.length_pos.2 h3
  omega

theorem crlfPos_end (input : GoString) (i : Nat) :
    (crlf input).length ≤ crlfPos input i ↔ input.length ≤ i := by
  constructor
  · intro h
    by_contra hc
    have := crlfPos_lt input i (by omega)
    omega
  · intro h
    rw [crlfPos_length input i h]

theorem slice_crlfPos (input : GoString) (a b : Nat) (hab : a ≤ b) :
    slice (crlf input) (crlfPos input a) (crlfPos input b) = crlf (slice input a b) := by
  unfold slice
  rw [take_crlfPos]
  have h : input.take b = input.take a ++ (input.take b).drop a := by
    conv_lhs => rw [← List.take_append_drop a (input.take b)]
    rw [List.take_take, min_eq_left hab]
  conv_lhs => rw [h, crlf_append]
  unfold crlfPos
  rw [List.drop_left]

theorem slice_noLF (input : GoString) (a b : Nat) (h : NoLF input a b) :
    ∀ x ∈ slice input a b, x ≠ 10 := by
  intro x hx
  unfold slice at hx
  obtain ⟨i, hi, rfl⟩ := List.getElem_of_mem hx
  simp only [List.length_drop, List.length_take] at hi
  have := h (a + i) (by omega) (by omega)
  rw [List.getElem_drop, List.getElem_take]
  rw [List.getD_eq_getElem?_getD, List.getElem?_eq_getElem (by omega)] at this
  simpa using this

/-- A slice without line feed is the same in the converted input. -/
theorem slice_crlf (input : GoString) (a b : Nat) (hab : a ≤ b) (h : NoLF input a b) :
    slice (crlf input) (crlfPos input a) (crlfPos input b) = slice input a b := by
  rw [slice_crlfPos input a b hab, crlf_noLF _ (slice_noLF input a b h)]

/-- Positions move together over a stretch without line feed. -/
theorem crlfPos_add (input : GoString) (a b : Nat) (hab : a ≤ b) (hb : b ≤ input.length)
    (h : NoLF input a b) : crlfPos input b = crlfPos input a + (b - a) := by
  have h1 := slice_crlf input a b hab h
  have h2 : (slice (crlf input) (crlfPos input a) (crlfPos input b)).length = b - a := by
    rw [h1]
    unfold slice
    simp only [List.length_drop, List.length_take]
    omega
  unfold slice at h2
  simp only [List.length_drop, List.length_take] at h2
  have h3 : crlfPos input a ≤ crlfPos input b := by
    unfold crlfPos
    have : input.take b = input.take a ++ (input.take b).drop a := by
      conv_lhs => rw [← List.take_append_drop a (input.take b)]
      rw [List.take_take, min_eq_left hab]
    rw [this, crlf_append, List.length_append]
    omega
  have h4 : crlfPos input b ≤ (crlf input).length := by
    rw [← crlfPos_length input input.length (le_refl _)]
    unfold crlfPos
    have : input.take input.length = input.take b ++ (input.take input.length).drop b := by
      conv_lhs => rw [← List.take_append_drop b (input.take input.length)]
      rw [List.take_take, min_eq_left hb]
    rw [this, crlf_append, List.length_append]
    omega
  omega

theorem NoLF_trans {input : GoString} {a b c : Nat} (h1 : NoLF input a b)
    (h2 : NoLF input b c) : NoLF input a c := by
  intro i hi1 hi2
  by_cases h : i < b
  · exact h1 i hi1 h
  · exact h2 i (by omega) hi2

theorem NoLF_refl (input : GoString) (a : Nat) : NoLF input a a := fun i h1 h2 => by omega

theorem crlfRune_eq_iff (x c : Nat) (h10 : c ≠ 10) (h13 : c ≠ 13) : crlfRune x = c ↔ x = c := by
  unfold crlfRune
  split <;> constructor <;> intro h <;> omega

theorem DecodeRune_low1 (b c : Nat) (t : GoString) (hb : 128 ≤ b) (hc : c < 128) :
    DecodeRune (b :: c :: t) = (RuneError, 1) := by
  have h0 : ¬ b < 128 := by omega
  have hlo : ∀ lo hi : Nat, 128 ≤ lo → ¬ (lo ≤ c ∧ c ≤ hi) := fun lo hi h => by omega
  have h224 : 128 ≤ (if b = 224 then 160 else 128) := by split <;> omega
  have h240 : 128 ≤ (if b = 240 then 144 else 128) := by split <;> omega
  by_cases h1 : b < 194
  · simp only [DecodeRune, h0, h1, if_true, if_false]
  by_cases h2 : b < 224
  · simp only [DecodeRune, h0, h1, h2, if_true, if_false, hlo 128 191 (le_refl _)]
  by_cases h3 : b < 240
  · simp only [DecodeRune, h0, h1, h2, h3, if_true, if_false]
    rcases t with _ | ⟨c2, t⟩
    · rfl
    · simp only [hlo _ _ h224, if_false]
  by_cases h4 : b < 245
  · simp only [DecodeRune, h0, h1, h2, h3, h4, if_true, if_false]
    rcases t with _ | ⟨c2, _ | ⟨c3, t⟩⟩
    · rfl
    · rfl
    · simp only [hlo _ _ h240, if_false]
  · simp only [DecodeRune, h0, h1, h2, h3, h4, if_true, if_false]

theorem DecodeRune_low2 (b c1 c : Nat) (t : GoString) (hb : 128 ≤ b) (hc : c < 128) :
    DecodeRune (b :: c1 :: c :: t) = DecodeRune [b, c1] := by
  have h0 : ¬ b < 128 := by omega
  have hlo : ¬ (128 ≤ c ∧ c ≤ 191) := by omega
  by_cases h1 : b < 194
  · simp only [DecodeRune, h0, h1, if_true, if_false]
  by_cases h2 : b < 224
  · simp only [DecodeRune, h0, h1, h2, if_true, if_false]
  by_cases h3 : b < 240
  · simp only [DecodeRune, h0, h1, h2, h3, if_true, if_false, hlo, ite_self]
  by_cases h4 : b < 245
  · simp only [DecodeRune, h0, h1, h2, h3, h4, if_true, if_false]
    rcases t with _ | ⟨c3, t⟩
    · rfl
    · simp only [hlo, if_false, ite_self]
  · simp only [DecodeRune, h0, h1, h2, h3, h4, if_true, if_false]

theorem DecodeRune_low3 (b c1 c2 c : Nat) (t : GoString) (hb : 128 ≤ b) (hc : c < 128) :
    DecodeRune (b :: c1 :: c2 :: c :: t) = DecodeRune [b, c1, c2] := by
  have h0 : ¬ b < 128 := by omega
  have hlo : ¬ (128 ≤ c ∧ c ≤ 191) := by omega
  by_cases h1 : b < 194
  · simp only [DecodeRune, h0, h1, if_true, if_false]
  by_cases h2 : b < 224
  · simp only [DecodeRune, h0, h1, h2, if_true, if_false]
  by_cases h3 : b < 240
  · simp only [DecodeRune, h0, h1, h2, h3, if_true, if_false]
  by_cases h4 : b < 245
  · simp only [DecodeRune, h0, h1, h2, h3, h4, if_true, if_false, hlo, ite_self]
  · simp only [DecodeRune, h0, h1, h2, h3, h4, if_true, if_false]

theorem DecodeRune_four (b c1 c2 c3 : Nat) (t u : GoString) :
    DecodeRune (b :: c1 :: c2 :: c3 :: t) = DecodeRune (b :: c1 :: c2 :: c3 :: u) := by
  simp only [DecodeRune]

theorem DecodeRune_crlf_high (b : Nat) (rest : GoString) (h : 128 ≤ b) :
    DecodeRune (b :: crlf rest) = DecodeRune (b :: rest) := by
  rcases rest with _ | ⟨b1, rest⟩
  · rfl
  by_cases e1 : b1 = 10
  · subst e1
    rw [crlf, if_pos rfl, DecodeRune_low1 b 13 _ h (by omega),
      DecodeRune_low1 b 10 _ h (by omega)]
  rw [crlf, if_neg e1]
  rcases rest with _ | ⟨b2, rest⟩
  · rfl
  by_cases e2 : b2 = 10
  · subst e2
    rw [crlf, if_pos rfl, DecodeRune_low2 b b1 13 _ h (by omega),
      DecodeRune_low2 b b1 10 _ h (by omega)]
  rw [crlf, if_neg e2]
  rcases rest with _ | ⟨b3, rest⟩
  · rfl
  by_cases e3 : b3 = 10
  · subst e3
    rw [crlf, if_pos rfl, DecodeRune_low3 b b1 b2 13 _ h (by omega),
      DecodeRune_low3 b b1 b2 10 _ h (by omega)]
  rw [crlf, if_neg e3]
  exact DecodeRune_four b b1 b2 b3 _ _

theorem DecodeRune_crlf (s : GoString) :
    DecodeRune (crlf s) = (crlfRune (DecodeRune s).1, (DecodeRune s).2) := by
  cases s with
  | nil => rfl
  | cons b rest =>
    by_cases hb : b < 128
    · rw [DecodeRune_ascii b rest hb, crlf]
      by_cases h10 : b = 10
      · subst h10
        rfl
      · rw [if_neg h10, DecodeRune_ascii b _ hb]
        simp only [crlfRune, if_neg h10]
    · have h10 : b ≠ 10 := by omega
      rw [crlf, if_neg h10, DecodeRune_crlf_high b rest (by omega)]
      have := (DecodeRune_high b rest (by omega)).1
      have h : (DecodeRune (b :: rest)).1 ≠ 10 := by omega
      simp only [crlfRune, if_neg h]

theorem crlfRune_ne_lf (c : Nat) : crlfRune c ≠ 10 := by
  unfold crlfRune
  split <;> omega

theorem crlfRune_of_ne {c : Nat} (h : c ≠ 10) : crlfRune c = c := by
  unfold crlfRune
  rw [if_neg h]

/-- Under a cursor that fits the input and holds no line feed, the width leads to a position
inside the input without passing a line feed. -/
theorem OK_step {input : GoString} {p : parser} (h : p.OK input) (h10 : p.ch ≠ 10) :
    p.pos + p.w ≤ input.length ∧ NoLF input p.pos (p.pos + p.w) := by
  rcases h with ⟨h1, h2⟩ | ⟨h1, h2, h3⟩ | ⟨h1, h2, h3, _, h4, h5⟩
  · obtain ⟨s1, _, s3, _, s5⟩ := DecodeRune_span (input.drop p.pos)
    rw [h2] at s1 s3
    simp only [List.length_drop] at s1
    refine ⟨by omega, ?_⟩
    intro i hi1 hi2
    by_cases hlast : i + 1 < p.pos + p.w
    · have := s3 (i - p.pos) (by omega)
      rw [getD_drop] at this
      rwa [show p.pos + (i - p.pos) = i by omega] at this
    · have hi : i + 1 = p.pos + p.w := by omega
      by_cases hlt : input.getD i 0 < 128
      · intro hc
        by_cases hw : p.w = 1
        · have hip : i = p.pos := by omega
          have hne : input.drop p.pos ≠ [] := by
            intro hc2
            have := List.drop_eq_nil_iff.1 hc2
            omega
          have s6 := s5 hne (by rw [getD_drop, Nat.add_zero, ← hip]; exact hlt)
          rw [h2, getD_drop, Nat.add_zero, ← hip, hc] at s6
          injection s6 with s7 _
          exact h10 s7
        · -- a rune of several bytes: the last byte is outside ASCII
          have hne : input.drop p.pos ≠ [] := by
            intro hc2
            have := List.drop_eq_nil_iff.1 hc2
            omega
          obtain ⟨b, rest, hbr⟩ := List.exists_cons_of_ne_nil hne
          have hb : 128 ≤ b := by
            by_contra hb
            have := DecodeRune_ascii b rest (by omega)
            rw [← hbr, h2] at this
            injection this with _ hw1
            exact hw hw1
          obtain ⟨_, _, _, g4⟩ := DecodeRune_high b rest hb
          rw [← hbr, h2] at g4
          obtain ⟨c, hc1, hc2⟩ := g4 (i - p.pos - 1) (by omega)
          have : input.getD i 0 = c := by
            have e : input.getD i 0 = (input.drop p.pos).getD (i - p.pos) 0 := by
              rw [getD_drop]
              congr 1
              omega
            rw [e, hbr, show i - p.pos = (i - p.pos - 1) + 1 by omega,
              List.getD_eq_getElem?_getD, List.getElem?_cons_succ, ← List.get?_eq_getElem?, hc1]
            rfl
          omega
      · omega
  · rw [h3]
    exact ⟨by omega, fun i h1 h2 => by omega⟩
  · exact ⟨h4, h5⟩

/-- A cursor that fits the input and holds a line feed is at a line feed of the input. -/
theorem OK_lf {input : GoString} {p : parser} (h : p.OK input) (h10 : p.ch = 10) :
    p.pos < input.length ∧ input.getD p.pos 0 = 10 ∧ p.w = 1 := by
  rcases h with ⟨h1, h2⟩ | ⟨h1, h2, h3⟩ | ⟨h1, h2, h3, h6, h4, h5⟩
  · obtain ⟨_, _, _, s4, _⟩ := DecodeRune_span (input.drop p.pos)
    rw [h2] at s4
    obtain ⟨t1, t2, t3⟩ := s4 10 (by omega) h10
    rw [getD_drop] at t2
    have : p.pos < input.length := by
      by_contra hc
      exact t1 (List.drop_eq_nil_of_le (by omega))
    exact ⟨this, t2, t3⟩
  · rw [h10] at h2
    exact absurd h2 (by decide)
  · omega

/-- Without carriage return in the input no cursor that fits holds one. -/
theorem OK_ne_cr {input : GoString} {p : parser} (hcr : ∀ b ∈ input, b ≠ 13)
    (h : p.OK input) : p.ch ≠ 13 := by
  intro h13
  rcases h with ⟨h1, h2⟩ | ⟨h1, h2, h3⟩ | ⟨h1, h2, h3, h6, h4, h5⟩
  · obtain ⟨_, _, _, s4, _⟩ := DecodeRune_span (input.drop p.pos)
    rw [h2] at s4
    obtain ⟨t1, t2, _⟩ := s4 13 (by omega) h13
    rw [getD_drop, Nat.add_zero] at t2
    have hlt : p.pos < input.length := by
      by_contra hc
      exact t1 (List.drop_eq_nil_of_le (by omega))
    rw [List.getD_eq_getElem?_getD, List.getElem?_eq_getElem hlt] at t2
    exact hcr _ (List.getElem_mem hlt) (by simpa using t2)
  · rw [h13] at h2
    exact absurd h2 (by decide)
  · omega

theorem crlfPos_lf (input : GoString) (i : Nat) (hi : i < input.length)
    (h : input.getD i 0 = 10) : crlfPos input (i + 1) = crlfPos input i + 2 := by
  unfold crlfPos
  have e : input.take (i + 1) = input.take i ++ [10] := by
    rw [List.take_succ, List.getElem?_eq_getElem hi]
    rw [List.getD_eq_getElem?_getD, List.getElem?_eq_getElem hi] at h
    simp at h
    simp [h]
  rw [e, crlf_append, List.length_append]
  rfl

theorem drop_lf (input : GoString) (i : Nat) (hi : i < input.length)
    (h : input.getD i 0 = 10) : input.drop i = 10 :: input.drop (i + 1) := by
  rw [List.drop_eq_getElem_cons hi]
  rw [List.getD_eq_getElem?_getD, List.getElem?_eq_getElem hi] at h
  simp at h
  rw [h]

theorem next_cr (input : GoString) (p p1 : parser) (hOK : p.OK input) (hCR : CR input p p1)
    (h10 : p.ch ≠ 10) : CR input (next input p) (next (crlf input) p1) := by
  obtain ⟨c1, c2, c3⟩ := hCR
  obtain ⟨s1, s2⟩ := OK_step hOK h10
  unfold CR
  rw [next_pos, next_ch, next_w, next_pos, next_ch, next_w]
  by_cases hlen : input.length ≤ p.pos
  · have hlen1 : (crlf input).length ≤ p1.pos := by rw [c1]; exact (crlfPos_end _ _).2 hlen
    rw [if_pos hlen, if_pos hlen, if_pos hlen, if_pos hlen1, if_pos hlen1, if_pos hlen1]
    exact ⟨c1, rfl, c3⟩
  · have hlen1 : ¬ (crlf input).length ≤ p1.pos := by
      rw [c1]; exact fun hc => hlen ((crlfPos_end _ _).1 hc)
    rw [if_neg hlen, if_neg hlen, if_neg hlen, if_neg hlen1, if_neg hlen1, if_neg hlen1]
    have e : p1.pos + p1.w = crlfPos input (p.pos + p.w) := by
      rw [c1, c3, crlfPos_add input p.pos (p.pos + p.w) (by omega) s1 s2]
      omega
    rw [e, drop_crlfPos, DecodeRune_crlf]
    exact ⟨rfl, rfl, rfl⟩

theorem next_NoLF (input : GoString) (p : parser) (hOK : p.OK input) (h10 : p.ch ≠ 10) :
    NoLF input p.pos (next input p).pos := by
  obtain ⟨_, s2⟩ := OK_step hOK h10
  rw [next_pos]
  split
  · exact NoLF_refl _ _
  · exact s2

theorem peek_cr (input : GoString) (p p1 : parser) (hOK : p.OK input) (hCR : CR input p p1)
    (h10 : p.ch ≠ 10) : peek (crlf input) p1 = crlfRune (peek input p) := by
  obtain ⟨c1, c2, c3⟩ := hCR
  obtain ⟨s1, s2⟩ := OK_step hOK h10
  unfold peek
  by_cases hlen : input.length ≤ p.pos
  · have hlen1 : (crlf input).length ≤ p1.pos := by rw [c1]; exact (crlfPos_end _ _).2 hlen
    rw [if_pos hlen, if_pos hlen1]
    rfl
  · have hlen1 : ¬ (crlf input).length ≤ p1.pos := by
      rw [c1]; exact fun hc => hlen ((crlfPos_end _ _).1 hc)
    rw [if_neg hlen, if_neg hlen1]
    have e : p1.pos + p1.w = crlfPos input (p.pos + p.w) := by
      rw [c1, c3, crlfPos_add input p.pos (p.pos + p.w) (by omega) s1 s2]
      omega
    rw [e, drop_crlfPos, DecodeRune_crlf]

/-- At a line feed of the input the converted input has a carriage return followed by a line
feed. -/
theorem peek_lf (input : GoString) (p p1 : parser) (hOK : p.OK input) (hCR : CR input p p1)
    (h10 : p.ch = 10) : p1.ch = 13 ∧ peek (crlf input) p1 = 10 := by
  obtain ⟨c1, c2, c3⟩ := hCR
  obtain ⟨t1, t2, t3⟩ := OK_lf hOK h10
  refine ⟨by rw [c2, h10]; rfl, ?_⟩
  unfold peek
  have hlen1 : ¬ (crlf input).length ≤ p1.pos := by
    rw [c1]; exact fun hc => absurd ((crlfPos_end _ _).1 hc) (by omega)
  rw [if_neg hlen1, c1, c3, t3, ← List.drop_drop, drop_crlfPos, drop_lf input p.pos t1 t2]
  rfl

theorem isEOL_cr (input : GoString) (hcr : ∀ b ∈ input, b ≠ 13) (p p1 : parser)
    (hOK : p.OK input) (hCR : CR input p p1) : isEOL (crlf input) p1 = isEOL input p := by
  by_cases h10 : p.ch = 10
  · obtain ⟨g1, g2⟩ := peek_lf input p p1 hOK hCR h10
    simp [isEOL, g1, g2, h10]
  · have h13 := OK_ne_cr hcr hOK
    rw [isEOL_of_ch input p h10 h13]
    have e : p1.ch = p.ch := by rw [hCR.2.1, crlfRune_of_ne h10]
    exact isEOL_of_ch _ p1 (by rw [e]; exact h10) (by rw [e]; exact h13)

theorem isEOL_iff_lf (input : GoString) (hcr : ∀ b ∈ input, b ≠ 13) (p : parser)
    (hOK : p.OK input) : isEOL input p = true ↔ p.ch = 10 := by
  constructor
  · intro h
    by_contra h10
    rw [isEOL_of_ch input p h10 (OK_ne_cr hcr hOK)] at h
    exact absurd h (by decide)
  · intro h
    simp [isEOL, h]

/-- The rune of the corresponding cursor is the same when no line ends there. -/
theorem CR_ch {input : GoString} {p p1 : parser} (hCR : CR input p p1) (h10 : p.ch ≠ 10) :
    p1.ch = p.ch := by rw [hCR.2.1, crlfRune_of_ne h10]

theorem rescr_bind {α β : Type} {input : GoString} {Q1 Q : parser → Prop} {lo : Nat}
    {Post : α → parser → Prop} {x x1 : P α} {f f1 : α → P β} {p p1 : parser}
    (hfit : ResFits input lo Post (x p)) (hx : ResCR input Q1 (x p) (x1 p1))
    (hf : ∀ a q q1, CR input q q1 → Q1 q → q.OK input → lo ≤ q.pos → Post a q →
      ResCR input Q (f a q) (f1 a q1)) :
    ResCR input Q ((x >>= f) p) ((x1 >>= f1) p1) := by
  rw [bind_apply, bind_apply]
  cases hxp : x p <;> cases hxp1 : x1 p1 <;> rw [hxp, hxp1] at hx <;>
    simp only [ResCR] at hx ⊢
  · rw [hxp] at hfit
    obtain ⟨e, h1, h2⟩ := hx
    subst e
    exact hf _ _ _ h1 h2 hfit.1 hfit.2.1 hfit.2.2

theorem rescr_getP {α : Type} {input : GoString} {Q : parser → Prop} {f f1 : parser → P α}
    {p p1 : parser} (h : ResCR input Q (f p p) (f1 p1 p1)) :
    ResCR input Q ((getP >>= f) p) ((getP >>= f1) p1) := h

theorem rescr_ite {α : Type} {input : GoString} {Q : parser → Prop} {c c1 : Prop}
    [Decidable c] [Decidable c1] {x y x1 y1 : P α} {p p1 : parser} (hc : c ↔ c1)
    (hx : c → ResCR input Q (x p) (x1 p1)) (hy : ¬ c → ResCR input Q (y p) (y1 p1)) :
    ResCR input Q ((if c then x else y) p) ((if c1 then x1 else y1) p1) := by
  by_cases h : c
  · rw [if_pos h, if_pos (hc.1 h)]; exact hx h
  · rw [if_neg h, if_neg (fun h1 => h (hc.2 h1))]; exact hy h

theorem rescr_pure {α : Type} {input : GoString} {Q : parser → Prop} {a a1 : α}
    {p p1 : parser} (ha : a = a1) (hCR : CR input p p1) (hQ : Q p) :
    ResCR input Q ((pure a : P α) p) ((pure a1 : P α) p1) := ⟨ha, hCR, hQ⟩

theorem rescr_failWith {α : Type} (input : GoString) (Q : parser → Prop) (m m1 : errMessage)
    (p p1 : parser) : ResCR input Q ((failWith m : P α) p) ((failWith m1 : P α) p1) := trivial

theorem rescr_mono {α : Type} {input : GoString} {Q Q1 : parser → Prop} {r r1 : Res α}
    (h : ResCR input Q r r1) (hQ : ∀ q, Q q → Q1 q) : ResCR input Q1 r r1 := by
  cases r <;> cases r1 <;> simp only [ResCR] at h ⊢
  exact ⟨h.1, h.2.1, hQ _ h.2.2⟩

theorem rescr_wrapErr {α : Type} {input : GoString} {Q : parser → Prop} {x x1 : P α}
    {p p1 : parser} (format : String) (h : ResCR input Q (x p) (x1 p1)) :
    ResCR input Q (wrapErr format x p) (wrapErr format x1 p1) := by
  unfold wrapErr
  cases hxp : x p <;> cases hxp1 : x1 p1 <;> rw [hxp, hxp1] at h <;> exact h

theorem rescr_replaceErr {α : Type} {input : GoString} {Q : parser → Prop} {x x1 : P α}
    {p p1 : parser} (m : errMessage) (h : ResCR input Q (x p) (x1 p1)) :
    ResCR input Q (replaceErr m x p) (replaceErr m x1 p1) := by
  unfold replaceErr
  cases hxp : x p <;> cases hxp1 : x1 p1 <;> rw [hxp, hxp1] at h <;> exact h

theorem nextP_cr (input : GoString) (p p1 : parser) (hOK : p.OK input) (hCR : CR input p p1)
    (h10 : p.ch ≠ 10) :
    ResCR input (fun q => NoLF input p.pos q.pos) (nextP input p) (nextP (crlf input) p1) :=
  ⟨rfl, next_cr input p p1 hOK hCR h10, next_NoLF input p hOK h10⟩

theorem skipEOL_cr (input : GoString) (hcr : ∀ b ∈ input, b ≠ 13) (p p1 : parser)
    (hOK : p.OK input) (hCR : CR input p p1) :
    ResCR input (fun _ => True) (skipEOL input p) (skipEOL (crlf input) p1) := by
  unfold skipEOL
  by_cases h10 : p.ch = 10
  · obtain ⟨g1, g2⟩ := peek_lf input p p1 hOK hCR h10
    obtain ⟨t1, t2, t3⟩ := OK_lf hOK h10
    obtain ⟨c1, c2, c3⟩ := hCR
    have h1 : ¬ p1.ch = 10 := by omega
    rw [if_pos h10, if_neg h1, if_pos ⟨g1, g2⟩]
    refine ⟨rfl, ?_, trivial⟩
    have hlen : ¬ input.length ≤ p.pos := by omega
    have hlen1 : ¬ (crlf input).length ≤ p1.pos := by
      rw [c1]; exact fun hc => hlen ((crlfPos_end _ _).1 hc)
    have hd : (crlf input).drop (p1.pos + 1) = 10 :: crlf (input.drop (p.pos + 1)) := by
      rw [c1, ← List.drop_drop, drop_crlfPos, drop_lf input p.pos t1 t2]
      rfl
    have hlen2 : ¬ (crlf input).length ≤ (next (crlf input) p1).pos := by
      rw [next_pos, if_neg hlen1, c3, t3]
      intro hc
      have := List.drop_eq_nil_of_le hc
      rw [hd] at this
      exact absurd this (by simp)
    have hn1 : (next (crlf input) p1).pos = p1.pos + 1 := by
      rw [next_pos, if_neg hlen1, c3, t3]
    have hn2 : (next (crlf input) p1).w = 1 := by
      rw [next_w, if_neg hlen1, c3, t3, hd]
      rfl
    have e : (next (crlf input) p1).pos + (next (crlf input) p1).w =
        crlfPos input (p.pos + p.w) := by
      rw [hn1, hn2, t3, crlfPos_lf input p.pos t1 t2, c1]
    generalize next (crlf input) p1 = r at hlen2 e
    unfold CR
    rw [next_pos, next_ch, next_w, next_pos, next_ch, next_w]
    rw [if_neg hlen, if_neg hlen, if_neg hlen, if_neg hlen2, if_neg hlen2, if_neg hlen2]
    rw [e, drop_crlfPos, DecodeRune_crlf]
    exact ⟨rfl, rfl, rfl⟩
  · have h13 := OK_ne_cr hcr hOK
    have e := CR_ch hCR h10
    have h1 : ¬ p1.ch = 10 := by rw [e]; exact h10
    have h2 : ¬ (p1.ch = 13 ∧ peek (crlf input) p1 = 10) := by rw [e]; exact fun h => h13 h.1
    have h3 : ¬ (p.ch = 13 ∧ peek input p = 10) := fun h => h13 h.1
    rw [if_neg h10, if_neg h3, if_neg h1, if_neg h2]
    exact ⟨rfl, hCR, trivial⟩

theorem skipEOL_true (input : GoString) (hcr : ∀ b ∈ input, b ≠ 13) (p q : parser)
    (hOK : p.OK input) (eol : Bool) (h : skipEOL input p = Res.ok eol q) :
    (eol = false → q = p ∧ p.ch ≠ 10) := by
  intro he
  subst he
  unfold skipEOL at h
  by_cases h10 : p.ch = 10
  · rw [if_pos h10] at h
    injection h with h1 _
    exact absurd h1 (by decide)
  · rw [if_neg h10, if_neg (fun h => OK_ne_cr hcr hOK h.1)] at h
    injection h with _ h2
    exact ⟨h2.symm, h10⟩

theorem next_step {input : GoString} {p p1 : parser} (hOK : p.OK input)
    (hCR : CR input p p1) (h10 : p.ch ≠ 10) :
    (next input p).OK input ∧ CR input (next input p) (next (crlf input) p1) ∧
      NoLF input p.pos (next input p).pos :=
  ⟨Fresh_OK (next_Fresh input p hOK).1, next_cr input p p1 hOK hCR h10,
    next_NoLF input p hOK h10⟩

theorem rescr_trans {α : Type} {input : GoString} {s m : Nat} {r r1 : Res α}
    (hs : NoLF input s m) (h : ResCR input (fun q => NoLF input m q.pos) r r1) :
    ResCR input (fun q => NoLF input s q.pos) r r1 :=
  rescr_mono h (fun _ hq => NoLF_trans hs hq)

theorem rescr_fuel {α : Type} (input : GoString) (Q : parser → Prop) :
    ResCR input Q (Res.fuel : Res α) Res.fuel := trivial

theorem skipBlankInlineLoop_cr (input : GoString) : ∀ (n : Nat) (p p1 : parser),
    p.OK input → CR input p p1 →
    ResCR input (fun q => NoLF input p.pos q.pos) (skipBlankInlineLoop n input p)
      (skipBlankInlineLoop n (crlf input) p1) := by
  intro n
  induction n with
  | zero => intro _ _ _ _; exact rescr_fuel _ _
  | succ n ih =>
    intro p p1 hOK hCR
    rw [skipBlankInlineLoop, skipBlankInlineLoop]
    dsimp only
    by_cases h : p.ch = 32
    · have h10 : p.ch ≠ 10 := by omega
      obtain ⟨g1, g2, g3⟩ := next_step hOK hCR h10
      rw [if_pos h, if_pos (by rw [CR_ch hCR h10]; exact h)]
      exact rescr_trans g3 (ih _ _ g1 g2)
    · have h1 : ¬ p1.ch = 32 := by
        rw [hCR.2.1, crlfRune_eq_iff _ _ (by decide) (by decide)]; exact h
      rw [if_neg h, if_neg h1]
      exact ⟨rfl, hCR, NoLF_refl _ _⟩

theorem skipBlankInline_cr (input : GoString) (n : Nat) (p p1 : parser) (hOK : p.OK input)
    (hCR : CR input p p1) :
    ResCR input (fun q => NoLF input p.pos q.pos) (skipBlankInline n input p)
      (skipBlankInline n (crlf input) p1) := by
  unfold skipBlankInline
  simp only [getP_bind]
  refine rescr_bind (RunRes_fits (skipBlankInlineLoop_run input n p hOK))
    (skipBlankInlineLoop_cr input n p p1 hOK hCR) ?_
  intro _ q q1 hCRq hQ hOKq hlo _
  simp only [getP_bind]
  refine rescr_pure ?_ hCRq hQ
  rw [hCRq.1, hCR.1, crlfPos_add input p.pos q.pos hlo (OK_le hOKq) hQ]
  omega

theorem skipBlankBlockLoop_cr (input : GoString) (hcr : ∀ b ∈ input, b ≠ 13) :
    ∀ (n count : Nat) (p p1 : parser), p.OK input → CR input p p1 →
    ResCR input (fun _ => True) (skipBlankBlockLoop n input count p)
      (skipBlankBlockLoop n (crlf input) count p1) := by
  intro n
  induction n with
  | zero => intro _ _ _ _ _; exact rescr_fuel _ _
  | succ n ih =>
    intro count p p1 hOK hCR
    rw [skipBlankBlockLoop, skipBlankBlockLoop]
    simp only [getP_bind]
    refine rescr_bind (std_skipBlankInline input n p hOK trivial)
      (skipBlankInline_cr input n p p1 hOK hCR) ?_
    intro _ q q1 hCRq _ hOKq _ _
    refine rescr_bind (std_skipEOL input q hOKq trivial) (skipEOL_cr input hcr q q1 hOKq hCRq) ?_
    intro eol r r1 hCRr _ hOKr _ _
    cases eol with
    | true =>
      simp only [if_true]
      exact ih _ _ _ hOKr hCRr
    | false =>
      simp only [Bool.false_eq_true, if_false, getP_bind, setP_bind]
      exact rescr_pure rfl ⟨hCR.1, hCR.2.1, hCRr.2.2⟩ trivial

theorem skipBlankBlock_cr (input : GoString) (hcr : ∀ b ∈ input, b ≠ 13) (n : Nat)
    (p p1 : parser) (hOK : p.OK input) (hCR : CR input p p1) :
    ResCR input (fun _ => True) (skipBlankBlock n input p) (skipBlankBlock n (crlf input) p1) :=
  skipBlankBlockLoop_cr input hcr n 0 p p1 hOK hCR

theorem skipBlank_cr (input : GoString) (hcr : ∀ b ∈ input, b ≠ 13) :
    ∀ (n : Nat) (p p1 : parser), p.OK input → CR input p p1 →
    ResCR input (fun _ => True) (skipBlank n input p) (skipBlank n (crlf input) p1) := by
  intro n
  induction n with
  | zero => intro _ _ _ _; exact rescr_fuel _ _
  | succ n ih =>
    intro p p1 hOK hCR
    rw [skipBlank, skipBlank]
    refine rescr_bind (std_skipBlankInline input n p hOK trivial)
      (skipBlankInline_cr input n p p1 hOK hCR) ?_
    intro _ q q1 hCRq _ hOKq _ _
    refine rescr_bind (std_skipEOL input q hOKq trivial) (skipEOL_cr input hcr q q1 hOKq hCRq) ?_
    intro eol r r1 hCRr _ hOKr _ _
    cases eol with
    | true =>
      simp only [if_true]
      exact ih _ _ hOKr hCRr
    | false =>
      simp only [Bool.false_eq_true, if_false]
      exact rescr_pure rfl hCRr trivial

theorem CR_eq {input : GoString} {p p1 : parser} (hCR : CR input p p1) (c : Nat)
    (h10 : c ≠ 10) (h13 : c ≠ 13) : p1.ch = c ↔ p.ch = c := by
  rw [hCR.2.1]; exact crlfRune_eq_iff _ _ h10 h13

theorem CR_isDigit {input : GoString} {p p1 : parser} (hCR : CR input p p1) :
    isDigit p1.ch = isDigit p.ch := by
  rw [hCR.2.1]
  unfold crlfRune
  split
  · next h => rw [h]; rfl
  · rfl

theorem CR_isLetter {input : GoString} {p p1 : parser} (hCR : CR input p p1) :
    isLetter p1.ch = isLetter p.ch := by
  rw [hCR.2.1]
  unfold crlfRune
  split
  · next h => rw [h]; rfl
  · rfl

theorem CR_isHex {input : GoString} {p p1 : parser} (hCR : CR input p p1) :
    isHex p1.ch = isHex p.ch := by
  rw [hCR.2.1]
  unfold crlfRune
  split
  · next h => rw [h]; rfl
  · rfl

theorem CR_beq {input : GoString} {p p1 : parser} (hCR : CR input p p1) (c : Nat)
    (h10 : c ≠ 10) (h13 : c ≠ 13) : (p1.ch == c) = (p.ch == c) := by
  have h := CR_eq hCR c h10 h13
  rw [Bool.eq_iff_iff, beq_iff_eq, beq_iff_eq]
  exact h

theorem CR_eof {input : GoString} {p p1 : parser} (hCR : CR input p p1) :
    p1.ch = eof ↔ p.ch = eof := CR_eq hCR eof (by decide) (by decide)

theorem skipUnicodeEscapeSequenceLoop_cr (input : GoString) :
    ∀ (n need taken : Nat) (p p1 : parser), p.OK input → CR input p p1 →
    ResCR input (fun q => NoLF input p.pos q.pos)
      (skipUnicodeEscapeSequenceLoop n input need taken p)
      (skipUnicodeEscapeSequenceLoop n (crlf input) need taken p1) := by
  intro n
  induction n with
  | zero => intro _ _ _ _ _ _; exact rescr_fuel _ _
  | succ n ih =>
    intro need taken p p1 hOK hCR
    rw [skipUnicodeEscapeSequenceLoop, skipUnicodeEscapeSequenceLoop]
    dsimp only
    simp only [CR_isHex hCR, ne_eq, CR_eof hCR]
    by_cases h1 : p.ch = eof
    · simp only [h1, not_true, if_false]
      exact ⟨rfl, hCR, NoLF_refl _ _⟩
    simp only [h1, not_false_eq_true, if_true]
    by_cases h2 : need ≤ taken
    · simp only [h2, if_true]
      exact ⟨rfl, hCR, NoLF_refl _ _⟩
    simp only [h2, if_false]
    by_cases h3 : (!isHex p.ch) = true
    · simp only [h3, if_true]
      exact ⟨rfl, hCR, NoLF_refl _ _⟩
    simp only [h3, if_false]
    have h10 : p.ch ≠ 10 := by
      intro hc
      rw [hc] at h3
      exact h3 rfl
    obtain ⟨g1, g2, g3⟩ := next_step hOK hCR h10
    exact rescr_trans g3 (ih _ _ _ _ g1 g2)

theorem skipUnicodeEscapeSequence_cr (input : GoString) (n : Nat) (p p1 : parser)
    (hOK : p.OK input) (hCR : CR input p p1) (h10 : p.ch ≠ 10) :
    ResCR input (fun q => NoLF input p.pos q.pos) (skipUnicodeEscapeSequence n input p)
      (skipUnicodeEscapeSequence n (crlf input) p1) := by
  unfold skipUnicodeEscapeSequence
  simp only [getP_bind, nextP_bind]
  rw [CR_ch hCR h10]
  obtain ⟨g1, g2, g3⟩ := next_step hOK hCR h10
  refine rescr_bind (std_skipUnicodeEscapeSequenceLoop input n _ 0 _ g1 trivial)
    (skipUnicodeEscapeSequenceLoop_cr input n _ 0 _ _ g1 g2) ?_
  intro taken q q1 hCRq hQ _ _ _
  refine rescr_ite Iff.rfl (fun _ => rescr_failWith _ _ _ _ _ _) (fun _ => ?_)
  exact rescr_pure rfl hCRq (NoLF_trans g3 hQ)

theorem skipDigitsLoop_cr (input : GoString) :
    ∀ (n count : Nat) (p p1 : parser), p.OK input → CR input p p1 →
    ResCR input (fun q => NoLF input p.pos q.pos) (skipDigitsLoop n input count p)
      (skipDigitsLoop n (crlf input) count p1) := by
  intro n
  induction n with
  | zero => intro _ _ _ _ _; exact rescr_fuel _ _
  | succ n ih =>
    intro count p p1 hOK hCR
    rw [skipDigitsLoop, skipDigitsLoop]
    dsimp only
    rw [CR_isDigit hCR]
    split_ifs with h1
    · have h10 : p.ch ≠ 10 := by
        intro hc
        rw [hc] at h1
        exact absurd h1 (by decide)
      obtain ⟨g1, g2, g3⟩ := next_step hOK hCR h10
      exact rescr_trans g3 (ih _ _ _ g1 g2)
    · exact ⟨rfl, hCR, NoLF_refl _ _⟩

theorem skipDigits_cr (input : GoString) (n : Nat) (p p1 : parser) (hOK : p.OK input)
    (hCR : CR input p p1) :
    ResCR input (fun q => NoLF input p.pos q.pos) (skipDigits n input p)
      (skipDigits n (crlf input) p1) :=
  skipDigitsLoop_cr input n 0 p p1 hOK hCR

theorem parseIdentifierLoop_cr (input : GoString) :
    ∀ (n : Nat) (p p1 : parser), p.OK input → CR input p p1 → p.ch ≠ 10 →
    ResCR input (fun q => NoLF input p.pos q.pos) (parseIdentifierLoop n input p)
      (parseIdentifierLoop n (crlf input) p1) := by
  intro n
  induction n with
  | zero => intro _ _ _ _ _; exact rescr_fuel _ _
  | succ n ih =>
    intro p p1 hOK hCR h10
    rw [parseIdentifierLoop, parseIdentifierLoop]
    dsimp only
    obtain ⟨g1, g2, g3⟩ := next_step hOK hCR h10
    simp only [ne_eq, CR_eof hCR, CR_isLetter g2, CR_isDigit g2,
      CR_beq g2 95 (by decide) (by decide), CR_beq g2 45 (by decide) (by decide)]
    by_cases h1 : p.ch = eof
    · simp only [h1, not_true, if_false]
      exact ⟨rfl, hCR, NoLF_refl _ _⟩
    simp only [h1, not_false_eq_true, if_true]
    split_ifs with h2
    · exact ⟨rfl, g2, g3⟩
    · have h11 : (next input p).ch ≠ 10 := by
        intro hc
        rw [hc] at h2
        exact h2 (by decide)
      exact rescr_trans g3 (ih _ _ g1 g2 h11)

theorem not_letter_lf {c : Nat} (h : isLetter c = true) : c ≠ 10 := by
  intro hc
  rw [hc] at h
  exact absurd h (by decide)

theorem not_digit_lf {c : Nat} (h : isDigit c = true) : c ≠ 10 := by
  intro hc
  rw [hc] at h
  exact absurd h (by decide)

theorem slice_cr {input : GoString} {p p1 q q1 : parser} (hCR : CR input p p1)
    (hCRq : CR input q q1) (hlo : p.pos ≤ q.pos)
    (h : NoLF input p.pos q.pos) :
    slice input p.pos q.pos = slice (crlf input) p1.pos q1.pos := by
  rw [hCR.1, hCRq.1, slice_crlf input p.pos q.pos hlo h]

theorem parseIdentifier_cr (input : GoString) (n : Nat) (p p1 : parser) (hOK : p.OK input)
    (hCR : CR input p p1) :
    ResCR input (fun _ => True) (parseIdentifier n input p)
      (parseIdentifier n (crlf input) p1) := by
  unfold parseIdentifier
  simp only [getP_bind, CR_isLetter hCR]
  by_cases h1 : (!isLetter p.ch) = true
  · simp only [h1, if_true]
    exact rescr_failWith _ _ _ _ _ _
  simp only [h1, if_false]
  have h10 : p.ch ≠ 10 := not_letter_lf (by simpa using h1)
  refine rescr_bind (std_parseIdentifierLoop input n p hOK trivial)
    (parseIdentifierLoop_cr input n p p1 hOK hCR h10) ?_
  intro _ q q1 hCRq hQ hOKq hlo _
  simp only [getP_bind]
  exact rescr_pure (by rw [slice_cr hCR hCRq hlo hQ]) hCRq trivial

theorem parseNumberLiteral_cr (input : GoString) (n : Nat) (p p1 : parser) (hOK : p.OK input)
    (hCR : CR input p p1) :
    ResCR input (fun _ => True) (parseNumberLiteral n input p)
      (parseNumberLiteral n (crlf input) p1) := by
  unfold parseNumberLiteral
  simp only [getP_bind]
  -- the sign
  have hsign : ResCR input (fun q => NoLF input p.pos q.pos)
      ((if p.ch = 45 then nextP input else pure ()) p)
      ((if p1.ch = 45 then nextP (crlf input) else pure ()) p1) := by
    refine rescr_ite (CR_eq hCR 45 (by decide) (by decide)).symm (fun h => ?_) (fun _ => ?_)
    · exact nextP_cr input p p1 hOK hCR (by omega)
    · exact rescr_pure rfl hCR (NoLF_refl _ _)
  have hsfit : ResFits input p.pos (fun _ _ => True)
      ((if p.ch = 45 then nextP input else pure ()) p) :=
    spec_ite (std_nextP input) (std_pure input ()) p hOK trivial
  refine rescr_bind hsfit hsign ?_
  intro _ q q1 hCRq hQ hOKq hlo _
  refine rescr_bind (std_skipDigits input n q hOKq trivial) (skipDigits_cr input n q q1 hOKq hCRq)
    ?_
  intro c r r1 hCRr hQr hOKr hlor _
  refine rescr_ite Iff.rfl (fun _ => rescr_failWith _ _ _ _ _ _) (fun _ => ?_)
  simp only [getP_bind]
  refine rescr_ite (CR_eq hCRr 46 (by decide) (by decide)).symm (fun h => ?_) (fun _ => ?_)
  · simp only [nextP_bind]
    obtain ⟨g1, g2, g3⟩ := next_step hOKr hCRr (by omega)
    refine rescr_bind (std_skipDigits input n _ g1 trivial) (skipDigits_cr input n _ _ g1 g2) ?_
    intro c2 t t1 hCRt hQt hOKt hlot _
    refine rescr_ite Iff.rfl (fun _ => rescr_failWith _ _ _ _ _ _) (fun _ => ?_)
    simp only [getP_bind]
    have hle : r.pos ≤ (next input r).pos := (next_Fresh input r hOKr).2.1
    exact rescr_pure (slice_cr hCR hCRt (by omega)
      (NoLF_trans hQ (NoLF_trans hQr (NoLF_trans g3 hQt)))) hCRt trivial
  · exact rescr_pure (slice_cr hCR hCRr (by omega) (NoLF_trans hQ hQr)) hCRr trivial

theorem parseStringLiteralLoop_cr (input : GoString) (hcr : ∀ b ∈ input, b ≠ 13) :
    ∀ (n : Nat) (p p1 : parser), p.OK input → CR input p p1 →
    ResCR input (fun q => NoLF input p.pos q.pos ∧ q.ch ≠ 10) (parseStringLiteralLoop n input p)
      (parseStringLiteralLoop n (crlf input) p1) := by
  intro n
  induction n with
  | zero => intro _ _ _ _; exact rescr_fuel _ _
  | succ n ih =>
    intro p p1 hOK hCR
    rw [parseStringLiteralLoop, parseStringLiteralLoop]
    simp only [getP_bind, ne_eq, CR_eof hCR, isEOL_cr input hcr p p1 hOK hCR]
    by_cases h1 : p.ch = eof
    · simp only [h1, not_true, if_false]
      exact rescr_pure rfl hCR ⟨NoLF_refl _ _, by rw [h1]; decide⟩
    simp only [h1, not_false_eq_true, if_true]
    by_cases h2 : isEOL input p = true
    · simp only [h2, if_true]
      exact rescr_failWith _ _ _ _ _ _
    simp only [h2, Bool.false_eq_true, if_false]
    have h10 : p.ch ≠ 10 := fun hc => h2 ((isEOL_iff_lf input hcr p hOK).2 hc)
    obtain ⟨g1, g2, g3⟩ := next_step hOK hCR h10
    refine rescr_ite (CR_eq hCR 92 (by decide) (by decide)).symm (fun h => ?_) (fun _ => ?_)
    · simp only [nextP_bind, getP_bind]
      have e34 := CR_eq g2 34 (by decide) (by decide)
      have e92 := CR_eq g2 92 (by decide) (by decide)
      have e117 := CR_eq g2 117 (by decide) (by decide)
      have e85 := CR_eq g2 85 (by decide) (by decide)
      refine rescr_ite (by rw [e34, e92]) (fun h => ?_) (fun _ => ?_)
      · simp only [nextP_bind]
        obtain ⟨k1, k2, k3⟩ := next_step g1 g2 (by omega)
        exact rescr_mono (ih _ _ k1 k2) (fun _ hq => ⟨NoLF_trans (NoLF_trans g3 k3) hq.1, hq.2⟩)
      · refine rescr_ite (by rw [e117, e85]) (fun h => ?_) (fun _ => ?_)
        · refine rescr_bind (std_skipUnicodeEscapeSequence input n _ g1 trivial)
            (skipUnicodeEscapeSequence_cr input n _ _ g1 g2 (by omega)) ?_
          intro _ q q1 hCRq hQ hOKq _ _
          exact rescr_mono (ih _ _ hOKq hCRq)
            (fun _ hq => ⟨NoLF_trans (NoLF_trans g3 hQ) hq.1, hq.2⟩)
        · exact rescr_failWith _ _ _ _ _ _
    · refine rescr_ite (CR_eq hCR 34 (by decide) (by decide)).symm (fun h => ?_) (fun _ => ?_)
      · exact rescr_pure rfl hCR ⟨NoLF_refl _ _, h10⟩
      · simp only [nextP_bind]
        exact rescr_mono (ih _ _ g1 g2) (fun _ hq => ⟨NoLF_trans g3 hq.1, hq.2⟩)

theorem parseStringLiteral_cr (input : GoString) (hcr : ∀ b ∈ input, b ≠ 13) (n : Nat)
    (p p1 : parser) (hOK : p.OK input) (hCR : CR input p p1) (h10 : p.ch ≠ 10) :
    ResCR input (fun _ => True) (parseStringLiteral n input p)
      (parseStringLiteral n (crlf input) p1) := by
  unfold parseStringLiteral
  simp only [nextP_bind, getP_bind]
  obtain ⟨g1, g2, g3⟩ := next_step hOK hCR h10
  refine rescr_bind (std_parseStringLiteralLoop input n _ g1 trivial)
    (parseStringLiteralLoop_cr input hcr n _ _ g1 g2) ?_
  intro _ q q1 hCRq hQ hOKq hlo _
  simp only [nextP_bind, getP_bind]
  obtain ⟨k1, k2, k3⟩ := next_step hOKq hCRq hQ.2
  exact rescr_pure (slice_cr g2 hCRq hlo hQ.1) k2 trivial

theorem parseLiteral_cr (input : GoString) (hcr : ∀ b ∈ input, b ≠ 13) (n : Nat)
    (p p1 : parser) (hOK : p.OK input) (hCR : CR input p p1) :
    ResCR input (fun _ => True) (parseLiteral n input p) (parseLiteral n (crlf input) p1) := by
  unfold parseLiteral
  simp only [getP_bind, CR_isDigit hCR]
  by_cases h1 : isDigit p.ch = true
  · simp only [h1, if_true]
    refine rescr_bind (std_parseNumberLiteral input n p hOK trivial)
      (parseNumberLiteral_cr input n p p1 hOK hCR) ?_
    intro v q q1 hCRq _ _ _ _
    exact rescr_pure rfl hCRq trivial
  simp only [h1, Bool.false_eq_true, if_false]
  refine rescr_ite (CR_eq hCR 34 (by decide) (by decide)).symm (fun h => ?_) (fun _ => ?_)
  · refine rescr_bind (std_parseStringLiteral input n p hOK trivial)
      (parseStringLiteral_cr input hcr n p p1 hOK hCR (by omega)) ?_
    intro v q q1 hCRq _ _ _ _
    exact rescr_pure rfl hCRq trivial
  · exact rescr_failWith _ _ _ _ _ _

theorem parseTextElementLoop_cr (input : GoString) (hcr : ∀ b ∈ input, b ≠ 13) :
    ∀ (n : Nat) (p p1 : parser), p.OK input → CR input p p1 →
    ResCR input (fun q => NoLF input p.pos q.pos) (parseTextElementLoop n input p)
      (parseTextElementLoop n (crlf input) p1) := by
  intro n
  induction n with
  | zero => intro _ _ _ _; exact rescr_fuel _ _
  | succ n ih =>
    intro p p1 hOK hCR
    rw [parseTextElementLoop, parseTextElementLoop]
    simp only [ne_eq, CR_eof hCR, isEOL_cr input hcr p p1 hOK hCR]
    by_cases h1 : p.ch = eof
    · simp only [h1, not_true, if_false]
      exact ⟨rfl, hCR, NoLF_refl _ _⟩
    simp only [h1, not_false_eq_true, if_true]
    by_cases h2 : isEOL input p = true
    · simp only [h2, if_true]
      exact ⟨rfl, hCR, NoLF_refl _ _⟩
    simp only [h2, Bool.false_eq_true, if_false]
    have h10 : p.ch ≠ 10 := fun hc => h2 ((isEOL_iff_lf input hcr p hOK).2 hc)
    obtain ⟨g1, g2, g3⟩ := next_step hOK hCR h10
    simp only [CR_eq hCR 123 (by decide) (by decide), CR_eq hCR 125 (by decide) (by decide)]
    by_cases h3 : p.ch = 123
    · simp only [h3, if_true]
      exact ⟨rfl, hCR, NoLF_refl _ _⟩
    simp only [h3, if_false]
    by_cases h4 : p.ch = 125
    · simp only [h4, if_true]
      trivial
    simp only [h4, if_false]
    exact rescr_trans g3 (ih _ _ g1 g2)

theorem parseTextElement_cr (input : GoString) (hcr : ∀ b ∈ input, b ≠ 13) (n : Nat)
    (p p1 : parser) (hOK : p.OK input) (hCR : CR input p p1) :
    ResCR input (fun _ => True) (parseTextElement n input p)
      (parseTextElement n (crlf input) p1) := by
  unfold parseTextElement
  simp only [getP_bind]
  refine rescr_bind (std_parseTextElementLoop input n p hOK trivial)
    (parseTextElementLoop_cr input hcr n p p1 hOK hCR) ?_
  intro _ q q1 hCRq hQ hOKq hlo _
  simp only [getP_bind]
  exact rescr_pure (slice_cr hCR hCRq hlo hQ) hCRq trivial

theorem parseVariantKey_cr (input : GoString) (hcr : ∀ b ∈ input, b ≠ 13) (n : Nat)
    (p p1 : parser) (hOK : p.OK input) (hCR : CR input p p1) :
    ResCR input (fun _ => True) (parseVariantKey n input p)
      (parseVariantKey n (crlf input) p1) := by
  unfold parseVariantKey
  simp only [getP_bind, ne_eq]
  refine rescr_ite (not_congr (CR_eq hCR 91 (by decide) (by decide)).symm)
    (fun _ => rescr_failWith _ _ _ _ _ _) (fun h => ?_)
  simp only [nextP_bind]
  obtain ⟨g1, g2, g3⟩ := next_step hOK hCR (by omega)
  refine rescr_bind (std_skipBlank input n _ g1 trivial) (skipBlank_cr input hcr n _ _ g1 g2) ?_
  intro _ q q1 hCRq _ hOKq _ _
  simp only [getP_bind, CR_isDigit hCRq]
  have hkey : ResCR input (fun _ => True)
      ((if isDigit q.ch = true then do
          let v ← parseNumberLiteral n input
          pure (VariantKey.numberLiteral v)
        else do
          let id ← parseIdentifier n input
          pure (VariantKey.identifier id.Name)) q)
      ((if isDigit q.ch = true then do
          let v ← parseNumberLiteral n (crlf input)
          pure (VariantKey.numberLiteral v)
        else do
          let id ← parseIdentifier n (crlf input)
          pure (VariantKey.identifier id.Name)) q1) := by
    refine rescr_ite Iff.rfl (fun _ => ?_) (fun _ => ?_)
    · refine rescr_bind (std_parseNumberLiteral input n q hOKq trivial)
        (parseNumberLiteral_cr input n q q1 hOKq hCRq) ?_
      intro v r r1 hCRr _ _ _ _
      exact rescr_pure rfl hCRr trivial
    · refine rescr_bind (std_parseIdentifier input n q hOKq trivial)
        (parseIdentifier_cr input n q q1 hOKq hCRq) ?_
      intro v r r1 hCRr _ _ _ _
      exact rescr_pure rfl hCRr trivial
  have hkfit : ResFits input q.pos (fun _ _ => True)
      ((if isDigit q.ch = true then do
          let v ← parseNumberLiteral n input
          pure (VariantKey.numberLiteral v)
        else do
          let id ← parseIdentifier n input
          pure (VariantKey.identifier id.Name)) q) := by
    exact (show Std input _ from spec_ite
      (std_bind (std_parseNumberLiteral input n) (fun _ => std_pure _ _))
      (std_bind (std_parseIdentifier input n) (fun _ => std_pure _ _))) q hOKq trivial
  refine rescr_bind hkfit hkey ?_
  intro key r r1 hCRr _ hOKr _ _
  refine rescr_bind (std_skipBlank input n _ hOKr trivial) (skipBlank_cr input hcr n _ _ hOKr hCRr)
    ?_
  intro _ t t1 hCRt _ hOKt _ _
  simp only [getP_bind, ne_eq]
  refine rescr_ite (not_congr (CR_eq hCRt 93 (by decide) (by decide)).symm)
    (fun _ => rescr_failWith _ _ _ _ _ _) (fun h => ?_)
  simp only [nextP_bind]
  obtain ⟨k1, k2, k3⟩ := next_step hOKt hCRt (by omega)
  exact rescr_pure rfl k2 trivial

theorem bind_assoc_apply {α β γ : Type} (x : P α) (g : α → P β) (f : β → P γ) (p : parser) :
    ((x >>= g) >>= f) p = (x >>= fun a => g a >>= f) p := by
  rw [bind_apply, bind_apply, bind_apply]
  cases x p <;> rfl

theorem failWith_bind {α β : Type} (m : errMessage) (f : α → P β) (p : parser) :
    ((failWith m : P α) >>= f) p = Res.err (p.error m) p := rfl

theorem rescr_err {α : Type} (input : GoString) (Q : parser → Prop) (e e1 : parseError)
    (p p1 : parser) : ResCR input Q (Res.err e p : Res α) (Res.err e1 p1) := trivial

theorem parsePatternIndent_cr (input : GoString) (hcr : ∀ b ∈ input, b ≠ 13) (n ci : Nat)
    (p p1 : parser) (hOK : p.OK input) (hCR : CR input p p1) :
    ResCR input (fun _ => True) (parsePatternIndent n input ci p)
      (parsePatternIndent n (crlf input) ci p1) := by
  unfold parsePatternIndent
  simp only [getP_bind]
  refine rescr_bind (std_skipBlankInline input n p hOK trivial)
    (skipBlankInline_cr input n p p1 hOK hCR) ?_
  intro indent q q1 hCRq _ hOKq _ _
  simp only [getP_bind, isEOL_cr input hcr q q1 hOKq hCRq,
    CR_eq hCRq 91 (by decide) (by decide), CR_eq hCRq 42 (by decide) (by decide),
    CR_eq hCRq 46 (by decide) (by decide)]
  refine rescr_ite Iff.rfl (fun _ => rescr_pure rfl hCRq trivial) (fun _ => ?_)
  refine rescr_ite Iff.rfl (fun _ => rescr_pure rfl hCRq trivial) (fun _ => ?_)
  simp only [setP_bind]
  exact rescr_pure rfl ⟨hCR.1, hCR.2.1, hCRq.2.2⟩ trivial

theorem parseCommentLevelLoop_cr (input : GoString) :
    ∀ (n level : Nat) (p p1 : parser), p.OK input → CR input p p1 →
    ResCR input (fun _ => True) (parseCommentLevelLoop n input level p)
      (parseCommentLevelLoop n (crlf input) level p1) := by
  intro n
  induction n with
  | zero => intro _ _ _ _ _; exact rescr_fuel _ _
  | succ n ih =>
    intro level p p1 hOK hCR
    rw [parseCommentLevelLoop, parseCommentLevelLoop]
    simp only [ne_eq, CR_eof hCR, CR_eq hCR 35 (by decide) (by decide)]
    by_cases h1 : p.ch = eof
    · simp only [h1, not_true, if_false]
      exact ⟨rfl, hCR, trivial⟩
    simp only [h1, not_false_eq_true, if_true]
    by_cases h2 : p.ch = 35
    · simp only [h2, not_true, if_false]
      obtain ⟨g1, g2, _⟩ := next_step hOK hCR (by omega)
      exact ih _ _ _ g1 g2
    · simp only [h2, not_false_eq_true, if_true]
      exact ⟨rfl, hCR, trivial⟩

theorem parseCommentLevel_cr (input : GoString) (n : Nat) (p p1 : parser) (hOK : p.OK input)
    (hCR : CR input p p1) :
    ResCR input (fun _ => True) (parseCommentLevel n input p)
      (parseCommentLevel n (crlf input) p1) :=
  parseCommentLevelLoop_cr input n 0 p p1 hOK hCR

theorem parseCommentLineLoop_cr (input : GoString) (hcr : ∀ b ∈ input, b ≠ 13) :
    ∀ (n : Nat) (p p1 : parser), p.OK input → CR input p p1 →
    ResCR input (fun q => NoLF input p.pos q.pos) (parseCommentLineLoop n input p)
      (parseCommentLineLoop n (crlf input) p1) := by
  intro n
  induction n with
  | zero => intro _ _ _ _; exact rescr_fuel _ _
  | succ n ih =>
    intro p p1 hOK hCR
    rw [parseCommentLineLoop, parseCommentLineLoop]
    simp only [ne_eq, CR_eof hCR, isEOL_cr input hcr p p1 hOK hCR]
    by_cases h1 : p.ch = eof
    · simp only [h1, not_true, if_false]
      exact ⟨rfl, hCR, NoLF_refl _ _⟩
    simp only [h1, not_false_eq_true, if_true]
    by_cases h2 : isEOL input p = true
    · simp only [h2, if_true]
      exact ⟨rfl, hCR, NoLF_refl _ _⟩
    simp only [h2, Bool.false_eq_true, if_false]
    have h10 : p.ch ≠ 10 := fun hc => h2 ((isEOL_iff_lf input hcr p hOK).2 hc)
    obtain ⟨g1, g2, g3⟩ := next_step hOK hCR h10
    exact rescr_trans g3 (ih _ _ g1 g2)

theorem parseCommentLine_cr (input : GoString) (hcr : ∀ b ∈ input, b ≠ 13) (n : Nat)
    (p p1 : parser) (hOK : p.OK input) (hCR : CR input p p1) :
    ResCR input (fun _ => True) (parseCommentLine n input p)
      (parseCommentLine n (crlf input) p1) := by
  unfold parseCommentLine
  simp only [getP_bind]
  refine rescr_bind (std_parseCommentLineLoop input n p hOK trivial)
    (parseCommentLineLoop_cr input hcr n p p1 hOK hCR) ?_
  intro _ q q1 hCRq hQ hOKq hlo _
  simp only [getP_bind]
  exact rescr_pure (slice_cr hCR hCRq hlo hQ) hCRq trivial

theorem parseCommentLoop_cr (input : GoString) (hcr : ∀ b ∈ input, b ≠ 13) :
    ∀ (n : Nat) (lines : List GoString) (lastLevel : Nat) (p p1 : parser), p.OK input →
    CR input p p1 →
    ResCR input (fun _ => True) (parseCommentLoop n input lines lastLevel p)
      (parseCommentLoop n (crlf input) lines lastLevel p1) := by
  intro n
  induction n with
  | zero => intro _ _ _ _ _ _; exact rescr_fuel _ _
  | succ n ih =>
    intro lines lastLevel p p1 hOK hCR
    rw [parseCommentLoop, parseCommentLoop]
    simp only [getP_bind]
    refine rescr_ite (CR_eof hCR).symm (fun _ => rescr_pure rfl hCR trivial) (fun _ => ?_)
    refine rescr_bind (RunRes_fits (parseCommentLevel_run input n p hOK))
      (parseCommentLevel_cr input n p p1 hOK hCR) ?_
    intro level q q1 hCRq _ hOKq _ _
    refine rescr_ite Iff.rfl (fun _ => rescr_pure rfl hCRq trivial) (fun _ => ?_)
    refine rescr_ite Iff.rfl (fun _ => ?_) (fun _ => ?_)
    · simp only [getP_bind, setP_bind]
      exact rescr_pure rfl ⟨hCR.1, hCR.2.1, hCRq.2.2⟩ trivial
    simp only [getP_bind, isEOL_cr input hcr q q1 hOKq hCRq]
    by_cases h2 : isEOL input q = true
    · simp only [h2, Bool.true_eq_false, if_false, pure_bind_apply]
      refine rescr_bind (std_skipEOL input q hOKq trivial) (skipEOL_cr input hcr q q1 hOKq hCRq)
        ?_
      intro _ r r1 hCRr _ hOKr _ _
      exact ih _ _ _ _ hOKr hCRr
    have h3 : isEOL input q = false := by simpa using h2
    have h10 : q.ch ≠ 10 := fun hc => h2 ((isEOL_iff_lf input hcr q hOKq).2 hc)
    simp only [h3, if_true, ne_eq, CR_eq hCRq 32 (by decide) (by decide)]
    by_cases h4 : q.ch = 32
    · simp only [h4, not_true, if_false, bind_assoc_apply, nextP_bind]
      obtain ⟨g1, g2, _⟩ := next_step hOKq hCRq h10
      refine rescr_bind (std_parseCommentLine input n _ g1 trivial)
        (parseCommentLine_cr input hcr n _ _ g1 g2) ?_
      intro line r r1 hCRr _ hOKr _ _
      refine rescr_bind (std_skipEOL input r hOKr trivial) (skipEOL_cr input hcr r r1 hOKr hCRr)
        ?_
      intro _ t t1 hCRt _ hOKt _ _
      exact ih _ _ _ _ hOKt hCRt
    · simp only [h4, not_false_eq_true, if_true, failWith_bind]
      exact rescr_err _ _ _ _ _ _

theorem parseComment_cr (input : GoString) (hcr : ∀ b ∈ input, b ≠ 13) (n : Nat)
    (p p1 : parser) (hOK : p.OK input) (hCR : CR input p p1) :
    ResCR input (fun _ => True) (parseComment n input p) (parseComment n (crlf input) p1) := by
  unfold parseComment
  refine rescr_bind (std_parseCommentLoop input n [] 0 p hOK trivial)
    (parseCommentLoop_cr input hcr n [] 0 p p1 hOK hCR) ?_
  intro r q q1 hCRq _ _ _ _
  dsimp only
  refine rescr_ite Iff.rfl (fun _ => rescr_pure rfl hCRq trivial) (fun _ => ?_)
  refine rescr_ite Iff.rfl (fun _ => rescr_pure rfl hCRq trivial) (fun _ => ?_)
  refine rescr_ite Iff.rfl (fun _ => rescr_pure rfl hCRq trivial) (fun _ => ?_)
  trivial

theorem isLetter_crlfRune (c : Nat) : isLetter (crlfRune c) = isLetter c := by
  unfold crlfRune
  split
  · next h => rw [h]; rfl
  · rfl

theorem next_ch_peek (input : GoString) (p : parser) : (next input p).ch = peek input p := by
  rw [next_ch]
  rfl

/-- The condition `p.ch != '-' || p.peek() != '>'` of `parseExpression` is the same on both
inputs. -/
theorem arrow_cr (input : GoString) (p p1 : parser) (hOK : p.OK input) (hCR : CR input p p1) :
    (p.ch ≠ 45 ∨ peek input p ≠ 62) ↔ (p1.ch ≠ 45 ∨ peek (crlf input) p1 ≠ 62) := by
  have e := CR_eq hCR 45 (by decide) (by decide)
  by_cases h : p.ch = 45
  · rw [peek_cr input p p1 hOK hCR (by omega), ne_eq, ne_eq, ne_eq, ne_eq, e,
      crlfRune_eq_iff _ 62 (by decide) (by decide)]
  · have h1 : p1.ch ≠ 45 := fun hc => h (e.1 hc)
    exact ⟨fun _ => Or.inl h1, fun _ => Or.inl h⟩

theorem pattern_cr (input : GoString) (hcr : ∀ b ∈ input, b ≠ 13) : ∀ n,
    (∀ st p p1, p.OK input → CR input p p1 →
      ResCR input (fun _ => True) (parsePatternLoop n input st p)
        (parsePatternLoop n (crlf input) st p1)) ∧
    (∀ p p1, p.OK input → CR input p p1 →
      ResCR input (fun _ => True) (parsePattern n input p) (parsePattern n (crlf input) p1)) ∧
    (∀ p p1, p.OK input → CR input p p1 → p.ch ≠ 10 →
      ResCR input (fun _ => True) (parsePlaceable n input p)
        (parsePlaceable n (crlf input) p1)) ∧
    (∀ p p1, p.OK input → CR input p p1 →
      ResCR input (fun _ => True) (parseExpression n input p)
        (parseExpression n (crlf input) p1)) ∧
    (∀ p p1, p.OK input → CR input p p1 →
      ResCR input (fun _ => True) (parseInlineExpression n input p)
        (parseInlineExpression n (crlf input) p1)) ∧
    (∀ a b c p p1, p.OK input → CR input p p1 →
      ResCR input (fun _ => True) (parseCallArgumentsLoop n input a b c p)
        (parseCallArgumentsLoop n (crlf input) a b c p1)) ∧
    (∀ p p1, p.OK input → CR input p p1 → p.ch ≠ 10 →
      ResCR input (fun _ => True) (parseCallArguments n input p)
        (parseCallArguments n (crlf input) p1)) ∧
    (∀ vs d p p1, p.OK input → CR input p p1 →
      ResCR input (fun _ => True) (parseVariantsLoop n input vs d p)
        (parseVariantsLoop n (crlf input) vs d p1)) ∧
    (∀ p p1, p.OK input → CR input p p1 →
      ResCR input (fun _ => True) (parseVariants n input p)
        (parseVariants n (crlf input) p1)) := by
  intro n
  induction n with
  | zero =>
    refine ⟨fun _ _ _ _ _ => ?_, fun _ _ _ _ => ?_, fun _ _ _ _ _ => ?_, fun _ _ _ _ => ?_,
      fun _ _ _ _ => ?_, fun _ _ _ _ _ _ _ => ?_, fun _ _ _ _ _ => ?_,
      fun _ _ _ _ _ _ => ?_, fun _ _ _ _ => ?_⟩
    · rw [parsePatternLoop, parsePatternLoop]; exact rescr_fuel _ _
    · rw [parsePattern, parsePattern]; exact rescr_fuel _ _
    · rw [parsePlaceable, parsePlaceable]; exact rescr_fuel _ _
    · rw [parseExpression, parseExpression]; exact rescr_fuel _ _
    · rw [parseInlineExpression, parseInlineExpression]; exact rescr_fuel _ _
    · rw [parseCallArgumentsLoop, parseCallArgumentsLoop]; exact rescr_fuel _ _
    · rw [parseCallArguments, parseCallArguments]; exact rescr_fuel _ _
    · rw [parseVariantsLoop, parseVariantsLoop]; exact rescr_fuel _ _
    · rw [parseVariants, parseVariants]; exact rescr_fuel _ _
  | succ n ih =>
    obtain ⟨ihPL, ihP, ihPl, ihE, ihIE, ihCAL, ihCA, ihVL, ihV⟩ := ih
    obtain ⟨fPL, fP, fPl, fE, fIE, fCAL, fCA, fVL, fV⟩ := pattern_fits input n
    refine ⟨fun st p p1 hOK hCR => ?_, fun p p1 hOK hCR => ?_, fun p p1 hOK hCR h10 => ?_,
      fun p p1 hOK hCR => ?_, fun p p1 hOK hCR => ?_,
      fun positional named names p p1 hOK hCR => ?_, fun p p1 hOK hCR h10 => ?_,
      fun vs d p p1 hOK hCR => ?_, fun p p1 hOK hCR => ?_⟩
    · -- parsePatternLoop
      rw [parsePatternLoop, parsePatternLoop]
      simp only [getP_bind]
      refine rescr_ite (CR_eof hCR).symm (fun _ => rescr_pure rfl hCR trivial) (fun _ => ?_)
      refine rescr_bind (std_skipEOL input p hOK trivial) (skipEOL_cr input hcr p p1 hOK hCR) ?_
      intro eol q q1 hCRq _ hOKq _ _
      simp only [getP_bind]
      refine rescr_ite (CR_eq hCRq 123 (by decide) (by decide)).symm (fun h => ?_) (fun _ => ?_)
      · refine rescr_bind (fPl q hOKq trivial) (ihPl q q1 hOKq hCRq (by omega)) ?_
        intro element r r1 hCRr _ hOKr _ _
        exact ihPL _ r r1 hOKr hCRr
      · cases hb : (st.block || eol) with
        | false =>
          simp only [Bool.false_eq_true, if_false, pure_bind_apply]
          refine rescr_bind (std_parseTextElement input n q hOKq trivial)
            (parseTextElement_cr input hcr n q q1 hOKq hCRq) ?_
          intro value t t1 hCRt _ hOKt _ _
          exact ihPL _ t t1 hOKt hCRt
        | true =>
          simp only [if_true]
          refine rescr_bind (parsePatternIndent_spec input n _ q hOKq trivial)
            (parsePatternIndent_cr input hcr n _ q q1 hOKq hCRq) ?_
          intro m r r1 hCRr _ hOKr _ _
          cases m with
          | none => exact rescr_pure rfl hCRr trivial
          | some ci =>
            refine rescr_bind (std_parseTextElement input n r hOKr trivial)
              (parseTextElement_cr input hcr n r r1 hOKr hCRr) ?_
            intro value t t1 hCRt _ hOKt _ _
            exact ihPL _ t t1 hOKt hCRt
    · -- parsePattern
      rw [parsePattern, parsePattern]
      refine rescr_bind (std_skipBlankInline input n p hOK trivial)
        (skipBlankInline_cr input n p p1 hOK hCR) ?_
      intro _ q q1 hCRq _ hOKq _ _
      refine rescr_bind (std_skipEOL input q hOKq trivial) (skipEOL_cr input hcr q q1 hOKq hCRq)
        ?_
      intro eol r r1 hCRr _ hOKr _ _
      have hloop : ∀ t t1, t.OK input → CR input t t1 →
          ResCR input (fun _ => True)
            ((parsePatternLoop n input
                { elements := [], block := eol, lastNonBlank := -1, commonIndent := 0 } >>=
              fun st => if st.lastNonBlank < 0 then pure (Pattern.mk none)
                else pure (dedent st.elements st.commonIndent)) t)
            ((parsePatternLoop n (crlf input)
                { elements := [], block := eol, lastNonBlank := -1, commonIndent := 0 } >>=
              fun st => if st.lastNonBlank < 0 then pure (Pattern.mk none)
                else pure (dedent st.elements st.commonIndent)) t1) := by
        intro t t1 hOKt hCRt
        refine rescr_bind (fPL _ t hOKt trivial) (ihPL _ t t1 hOKt hCRt) ?_
        intro st u u1 hCRu _ _ _ _
        exact rescr_ite Iff.rfl (fun _ => rescr_pure rfl hCRu trivial)
          (fun _ => rescr_pure rfl hCRu trivial)
      cases eol with
      | false =>
        simp only [Bool.false_eq_true, if_false, pure_bind_apply]
        exact hloop r r1 hOKr hCRr
      | true =>
        simp only [if_true]
        refine rescr_bind (std_skipBlankBlock input n r hOKr trivial)
          (skipBlankBlock_cr input hcr n r r1 hOKr hCRr) ?_
        intro _ t t1 hCRt _ hOKt _ _
        exact hloop t t1 hOKt hCRt
    · -- parsePlaceable
      rw [parsePlaceable, parsePlaceable]
      simp only [nextP_bind]
      obtain ⟨g1, g2, _⟩ := next_step hOK hCR h10
      refine rescr_bind (std_skipBlank input n _ g1 trivial) (skipBlank_cr input hcr n _ _ g1 g2)
        ?_
      intro _ q q1 hCRq _ hOKq _ _
      refine rescr_bind (fE q hOKq trivial) (ihE q q1 hOKq hCRq) ?_
      intro expr r r1 hCRr _ hOKr _ _
      refine rescr_bind (std_skipBlankInline input n r hOKr trivial)
        (skipBlankInline_cr input n r r1 hOKr hCRr) ?_
      intro _ t t1 hCRt _ hOKt _ _
      simp only [getP_bind, ne_eq]
      refine rescr_ite (not_congr (CR_eq hCRt 125 (by decide) (by decide)).symm)
        (fun _ => rescr_failWith _ _ _ _ _ _) (fun h => ?_)
      simp only [nextP_bind]
      obtain ⟨k1, k2, _⟩ := next_step hOKt hCRt (by omega)
      exact rescr_pure rfl k2 trivial
    · -- parseExpression
      rw [parseExpression, parseExpression]
      refine rescr_bind (fIE p hOK trivial) (ihIE p p1 hOK hCR) ?_
      intro sel q q1 hCRq _ hOKq _ _
      refine rescr_bind (std_skipBlank input n q hOKq trivial)
        (skipBlank_cr input hcr n q q1 hOKq hCRq) ?_
      intro _ r r1 hCRr _ hOKr _ _
      simp only [getP_bind]
      refine rescr_ite (arrow_cr input r r1 hOKr hCRr) (fun _ => ?_) (fun h => ?_)
      · cases sel with
        | termReference id attr args =>
          cases attr with
          | none => exact rescr_pure rfl hCRr trivial
          | some a => exact rescr_failWith _ _ _ _ _ _
        | _ => exact rescr_pure rfl hCRr trivial
      · have h45 : r.ch = 45 := by
          by_contra hc
          exact h (Or.inl hc)
        have h62 : peek input r = 62 := by
          by_contra hc
          exact h (Or.inr hc)
        have hrest : ResCR input (fun _ => True)
            ((do
              nextP input
              nextP input
              let _ ← skipBlankInline n input
              let eol ← skipEOL input
              if eol = false then failWith (errMessage.str "expected eol")
              else do
                skipBlank n input
                let variants ← wrapErr "parse variants: %v" (parseVariants n input)
                return Expression.selectExpression sel variants) r)
            ((do
              nextP (crlf input)
              nextP (crlf input)
              let _ ← skipBlankInline n (crlf input)
              let eol ← skipEOL (crlf input)
              if eol = false then failWith (errMessage.str "expected eol")
              else do
                skipBlank n (crlf input)
                let variants ← wrapErr "parse variants: %v" (parseVariants n (crlf input))
                return Expression.selectExpression sel variants) r1) := by
          simp only [nextP_bind]
          obtain ⟨g1, g2, _⟩ := next_step hOKr hCRr (by omega)
          have h2 : (next input r).ch ≠ 10 := by rw [next_ch_peek, h62]; decide
          obtain ⟨k1, k2, _⟩ := next_step g1 g2 h2
          refine rescr_bind (std_skipBlankInline input n _ k1 trivial)
            (skipBlankInline_cr input n _ _ k1 k2) ?_
          intro _ t t1 hCRt _ hOKt _ _
          refine rescr_bind (std_skipEOL input t hOKt trivial)
            (skipEOL_cr input hcr t t1 hOKt hCRt) ?_
          intro eol u u1 hCRu _ hOKu _ _
          refine rescr_ite Iff.rfl (fun _ => rescr_failWith _ _ _ _ _ _) (fun _ => ?_)
          refine rescr_bind (std_skipBlank input n u hOKu trivial)
            (skipBlank_cr input hcr n u u1 hOKu hCRu) ?_
          intro _ v v1 hCRv _ hOKv _ _
          refine rescr_bind (spec_wrapErr _ fV v hOKv trivial)
            (rescr_wrapErr _ (ihV v v1 hOKv hCRv)) ?_
          intro variants w w1 hCRw _ _ _ _
          exact rescr_pure rfl hCRw trivial
        cases sel with
        | messageReference id attr =>
          cases attr with
          | none => exact rescr_failWith _ _ _ _ _ _
          | some a => exact rescr_failWith _ _ _ _ _ _
        | termReference id attr args =>
          cases attr with
          | none => exact rescr_failWith _ _ _ _ _ _
          | some a => exact hrest
        | _ => exact hrest
    · -- parseInlineExpression
      rw [parseInlineExpression, parseInlineExpression]
      simp only [getP_bind, CR_isDigit hCR, CR_isLetter hCR]
      have hattr : ∀ (q q1 : parser), q.OK input → CR input q q1 → q.ch ≠ 10 →
          ResCR input (fun _ => True)
            ((do
              nextP input
              let a ← parseIdentifier n input
              pure (some a)) q)
            ((do
              nextP (crlf input)
              let a ← parseIdentifier n (crlf input)
              pure (some a)) q1) := by
        intro q q1 hOKq hCRq hq10
        simp only [nextP_bind]
        obtain ⟨g1, g2, _⟩ := next_step hOKq hCRq hq10
        refine rescr_bind (std_parseIdentifier input n _ g1 trivial)
          (parseIdentifier_cr input n _ _ g1 g2) ?_
        intro a r r1 hCRr _ _ _ _
        exact rescr_pure rfl hCRr trivial
      have hattrfit : Std input (do
              nextP input
              let a ← parseIdentifier n input
              pure (some a)) :=
        std_bind (std_nextP input)
          (fun _ => std_bind (std_parseIdentifier input n) (fun _ => std_pure _ _))
      have hargsfit : Std input (do
              let args ← parseCallArguments n input
              pure (some args)) :=
        std_bind fCA (fun _ => std_pure _ _)
      refine rescr_ite (CR_eq hCR 34 (by decide) (by decide)).symm (fun h => ?_) (fun _ => ?_)
      · refine rescr_bind (std_parseStringLiteral input n p hOK trivial)
          (parseStringLiteral_cr input hcr n p p1 hOK hCR (by omega)) ?_
        intro v q q1 hCRq _ _ _ _
        exact rescr_pure rfl hCRq trivial
      refine rescr_ite Iff.rfl (fun _ => ?_) (fun _ => ?_)
      · refine rescr_bind (std_parseNumberLiteral input n p hOK trivial)
          (parseNumberLiteral_cr input n p p1 hOK hCR) ?_
        intro v q q1 hCRq _ _ _ _
        exact rescr_pure rfl hCRq trivial
      refine rescr_ite (CR_eq hCR 45 (by decide) (by decide)).symm (fun h45 => ?_) (fun _ => ?_)
      · refine rescr_ite
          (by rw [peek_cr input p p1 hOK hCR (by omega), isLetter_crlfRune])
          (fun _ => ?_) (fun _ => ?_)
        · simp only [nextP_bind]
          obtain ⟨g1, g2, _⟩ := next_step hOK hCR (by omega)
          refine rescr_bind (std_parseIdentifier input n _ g1 trivial)
            (parseIdentifier_cr input n _ _ g1 g2) ?_
          intro id q q1 hCRq _ hOKq _ _
          simp only [getP_bind]
          refine rescr_bind
            ((show Std input _ from spec_ite hattrfit (std_pure input none)) q hOKq trivial)
            (rescr_ite (CR_eq hCRq 46 (by decide) (by decide)).symm
              (fun h => hattr q q1 hOKq hCRq (by omega))
              (fun _ => rescr_pure rfl hCRq trivial)) ?_
          intro attr r r1 hCRr _ hOKr _ _
          simp only [getP_bind]
          refine rescr_bind
            ((show Std input _ from spec_ite hargsfit (std_pure input none)) r hOKr trivial)
            (rescr_ite (CR_eq hCRr 40 (by decide) (by decide)).symm
              (fun h => ?_) (fun _ => rescr_pure (Q := fun _ => True) rfl hCRr trivial)) ?_
          · refine rescr_bind (fCA r hOKr trivial) (ihCA r r1 hOKr hCRr (by omega)) ?_
            intro args t t1 hCRt _ _ _ _
            exact rescr_pure rfl hCRt trivial
          · intro arguments t t1 hCRt _ _ _ _
            exact rescr_pure rfl hCRt trivial
        · refine rescr_bind (std_parseNumberLiteral input n p hOK trivial)
            (parseNumberLiteral_cr input n p p1 hOK hCR) ?_
          intro v q q1 hCRq _ _ _ _
          exact rescr_pure rfl hCRq trivial
      refine rescr_ite (CR_eq hCR 36 (by decide) (by decide)).symm (fun h => ?_) (fun _ => ?_)
      · simp only [nextP_bind]
        obtain ⟨g1, g2, _⟩ := next_step hOK hCR (by omega)
        refine rescr_bind (std_parseIdentifier input n _ g1 trivial)
          (parseIdentifier_cr input n _ _ g1 g2) ?_
        intro id q q1 hCRq _ _ _ _
        exact rescr_pure rfl hCRq trivial
      refine rescr_ite Iff.rfl (fun _ => ?_) (fun _ => ?_)
      · refine rescr_bind (std_parseIdentifier input n p hOK trivial)
          (parseIdentifier_cr input n p p1 hOK hCR) ?_
        intro id q q1 hCRq _ hOKq _ _
        simp only [getP_bind]
        refine rescr_ite (CR_eq hCRq 40 (by decide) (by decide)).symm (fun h => ?_) (fun _ => ?_)
        · refine rescr_ite Iff.rfl (fun _ => ?_) (fun _ => rescr_failWith _ _ _ _ _ _)
          refine rescr_bind (fCA q hOKq trivial) (ihCA q q1 hOKq hCRq (by omega)) ?_
          intro args t t1 hCRt _ _ _ _
          exact rescr_pure rfl hCRt trivial
        · refine rescr_bind
            ((show Std input _ from spec_ite hattrfit (std_pure input none)) q hOKq trivial)
            (rescr_ite (CR_eq hCRq 46 (by decide) (by decide)).symm
              (fun h => hattr q q1 hOKq hCRq (by omega))
              (fun _ => rescr_pure rfl hCRq trivial)) ?_
          intro attr r r1 hCRr _ _ _ _
          exact rescr_pure rfl hCRr trivial
      refine rescr_ite (CR_eq hCR 123 (by decide) (by decide)).symm (fun h => ?_)
        (fun _ => rescr_failWith _ _ _ _ _ _)
      refine rescr_bind (fPl p hOK trivial) (ihPl p p1 hOK hCR (by omega)) ?_
      intro pl q q1 hCRq _ _ _ _
      exact rescr_pure rfl hCRq trivial
    · -- parseCallArgumentsLoop
      rw [parseCallArgumentsLoop, parseCallArgumentsLoop]
      simp only [getP_bind]
      refine rescr_ite (CR_eof hCR).symm (fun _ => rescr_pure rfl hCR trivial) (fun _ => ?_)
      refine rescr_ite (CR_eq hCR 41 (by decide) (by decide)).symm
        (fun _ => rescr_pure rfl hCR trivial) (fun _ => ?_)
      refine rescr_bind (fIE p hOK trivial) (ihIE p p1 hOK hCR) ?_
      intro exp q q1 hCRq _ hOKq _ _
      refine rescr_bind (std_skipBlank input n q hOKq trivial)
        (skipBlank_cr input hcr n q q1 hOKq hCRq) ?_
      intro _ r r1 hCRr _ hOKr _ _
      simp only [getP_bind]
      have htail : ∀ (vars : List InlineExpression × List NamedArgument × List GoString)
          (t t1 : parser), t.OK input → CR input t t1 →
          ResCR input (fun _ => True)
            ((do
              skipBlank n input
              let r ← getP
              if r.ch = 44 then do
                nextP input
                skipBlank n input
                parseCallArgumentsLoop n input vars.1 vars.2.1 vars.2.2
              else return (vars.1, vars.2.1)) t)
            ((do
              skipBlank n (crlf input)
              let r ← getP
              if r.ch = 44 then do
                nextP (crlf input)
                skipBlank n (crlf input)
                parseCallArgumentsLoop n (crlf input) vars.1 vars.2.1 vars.2.2
              else return (vars.1, vars.2.1)) t1) := by
        intro vars t t1 hOKt hCRt
        refine rescr_bind (std_skipBlank input n t hOKt trivial)
          (skipBlank_cr input hcr n t t1 hOKt hCRt) ?_
        intro _ u u1 hCRu _ hOKu _ _
        simp only [getP_bind]
        refine rescr_ite (CR_eq hCRu 44 (by decide) (by decide)).symm (fun h => ?_)
          (fun _ => rescr_pure rfl hCRu trivial)
        simp only [nextP_bind]
        obtain ⟨g1, g2, _⟩ := next_step hOKu hCRu (by omega)
        refine rescr_bind (std_skipBlank input n _ g1 trivial)
          (skipBlank_cr input hcr n _ _ g1 g2) ?_
        intro _ v v1 hCRv _ hOKv _ _
        exact ihCAL _ _ _ v v1 hOKv hCRv
      simp only [CR_eq hCRr 58 (by decide) (by decide)]
      by_cases h58 : r.ch = 58
      · simp only [h58, if_true]
        have hnamed : ∀ id : Identifier, ResCR input (fun _ => True)
            (((do
                nextP input
                skipBlank n input
                let value ← parseLiteral n input
                if containsString names id.Name then
                  failWith (errMessage.str "named arguments must be unique")
                else pure (positional, named ++ [NamedArgument.mk id value],
                  names ++ [id.Name])) >>= fun vars => do
              skipBlank n input
              let r ← getP
              if r.ch = 44 then do
                nextP input
                skipBlank n input
                parseCallArgumentsLoop n input vars.1 vars.2.1 vars.2.2
              else return (vars.1, vars.2.1)) r)
            (((do
                nextP (crlf input)
                skipBlank n (crlf input)
                let value ← parseLiteral n (crlf input)
                if containsString names id.Name then
                  failWith (errMessage.str "named arguments must be unique")
                else pure (positional, named ++ [NamedArgument.mk id value],
                  names ++ [id.Name])) >>= fun vars => do
              skipBlank n (crlf input)
              let r ← getP
              if r.ch = 44 then do
                nextP (crlf input)
                skipBlank n (crlf input)
                parseCallArgumentsLoop n (crlf input) vars.1 vars.2.1 vars.2.2
              else return (vars.1, vars.2.1)) r1) := by
          intro id
          simp only [bind_assoc_apply, nextP_bind]
          obtain ⟨g1, g2, _⟩ := next_step hOKr hCRr (by omega)
          refine rescr_bind (std_skipBlank input n _ g1 trivial)
            (skipBlank_cr input hcr n _ _ g1 g2) ?_
          intro _ t t1 hCRt _ hOKt _ _
          simp only [bind_assoc_apply]
          refine rescr_bind (std_parseLiteral input n t hOKt trivial)
            (parseLiteral_cr input hcr n t t1 hOKt hCRt) ?_
          intro value u u1 hCRu _ hOKu _ _
          by_cases hc : containsString names id.Name = true
          · simp only [hc, if_true, failWith_bind]
            exact rescr_err _ _ _ _ _ _
          · simp only [hc, Bool.false_eq_true, if_false, pure_bind_apply]
            exact htail (positional, named ++ [NamedArgument.mk id value], names ++ [id.Name])
              u u1 hOKu hCRu
        cases exp with
        | messageReference id attr =>
          cases attr with
          | none => exact hnamed id
          | some a => exact rescr_err _ _ _ _ _ _
        | _ => exact rescr_err _ _ _ _ _ _
      · simp only [h58, if_false]
        by_cases hn : 0 < names.length
        · simp only [hn, if_true, failWith_bind]
          exact rescr_err _ _ _ _ _ _
        · simp only [hn, if_false, pure_bind_apply]
          exact htail (positional ++ [exp], named, names) r r1 hOKr hCRr
    · -- parseCallArguments
      rw [parseCallArguments, parseCallArguments]
      simp only [nextP_bind]
      obtain ⟨g1, g2, _⟩ := next_step hOK hCR h10
      refine rescr_bind (std_skipBlank input n _ g1 trivial) (skipBlank_cr input hcr n _ _ g1 g2)
        ?_
      intro _ q q1 hCRq _ hOKq _ _
      refine rescr_bind (fCAL _ _ _ q hOKq trivial) (ihCAL _ _ _ q q1 hOKq hCRq) ?_
      intro args r r1 hCRr _ hOKr _ _
      simp only [getP_bind, ne_eq]
      refine rescr_ite (not_congr (CR_eq hCRr 41 (by decide) (by decide)).symm)
        (fun _ => rescr_failWith _ _ _ _ _ _) (fun h => ?_)
      simp only [nextP_bind]
      obtain ⟨k1, k2, _⟩ := next_step hOKr hCRr (by omega)
      exact rescr_pure rfl k2 trivial
    · -- parseVariantsLoop
      rw [parseVariantsLoop, parseVariantsLoop]
      simp only [getP_bind, CR_eq hCR 42 (by decide) (by decide),
        CR_eq hCR 91 (by decide) (by decide)]
      refine rescr_ite Iff.rfl (fun _ => ?_) (fun _ => rescr_pure rfl hCR trivial)
      have hbody : ∀ (dv : Bool) (q q1 : parser), q.OK input → CR input q q1 →
          ResCR input (fun _ => True)
            ((do
              let key ← wrapErr "parse variant key: %v" (parseVariantKey n input)
              let value ← wrapErr "parse pattern: %v" (parsePattern n input)
              skipBlank n input
              parseVariantsLoop n input (vs ++ [Variant.mk key value dv]) dv) q)
            ((do
              let key ← wrapErr "parse variant key: %v" (parseVariantKey n (crlf input))
              let value ← wrapErr "parse pattern: %v" (parsePattern n (crlf input))
              skipBlank n (crlf input)
              parseVariantsLoop n (crlf input) (vs ++ [Variant.mk key value dv]) dv) q1) := by
        intro dv q q1 hOKq hCRq
        refine rescr_bind (spec_wrapErr _ (std_parseVariantKey input n) q hOKq trivial)
          (rescr_wrapErr _ (parseVariantKey_cr input hcr n q q1 hOKq hCRq)) ?_
        intro key r r1 hCRr _ hOKr _ _
        refine rescr_bind (spec_wrapErr _ fP r hOKr trivial)
          (rescr_wrapErr _ (ihP r r1 hOKr hCRr)) ?_
        intro value t t1 hCRt _ hOKt _ _
        refine rescr_bind (std_skipBlank input n t hOKt trivial)
          (skipBlank_cr input hcr n t t1 hOKt hCRt) ?_
        intro _ u u1 hCRu _ hOKu _ _
        exact ihVL _ _ u u1 hOKu hCRu
      by_cases h42 : p.ch = 42
      · simp only [h42, if_true, bind_assoc_apply, nextP_bind, pure_bind_apply]
        obtain ⟨g1, g2, _⟩ := next_step hOK hCR (by omega)
        exact hbody true _ _ g1 g2
      · simp only [h42, if_false, pure_bind_apply]
        exact hbody d p p1 hOK hCR
    · -- parseVariants
      rw [parseVariants, parseVariants]
      refine rescr_bind (fVL _ _ p hOK trivial) (ihVL _ _ p p1 hOK hCR) ?_
      intro r q q1 hCRq _ _ _ _
      exact rescr_ite Iff.rfl (fun _ => rescr_failWith _ _ _ _ _ _)
        (fun _ => rescr_pure rfl hCRq trivial)

theorem parsePattern_cr (input : GoString) (hcr : ∀ b ∈ input, b ≠ 13) (n : Nat)
    (p p1 : parser) (hOK : p.OK input) (hCR : CR input p p1) :
    ResCR input (fun _ => True) (parsePattern n input p) (parsePattern n (crlf input) p1) :=
  (pattern_cr input hcr n).2.1 p p1 hOK hCR

theorem parseAttribute_cr (input : GoString) (hcr : ∀ b ∈ input, b ≠ 13) (n : Nat)
    (p p1 : parser) (hOK : p.OK input) (hCR : CR input p p1) (h10 : p.ch ≠ 10) :
    ResCR input (fun _ => True) (parseAttribute n input p)
      (parseAttribute n (crlf input) p1) := by
  unfold parseAttribute
  simp only [nextP_bind]
  obtain ⟨g1, g2, _⟩ := next_step hOK hCR h10
  refine rescr_bind (std_parseIdentifier input n _ g1 trivial)
    (parseIdentifier_cr input n _ _ g1 g2) ?_
  intro id q q1 hCRq _ hOKq _ _
  refine rescr_bind (std_skipBlankInline input n q hOKq trivial)
    (skipBlankInline_cr input n q q1 hOKq hCRq) ?_
  intro _ r r1 hCRr _ hOKr _ _
  simp only [getP_bind, ne_eq]
  refine rescr_ite (not_congr (CR_eq hCRr 61 (by decide) (by decide)).symm)
    (fun _ => rescr_failWith _ _ _ _ _ _) (fun h => ?_)
  simp only [nextP_bind]
  obtain ⟨k1, k2, _⟩ := next_step hOKr hCRr (by omega)
  refine rescr_bind (std_skipBlankInline input n _ k1 trivial)
    (skipBlankInline_cr input n _ _ k1 k2) ?_
  intro _ t t1 hCRt _ hOKt _ _
  refine rescr_bind (parsePattern_spec input n t hOKt trivial)
    (parsePattern_cr input hcr n t t1 hOKt hCRt) ?_
  intro pattern u u1 hCRu _ _ _ _
  exact rescr_pure rfl hCRu trivial

theorem parseAttributesLoop_cr (input : GoString) (hcr : ∀ b ∈ input, b ≠ 13) :
    ∀ (n : Nat) (attributes : List Attribute) (p p1 : parser), p.OK input → CR input p p1 →
    ResCR input (fun _ => True) (parseAttributesLoop n input attributes p)
      (parseAttributesLoop n (crlf input) attributes p1) := by
  intro n
  induction n with
  | zero => intro _ _ _ _ _; exact rescr_fuel _ _
  | succ n ih =>
    intro attributes p p1 hOK hCR
    rw [parseAttributesLoop, parseAttributesLoop]
    simp only [getP_bind]
    refine rescr_ite (CR_eof hCR).symm (fun _ => rescr_pure rfl hCR trivial) (fun _ => ?_)
    refine rescr_bind (std_skipBlankInline input n p hOK trivial)
      (skipBlankInline_cr input n p p1 hOK hCR) ?_
    intro _ q q1 hCRq _ hOKq _ _
    simp only [getP_bind, ne_eq]
    refine rescr_ite (not_congr (CR_eq hCRq 46 (by decide) (by decide)).symm)
      (fun _ => ?_) (fun h => ?_)
    · simp only [setP_bind]
      exact rescr_pure rfl ⟨hCR.1, hCRq.2.1, hCRq.2.2⟩ trivial
    · refine rescr_bind (parseAttribute_spec input n q hOKq trivial)
        (parseAttribute_cr input hcr n q q1 hOKq hCRq (by omega)) ?_
      intro attr r r1 hCRr _ hOKr _ _
      exact ih _ r r1 hOKr hCRr

theorem parseAttributes_cr (input : GoString) (hcr : ∀ b ∈ input, b ≠ 13) (n : Nat)
    (p p1 : parser) (hOK : p.OK input) (hCR : CR input p p1) :
    ResCR input (fun _ => True) (parseAttributes n input p)
      (parseAttributes n (crlf input) p1) :=
  parseAttributesLoop_cr input hcr n [] p p1 hOK hCR

theorem parseMessage_cr (input : GoString) (hcr : ∀ b ∈ input, b ≠ 13) (n : Nat)
    (p p1 : parser) (hOK : p.OK input) (hCR : CR input p p1) :
    ResCR input (fun _ => True) (parseMessage n input p) (parseMessage n (crlf input) p1) := by
  unfold parseMessage
  refine rescr_bind (std_parseIdentifier input n p hOK trivial)
    (parseIdentifier_cr input n p p1 hOK hCR) ?_
  intro id q q1 hCRq _ hOKq _ _
  refine rescr_bind (std_skipBlankInline input n q hOKq trivial)
    (skipBlankInline_cr input n q q1 hOKq hCRq) ?_
  intro _ r r1 hCRr _ hOKr _ _
  simp only [getP_bind, ne_eq]
  refine rescr_ite (not_congr (CR_eq hCRr 61 (by decide) (by decide)).symm)
    (fun _ => rescr_failWith _ _ _ _ _ _) (fun h => ?_)
  simp only [nextP_bind]
  obtain ⟨k1, k2, _⟩ := next_step hOKr hCRr (by omega)
  refine rescr_bind (parsePattern_spec input n _ k1 trivial)
    (parsePattern_cr input hcr n _ _ k1 k2) ?_
  intro pattern t t1 hCRt _ hOKt _ hAfter
  refine rescr_bind (skipBlankBlock_spec input n t hOKt hAfter)
    (skipBlankBlock_cr input hcr n t t1 hOKt hCRt) ?_
  intro _ u u1 hCRu _ hOKu _ hu
  refine rescr_bind (parseAttributes_spec input n u hOKu hu)
    (parseAttributes_cr input hcr n u u1 hOKu hCRu) ?_
  intro attributes v v1 hCRv _ _ _ _
  exact rescr_ite Iff.rfl (fun _ => rescr_failWith _ _ _ _ _ _)
    (fun _ => rescr_pure rfl hCRv trivial)

theorem parseTerm_cr (input : GoString) (hcr : ∀ b ∈ input, b ≠ 13) (n : Nat)
    (p p1 : parser) (hOK : p.OK input) (hCR : CR input p p1) :
    ResCR input (fun _ => True) (parseTerm n input p) (parseTerm n (crlf input) p1) := by
  unfold parseTerm
  simp only [getP_bind, ne_eq]
  refine rescr_ite (not_congr (CR_eq hCR 45 (by decide) (by decide)).symm)
    (fun _ => rescr_failWith _ _ _ _ _ _) (fun h => ?_)
  simp only [nextP_bind]
  obtain ⟨g1, g2, _⟩ := next_step hOK hCR (by omega)
  refine rescr_bind (spec_replaceErr _ (std_parseIdentifier input n) _ g1 trivial)
    (rescr_replaceErr _ (parseIdentifier_cr input n _ _ g1 g2)) ?_
  intro id q q1 hCRq _ hOKq _ _
  refine rescr_bind (std_skipBlankInline input n q hOKq trivial)
    (skipBlankInline_cr input n q q1 hOKq hCRq) ?_
  intro _ r r1 hCRr _ hOKr _ _
  simp only [getP_bind, ne_eq]
  refine rescr_ite (not_congr (CR_eq hCRr 61 (by decide) (by decide)).symm)
    (fun _ => rescr_failWith _ _ _ _ _ _) (fun h => ?_)
  simp only [nextP_bind]
  obtain ⟨k1, k2, _⟩ := next_step hOKr hCRr (by omega)
  refine rescr_bind (std_skipBlankInline input n _ k1 trivial)
    (skipBlankInline_cr input n _ _ k1 k2) ?_
  intro _ s s1 hCRs _ hOKs _ _
  refine rescr_bind (parsePattern_spec input n s hOKs trivial)
    (parsePattern_cr input hcr n s s1 hOKs hCRs) ?_
  intro pattern t t1 hCRt _ hOKt _ hAfter
  refine rescr_bind (skipBlankBlock_spec input n t hOKt hAfter)
    (skipBlankBlock_cr input hcr n t t1 hOKt hCRt) ?_
  intro _ u u1 hCRu _ hOKu _ hu
  refine rescr_bind (parseAttributes_spec input n u hOKu hu)
    (parseAttributes_cr input hcr n u u1 hOKu hCRu) ?_
  intro attributes v v1 hCRv _ _ _ _
  exact rescr_pure rfl hCRv trivial

theorem parseEntry_cr (input : GoString) (hcr : ∀ b ∈ input, b ≠ 13) (n : Nat)
    (p p1 : parser) (hOK : p.OK input) (hCR : CR input p p1) :
    ResCR input (fun _ => True) (parseEntry n input p) (parseEntry n (crlf input) p1) := by
  unfold parseEntry
  simp only [getP_bind]
  refine rescr_ite (CR_eq hCR 35 (by decide) (by decide)).symm
    (fun _ => parseComment_cr input hcr n p p1 hOK hCR) (fun _ => ?_)
  refine rescr_ite (CR_eq hCR 45 (by decide) (by decide)).symm (fun _ => ?_) (fun _ => ?_)
  · refine rescr_bind (std_parseTerm input n p hOK trivial)
      (parseTerm_cr input hcr n p p1 hOK hCR) ?_
    intro t q q1 hCRq _ _ _ _
    exact rescr_pure rfl hCRq trivial
  · refine rescr_bind (std_parseMessage input n p hOK trivial)
      (parseMessage_cr input hcr n p p1 hOK hCR) ?_
    intro m q q1 hCRq _ _ _ _
    exact rescr_pure rfl hCRq trivial

/-- Once a diagnostic is recorded the loop of `parse` returns an error. -/
theorem parseLoop_errors (input : GoString) (n : Nat) (errors : List parseError)
    (entries : List Entry) (lc : Option Comment) (p : parser)
    (r : Resource × Option ParseErrors) (q : parser) (he : errors ≠ [])
    (h : parseLoop n input errors entries lc p = Res.ok r q) : r.2 ≠ none := by
  obtain ⟨errors1, entries1, lc1, hJ, _, hr⟩ :=
    parseLoop_inv input (fun e _ _ _ => e ≠ [])
      (fun _ _ _ _ _ _ _ _ hJ _ _ _ => hJ)
      (fun _ _ _ _ _ _ _ _ _ hJ _ _ _ _ => hJ)
      (fun _ _ _ _ _ _ _ _ _ _ _ _ _ _ _ => by simp)
      n errors entries lc p r q he h
  rw [hr]
  have hpos : 0 < errors1.length := List.length_pos.2 hJ
  simp [hpos]

theorem newParser_cr (input : GoString) : CR input (newParser input) (newParser (crlf input)) := by
  unfold newParser CR
  rw [next_pos, next_ch, next_w, next_pos, next_ch, next_w]
  cases input with
  | nil => exact ⟨rfl, rfl, rfl⟩
  | cons b rest =>
    have h1 : ¬ (b :: rest).length ≤ 0 := by simp
    have h2 : ¬ (crlf (b :: rest)).length ≤ 0 := by
      have := crlf_length_le (b :: rest)
      simp at this ⊢
      intro hc
      rw [hc] at this
      simp at this
    simp only [h1, h2, if_false, Nat.add_zero, List.drop_zero, DecodeRune_crlf]
    simp [crlfPos_zero]

theorem parseLoop_cr (input : GoString) (hcr : ∀ b ∈ input, b ≠ 13) :
    ∀ (n : Nat) (entries : List Entry) (lc : Option Comment) (p p1 : parser),
    p.OK input → CR input p p1 → ∀ (r : Resource) (q : parser),
    parseLoop n input [] entries lc p = Res.ok (r, none) q →
    ∃ q1, parseLoop n (crlf input) [] entries lc p1 = Res.ok (r, none) q1 := by
  intro n
  induction n with
  | zero => intro entries lc p p1 _ _ r q h; simp [parseLoop] at h
  | succ n ih =>
    intro entries lc p p1 hOK hCR r q h
    by_cases hp : p.pos < input.length
    · have hp1 : p1.pos < (crlf input).length := by
        rw [hCR.1]; exact crlfPos_lt input p.pos hp
      have hE := parseEntry_cr input hcr n p p1 hOK hCR
      have hEfit := std_parseEntry input n p hOK trivial
      cases hpe : parseEntry n input p with
      | ok entry p2 =>
        rw [hpe] at hE hEfit
        cases hpe1 : parseEntry n (crlf input) p1 with
        | ok entry1 p21 =>
          rw [hpe1] at hE
          obtain ⟨e1, hCR2, _⟩ := hE
          subst e1
          have hOK2 : p2.OK input := hEfit.1
          have hB := skipBlankBlock_cr input hcr n p2 p21 hOK2 hCR2
          have hBfit := std_skipBlankBlock input n p2 hOK2 trivial
          cases hsb : skipBlankBlock n input p2 with
          | ok k p3 =>
            rw [hsb] at hB hBfit
            cases hsb1 : skipBlankBlock n (crlf input) p21 with
            | ok k1 p31 =>
              rw [hsb1] at hB
              obtain ⟨e2, hCR3, _⟩ := hB
              subst e2
              rw [parseLoop_step n input [] entries lc p p2 p3 entry k hp hpe hsb] at h
              rw [parseLoop_step n (crlf input) [] entries lc p1 p21 p31 entry k hp1 hpe1 hsb1]
              generalize (if k = 0 then entry.asComment else none) = d at h ⊢
              cases d with
              | none => exact ih _ _ p3 p31 hBfit.1 hCR3 r q h
              | some c => exact ih _ _ p3 p31 hBfit.1 hCR3 r q h
            | err _ _ => rw [hsb1] at hB; exact absurd hB (by simp [ResCR])
            | panic _ => rw [hsb1] at hB; exact absurd hB (by simp [ResCR])
            | fuel => rw [hsb1] at hB; exact absurd hB (by simp [ResCR])
          | err e p3 =>
            simp only [parseLoop, bind_apply, getP, hp, if_true, attempt, hpe, pure_apply] at h
            simp [hsb] at h
          | panic m =>
            simp only [parseLoop, bind_apply, getP, hp, if_true, attempt, hpe, pure_apply] at h
            simp [hsb] at h
          | fuel =>
            simp only [parseLoop, bind_apply, getP, hp, if_true, attempt, hpe, pure_apply] at h
            simp [hsb] at h
        | err _ _ => rw [hpe1] at hE; exact absurd hE (by simp [ResCR])
        | panic _ => rw [hpe1] at hE; exact absurd hE (by simp [ResCR])
        | fuel => rw [hpe1] at hE; exact absurd hE (by simp [ResCR])
      | err e p2 =>
        exfalso
        simp only [parseLoop, bind_apply, getP, hp, if_true, attempt, hpe, pure_apply] at h
        cases hsk : skipToNextEntryStart n input p2 with
        | ok u q1 =>
          simp only [hsk] at h
          cases hsb : skipBlankBlock n input q1 with
          | ok k p3 =>
            simp only [hsb, Entry.asComment, ite_self] at h
            exact parseLoop_errors input n _ _ _ _ _ _ (by simp) h rfl
          | err e p2 => simp [hsb] at h
          | panic m => simp [hsb] at h
          | fuel => simp [hsb] at h
        | err e p2 => simp [hsk] at h
        | panic m => simp [hsk] at h
        | fuel => simp [hsk] at h
      | panic m =>
        simp only [parseLoop, bind_apply, getP, hp, if_true, attempt, hpe] at h
        cases h
      | fuel =>
        simp only [parseLoop, bind_apply, getP, hp, if_true, attempt, hpe] at h
        cases h
    · have hlen : input.length ≤ p.pos := by omega
      have hlen1 : (crlf input).length ≤ p1.pos := by
        rw [hCR.1]; exact (crlfPos_end input p.pos).2 hlen
      rw [parseLoop_exit n input [] entries lc p hlen] at h
      rw [parseLoop_exit n (crlf input) [] entries lc p1 hlen1]
      injection h with h1 h2
      injection h1 with h3 h4
      refine ⟨p1, ?_⟩
      rw [h3]
      rfl

theorem parse_cr (input : GoString) (hcr : ∀ b ∈ input, b ≠ 13) (n : Nat) (p p1 : parser)
    (hOK : p.OK input) (hCR : CR input p p1) (r : Resource) (q : parser)
    (h : parser.parse n input p = Res.ok (r, none) q) :
    ∃ q1, parser.parse n (crlf input) p1 = Res.ok (r, none) q1 := by
  unfold parser.parse at h ⊢
  rw [bind_apply] at h ⊢
  have hB := skipBlankBlock_cr input hcr n p p1 hOK hCR
  have hBfit := std_skipBlankBlock input n p hOK trivial
  cases hsb : skipBlankBlock n input p with
  | ok k p3 =>
    rw [hsb] at hB hBfit h
    cases hsb1 : skipBlankBlock n (crlf input) p1 with
    | ok k1 p31 =>
      rw [hsb1] at hB
      exact parseLoop_cr input hcr n [] none p3 p31 hBfit.1 hB.2.1 r q h
    | err _ _ => rw [hsb1] at hB; exact absurd hB (by simp [ResCR])
    | panic _ => rw [hsb1] at hB; exact absurd hB (by simp [ResCR])
    | fuel => rw [hsb1] at hB; exact absurd hB (by simp [ResCR])
  | err e p3 => rw [hsb] at h; simp at h
  | panic m => rw [hsb] at h; simp at h
  | fuel => rw [hsb] at h; simp at h

/-! ## The bytes of the strings of the tree

Every string of the tree is cut out of the input or joined from such pieces with line feeds, so
that it holds no byte that the input does not hold, the line feed apart. -/

theorem slice_bytes (β : Nat → Prop) (input : GoString) (hin : allBytes β input) (a b : Nat) :
    allBytes β (slice input a b) := by
  intro x hx
  unfold slice at hx
  exact hin x (List.mem_of_mem_take (List.mem_of_mem_drop hx))

theorem Join_bytes (β : Nat → Prop) (sep : GoString) (hsep : allBytes β sep) :
    ∀ elems : List GoString, (∀ s ∈ elems, allBytes β s) → allBytes β (Join elems sep) := by
  intro elems
  induction elems with
  | nil => intro _ x hx; simp [Join] at hx
  | cons a rest ih =>
    intro h
    cases rest with
    | nil =>
      rw [Join]
      exact h a (by simp)
    | cons b rest =>
      rw [Join]
      swap
      · simp
      intro x hx
      rw [List.mem_append, List.mem_append] at hx
      rcases hx with (hx | hx) | hx
      · exact h a (by simp) x hx
      · exact hsep x hx
      · exact ih (fun s hs => h s (by simp [hs])) x hx

theorem TrimPrefix_bytes (β : Nat → Prop) (s pre : GoString) (h : allBytes β s) :
    allBytes β (TrimPrefix s pre) := by
  unfold TrimPrefix
  split
  · intro x hx; exact h x (List.mem_of_mem_drop hx)
  · exact h

theorem TrimRightFunc_bytes (β : Nat → Prop) (s : GoString) (f : Nat → Bool)
    (h : allBytes β s) : allBytes β (TrimRightFunc s f) := by
  unfold TrimRightFunc
  dsimp only
  split
  · intro x hx; exact h x (List.mem_of_mem_take hx)
  · intro x hx; exact h x (List.mem_of_mem_take hx)

theorem textsElements_append (φ : GoString → Prop) : ∀ (a b : List PatternElement),
    textsElements φ (a ++ b) ↔ textsElements φ a ∧ textsElements φ b := by
  intro a
  induction a with
  | nil => intro b; simp [textsElements]
  | cons x xs ih => intro b; simp [textsElements, ih, and_assoc]

theorem textsInlines_append (φ : GoString → Prop) : ∀ (a b : List InlineExpression),
    textsInlines φ (a ++ b) ↔ textsInlines φ a ∧ textsInlines φ b := by
  intro a
  induction a with
  | nil => intro b; simp [textsInlines]
  | cons x xs ih => intro b; simp [textsInlines, ih, and_assoc]

theorem textsNamed_append (φ : GoString → Prop) : ∀ (a b : List NamedArgument),
    textsNamed φ (a ++ b) ↔ textsNamed φ a ∧ textsNamed φ b := by
  intro a
  induction a with
  | nil => intro b; simp [textsNamed]
  | cons x xs ih => intro b; simp [textsNamed, ih, and_assoc]

theorem textsVariants_append (φ : GoString → Prop) : ∀ (a b : List Variant),
    textsVariants φ (a ++ b) ↔ textsVariants φ a ∧ textsVariants φ b := by
  intro a
  induction a with
  | nil => intro b; simp [textsVariants]
  | cons x xs ih => intro b; simp [textsVariants, ih, and_assoc]

theorem Pattern_Texts_mk (φ : GoString → Prop) (s : Option (List PatternElement)) :
    Pattern.Texts φ (Pattern.mk s) ↔ textsElements φ (s.getD []) := by
  cases s <;> simp [Pattern.Texts, textsElements]

theorem dedent_foldl_texts (β : Nat → Prop) (indent : GoString) :
    ∀ (es : List PatternElement) (acc : Option (List PatternElement) × List GoString),
    textsElements (allBytes β) (acc.1.getD []) → (∀ s ∈ acc.2, allBytes β s) →
    textsElements (allBytes β) es → β 10 →
    textsElements (allBytes β) ((es.foldl (dedentStep indent) acc).1.getD []) ∧
      ∀ s ∈ (es.foldl (dedentStep indent) acc).2, allBytes β s := by
  intro es
  induction es with
  | nil => intro acc h1 h2 _ _; exact ⟨h1, h2⟩
  | cons e es ih =>
    intro acc hacc hbuf hes h10
    rw [textsElements] at hes
    rw [List.foldl_cons]
    have hsep : allBytes β [10] := by
      intro x hx
      rw [List.mem_singleton.1 hx]
      exact h10
    cases e with
    | textElement v =>
      refine ih _ hacc ?_ hes.2 h10
      intro s hs
      simp only [dedentStep, List.mem_append, List.mem_singleton] at hs
      rcases hs with hs | hs
      · exact hbuf s hs
      · rw [hs]
        exact TrimPrefix_bytes β v indent (by simpa [PatternElement.Texts] using hes.1)
    | placeable pl =>
      refine ih _ ?_ ?_ hes.2 h10
      · simp only [dedentStep]
        split_ifs
        · simp only [sliceAppend, Option.getD_some]
          rw [textsElements_append, textsElements_append]
          refine ⟨⟨hacc, ?_⟩, by simpa [textsElements] using hes.1⟩
          simp only [textsElements, PatternElement.Texts, and_true]
          exact Join_bytes β [10] hsep _ hbuf
        · simp only [sliceAppend, Option.getD_some]
          rw [textsElements_append]
          exact ⟨hacc, by simpa [textsElements] using hes.1⟩
      · intro s hs
        simp [dedentStep] at hs

theorem dedent_texts (β : Nat → Prop) (h10 : β 10) (es : List PatternElement) (ci : Nat)
    (h : textsElements (allBytes β) es) : Pattern.Texts (allBytes β) (dedent es ci) := by
  obtain ⟨hf, hb⟩ := dedent_foldl_texts β (List.replicate ci 32) es (none, [])
    (by simp [textsElements]) (by simp) h h10
  have hsep : allBytes β [10] := by
    intro x hx
    rw [List.mem_singleton.1 hx]
    exact h10
  unfold dedent
  dsimp only
  split_ifs
  · rw [Pattern_Texts_mk]
    simp only [sliceAppend, Option.getD_some]
    rw [textsElements_append]
    refine ⟨hf, ?_⟩
    simp only [textsElements, PatternElement.Texts, and_true]
    exact TrimRightFunc_bytes β _ _ (Join_bytes β [10] hsep _ hb)
  · rw [Pattern_Texts_mk]; exact hf
  · rw [Pattern_Texts_mk]; exact hf

theorem parseIdentifier_texts (β : Nat → Prop) (input : GoString) (hin : allBytes β input)
    (n : Nat) :
    Spec input (fun _ => True) (fun id _ => allBytes β id.Name) (parseIdentifier n input) := by
  unfold parseIdentifier
  repeat' (first
    | exact spec_pure (fun _ _ => slice_bytes β input hin _ _)
    | exact spec_failWith _ _ _ _
    | exact std_getP _ | exact std_parseIdentifierLoop _ _
    | refine spec_ite ?_ ?_
    | refine spec_bind_std ?_ (fun _ => ?_))

theorem parseNumberLiteral_texts (β : Nat → Prop) (input : GoString) (hin : allBytes β input)
    (n : Nat) :
    Spec input (fun _ => True) (fun v _ => allBytes β v) (parseNumberLiteral n input) := by
  unfold parseNumberLiteral
  repeat' (first
    | exact spec_pure (fun _ _ => slice_bytes β input hin _ _)
    | exact spec_failWith _ _ _ _
    | exact std_getP _ | exact std_nextP _ | exact std_pure _ _ | exact std_skipDigits _ _
    | refine spec_ite ?_ ?_
    | refine spec_bind_std ?_ (fun _ => ?_))

theorem parseStringLiteral_texts (β : Nat → Prop) (input : GoString) (hin : allBytes β input)
    (n : Nat) :
    Spec input (fun _ => True) (fun v _ => allBytes β v) (parseStringLiteral n input) := by
  unfold parseStringLiteral
  repeat' (first
    | exact spec_pure (fun _ _ => slice_bytes β input hin _ _)
    | exact std_getP _ | exact std_nextP _ | exact std_parseStringLiteralLoop _ _
    | refine spec_bind_std ?_ (fun _ => ?_))

theorem parseTextElement_texts (β : Nat → Prop) (input : GoString) (hin : allBytes β input)
    (n : Nat) :
    Spec input (fun _ => True) (fun v _ => allBytes β v) (parseTextElement n input) := by
  unfold parseTextElement
  repeat' (first
    | exact spec_pure (fun _ _ => slice_bytes β input hin _ _)
    | exact std_getP _ | exact std_parseTextElementLoop _ _
    | refine spec_bind_std ?_ (fun _ => ?_))

theorem parseCommentLine_texts (β : Nat → Prop) (input : GoString) (hin : allBytes β input)
    (n : Nat) :
    Spec input (fun _ => True) (fun v _ => allBytes β v) (parseCommentLine n input) := by
  unfold parseCommentLine
  repeat' (first
    | exact spec_pure (fun _ _ => slice_bytes β input hin _ _)
    | exact std_getP _ | exact std_parseCommentLineLoop _ _
    | refine spec_bind_std ?_ (fun _ => ?_))

theorem parseLiteral_texts (β : Nat → Prop) (input : GoString) (hin : allBytes β input)
    (n : Nat) :
    Spec input (fun _ => True) (fun v _ => InlineExpression.Texts (allBytes β) v)
      (parseLiteral n input) := by
  unfold parseLiteral
  refine spec_bind_std (std_getP _) (fun p => ?_)
  refine spec_ite ?_ (spec_ite ?_ (spec_failWith _ _ _ _))
  · exact spec_bind_val (parseNumberLiteral_texts β input hin n)
      (fun v hv => spec_pure (fun _ _ => by rw [InlineExpression.Texts]; exact hv))
  · exact spec_bind_val (parseStringLiteral_texts β input hin n)
      (fun v hv => spec_pure (fun _ _ => by rw [InlineExpression.Texts]; exact hv))

theorem parseVariantKey_texts (β : Nat → Prop) (input : GoString) (hin : allBytes β input)
    (n : Nat) :
    Spec input (fun _ => True) (fun key _ => allBytes β key.text) (parseVariantKey n input) := by
  unfold parseVariantKey
  refine spec_bind_std (std_getP _) (fun p => ?_)
  refine spec_ite (spec_failWith _ _ _ _) ?_
  refine spec_bind_std (std_nextP _) (fun _ => ?_)
  refine spec_bind_std (std_skipBlank _ _) (fun _ => ?_)
  refine spec_bind_std (std_getP _) (fun q => ?_)
  refine spec_bind_val (G := fun key : VariantKey => allBytes β key.text) ?_ (fun key hkey => ?_)
  · refine spec_ite ?_ ?_
    · exact spec_bind_val (parseNumberLiteral_texts β input hin n)
        (fun v hv => spec_pure (fun _ _ => hv))
    · exact spec_bind_val (parseIdentifier_texts β input hin n)
        (fun v hv => spec_pure (fun _ _ => hv))
  · refine spec_bind_std (std_skipBlank _ _) (fun _ => ?_)
    refine spec_bind_std (std_getP _) (fun r => ?_)
    refine spec_ite (spec_failWith _ _ _ _) ?_
    refine spec_bind_std (std_nextP _) (fun _ => ?_)
    exact spec_pure (fun _ _ => hkey)

/-- Every string that the parser puts into a pattern is made of bytes of the input and line
feeds: for a property `β` of bytes that holds of every byte of the input and of the line feed,
every string inside the returned node has only bytes with `β`. -/
theorem pattern_texts (β : Nat → Prop) (input : GoString) (hin : allBytes β input)
    (h10 : β 10) : ∀ n,
    (∀ st, textsElements (allBytes β) st.elements →
      Spec input (fun _ => True) (fun r _ => textsElements (allBytes β) r.elements)
        (parsePatternLoop n input st)) ∧
    Spec input (fun _ => True) (fun v _ => Pattern.Texts (allBytes β) v)
      (parsePattern n input) ∧
    Spec input (fun _ => True) (fun v _ => Placeable.Texts (allBytes β) v)
      (parsePlaceable n input) ∧
    Spec input (fun _ => True) (fun v _ => Expression.Texts (allBytes β) v)
      (parseExpression n input) ∧
    Spec input (fun _ => True) (fun v _ => InlineExpression.Texts (allBytes β) v)
      (parseInlineExpression n input) ∧
    (∀ a b c, textsInlines (allBytes β) a → textsNamed (allBytes β) b →
      Spec input (fun _ => True)
        (fun r _ => textsInlines (allBytes β) r.1 ∧ textsNamed (allBytes β) r.2)
        (parseCallArgumentsLoop n input a b c)) ∧
    Spec input (fun _ => True) (fun v _ => CallArguments.Texts (allBytes β) v)
      (parseCallArguments n input) ∧
    (∀ vs d, textsVariants (allBytes β) vs →
      Spec input (fun _ => True) (fun r _ => textsVariants (allBytes β) r.1)
        (parseVariantsLoop n input vs d)) ∧
    Spec input (fun _ => True) (fun v _ => textsVariants (allBytes β) v)
      (parseVariants n input) := by
  intro n
  induction n with
  | zero =>
    refine ⟨fun _ _ => ?_, ?_, ?_, ?_, ?_, fun _ _ _ _ _ => ?_, ?_, fun _ _ _ => ?_, ?_⟩
    · rw [parsePatternLoop]; exact spec_fuel _ _ _
    · rw [parsePattern]; exact spec_fuel _ _ _
    · rw [parsePlaceable]; exact spec_fuel _ _ _
    · rw [parseExpression]; exact spec_fuel _ _ _
    · rw [parseInlineExpression]; exact spec_fuel _ _ _
    · rw [parseCallArgumentsLoop]; exact spec_fuel _ _ _
    · rw [parseCallArguments]; exact spec_fuel _ _ _
    · rw [parseVariantsLoop]; exact spec_fuel _ _ _
    · rw [parseVariants]; exact spec_fuel _ _ _
  | succ n ih =>
    obtain ⟨ihPL, ihP, ihPl, ihE, ihIE, ihCAL, ihCA, ihVL, ihV⟩ := ih
    refine ⟨fun st hst => ?_, ?_, ?_, ?_, ?_, fun positional named names hpos hnamed => ?_, ?_,
      fun vs d hvs => ?_, ?_⟩
    · -- parsePatternLoop
      rw [parsePatternLoop]
      refine spec_bind_std (std_getP _) (fun p => ?_)
      refine spec_ite (spec_pure (fun _ _ => hst)) ?_
      refine spec_bind_std (std_skipEOL _) (fun eol => ?_)
      refine spec_bind_std (std_getP _) (fun p1 => ?_)
      refine spec_ite ?_ ?_
      · refine spec_bind_val ihPl (fun el hel => ?_)
        refine ihPL _ ?_
        rw [textsElements_append]
        exact ⟨hst, by simpa [textsElements, PatternElement.Texts] using hel⟩
      · refine spec_bind_std (spec_std (parsePatternIndent_or input n st eol)) (fun m => ?_)
        cases m with
        | none => exact spec_pure (fun _ _ => hst)
        | some ci =>
          refine spec_bind_val (parseTextElement_texts β input hin n) (fun v hv => ?_)
          refine ihPL _ ?_
          rw [textsElements_append]
          exact ⟨hst, by simpa [textsElements, PatternElement.Texts] using hv⟩
    · -- parsePattern
      rw [parsePattern]
      refine spec_bind_std (std_skipBlankInline input n) (fun _ => ?_)
      refine spec_bind_std (std_skipEOL input) (fun eol => ?_)
      refine spec_bind_std (spec_ite (std_skipBlankBlock input n) (std_pure _ _)) (fun _ => ?_)
      refine spec_bind_val (ihPL _ (by simp [textsElements])) (fun st hst => ?_)
      refine spec_ite (spec_pure (fun _ _ => by simp [Pattern.Texts])) ?_
      exact spec_pure (fun _ _ => dedent_texts β h10 _ _ hst)
    · -- parsePlaceable
      rw [parsePlaceable]
      refine spec_bind_std (std_nextP _) (fun _ => ?_)
      refine spec_bind_std (std_skipBlank _ _) (fun _ => ?_)
      refine spec_bind_val ihE (fun e he => ?_)
      refine spec_bind_std (std_skipBlankInline _ _) (fun _ => ?_)
      refine spec_bind_std (std_getP _) (fun _ => ?_)
      refine spec_ite (spec_failWith _ _ _ _) ?_
      refine spec_bind_std (std_nextP _) (fun _ => ?_)
      exact spec_pure (fun _ _ => by rw [Placeable.Texts]; exact he)
    · -- parseExpression
      rw [parseExpression]
      refine spec_bind_val ihIE (fun selector hsel => ?_)
      refine spec_bind_std (std_skipBlank _ _) (fun _ => ?_)
      refine spec_bind_std (std_getP _) (fun p => ?_)
      rcases selector with v | v | ⟨id, args⟩ | ⟨id, attr⟩ | ⟨id, attr, args⟩ | id | pl
      case messageReference =>
        cases attr <;> refine spec_ite ?_ (spec_failWith _ _ _ _) <;>
          exact spec_pure (fun _ _ => by rw [Expression.Texts]; exact hsel)
      case termReference =>
        cases attr with
        | none =>
          refine spec_ite ?_ (spec_failWith _ _ _ _)
          exact spec_pure (fun _ _ => by rw [Expression.Texts]; exact hsel)
        | some a =>
          refine spec_ite (spec_failWith _ _ _ _) ?_
          refine spec_bind_std (std_nextP _) (fun _ => ?_)
          refine spec_bind_std (std_nextP _) (fun _ => ?_)
          refine spec_bind_std (std_skipBlankInline _ _) (fun _ => ?_)
          refine spec_bind_std (std_skipEOL _) (fun _ => ?_)
          refine spec_ite (spec_failWith _ _ _ _) ?_
          refine spec_bind_std (std_skipBlank _ _) (fun _ => ?_)
          refine spec_bind_val (spec_wrapErr _ ihV) (fun vs hvs => ?_)
          exact spec_pure (fun _ _ => by rw [Expression.Texts]; exact ⟨hsel, hvs⟩)
      all_goals
        refine spec_ite ?_ ?_
        · exact spec_pure (fun _ _ => by rw [Expression.Texts]; exact hsel)
        · refine spec_bind_std (std_nextP _) (fun _ => ?_)
          refine spec_bind_std (std_nextP _) (fun _ => ?_)
          refine spec_bind_std (std_skipBlankInline _ _) (fun _ => ?_)
          refine spec_bind_std (std_skipEOL _) (fun _ => ?_)
          refine spec_ite (spec_failWith _ _ _ _) ?_
          refine spec_bind_std (std_skipBlank _ _) (fun _ => ?_)
          refine spec_bind_val (spec_wrapErr _ ihV) (fun vs hvs => ?_)
          exact spec_pure (fun _ _ => by rw [Expression.Texts]; exact ⟨hsel, hvs⟩)
    · -- parseInlineExpression
      rw [parseInlineExpression]
      have hattr : ∀ q : parser, Spec input (fun _ => True)
          (fun attr _ => optName (allBytes β) attr) (if q.ch = 46 then do
            nextP input
            let a ← parseIdentifier n input
            pure (some a)
          else pure none) := fun q => by
        refine spec_ite ?_ (spec_pure (fun _ _ a ha => by simp at ha))
        refine spec_bind_std (std_nextP _) (fun _ => ?_)
        refine spec_bind_val (parseIdentifier_texts β input hin n) (fun a ha => ?_)
        exact spec_pure (fun _ _ b hb => by
          simp only [Option.some.injEq] at hb; rw [← hb]; exact ha)
      refine spec_bind_std (std_getP _) (fun p => ?_)
      refine spec_ite ?_ (spec_ite ?_ (spec_ite (spec_ite ?_ ?_) (spec_ite ?_
        (spec_ite ?_ (spec_ite ?_ (spec_failWith _ _ _ _))))))
      · exact spec_bind_val (parseStringLiteral_texts β input hin n)
          (fun v hv => spec_pure (fun _ _ => by rw [InlineExpression.Texts]; exact hv))
      · exact spec_bind_val (parseNumberLiteral_texts β input hin n)
          (fun v hv => spec_pure (fun _ _ => by rw [InlineExpression.Texts]; exact hv))
      · refine spec_bind_std (std_nextP _) (fun _ => ?_)
        refine spec_bind_val (parseIdentifier_texts β input hin n) (fun id hid => ?_)
        refine spec_bind_std (std_getP _) (fun q => ?_)
        refine spec_bind_val (hattr q) (fun attr hat => ?_)
        refine spec_bind_std (std_getP _) (fun r => ?_)
        refine spec_bind_val
          (G := fun a => ∀ args, a = some args → CallArguments.Texts (allBytes β) args)
          ?_ (fun arguments harg => ?_)
        · refine spec_ite ?_ (spec_pure (fun _ _ args hc => by simp at hc))
          refine spec_bind_val ihCA (fun args hargs => ?_)
          exact spec_pure (fun _ _ a ha => by
            simp only [Option.some.injEq] at ha; rw [← ha]; exact hargs)
        · refine spec_pure (fun _ _ => ?_)
          cases arguments with
          | none => rw [InlineExpression.Texts]; exact ⟨hid, hat⟩
          | some args => rw [InlineExpression.Texts]; exact ⟨hid, hat, harg args rfl⟩
      · exact spec_bind_val (parseNumberLiteral_texts β input hin n)
          (fun v hv => spec_pure (fun _ _ => by rw [InlineExpression.Texts]; exact hv))
      · refine spec_bind_std (std_nextP _) (fun _ => ?_)
        exact spec_bind_val (parseIdentifier_texts β input hin n)
          (fun v hv => spec_pure (fun _ _ => by rw [InlineExpression.Texts]; exact hv))
      · refine spec_bind_val (parseIdentifier_texts β input hin n) (fun id hid => ?_)
        refine spec_bind_std (std_getP _) (fun q => ?_)
        refine spec_ite ?_ ?_
        · refine spec_ite ?_ (spec_failWith _ _ _ _)
          refine spec_bind_val ihCA (fun args hargs => ?_)
          exact spec_pure (fun _ _ => by rw [InlineExpression.Texts]; exact ⟨hid, hargs⟩)
        · refine spec_bind_val (hattr q) (fun attr hat => ?_)
          exact spec_pure (fun _ _ => by rw [InlineExpression.Texts]; exact ⟨hid, hat⟩)
      · refine spec_bind_val ihPl (fun pl hpl => ?_)
        exact spec_pure (fun _ _ => by rw [InlineExpression.Texts]; exact hpl)
    · -- parseCallArgumentsLoop
      rw [parseCallArgumentsLoop]
      refine spec_bind_std (std_getP _) (fun p => ?_)
      refine spec_ite (spec_pure (fun _ _ => ⟨hpos, hnamed⟩))
        (spec_ite (spec_pure (fun _ _ => ⟨hpos, hnamed⟩)) ?_)
      refine spec_bind_val ihIE (fun exp hexp => ?_)
      refine spec_bind_std (std_skipBlank _ _) (fun _ => ?_)
      refine spec_bind_std (std_getP _) (fun q => ?_)
      refine spec_bind_val
        (G := fun vars : List InlineExpression × List NamedArgument × List GoString =>
          textsInlines (allBytes β) vars.1 ∧ textsNamed (allBytes β) vars.2.1) ?_
        (fun vars hvars => ?_)
      · refine spec_ite ?_ (spec_ite (spec_failWith _ _ _ _) (spec_pure (fun _ _ => ?_)))
        · rcases exp with v | v | ⟨id, args⟩ | ⟨id, attr⟩ | ⟨id, attr, args⟩ | id | pl
          case messageReference =>
            cases attr with
            | none =>
              refine spec_bind_std (std_nextP _) (fun _ => ?_)
              refine spec_bind_std (std_skipBlank _ _) (fun _ => ?_)
              refine spec_bind_val (parseLiteral_texts β input hin n) (fun value hv => ?_)
              refine spec_ite (spec_failWith _ _ _ _) (spec_pure (fun _ _ => ?_))
              refine ⟨hpos, ?_⟩
              rw [textsNamed_append]
              rw [InlineExpression.Texts] at hexp
              exact ⟨hnamed, by simpa [textsNamed, NamedArgument.Texts] using ⟨hexp.1, hv⟩⟩
            | some a => exact spec_failWith _ _ _ _
          all_goals exact spec_failWith _ _ _ _
        · refine ⟨?_, hnamed⟩
          rw [textsInlines_append]
          exact ⟨hpos, by simpa [textsInlines] using hexp⟩
      · refine spec_bind_std (std_skipBlank _ _) (fun _ => ?_)
        refine spec_bind_std (std_getP _) (fun r => ?_)
        refine spec_ite ?_ (spec_pure (fun _ _ => hvars))
        refine spec_bind_std (std_nextP _) (fun _ => ?_)
        refine spec_bind_std (std_skipBlank _ _) (fun _ => ?_)
        exact ihCAL _ _ _ hvars.1 hvars.2
    · -- parseCallArguments
      rw [parseCallArguments]
      refine spec_bind_std (std_nextP _) (fun _ => ?_)
      refine spec_bind_std (std_skipBlank _ _) (fun _ => ?_)
      refine spec_bind_val (ihCAL [] [] [] (by simp [textsInlines]) (by simp [textsNamed]))
        (fun args hargs => ?_)
      refine spec_bind_std (std_getP _) (fun _ => ?_)
      refine spec_ite (spec_failWith _ _ _ _) ?_
      refine spec_bind_std (std_nextP _) (fun _ => ?_)
      exact spec_pure (fun _ _ => by rw [CallArguments.Texts]; exact hargs)
    · -- parseVariantsLoop
      rw [parseVariantsLoop]
      refine spec_bind_std (std_getP _) (fun p => ?_)
      refine spec_ite ?_ (spec_pure (fun _ _ => hvs))
      refine spec_bind_std (spec_ite (std_bind (std_nextP _) (fun _ => std_pure _ _))
        (std_pure _ _)) (fun dv => ?_)
      refine spec_bind_val (spec_wrapErr _ (parseVariantKey_texts β input hin n))
        (fun key hkey => ?_)
      refine spec_bind_val (spec_wrapErr _ ihP) (fun value hvalue => ?_)
      refine spec_bind_std (std_skipBlank _ _) (fun _ => ?_)
      refine ihVL _ _ ?_
      rw [textsVariants_append]
      exact ⟨hvs, by simpa [textsVariants, Variant.Texts] using ⟨hkey, hvalue⟩⟩
    · -- parseVariants
      rw [parseVariants]
      refine spec_bind_val (ihVL [] false (by simp [textsVariants])) (fun r hr => ?_)
      exact spec_ite (spec_failWith _ _ _ _) (spec_pure (fun _ _ => hr))

theorem parsePattern_texts (β : Nat → Prop) (input : GoString) (hin : allBytes β input)
    (h10 : β 10) (n : Nat) :
    Spec input (fun _ => True)
      (fun v q => AfterPattern input v q ∧ Pattern.Texts (allBytes β) v)
      (parsePattern n input) :=
  spec_and (parsePattern_spec input n) (pattern_texts β input hin h10 n).2.1

theorem parseAttribute_texts (β : Nat → Prop) (input : GoString) (hin : allBytes β input)
    (h10 : β 10) (n : Nat) :
    Spec input (fun _ => True)
      (fun a q => AfterPattern input a q ∧ Attribute.Texts (allBytes β) a)
      (parseAttribute n input) := by
  unfold parseAttribute
  refine spec_bind_std (std_nextP input) (fun _ => ?_)
  refine spec_bind_val (parseIdentifier_texts β input hin n) (fun id hid => ?_)
  refine spec_bind_std (std_skipBlankInline input n) (fun _ => ?_)
  refine spec_bind_std (std_getP input) (fun _ => ?_)
  refine spec_ite (spec_failWith _ _ _ _) ?_
  refine spec_bind_std (std_nextP input) (fun _ => ?_)
  refine spec_bind_std (std_skipBlankInline input n) (fun _ => ?_)
  exact spec_bind (parsePattern_texts β input hin h10 n)
    (fun _ => spec_pure (fun _ h => ⟨h.1, hid, h.2⟩))

theorem parseAttributesLoop_texts (β : Nat → Prop) (input : GoString)
    (hin : allBytes β input) (h10 : β 10) :
    ∀ n attributes, (∀ a ∈ attributes, Attribute.Texts (allBytes β) a) →
    Spec input (fun p => p.ch ≠ 32) (fun r _ => ∀ a ∈ r, Attribute.Texts (allBytes β) a)
      (parseAttributesLoop n input attributes) := by
  intro n
  induction n with
  | zero => intro _ _; exact spec_fuel _ _ _
  | succ n ih =>
    intro attributes hattrs p hOK hpre
    rw [parseAttributesLoop, getP_bind]
    by_cases h : p.ch = eof
    · rw [if_pos h, pure_apply]
      exact ⟨hOK, le_refl _, hattrs⟩
    · rw [if_neg h, bind_apply]
      have hr := skipBlankInline_run input n p hOK
      cases hx : skipBlankInline n input p with
      | ok m q =>
        rw [hx] at hr
        obtain ⟨_, _, _, _, g5⟩ := hr
        have hq : q = p := g5 hpre
        subst hq
        simp only []
        rw [getP_bind]
        by_cases h46 : q.ch ≠ 46
        · rw [if_pos h46, setP_bind, pure_apply]
          exact ⟨hOK, le_refl _, hattrs⟩
        · rw [if_neg h46]
          refine (spec_bind (parseAttribute_texts β input hin h10 n)
            (fun attr p1 hOK1 hpre1 => ?_)) q hOK trivial
          refine ih (attributes ++ [attr]) ?_ p1 hOK1 hpre1.1.1
          intro a ha
          rcases List.mem_append.1 ha with ha | ha
          · exact hattrs a ha
          · rw [List.mem_singleton.1 ha]; exact hpre1.2
      | err e q => rw [hx] at hr; exact absurd hr id
      | panic m => trivial
      | fuel => trivial

/-- What follows the value in `parseMessage` and `parseTerm`, with the strings of the value and
of the attributes. -/
theorem spec_pattern_attributes_texts {γ : Type} (β : Nat → Prop) (input : GoString)
    (hin : allBytes β input) (h10 : β 10) (n : Nat) (Post : γ → parser → Prop)
    (f : Pattern → List Attribute → P γ)
    (hf : ∀ a b, Pattern.Texts (allBytes β) a → (∀ x ∈ b, Attribute.Texts (allBytes β) x) →
      Spec input (fun _ => True) Post (f a b)) :
    Spec input (fun _ => True) Post (do
      let pattern ← parsePattern n input
      let _ ← skipBlankBlock n input
      let attributes ← parseAttributes n input
      f pattern attributes) := by
  refine spec_bind (parsePattern_texts β input hin h10 n) (fun pattern => ?_)
  refine spec_bind_at (fun _ q => q.ch ≠ 32 ∧ Pattern.Texts (allBytes β) pattern) ?_
    (fun _ => ?_)
  · intro p hOK hpre
    exact ResFits_mono (le_refl _) (fun _ _ h => ⟨h, hpre.2⟩)
      (skipBlankBlock_spec input n p hOK hpre.1)
  · refine spec_bind_at (fun attrs _ => (∀ x ∈ attrs, Attribute.Texts (allBytes β) x) ∧
      Pattern.Texts (allBytes β) pattern) ?_ (fun attrs p hOK hpre => hf pattern attrs hpre.2
        hpre.1 p hOK trivial)
    intro p hOK hpre
    exact ResFits_mono (le_refl _) (fun _ _ h => ⟨h, hpre.2⟩)
      (parseAttributesLoop_texts β input hin h10 n [] (by simp) p hOK hpre.1)

theorem parseCommentLoop_texts (β : Nat → Prop) (input : GoString) (hin : allBytes β input) :
    ∀ n lines lastLevel, (∀ s ∈ lines, allBytes β s) →
    Spec input (fun _ => True) (fun r _ => ∀ s ∈ r.1, allBytes β s)
      (parseCommentLoop n input lines lastLevel) := by
  intro n
  induction n with
  | zero => intro _ _ _; exact spec_fuel _ _ _
  | succ n ih =>
    intro lines lastLevel hlines p hOK _
    rw [parseCommentLoop, getP_bind]
    by_cases h : p.ch = eof
    · rw [if_pos h, pure_apply]
      exact ⟨hOK, le_refl _, hlines⟩
    · rw [if_neg h, bind_apply]
      have hr := parseCommentLevel_run input n p hOK
      cases hx : parseCommentLevel n input p with
      | ok level q =>
        rw [hx] at hr
        obtain ⟨g1, g2, g3, _⟩ := hr
        simp only []
        by_cases h0 : level = 0
        · rw [if_pos h0, pure_apply]
          exact ⟨g1, g2, hlines⟩
        · rw [if_neg h0]
          by_cases hl : lastLevel ≠ 0 ∧ level ≠ lastLevel
          · rw [if_pos hl, getP_bind, setP_bind, pure_apply]
            exact ⟨g3, le_refl _, hlines⟩
          · rw [if_neg hl]
            refine ResFits_mono g2 (fun _ _ hc => hc)
              ((?_ : Spec input (fun _ => True)
                (fun (r : List GoString × Nat) _ => ∀ s ∈ r.1, allBytes β s) _) q g1
                trivial)
            refine spec_bind_std (std_getP input) (fun _ => ?_)
            refine spec_bind_val (G := fun line : GoString => allBytes β line) ?_
              (fun line hline => ?_)
            · refine spec_ite (spec_ite (spec_failWith _ _ _ _) ?_)
                (spec_pure (fun _ _ x hx => by simp at hx))
              exact spec_bind_std (std_nextP input)
                (fun _ => parseCommentLine_texts β input hin n)
            · refine spec_bind_std (std_skipEOL input) (fun _ => ih _ _ ?_)
              intro s hs
              rcases List.mem_append.1 hs with hs | hs
              · exact hlines s hs
              · rw [List.mem_singleton.1 hs]; exact hline
      | err e q => rw [hx] at hr; exact absurd hr id
      | panic m => trivial
      | fuel => trivial

theorem parseEntry_texts (β : Nat → Prop) (input : GoString) (hin : allBytes β input)
    (h10 : β 10) (n : Nat) :
    Spec input (fun _ => True) (fun e _ => Entry.Texts (allBytes β) e) (parseEntry n input) := by
  have hsep : allBytes β [10] := by
    intro x hx
    rw [List.mem_singleton.1 hx]
    exact h10
  unfold parseEntry
  refine spec_bind_std (std_getP input) (fun _ => ?_)
  refine spec_ite ?_ (spec_ite ?_ ?_)
  · unfold parseComment
    refine spec_bind_val (parseCommentLoop_texts β input hin n [] 0 (by simp)) (fun r hr => ?_)
    have hc := Join_bytes β [10] hsep r.1 hr
    exact spec_ite (spec_pure (fun _ _ => hc)) (spec_ite (spec_pure (fun _ _ => hc))
      (spec_ite (spec_pure (fun _ _ => hc)) (spec_panic _ _ _ _)))
  · refine spec_bind_val (G := fun t : Term => Entry.Texts (allBytes β) (Entry.term t)) ?_
      (fun t ht => spec_pure (fun _ _ => ht))
    unfold parseTerm
    refine spec_bind_std (std_getP input) (fun _ => ?_)
    refine spec_ite (spec_failWith _ _ _ _) ?_
    refine spec_bind_std (std_nextP input) (fun _ => ?_)
    refine spec_bind_val (spec_replaceErr _ (parseIdentifier_texts β input hin n))
      (fun id hid => ?_)
    refine spec_bind_std (std_skipBlankInline input n) (fun _ => ?_)
    refine spec_bind_std (std_getP input) (fun _ => ?_)
    refine spec_ite (spec_failWith _ _ _ _) ?_
    refine spec_bind_std (std_nextP input) (fun _ => ?_)
    refine spec_bind_std (std_skipBlankInline input n) (fun _ => ?_)
    refine spec_pattern_attributes_texts β input hin h10 n _ _ (fun a b ha hb => ?_)
    exact spec_pure (fun _ _ => ⟨hid, ha, hb, fun c hc => by simp at hc⟩)
  · refine spec_bind_val (G := fun m : Message => Entry.Texts (allBytes β) (Entry.message m)) ?_
      (fun m hm => spec_pure (fun _ _ => hm))
    unfold parseMessage
    refine spec_bind_val (parseIdentifier_texts β input hin n) (fun id hid => ?_)
    refine spec_bind_std (std_skipBlankInline input n) (fun _ => ?_)
    refine spec_bind_std (std_getP input) (fun _ => ?_)
    refine spec_ite (spec_failWith _ _ _ _) ?_
    refine spec_bind_std (std_nextP input) (fun _ => ?_)
    refine spec_pattern_attributes_texts β input hin h10 n _ _ (fun a b ha hb => ?_)
    refine spec_ite (spec_failWith _ _ _ _)
      (spec_pure (fun _ _ => ⟨hid, ?_, hb, fun c hc => by simp at hc⟩))
    intro v hv
    split_ifs at hv
    · injection hv with hv; rw [← hv]; exact ha

theorem commitEntry_texts (φ : GoString → Prop) (entries : List Entry) (lc : Option Comment)
    (entry : Entry) (h : ∀ e ∈ entries, Entry.Texts φ e)
    (hlc : ∀ c, lc = some c → φ c.Content) (he : Entry.Texts φ entry) :
    ∀ e ∈ commitEntry entries lc entry, Entry.Texts φ e := by
  intro e hmem
  cases lc with
  | none =>
    simp only [commitEntry, List.mem_append, List.mem_singleton] at hmem
    rcases hmem with hm | hm
    · exact h e hm
    · rw [hm]; exact he
  | some c =>
    have hc := hlc c rfl
    cases entry <;> simp only [commitEntry, List.mem_append, List.mem_singleton] at hmem
    case message m =>
      rcases hmem with hm | hm
      · exact h e hm
      · rw [hm]
        exact ⟨he.1, he.2.1, he.2.2.1, fun c1 h1 => by
          simp only [Option.some.injEq] at h1; rw [← h1]; exact hc⟩
    case term t =>
      rcases hmem with hm | hm
      · exact h e hm
      · rw [hm]
        exact ⟨he.1, he.2.1, he.2.2.1, fun c1 h1 => by
          simp only [Option.some.injEq] at h1; rw [← h1]; exact hc⟩
    all_goals
      rcases hmem with (hm | hm) | hm
      · exact h e hm
      · rw [hm]; exact hc
      · rw [hm]; exact he

/-- Every string of the tree that `Parse` returns is made of bytes of the input and line feeds:
for a property `β` of bytes that holds of every byte of the input and of the line feed, every
identifier name, literal value, variant key, text element and comment of the tree has only bytes
with `β`. -/
theorem Parse_texts (β : Nat → Prop) (input : GoString) (hin : allBytes β input) (h10 : β 10)
    (n : Nat) (r : Resource) (err : Option ParseErrors) (q : parser)
    (h : Parse n input = Res.ok (r, err) q) : Resource.Texts (allBytes β) r := by
  unfold Parse parser.parse at h
  obtain ⟨k, p1, h1, h2⟩ := bind_ok h
  have hOK := std_skipBlankBlock input n (newParser input) (newParser_OK input) trivial
  rw [h1] at hOK
  have hinv := parseLoop_inv input
    (fun _ entries lc p => p.OK input ∧ (∀ e ∈ entries, Entry.Texts (allBytes β) e) ∧
      ∀ c, lc = some c → allBytes β c.Content)
    ?_ ?_ ?_ n [] [] none p1 (r, err) q ⟨hOK.1, by simp, by simp⟩ h2
  · obtain ⟨errors1, entries1, lc1, ⟨_, hJ, hJc⟩, _, hr⟩ := hinv
    rw [Prod.mk.injEq] at hr
    intro e hmem
    rw [hr.1] at hmem
    cases lc1 with
    | none => exact hJ e hmem
    | some c =>
      simp only [List.mem_append, List.mem_singleton] at hmem
      rcases hmem with hm | hm
      · exact hJ e hm
      · rw [hm]; exact hJc c rfl
  · intro n p c p1 p2 errors entries lc hJ hp hpe hsb
    have g1 := parseEntry_texts β input hin h10 n p hJ.1 trivial
    rw [hpe] at g1
    have g2 := std_skipBlankBlock input n p1 g1.1 trivial
    rw [hsb] at g2
    exact ⟨g2.1, hJ.2.1, fun c1 h1 => by
      simp only [Option.some.injEq] at h1; rw [← h1]; exact g1.2.2⟩
  · intro n p entry p1 k p2 errors entries lc hJ hp hpe hsb _
    have g1 := parseEntry_texts β input hin h10 n p hJ.1 trivial
    rw [hpe] at g1
    have g2 := std_skipBlankBlock input n p1 g1.1 trivial
    rw [hsb] at g2
    exact ⟨g2.1, commitEntry_texts _ entries lc entry hJ.2.1 hJ.2.2 g1.2.2,
      fun c hc => by simp at hc⟩
  · intro n p e p1 q k p2 errors entries lc hJ hp hpe hsk hsb
    have g1 := std_parseEntry input n p hJ.1 trivial
    rw [hpe] at g1
    obtain ⟨b1, _⟩ := skipToNextEntryStart_to input n p1 q g1.1 hsk
    have g2 := std_skipBlankBlock input n q b1 trivial
    rw [hsb] at g2
    exact ⟨g2.1, commitEntry_texts _ entries lc _ hJ.2.1 hJ.2.2 (slice_bytes β input hin _ _),
      fun c hc => by simp at hc⟩

/-- C20: line-ending equivalence.  For every input without carriage return on which `Parse`
returns a resource and no error, `Parse` with the same fuel on the input with every line feed
replaced by carriage return and line feed returns the same resource and no error; and no
identifier name, literal value, variant key, text element or comment of that resource holds a
carriage return. -/
theorem C20_line_endings (input : GoString) (hcr : ∀ b ∈ input, b ≠ 13) (n : Nat)
    (r : Resource) (q : parser) (h : Parse n input = Res.ok (r, none) q) :
    (∃ q1, Parse n (crlf input) = Res.ok (r, none) q1) ∧
      Resource.Texts (allBytes (fun b => b ≠ 13)) r :=
  ⟨parse_cr input hcr n (newParser input) (newParser (crlf input)) (newParser_OK input)
    (newParser_cr input) r q h,
    Parse_texts (fun b => b ≠ 13) input hcr (by decide) n r none q h⟩

/-- C20 (witness): a comment and a message whose value takes two indented lines. -/
theorem C20_line_endings_witness :
    (∀ b ∈ blockInput, b ≠ 13) ∧
      Parse 40 blockInput = Res.ok (blockResource, none) blockCursor ∧
      (∃ q1, Parse 40 (crlf blockInput) = Res.ok (blockResource, none) q1) ∧
      Resource.Texts (allBytes (fun b => b ≠ 13)) blockResource :=
  ⟨by decide, rfl, C20_line_endings blockInput (by decide) 40 blockResource blockCursor rfl⟩

/-! ## Text after a placeable, unclosed literals, empty text, stale widths -/

/-- C24 (code): on `foo =` followed by the line `    {x}y`, `parsePattern`, started after the
equals sign, returns the pattern of an empty text and the placeable and stops on the `y`, in the
middle of the line; `Parse` returns the message without the `y`, which becomes `Junk` with a
diagnostic. -/
theorem C24_Parse_text_after_placeable :
    parsePattern 40 placeableTextInput { pos := 5, ch := 10, w := 1, line := 1, col := 6 } =
      Res.ok (Pattern.mk (some [PatternElement.textElement [], placeableX]))
        { pos := 13, ch := 121, w := 1, line := 2, col := 12 } ∧
    Parse 60 placeableTextInput =
      Res.ok (placeableTextResource,
        some { input := placeableTextInput, errors := [placeableTextError] })
        { pos := 15, ch := 0, w := 0, line := 3, col := 1 } := by
  constructor <;> rfl

/-- C25 (code): `parseStringLiteral` returns the value `abc` on `"abc` where the input ends
without a closing quote, and `Parse` accepts the string literal `"\uzzzz"`, whose escape has no
hexadecimal digit. -/
theorem C25_parseStringLiteral_unclosed :
    parseStringLiteral 20 openStringInput (newParser openStringInput) =
      Res.ok (ascii "abc") { pos := 4, ch := 0, w := 0, line := 1, col := 7 } ∧
    Parse 60 badEscapeInput =
      Res.ok (badEscapeResource, none)
        { pos := 17, ch := 65533, w := 0, line := 2, col := 1 } := by
  constructor <;> rfl

/-- C26 (code): the pattern of `foo =` followed by the line `    {x}` starts with a text element
whose value is empty. -/
theorem C26_Parse_empty_text_element :
    Parse 60 indentedPlaceableInput =
      Res.ok (indentedPlaceableResource, none)
        { pos := 14, ch := 65533, w := 0, line := 3, col := 1 } := by
  rfl

/-- C27 (code): on a space followed by U+00E9, `skipBlankBlock` puts the position and the rune
of the space back and keeps the width 2 of the rune it looked at, while `utf8.DecodeRune` gives
the width 1 at the position; the next measurement of the indent then counts 2 bytes, so that
the value of `accentInput` keeps its space.  On the input of one NUL byte the cursor holds the
end marker before the end of the input. -/
theorem C27_skipBlankBlock_stale_width :
    skipBlankBlock 10 spaceAccentInput (newParser spaceAccentInput) =
      Res.ok 0 { pos := 0, ch := 32, w := 2, line := 1, col := 1 } ∧
    DecodeRune (spaceAccentInput.drop 0) = (32, 1) ∧
    Parse 60 accentInput =
      Res.ok (accentResource, none) { pos := 10, ch := 65533, w := 0, line := 3, col := 1 } ∧
    (newParser [0]).ch = eof ∧ (newParser [0]).pos < [0].length := by
  refine ⟨by rfl, by rfl, by rfl, by rfl, by decide⟩

/-! ## The last rune of a trimmed string, joined text elements -/

theorem getD_take (s : GoString) (j i : Nat) (h : i < j) :
    (s.take j).getD i 0 = s.getD i 0 := by
  rw [List.getD_eq_getElem?_getD, List.getD_eq_getElem?_getD, List.getElem?_take_of_lt h]

theorem DecodeRune_single (b : Nat) (hb : 128 ≤ b) : DecodeRune [b] = (RuneError, 1) := by
  have h0 : ¬ b < 128 := by omega
  simp only [DecodeRune, h0, if_false]
  split_ifs <;> rfl

theorem DecodeRune_cont_first (b : Nat) (t : GoString) (hb : 128 ≤ b) (hc : b < 194) :
    DecodeRune (b :: t) = (RuneError, 1) := by
  have h0 : ¬ b < 128 := by omega
  simp only [DecodeRune, h0, hc, if_true, if_false]

/-- A byte outside ASCII that is followed by a byte that is no continuation byte is a rune of
width 1. -/
theorem DecodeRune_nocont (b c : Nat) (t : GoString) (hb : 128 ≤ b) (hc : isStartByte c) :
    DecodeRune (b :: c :: t) = (RuneError, 1) := by
  rcases hc with hc | hc
  · exact DecodeRune_low1 b c t hb hc
  · have h0 : ¬ b < 128 := by omega
    have hhi : ∀ lo hi : Nat, hi ≤ 191 → ¬ (lo ≤ c ∧ c ≤ hi) := fun lo hi h => by omega
    have h237 : (if b = 237 then 159 else 191) ≤ 191 := by split <;> omega
    have h244 : (if b = 244 then 143 else 191) ≤ 191 := by split <;> omega
    by_cases h1 : b < 194
    · simp only [DecodeRune, h0, h1, if_true, if_false]
    by_cases h2 : b < 224
    · simp only [DecodeRune, h0, h1, h2, if_true, if_false, hhi 128 191 (le_refl _)]
    by_cases h3 : b < 240
    · simp only [DecodeRune, h0, h1, h2, h3, if_true, if_false]
      rcases t with _ | ⟨c2, t⟩
      · rfl
      · simp only [hhi _ _ h237, if_false]
    by_cases h4 : b < 245
    · simp only [DecodeRune, h0, h1, h2, h3, h4, if_true, if_false]
      rcases t with _ | ⟨c2, _ | ⟨c3, t⟩⟩
      · rfl
      · rfl
      · simp only [hhi _ _ h244, if_false]
    · simp only [DecodeRune, h0, h1, h2, h3, h4, if_true, if_false]

/-- A rune of at least two bytes that takes the whole of `a` is the first rune of every
sequence that starts with `a`. -/
theorem DecodeRune_append (a b : GoString) (hw : (DecodeRune a).2 = a.length)
    (h2 : 2 ≤ a.length) : DecodeRune (a ++ b) = DecodeRune a := by
  rcases a with _ | ⟨b0, _ | ⟨b1, _ | ⟨b2, _ | ⟨b3, rest⟩⟩⟩⟩
  · simp at h2
  · simp at h2
  · -- two bytes
    by_cases h0 : b0 < 128
    · rw [DecodeRune_ascii _ _ h0] at hw; simp at hw
    by_cases h1 : b0 < 194
    · rw [DecodeRune_cont_first _ _ (by omega) h1] at hw; simp at hw
    by_cases h3 : b0 < 224
    · simp only [List.cons_append, List.nil_append, DecodeRune, h0, h1, h3, if_true, if_false]
    by_cases h4 : b0 < 240
    · simp only [DecodeRune, h0, h1, h3, h4, if_true, if_false] at hw; simp at hw
    by_cases h5 : b0 < 245
    · simp only [DecodeRune, h0, h1, h3, h4, h5, if_true, if_false] at hw; simp at hw
    · simp only [DecodeRune, h0, h1, h3, h4, h5, if_true, if_false] at hw; simp at hw
  · -- three bytes
    by_cases h0 : b0 < 128
    · rw [DecodeRune_ascii _ _ h0] at hw; simp at hw
    by_cases h1 : b0 < 194
    · rw [DecodeRune_cont_first _ _ (by omega) h1] at hw; simp at hw
    by_cases h3 : b0 < 224
    · simp only [DecodeRune, h0, h1, h3, if_true, if_false] at hw
      split_ifs at hw <;> simp at hw
    by_cases h4 : b0 < 240
    · simp only [List.cons_append, List.nil_append, DecodeRune, h0, h1, h3, h4, if_true,
        if_false]
    by_cases h5 : b0 < 245
    · simp only [DecodeRune, h0, h1, h3, h4, h5, if_true, if_false] at hw; simp at hw
    · simp only [DecodeRune, h0, h1, h3, h4, h5, if_true, if_false] at hw; simp at hw
  · -- four bytes or more
    have hle := (DecodeRune_span (b0 :: b1 :: b2 :: b3 :: rest)).1
    by_cases h0 : b0 < 128
    · rw [DecodeRune_ascii _ _ h0] at hw; simp at hw
    have h4 := (DecodeRune_high b0 (b1 :: b2 :: b3 :: rest) (by omega)).2.2.1
    have hr : rest = [] := by
      cases rest with
      | nil => rfl
      | cons x xs => simp at hw; omega
    subst hr
    simp only [List.cons_append, List.nil_append]
    exact DecodeRune_four b0 b1 b2 b3 _ _

theorem scan_le (p : GoString) (lim : Int) : ∀ (k : Nat) (start : Int),
    DecodeLastRune.scan p lim k start ≤ start := by
  intro k
  induction k with
  | zero => intro start; simp [DecodeLastRune.scan]
  | succ k ih =>
    intro start
    rw [DecodeLastRune.scan]
    split_ifs
    · exact le_refl _
    · have := ih (start - 1)
      omega
    · exact le_refl _

/-- The three ways `utf8.DecodeLastRune` answers on a sequence that is not empty: an ASCII byte,
an invalid byte, or the rune that `utf8.DecodeRune` gives at a position from which it reaches
the end. -/
theorem DecodeLastRune_cases (t : GoString) (ht : t ≠ []) :
    (t.getD (t.length - 1) 0 < 128 ∧ DecodeLastRune t = (t.getD (t.length - 1) 0, 1)) ∨
    (128 ≤ t.getD (t.length - 1) 0 ∧ (DecodeLastRune t = (RuneError, 1) ∨
      ∃ start, start < t.length ∧ start + (DecodeRune (t.drop start)).2 = t.length ∧
        DecodeLastRune t = DecodeRune (t.drop start))) := by
  have hlen : 0 < t.length := List.length_pos.2 ht
  have hne : ¬ t.length = 0 := by omega
  by_cases hr : t.getD (t.length - 1) 0 < 128
  · left
    refine ⟨hr, ?_⟩
    unfold DecodeLastRune
    simp only [hne, hr, if_true, if_false]
  · right
    refine ⟨by omega, ?_⟩
    have hsc := scan_le t (if (t.length : Int) - 4 < 0 then 0 else (t.length : Int) - 4) 5
      ((t.length : Int) - 2)
    generalize hs0 : DecodeLastRune.scan t
      (if (t.length : Int) - 4 < 0 then 0 else (t.length : Int) - 4) 5
      ((t.length : Int) - 2) = s0 at hsc
    have hd : DecodeLastRune t =
        if (if s0 < 0 then 0 else s0.toNat) +
            (DecodeRune (t.drop (if s0 < 0 then 0 else s0.toNat))).2 ≠ t.length
        then (RuneError, 1) else DecodeRune (t.drop (if s0 < 0 then 0 else s0.toNat)) := by
      unfold DecodeLastRune
      simp only [hne, hr, if_false, List.take_length, hs0]
    have hst : (if s0 < 0 then 0 else s0.toNat) < t.length := by
      split_ifs
      · exact hlen
      · omega
    by_cases hc : (if s0 < 0 then 0 else s0.toNat) +
        (DecodeRune (t.drop (if s0 < 0 then 0 else s0.toNat))).2 ≠ t.length
    · rw [if_pos hc] at hd
      exact Or.inl hd
    · rw [if_neg hc] at hd
      exact Or.inr ⟨_, hst, not_not.1 hc, hd⟩

/-- Where the backward scan of `strings.TrimRightFunc` stops: at the end `j1` of a rune that
does not satisfy `f`, and what follows `j1` starts with a whole rune. -/
theorem lastIndexNotFunc_spec (s : GoString) (f : Nat → Bool) (hf : f RuneError = false) :
    ∀ (k j : Nat), j ≤ s.length → (j = s.length ∨ isStartByte (s.getD j 0)) →
    lastIndexNotFunc s f k j = -1 ∨
    ∃ j1, 0 < j1 ∧ j1 ≤ j ∧ (j1 = s.length ∨ isStartByte (s.getD j1 0)) ∧
      f (DecodeLastRune (s.take j1)).1 = false ∧
      lastIndexNotFunc s f k j = ((j1 - (DecodeLastRune (s.take j1)).2 : Nat) : Int) := by
  intro k
  induction k with
  | zero => intro j _ _; left; rfl
  | succ k ih =>
    intro j hj hinv
    rw [lastIndexNotFunc]
    by_cases h0 : 0 < j
    · simp only [h0, if_true]
      by_cases hfd : f (DecodeLastRune (s.take j)).1 = false
      · simp only [hfd, if_true]
        exact Or.inr ⟨j, h0, le_refl _, hinv, hfd, rfl⟩
      · simp only [hfd, if_false]
        have htne : s.take j ≠ [] := by
          intro hc
          have := congrArg List.length hc
          simp only [List.length_take, List.length_nil] at this
          omega
        have htl : (s.take j).length = j := by rw [List.length_take]; omega
        have hstart : isStartByte (s.getD (j - (DecodeLastRune (s.take j)).2) 0) := by
          rcases DecodeLastRune_cases (s.take j) htne with ⟨a1, a2⟩ | ⟨b1, b2 | ⟨st, c0, c1, c2⟩⟩
          · rw [a2]
            rw [htl, getD_take s j (j - 1) (by omega)] at a1
            exact Or.inl a1
          · rw [b2] at hfd
            exact absurd hf hfd
          · rw [htl] at c0 c1
            have hsub : j - (DecodeLastRune (s.take j)).2 = st := by rw [c2]; omega
            rw [hsub]
            by_contra hns
            unfold isStartByte at hns
            have hb : 128 ≤ s.getD st 0 ∧ s.getD st 0 < 192 := by omega
            have hdrop : (s.take j).drop st = s.getD st 0 :: (s.take j).drop (st + 1) := by
              rw [drop_eq_getD_cons (s.take j) st (by omega), getD_take s j st c0]
            rw [c2, hdrop, DecodeRune_cont_first _ _ hb.1 (by omega)] at hfd
            exact absurd hf hfd
        rcases ih (j - (DecodeLastRune (s.take j)).2) (by omega) (Or.inr hstart) with h | h
        · exact Or.inl h
        · obtain ⟨j1, g1, g2, g3, g4, g5⟩ := h
          exact Or.inr ⟨j1, g1, by omega, g3, g4, g5⟩
    · rw [if_neg h0]
      exact Or.inl rfl

/-- What `strings.TrimRightFunc` returns does not end with a rune that satisfies `f`. -/
theorem TrimRightFunc_last (s : GoString) (f : Nat → Bool) (hf : f RuneError = false)
    (hne : TrimRightFunc s f ≠ []) : f (DecodeLastRune (TrimRightFunc s f)).1 = false := by
  rcases lastIndexNotFunc_spec s f hf s.length s.length (le_refl _) (Or.inl rfl) with h | h
  · exfalso
    apply hne
    unfold TrimRightFunc
    simp only [h]
    simp
  · obtain ⟨j1, g1, g2, g3, g4, g5⟩ := h
    have htne : s.take j1 ≠ [] := by
      intro hc
      have := congrArg List.length hc
      simp only [List.length_take, List.length_nil] at this
      omega
    have htl : (s.take j1).length = j1 := by rw [List.length_take]; omega
    have hw1 : 1 ≤ (DecodeLastRune (s.take j1)).2 ∧ (DecodeLastRune (s.take j1)).2 ≤ j1 := by
      rcases DecodeLastRune_cases (s.take j1) htne with ⟨a1, a2⟩ | ⟨b1, b2 | ⟨st, c0, c1, c2⟩⟩
      · rw [a2]; exact ⟨le_refl _, g1⟩
      · rw [b2]; exact ⟨le_refl _, g1⟩
      · rw [htl] at c0 c1
        rw [c2]
        omega
    suffices hres : TrimRightFunc s f = s.take j1 by rw [hres]; exact g4
    unfold TrimRightFunc
    simp only [g5, Int.toNat_ofNat]
    -- the width that follows a single byte outside ASCII at the end of `s.take j1`
    have hone : ∀ b, 128 ≤ b → s.getD (j1 - 1) 0 = b →
        (DecodeRune (s.drop (j1 - 1))).2 = 1 := by
      intro b hb hsb
      rw [drop_eq_getD_cons s (j1 - 1) (by omega), hsb, show j1 - 1 + 1 = j1 by omega]
      by_cases hlt : j1 < s.length
      · have g6 : isStartByte (s.getD j1 0) := by
          rcases g3 with g3 | g3
          · omega
          · exact g3
        rw [drop_eq_getD_cons s j1 hlt, DecodeRune_nocont b _ _ hb g6]
      · rw [List.drop_eq_nil_of_le (by omega), DecodeRune_single b hb]
    split
    · rename_i hc
      -- the byte at the start of the last rune is outside ASCII
      have h128 := hc.2
      rcases DecodeLastRune_cases (s.take j1) htne with ⟨a1, a2⟩ | ⟨b1, b2 | ⟨st, c0, c1, c2⟩⟩
      · rw [a2] at h128
        rw [htl, getD_take s j1 (j1 - 1) (by omega)] at a1
        simp only at h128
        omega
      · rw [b2] at h128 ⊢
        simp only at h128 ⊢
        rw [hone _ h128 rfl]
        congr 1
        omega
      · rw [htl] at c0 c1
        have hsub : j1 - (DecodeLastRune (s.take j1)).2 = st := by rw [c2]; omega
        rw [hsub] at h128 ⊢
        congr 1
        by_cases hw2 : 2 ≤ (DecodeRune ((s.take j1).drop st)).2
        · have happ : s.drop st = (s.take j1).drop st ++ s.drop j1 := by
            conv_lhs => rw [← List.take_append_drop j1 s]
            rw [List.drop_append_of_le_length (by rw [htl]; omega)]
          have hlen2 : ((s.take j1).drop st).length = (DecodeRune ((s.take j1).drop st)).2 := by
            rw [List.length_drop, htl]
            omega
          rw [happ, DecodeRune_append _ _ hlen2.symm (by rw [hlen2]; exact hw2)]
          exact c1
        · have hw : (DecodeRune ((s.take j1).drop st)).2 = 1 := by
            rw [← c2]
            omega
          have hst : st = j1 - 1 := by omega
          rw [hst, hone _ (by rw [← hst]; exact h128) rfl]
          omega
    · rename_i hc
      have hlt : s.getD (j1 - (DecodeLastRune (s.take j1)).2) 0 < 128 := by
        by_contra hcon
        exact hc ⟨Int.ofNat_nonneg _, by omega⟩
      have hw : (DecodeLastRune (s.take j1)).2 = 1 := by
        rcases DecodeLastRune_cases (s.take j1) htne with ⟨a1, a2⟩ | ⟨b1, b2 | ⟨st, c0, c1, c2⟩⟩
        · rw [a2]
        · rw [b2]
        · rw [htl] at c0 c1
          have hsub : j1 - (DecodeLastRune (s.take j1)).2 = st := by rw [c2]; omega
          rw [hsub] at hlt
          rw [c2, drop_eq_getD_cons (s.take j1) st (by omega), getD_take s j1 st c0,
            DecodeRune_ascii _ _ hlt]
      rw [hw]
      congr 1
      have : ((j1 - 1 : Nat) : Int) + 1 = (j1 : Int) := by omega
      rw [this]
      rfl

theorem adjacentTexts_append_single (a : PatternElement) : ∀ l : List PatternElement,
    adjacentTexts l = false → (∀ x, l.getLast? = some x → (x.isText && a.isText) = false) →
    adjacentTexts (l ++ [a]) = false := by
  intro l
  induction l with
  | nil => intro _ _; rfl
  | cons x xs ih =>
    intro h1 h2
    cases xs with
    | nil =>
      have := h2 x rfl
      simp [adjacentTexts, this]
    | cons y ys =>
      rw [adjacentTexts, Bool.or_eq_false_iff] at h1
      have h3 := ih h1.2 (fun z hz => h2 z (by rw [List.getLast?_cons_cons]; exact hz))
      rw [List.cons_append, List.cons_append, adjacentTexts, Bool.or_eq_false_iff]
      exact ⟨h1.1, h3⟩

/-- What the loop of the dedent keeps: no two adjacent text elements in `processed`, and its
last element is no text element. -/
theorem dedent_foldl_adjacent (indent : GoString) : ∀ (es : List PatternElement)
    (acc : Option (List PatternElement) × List GoString),
    adjacentTexts (acc.1.getD []) = false →
    (∀ x, (acc.1.getD []).getLast? = some x → x.isText = false) →
    adjacentTexts ((es.foldl (dedentStep indent) acc).1.getD []) = false ∧
      ∀ x, ((es.foldl (dedentStep indent) acc).1.getD []).getLast? = some x →
        x.isText = false := by
  intro es
  induction es with
  | nil => intro acc h1 h2; exact ⟨h1, h2⟩
  | cons e es ih =>
    intro acc h1 h2
    rw [List.foldl_cons]
    cases e with
    | textElement v => exact ih _ h1 h2
    | placeable pl =>
      apply ih
      · simp only [dedentStep]
        split_ifs
        · simp only [sliceAppend, Option.getD_some]
          apply adjacentTexts_append_single
          · apply adjacentTexts_append_single _ _ h1
            intro x hx
            rw [h2 x hx]
            rfl
          · intro x _
            simp [PatternElement.isText]
        · simp only [sliceAppend, Option.getD_some]
          apply adjacentTexts_append_single _ _ h1
          intro x _
          simp [PatternElement.isText]
      · intro x hx
        have hx2 : ∀ l : List PatternElement,
            (l ++ [PatternElement.placeable pl]).getLast? = some x → x.isText = false := by
          intro l hl
          rw [List.getLast?_concat] at hl
          injection hl with hl
          rw [← hl]
          rfl
        simp only [dedentStep, sliceAppend, Option.getD_some] at hx
        exact hx2 _ hx

/-- The result of the dedent has no two adjacent text elements, and a text element at its end is
not empty and does not end with a rune that `unicode.IsSpace` accepts. -/
theorem dedent_adjacent (es : List PatternElement) (ci : Nat) :
    adjacentTexts ((dedent es ci).Elements.getD []) = false ∧
      ∀ t, ((dedent es ci).Elements.getD []).getLast? = some (PatternElement.textElement t) →
        t ≠ [] ∧ IsSpace (DecodeLastRune t).1 = false := by
  obtain ⟨h1, h2⟩ := dedent_foldl_adjacent (List.replicate ci 32) es (none, []) rfl
    (fun x hx => by simp at hx)
  have hlast : ∀ t, ((es.foldl (dedentStep (List.replicate ci 32)) (none, [])).1.getD
      []).getLast? ≠ some (PatternElement.textElement t) := by
    intro t hc
    have := h2 _ hc
    simp [PatternElement.isText] at this
  unfold dedent
  dsimp only
  split_ifs with hb hv
  · simp only [Pattern.Elements, sliceAppend, Option.getD_some]
    refine ⟨?_, ?_⟩
    · apply adjacentTexts_append_single _ _ h1
      intro x hx
      rw [h2 x hx]
      rfl
    · intro t ht
      rw [List.getLast?_concat] at ht
      injection ht with ht
      injection ht with ht
      rw [← ht]
      exact ⟨hv, TrimRightFunc_last _ _ (by rfl) hv⟩
  · exact ⟨h1, fun t ht => absurd ht (hlast t)⟩
  · exact ⟨h1, fun t ht => absurd ht (hlast t)⟩

/-- C23: in every pattern that `parsePattern` returns no two adjacent elements are both text
elements, and a text element at the end of the pattern has a value that is not empty and whose
last rune is no white space (`unicode.IsSpace`, as `strings.TrimRightFunc` is called). -/
theorem C23_pattern_texts_joined (n : Nat) (input : GoString) (p q : parser) (v : Pattern)
    (h : parsePattern n input p = Res.ok v q) :
    adjacentTexts (v.Elements.getD []) = false ∧
      ∀ t, (v.Elements.getD []).getLast? = some (PatternElement.textElement t) →
        t ≠ [] ∧ IsSpace (DecodeLastRune t).1 = false := by
  cases n with
  | zero => simp [parsePattern] at h
  | succ n =>
    rw [parsePattern] at h
    obtain ⟨_, p1, _, h⟩ := bind_ok h
    obtain ⟨eol, p2, _, h⟩ := bind_ok h
    obtain ⟨_, p3, _, h⟩ := bind_ok h
    obtain ⟨st, p4, _, h⟩ := bind_ok h
    by_cases hl : st.lastNonBlank < 0
    · rw [if_pos hl, pure_apply] at h
      injection h with h1 _
      rw [← h1]
      exact ⟨rfl, fun t ht => by simp [Pattern.Elements] at ht⟩
    · rw [if_neg hl, pure_apply] at h
      injection h with h1 _
      rw [← h1]
      exact dedent_adjacent _ _

theorem C23_pattern_texts_joined_witness :
    parsePattern 40 trailingInput (newParser trailingInput) =
        Res.ok trailingPattern { pos := 10, ch := 65533, w := 0, line := 2, col := 1 } ∧
      adjacentTexts (trailingPattern.Elements.getD []) = false ∧
      ∀ t, (trailingPattern.Elements.getD []).getLast? = some (PatternElement.textElement t) →
        t ≠ [] ∧ IsSpace (DecodeLastRune t).1 = false :=
  ⟨rfl, C23_pattern_texts_joined 40 trailingInput (newParser trailingInput)
    { pos := 10, ch := 65533, w := 0, line := 2, col := 1 } trailingPattern rfl⟩

/-! ## Comment blocks -/

theorem hashRun_split : ∀ s : GoString,
    s = List.replicate (hashRun s) 35 ++ s.drop (hashRun s) ∧
      (s.drop (hashRun s)).head? ≠ some 35 := by
  intro s
  induction s with
  | nil => simp [hashRun]
  | cons b rest ih =>
    by_cases hb : b = 35
    · subst hb
      simp only [hashRun, if_true, List.replicate_succ, List.drop_succ_cons, List.cons_append]
      exact ⟨congrArg (List.cons 35) ih.1, ih.2⟩
    · simp [hashRun, hb]

theorem hashRun_replicate (x : GoString) (hx : x.head? ≠ some 35) :
    ∀ m, hashRun (List.replicate m 35 ++ x) = m := by
  intro m
  induction m with
  | zero =>
    cases x with
    | nil => rfl
    | cons b t =>
      have hb : b ≠ 35 := by simpa using hx
      simp [hashRun, hb]
  | succ m ih =>
    rw [List.replicate_succ, List.cons_append, hashRun]
    simp [ih]

theorem parseCommentLevelLoop_scan (input rest : GoString) (hrest : rest.head? ≠ some 35) :
    ∀ (m level i : Nat) (p : parser) (n : Nat), input.drop i = List.replicate m 35 ++ rest →
      p.At input i → m < n →
      ∃ q, parseCommentLevelLoop n input level p = Res.ok (level + m) q ∧ q.At input (i + m) ∧
        (m = 0 → q = p) := by
  intro m
  induction m with
  | zero =>
    intro level i p n hdrop hAt hn
    obtain ⟨n1, rfl⟩ : ∃ n1, n = n1 + 1 := ⟨n - 1, by omega⟩
    have h35 : p.ch ≠ 35 :=
      At_ch_ne input i p 35 hAt (by decide) (by rw [hdrop]; simpa using hrest)
    refine ⟨p, ?_, hAt, fun _ => rfl⟩
    rw [parseCommentLevelLoop]
    by_cases h0 : p.ch = eof
    · simp [h0]
    · simp [h0, h35]
  | succ m ih =>
    intro level i p n hdrop hAt hn
    obtain ⟨n1, rfl⟩ : ∃ n1, n = n1 + 1 := ⟨n - 1, by omega⟩
    rw [List.replicate_succ, List.cons_append] at hdrop
    obtain ⟨a1, _, _, hA1, hd1⟩ := At_ascii input 35 _ i p hdrop hAt (by decide)
    obtain ⟨q, hq, hqAt, _⟩ := ih (level + 1) (i + 1) (next input p) n1 hd1 hA1 (by omega)
    refine ⟨q, ?_, by rw [show i + (m + 1) = i + 1 + m by omega]; exact hqAt, by omega⟩
    rw [parseCommentLevelLoop]
    simp only [a1, eof, ne_eq, not_true_eq_false, if_false, OfNat.ofNat_ne_zero,
      not_false_eq_true, if_true]
    rw [hq, show level + 1 + m = level + (m + 1) by omega]

/-- The end of the loop of `parseComment`: the input goes on with a run of `#` of another
length than the level `k` of the block.  The position and the rune are those of the start of that
line; the width is that of the rune after the run of `#`. -/
theorem parseCommentLoop_end (input rest : GoString) (k : Nat) (hk : k ≠ 0)
    (hrest : hashRun rest ≠ k) (lines : List GoString) (i : Nat) (p : parser) (n : Nat)
    (hdrop : input.drop i = rest) (hAt : p.At input i) (hn : hashRun rest + 2 ≤ n) :
    ∃ q, parseCommentLoop n input lines k p = Res.ok (lines, k) q ∧ q.pos = i ∧
      q.ch = (DecodeRune rest).1 ∧ q.w = (DecodeRune (rest.drop (hashRun rest))).2 := by
  obtain ⟨n1, rfl⟩ : ∃ n1, n = n1 + 1 := ⟨n - 1, by omega⟩
  obtain ⟨hs1, hs2⟩ := hashRun_split rest
  have hch : p.ch = (DecodeRune rest).1 := by rw [← hdrop, hAt.2.2]
  obtain ⟨q, hq, hqAt, hq0⟩ := parseCommentLevelLoop_scan input _ hs2 (hashRun rest) 0 i p n1
    (by rw [hdrop]; exact hs1) hAt (by omega)
  have hqw : q.w = (DecodeRune (rest.drop (hashRun rest))).2 := by
    have := hqAt.2.2
    rw [← List.drop_drop, hdrop] at this
    rw [this]
  rw [Nat.zero_add] at hq
  rw [parseCommentLoop, getP_bind]
  by_cases heof : p.ch = eof
  · have h35 : p.ch ≠ 35 := by rw [heof]; decide
    have hr0 : hashRun rest = 0 := by
      cases hr : rest with
      | nil => rfl
      | cons b t =>
        have hb : b ≠ 35 := by
          intro hb
          rw [hr, hb] at hdrop
          exact h35 (At_ascii input 35 t i p hdrop hAt (by decide)).1
        simp [hashRun, hb]
    refine ⟨p, ?_, hAt.1, hch, ?_⟩
    · simp only [heof, if_true, pure_apply]
    · rw [← hq0 hr0]
      exact hqw
  · simp only [heof, if_false]
    unfold parseCommentLevel
    rw [bind_apply, hq]
    dsimp only
    by_cases hr0 : hashRun rest = 0
    · rw [if_pos hr0, pure_apply]
      refine ⟨q, rfl, ?_, ?_, hqw⟩
      · rw [hq0 hr0]; exact hAt.1
      · rw [hq0 hr0]; exact hch
    · rw [if_neg hr0, if_pos ⟨hk, hrest⟩, getP_bind, setP_bind, pure_apply]
      exact ⟨_, rfl, hAt.1, hch, hqw⟩

theorem commentLine_length (k : Nat) (b : GoString) :
    (commentLine k b).length = k + (if b = [] then 0 else b.length + 1) + 1 := by
  unfold commentLine
  by_cases hb : b = []
  · simp [hb]
  · simp [hb]
    omega

/-- One iteration of the loop of `parseComment` over a line of the block. -/
theorem parseCommentLoop_line (input tail b : GoString) (k : Nat) (hk : k ≠ 0)
    (hb : ∀ x ∈ b, x ≠ 0 ∧ x ≠ 10 ∧ x ≠ 13) (lines : List GoString) (lastLevel : Nat)
    (hll : lastLevel = k ∨ lastLevel = 0) (i : Nat) (p : parser) (n : Nat)
    (hdrop : input.drop i = commentLine k b ++ tail) (hAt : p.At input i)
    (hn : (commentLine k b).length + 1 ≤ n) :
    ∃ q, parseCommentLoop (n + 1) input lines lastLevel p =
        parseCommentLoop n input (lines ++ [b]) k q ∧
      q.At input (i + (commentLine k b).length) ∧
      input.drop (i + (commentLine k b).length) = tail := by
  have hlen := commentLine_length k b
  obtain ⟨k1, hk1⟩ : ∃ k1, k = k1 + 1 := ⟨k - 1, by omega⟩
  have hd0 : input.drop i =
      List.replicate k 35 ++ ((if b = [] then [] else 32 :: b) ++ 10 :: tail) := by
    rw [hdrop, commentLine]
    simp
  have hmid : ((if b = [] then [] else 32 :: b) ++ 10 :: tail).head? ≠ some 35 := by
    by_cases hbe : b = []
    · simp [hbe]
    · simp [hbe]
  have hp35 : p.ch = 35 := by
    have hd1 := hd0
    rw [hk1, List.replicate_succ, List.cons_append] at hd1
    exact (At_ascii input 35 _ i p hd1 hAt (by decide)).1
  have hne : p.ch ≠ eof := by rw [hp35]; decide
  obtain ⟨q1, hq1, hq1At, _⟩ := parseCommentLevelLoop_scan input _ hmid k 0 i p n hd0 hAt
    (by omega)
  rw [Nat.zero_add] at hq1
  have hd1 : input.drop (i + k) = (if b = [] then [] else 32 :: b) ++ 10 :: tail := by
    rw [← List.drop_drop, hd0, List.drop_left' (by simp)]
  have hcond : ¬ (lastLevel ≠ 0 ∧ k ≠ lastLevel) := by
    rintro ⟨h1, h2⟩
    rcases hll with h | h
    · exact h2 h.symm
    · exact h1 h
  rw [parseCommentLoop, getP_bind]
  simp only [hne, if_false]
  unfold parseCommentLevel
  rw [bind_apply, hq1]
  dsimp only
  rw [if_neg hk, if_neg hcond, getP_bind, bind_apply]
  by_cases hbe : b = []
  · subst hbe
    simp only [if_true, List.nil_append] at hd1
    obtain ⟨a1, _, _, hA2, hd2⟩ := At_ascii input 10 tail _ q1 hd1 hq1At (by decide)
    have heol : isEOL input q1 = true := by simp [isEOL, a1]
    simp only [heol, Bool.true_eq_false, if_false, pure_apply]
    rw [bind_apply, skipEOL_lf input q1 a1]
    refine ⟨next input q1, rfl, ?_, ?_⟩
    · rw [hlen]
      simpa [Nat.add_assoc] using hA2
    · rw [hlen]
      simpa [Nat.add_assoc] using hd2
  · simp only [hbe, if_false] at hd1
    rw [List.cons_append] at hd1
    obtain ⟨a1, _, _, hA2, hd2⟩ := At_ascii input 32 _ _ q1 hd1 hq1At (by decide)
    have heol : isEOL input q1 = false := by simp [isEOL, a1]
    obtain ⟨q3, hq3, hq3At⟩ := parseCommentLineLoop_scan input tail b.length b (i + k + 1)
      (next input q1) n rfl hd2 hA2 hb (by rw [hlen] at hn; simp only [hbe, if_false] at hn; omega)
    have hd3 : input.drop (i + k + 1 + b.length) = 10 :: tail := by
      rw [← List.drop_drop, hd2, List.drop_left' rfl]
    obtain ⟨a3, _, _, hA4, hd4⟩ := At_ascii input 10 tail _ q3 hd3 hq3At (by decide)
    have hline : parseCommentLine n input (next input q1) = Res.ok b q3 := by
      unfold parseCommentLine
      rw [getP_bind, bind_apply, hq3]
      simp only []
      rw [getP_bind, pure_apply, hq3At.1, hA2.1, slice_of_drop input b (10 :: tail) _ hd2]
    simp only [heol, if_true, a1, ne_eq, not_true_eq_false, if_false]
    rw [nextP_bind, hline]
    dsimp only
    rw [bind_apply, skipEOL_lf input q3 a3]
    have hposeq : i + k + 1 + b.length + 1 = i + (commentLine k b).length := by
      rw [hlen]
      simp only [hbe, if_false]
      omega
    rw [hposeq] at hA4 hd4
    exact ⟨next input q3, rfl, hA4, hd4⟩

/-- The loop of `parseComment` over a block of level `k` that is followed by `rest`, where
`rest` does not start with exactly `k` characters `#`. -/
theorem parseCommentLoop_block (input rest : GoString) (k : Nat) (hk : k ≠ 0)
    (hrest : hashRun rest ≠ k) :
    ∀ (bs lines : List GoString) (lastLevel i : Nat) (p : parser) (n : Nat),
      (∀ b ∈ bs, ∀ x ∈ b, x ≠ 0 ∧ x ≠ 10 ∧ x ≠ 13) →
      (lastLevel = k ∨ (lastLevel = 0 ∧ bs ≠ [])) →
      input.drop i = commentBlock k bs ++ rest → p.At input i →
      (commentBlock k bs).length + hashRun rest + 2 ≤ n →
      ∃ q, parseCommentLoop n input lines lastLevel p = Res.ok (lines ++ bs, k) q ∧
        q.pos = i + (commentBlock k bs).length ∧ q.ch = (DecodeRune rest).1 ∧
        q.w = (DecodeRune (rest.drop (hashRun rest))).2 := by
  intro bs
  induction bs with
  | nil =>
    intro lines lastLevel i p n _ hll hdrop hAt hn
    rcases hll with h | h
    · subst h
      simp only [commentBlock, List.nil_append, List.length_nil, Nat.zero_add] at hdrop hn
      simpa [commentBlock] using
        parseCommentLoop_end input rest lastLevel hk hrest lines i p n hdrop hAt hn
    · exact absurd rfl h.2
  | cons b bs ih =>
    intro lines lastLevel i p n hbs hll hdrop hAt hn
    obtain ⟨n1, rfl⟩ : ∃ n1, n = n1 + 1 := ⟨n - 1, by omega⟩
    rw [commentBlock, List.append_assoc] at hdrop
    have hlen : (commentBlock k (b :: bs)).length =
        (commentLine k b).length + (commentBlock k bs).length := by
      rw [commentBlock, List.length_append]
    have hl1 := commentLine_length k b
    obtain ⟨q, hq, hqAt, hqd⟩ := parseCommentLoop_line input _ b k hk
      (hbs b (List.mem_cons_self _ _)) lines lastLevel
      (by rcases hll with h | h; exact Or.inl h; exact Or.inr h.1) i p n1 hdrop hAt (by omega)
    obtain ⟨q2, hq2, h1, h2, h3⟩ := ih (lines ++ [b]) k _ q n1
      (fun c hc => hbs c (List.mem_cons_of_mem _ hc)) (Or.inl rfl) hqd hqAt (by omega)
    refine ⟨q2, ?_, by rw [h1, hlen]; omega, h2, h3⟩
    rw [hq, hq2]
    simp

/-- `parseEntry` on a comment block. -/
theorem parseEntry_block (input rest : GoString) (k : Nat) (hk : k = 1 ∨ k = 2 ∨ k = 3)
    (hrest : hashRun rest ≠ k) (bs : List GoString) (hne : bs ≠ [])
    (hbs : ∀ b ∈ bs, ∀ x ∈ b, x ≠ 0 ∧ x ≠ 10 ∧ x ≠ 13) (i : Nat) (p : parser) (n : Nat)
    (hdrop : input.drop i = commentBlock k bs ++ rest) (hAt : p.At input i)
    (hn : (commentBlock k bs).length + hashRun rest + 2 ≤ n) :
    ∃ q, parseEntry n input p = Res.ok (commentEntry k (Join bs [10])) q ∧
      q.pos = i + (commentBlock k bs).length ∧ q.ch = (DecodeRune rest).1 ∧
      q.w = (DecodeRune (rest.drop (hashRun rest))).2 := by
  have hk0 : k ≠ 0 := by omega
  obtain ⟨q, hq, h1, h2, h3⟩ := parseCommentLoop_block input rest k hk0 hrest bs [] 0 i p n hbs
    (Or.inr ⟨rfl, hne⟩) hdrop hAt hn
  have hp35 : p.ch = 35 := by
    obtain ⟨b, bs1, rfl⟩ := List.exists_cons_of_ne_nil hne
    obtain ⟨k1, rfl⟩ : ∃ k1, k = k1 + 1 := ⟨k - 1, by omega⟩
    rw [commentBlock, commentLine, List.replicate_succ] at hdrop
    simp only [List.cons_append] at hdrop
    exact (At_ascii input 35 _ i p hdrop hAt (by decide)).1
  refine ⟨q, ?_, h1, h2, h3⟩
  unfold parseEntry
  rw [getP_bind]
  simp only [hp35, if_true]
  unfold parseComment
  rw [bind_apply, hq]
  rcases hk with rfl | rfl | rfl <;> simp [commentEntry, pure_apply]

theorem commentBlock_cons_eq (k : Nat) (b rest : GoString) :
    commentLine k b ++ rest =
      List.replicate k 35 ++ ((if b = [] then [] else 32 :: b) ++ 10 :: rest) := by
  rw [commentLine]
  simp

/-- A block that is not empty starts with its run of `k` characters `#`, and the byte after
the run is a space or a line feed. -/
theorem commentBlock_hashRun (k : Nat) (bs : List GoString) (hne : bs ≠ []) :
    hashRun (commentBlock k bs) = k ∧ (DecodeRune ((commentBlock k bs).drop k)).2 = 1 ∧
      (k ≠ 0 → DecodeRune (commentBlock k bs) = (35, 1)) ∧
      k + 1 ≤ (commentBlock k bs).length := by
  obtain ⟨b, bs1, rfl⟩ := List.exists_cons_of_ne_nil hne
  rw [commentBlock, commentBlock_cons_eq]
  have hmid : ∃ a t, (if b = [] then [] else 32 :: b) ++ 10 :: commentBlock k bs1 = a :: t ∧
      a < 128 ∧ a ≠ 35 := by
    by_cases hb : b = []
    · exact ⟨10, commentBlock k bs1, by simp [hb], by decide, by decide⟩
    · exact ⟨32, b ++ 10 :: commentBlock k bs1, by simp [hb], by decide, by decide⟩
  obtain ⟨a, t, hat, ha, ha35⟩ := hmid
  rw [hat]
  refine ⟨hashRun_replicate _ (by simpa using ha35) k, ?_, ?_, ?_⟩
  · rw [List.drop_left' (by simp), DecodeRune_ascii a t ha]
  · intro hk
    obtain ⟨k1, rfl⟩ : ∃ k1, k = k1 + 1 := ⟨k - 1, by omega⟩
    rw [List.replicate_succ, List.cons_append, DecodeRune_ascii 35 _ (by decide)]
  · simp

/-- The loop of `parse` when what is left of the input is one comment block. -/
theorem parseLoop_block_at_end (input : GoString) (k : Nat) (hk : k = 1 ∨ k = 2 ∨ k = 3)
    (bs : List GoString) (hne : bs ≠ [])
    (hbs : ∀ b ∈ bs, ∀ x ∈ b, x ≠ 0 ∧ x ≠ 10 ∧ x ≠ 13) (i : Nat) (p : parser)
    (errors : List parseError) (entries : List Entry) (lc : Option Comment)
    (hlc : lc = none ∨ k ≠ 1) (n : Nat)
    (hdrop : input.drop i = commentBlock k bs) (hAt : p.At input i)
    (hn : (commentBlock k bs).length + 4 ≤ n) :
    ∃ q, parseLoop n input errors entries lc p =
      Res.ok ({ Body := commitEntry entries lc (commentEntry k (Join bs [10])) },
        if 0 < errors.length then some { input := input, errors := errors } else none) q := by
  obtain ⟨n1, rfl⟩ : ∃ n1, n = n1 + 1 := ⟨n - 1, by omega⟩
  obtain ⟨n2, rfl⟩ : ∃ n2, n1 = n2 + 1 := ⟨n1 - 1, by omega⟩
  have hpos0 := (commentBlock_hashRun k bs hne).2.2.2
  have hlen : input.length = i + (commentBlock k bs).length := by
    have := congrArg List.length hdrop
    rw [List.length_drop] at this
    have := hAt.2.1
    omega
  obtain ⟨q, hq, h1, h2, h3⟩ := parseEntry_block input [] k hk (by simp [hashRun]; omega) bs hne
    hbs i p (n2 + 1) (by rw [List.append_nil]; exact hdrop) hAt (by simp [hashRun]; omega)
  have hqAt : q.At input (i + (commentBlock k bs).length) := by
    refine ⟨h1, by omega, ?_⟩
    rw [← hlen, List.drop_length, h2, h3]
    rfl
  obtain ⟨q2, hq2, hq2At⟩ := skipBlankBlock_none input _ q (n2 + 1)
    (by rw [← hlen, List.drop_length]; simp) hqAt (by omega)
  have hpos : p.pos < input.length := by rw [hAt.1]; omega
  refine ⟨q2, ?_⟩
  rw [parseLoop_step (n2 + 1) _ errors entries lc p q q2 _ 0 hpos hq hq2]
  have hend : input.length ≤ q2.pos := by rw [hq2At.1]; omega
  rcases hk with rfl | rfl | rfl
  · rcases hlc with rfl | h
    · simp only [if_true, commentEntry, Entry.asComment]
      rw [parseLoop_exit n2 _ _ _ _ q2 hend]
      rfl
    · exact absurd rfl h
  · simp only [if_true, commentEntry, Entry.asComment]
    rw [parseLoop_exit n2 _ _ _ _ q2 hend]
    rfl
  · simp only [if_true, commentEntry, Entry.asComment]
    rw [parseLoop_exit n2 _ _ _ _ q2 hend]
    rfl

/-- One iteration of the loop of `parse` over a comment block that is followed by a block of
another level: a level-1 comment is held back, any other is appended. -/
theorem parseLoop_block_step (input : GoString) (k m : Nat) (hk : k = 1 ∨ k = 2 ∨ k = 3)
    (hm : m ≠ 0) (hkm : m ≠ k) (bs cs : List GoString) (hne : bs ≠ []) (hcs : cs ≠ [])
    (hbs : ∀ b ∈ bs, ∀ x ∈ b, x ≠ 0 ∧ x ≠ 10 ∧ x ≠ 13) (i : Nat) (p : parser)
    (errors : List parseError) (entries : List Entry) (n : Nat)
    (hdrop : input.drop i = commentBlock k bs ++ commentBlock m cs) (hAt : p.At input i)
    (hn : (commentBlock k bs).length + m + 2 ≤ n) :
    ∃ q, parseLoop (n + 1) input errors entries none p =
        (if k = 1 then parseLoop n input errors entries (some { Content := Join bs [10] }) q
         else parseLoop n input errors (entries ++ [commentEntry k (Join bs [10])]) none q) ∧
      q.At input (i + (commentBlock k bs).length) ∧
      input.drop (i + (commentBlock k bs).length) = commentBlock m cs := by
  obtain ⟨r1, r2, r3, r4⟩ := commentBlock_hashRun m cs hcs
  have hpos0 := (commentBlock_hashRun k bs hne).2.2.2
  have hlen : i + (commentBlock k bs).length + (commentBlock m cs).length = input.length := by
    have := congrArg List.length hdrop
    rw [List.length_drop, List.length_append] at this
    have := hAt.2.1
    omega
  have hd2 : input.drop (i + (commentBlock k bs).length) = commentBlock m cs := by
    rw [← List.drop_drop, hdrop, List.drop_left' rfl]
  obtain ⟨q, hq, h1, h2, h3⟩ := parseEntry_block input (commentBlock m cs) k hk
    (by rw [r1]; exact hkm) bs hne hbs i p n hdrop hAt (by rw [r1]; omega)
  have hqAt : q.At input (i + (commentBlock k bs).length) := by
    refine ⟨h1, by omega, ?_⟩
    rw [hd2, r3 hm, h2, h3, r1, r2, r3 hm]
  have hhead : ∀ c, (input.drop (i + (commentBlock k bs).length)).head? = some c →
      c ≠ 32 ∧ c ≠ 10 ∧ c ≠ 13 := by
    intro c hc
    have h35 := At_ch_ascii input _ q 35 hqAt (by decide) (by rw [h2, r3 hm])
    rw [h35] at hc
    injection hc with hc
    omega
  obtain ⟨q2, hq2, hq2At⟩ := skipBlankBlock_none input _ q n hhead hqAt (by omega)
  have hpos : p.pos < input.length := by rw [hAt.1]; omega
  refine ⟨q2, ?_, hq2At, hd2⟩
  rw [parseLoop_step n _ errors entries none p q q2 _ 0 hpos hq hq2]
  rcases hk with rfl | rfl | rfl <;> rfl

/-- `Parse` at its start on an input that begins with a comment block: the cursor before the
loop. -/
theorem Parse_block_start (input rest : GoString) (k : Nat) (hk : k ≠ 0) (bs : List GoString)
    (hne : bs ≠ []) (hin : input = commentBlock k bs ++ rest) (n : Nat) (hn : 2 ≤ n) :
    ∃ p0, skipBlankBlock n input (newParser input) = Res.ok 0 p0 ∧ p0.At input 0 := by
  obtain ⟨_, _, _, r4⟩ := commentBlock_hashRun k bs hne
  have hne2 : input ≠ [] := by
    intro h
    have := congrArg List.length hin
    rw [h, List.length_append] at this
    simp at this
    omega
  have hA0 := newParser_At input hne2
  have h35 : (input.drop 0).head? = some 35 := by
    rw [List.drop_zero, hin]
    obtain ⟨b, bs1, rfl⟩ := List.exists_cons_of_ne_nil hne
    obtain ⟨k1, rfl⟩ : ∃ k1, k = k1 + 1 := ⟨k - 1, by omega⟩
    rw [commentBlock, commentLine, List.replicate_succ]
    rfl
  exact skipBlankBlock_none input 0 (newParser input) n
    (by intro c hc; rw [h35] at hc; injection hc with hc; omega) hA0 hn

/-- C21: comment blocks.  For every level `k` in {1, 2, 3} and every list `bs` of line bodies
that is not empty (no body has a NUL, a line feed or a carriage return), on the block whose lines
are `k` characters `#`, then a space and the body (nothing for an empty body), then a line feed:
`Parse` returns, with enough fuel, the single entry of the variant for level `k` whose content
is the bodies joined with a line feed, and no error; wherever the block stands in an input, followed
by anything that does not start with exactly `k` characters `#`, `parseEntry` returns that entry
with the cursor at the position and on the rune that follow the block; and `Parse` of the block
followed by a block of another level returns the two entries. -/
theorem C21_comment_block (k : Nat) (hk : k = 1 ∨ k = 2 ∨ k = 3) (bs : List GoString)
    (hne : bs ≠ []) (hbs : ∀ b ∈ bs, ∀ x ∈ b, x ≠ 0 ∧ x ≠ 10 ∧ x ≠ 13) :
    (∀ n, (commentBlock k bs).length + 4 ≤ n →
      ∃ q, Parse n (commentBlock k bs) =
        Res.ok ({ Body := [commentEntry k (Join bs [10])] }, none) q) ∧
    (∀ (input rest : GoString) (i : Nat) (p : parser) (n : Nat),
      input.drop i = commentBlock k bs ++ rest → hashRun rest ≠ k → p.At input i →
      (commentBlock k bs).length + hashRun rest + 2 ≤ n →
      ∃ q, parseEntry n input p = Res.ok (commentEntry k (Join bs [10])) q ∧
        q.pos = i + (commentBlock k bs).length ∧ q.ch = (DecodeRune rest).1) ∧
    (∀ (m : Nat) (cs : List GoString) (n : Nat), (m = 1 ∨ m = 2 ∨ m = 3) → m ≠ k → cs ≠ [] →
      (∀ b ∈ cs, ∀ x ∈ b, x ≠ 0 ∧ x ≠ 10 ∧ x ≠ 13) →
      (commentBlock k bs).length + (commentBlock m cs).length + 5 ≤ n →
      ∃ q, Parse n (commentBlock k bs ++ commentBlock m cs) =
        Res.ok ({ Body := [commentEntry k (Join bs [10]), commentEntry m (Join cs [10])] },
          none) q) := by
  have hk0 : k ≠ 0 := by omega
  refine ⟨?_, ?_, ?_⟩
  · intro n hn
    obtain ⟨p0, hp0, hp0At⟩ := Parse_block_start (commentBlock k bs) [] k hk0 bs hne
      (by rw [List.append_nil]) n (by omega)
    obtain ⟨q, hq⟩ := parseLoop_block_at_end (commentBlock k bs) k hk bs hne hbs 0 p0 [] [] none
      (Or.inl rfl) n (by rw [List.drop_zero]) hp0At hn
    refine ⟨q, ?_⟩
    unfold Parse parser.parse
    rw [bind_apply, hp0]
    exact hq
  · intro input rest i p n hdrop hrest hAt hn
    obtain ⟨q, hq, h1, h2, _⟩ := parseEntry_block input rest k hk hrest bs hne hbs i p n hdrop hAt
      hn
    exact ⟨q, hq, h1, h2⟩
  · intro m cs n hm hkm hcs hcsb hn
    have hm0 : m ≠ 0 := by omega
    obtain ⟨n1, rfl⟩ : ∃ n1, n = n1 + 1 := ⟨n - 1, by omega⟩
    obtain ⟨p0, hp0, hp0At⟩ := Parse_block_start (commentBlock k bs ++ commentBlock m cs) _ k hk0
      bs hne rfl (n1 + 1) (by omega)
    have hlen2 := (commentBlock_hashRun m cs hcs).2.2.2
    obtain ⟨q, hq, hqAt, hqd⟩ := parseLoop_block_step (commentBlock k bs ++ commentBlock m cs) k m
      hk hm0 hkm bs cs hne hcs hbs 0 p0 [] [] n1 (by rw [List.drop_zero]) hp0At (by omega)
    obtain ⟨q2, hq2⟩ := parseLoop_block_at_end (commentBlock k bs ++ commentBlock m cs) m hm cs
      hcs hcsb _ q [] (if k = 1 then [] else [] ++ [commentEntry k (Join bs [10])])
      (if k = 1 then some { Content := Join bs [10] } else none)
      (by
        by_cases h1 : k = 1
        · right; omega
        · left; simp [h1]) n1 hqd hqAt (by omega)
    refine ⟨q2, ?_⟩
    unfold Parse parser.parse
    rw [bind_apply, hp0]
    dsimp only
    rw [hq]
    by_cases h1 : k = 1
    · subst h1
      simp only [if_true] at hq2 ⊢
      rw [hq2]
      rcases hm with rfl | rfl | rfl
      · exact absurd rfl hkm
      · rfl
      · rfl
    · simp only [h1, if_false] at hq2 ⊢
      rw [hq2]
      rfl

theorem C21_comment_block_witness :
    commentBlock 2 commentBodies = ascii "## a\n##\n## b\n" ∧
    Join commentBodies [10] = ascii "a\n\nb" ∧
    Parse 20 (ascii "## a\n##\n## b\n") =
      Res.ok ({ Body := [Entry.groupComment { Content := ascii "a\n\nb" }] }, none)
        { pos := 13, ch := 65533, w := 0, line := 4, col := 1 } ∧
    (∀ n, (commentBlock 2 commentBodies).length + 4 ≤ n →
      ∃ q, Parse n (commentBlock 2 commentBodies) =
        Res.ok ({ Body := [commentEntry 2 (Join commentBodies [10])] }, none) q) ∧
    (∀ (input rest : GoString) (i : Nat) (p : parser) (n : Nat),
      input.drop i = commentBlock 2 commentBodies ++ rest → hashRun rest ≠ 2 → p.At input i →
      (commentBlock 2 commentBodies).length + hashRun rest + 2 ≤ n →
      ∃ q, parseEntry n input p = Res.ok (commentEntry 2 (Join commentBodies [10])) q ∧
        q.pos = i + (commentBlock 2 commentBodies).length ∧ q.ch = (DecodeRune rest).1) ∧
    (∀ (m : Nat) (cs : List GoString) (n : Nat), (m = 1 ∨ m = 2 ∨ m = 3) → m ≠ 2 → cs ≠ [] →
      (∀ b ∈ cs, ∀ x ∈ b, x ≠ 0 ∧ x ≠ 10 ∧ x ≠ 13) →
      (commentBlock 2 commentBodies).length + (commentBlock m cs).length + 5 ≤ n →
      ∃ q, Parse n (commentBlock 2 commentBodies ++ commentBlock m cs) =
        Res.ok ({ Body := [commentEntry 2 (Join commentBodies [10]),
          commentEntry m (Join cs [10])] }, none) q) :=
  ⟨rfl, rfl, rfl, C21_comment_block 2 (by decide) commentBodies (by decide) (by decide)⟩

/-! ## The dedent of text lines -/

theorem next_At_pos (input : GoString) (p : parser) (k : Nat) (h1 : p.pos = k)
    (hk : k < input.length) (hw : k + p.w ≤ input.length) :
    (next input p).At input (k + p.w) := by
  have hlt : ¬ input.length ≤ p.pos := by omega
  unfold next
  by_cases hnl : p.ch = 10
  · simp only [hnl, if_true, hlt, if_false]
    exact ⟨by simp [h1], hw, by simp [h1]⟩
  · simp only [hnl, if_false, hlt]
    exact ⟨by simp [h1], hw, by simp [h1]⟩

/-- The measure of the indent of a line in block mode (lines 436-451): `m` spaces, at least
one, before a rune that is none of `[`, `*` and `.`.  The cursor is at the start of the line, on
a space; its width may be left over from a put-back (`skipBlankBlock`), and is at most `m`. -/
theorem parsePatternIndent_line (input x : GoString) (m k : Nat) (p : parser) (n ci : Nat)
    (h32 : x.head? ≠ some 32) (h91 : x.head? ≠ some 91) (h42 : x.head? ≠ some 42)
    (h46 : x.head? ≠ some 46) (hdrop : input.drop k = List.replicate m 32 ++ x)
    (hpos : p.pos = k) (hch : p.ch = 32) (hw1 : 1 ≤ p.w) (hwm : p.w ≤ m) (hn : m < n) :
    ∃ q : parser, parsePatternIndent n input ci p =
        Res.ok (some (if 0 < m ∧ (m < ci ∨ ci = 0) then m else ci))
          { q with pos := k, ch := 32 } ∧ q.At input (k + m) := by
  obtain ⟨n1, rfl⟩ : ∃ n1, n = n1 + 1 := ⟨n - 1, by omega⟩
  have hlen : input.length = k + (m + x.length) := by
    have h1 := congrArg List.length hdrop
    rw [List.length_drop] at h1
    simp only [List.length_append, List.length_replicate] at h1
    omega
  have hnext : (next input p).At input (k + p.w) :=
    next_At_pos input p k hpos (by omega) (by omega)
  have hd1 : input.drop (k + p.w) = List.replicate (m - p.w) 32 ++ x := by
    have hm : List.replicate m 32 = List.replicate p.w 32 ++ List.replicate (m - p.w) 32 := by
      rw [← List.replicate_add]
      congr 1
      omega
    rw [← List.drop_drop, hdrop, hm, List.append_assoc, List.drop_left' (by simp)]
  obtain ⟨q, hq, hqAt, _⟩ := skipBlankInlineLoop_scan input x h32 (m - p.w) (k + p.w)
    (next input p) n1 hd1 hnext (by omega)
  have hkm : k + p.w + (m - p.w) = k + m := by omega
  rw [hkm] at hqAt
  have hd2 : input.drop (k + m) = x := by
    rw [← List.drop_drop, hdrop, List.drop_left' (by simp)]
  have c91 : q.ch ≠ 91 := At_ch_ne input _ q 91 hqAt (by decide) (by rw [hd2]; exact h91)
  have c42 : q.ch ≠ 42 := At_ch_ne input _ q 42 hqAt (by decide) (by rw [hd2]; exact h42)
  have c46 : q.ch ≠ 46 := At_ch_ne input _ q 46 hqAt (by decide) (by rw [hd2]; exact h46)
  have hloop : skipBlankInlineLoop (n1 + 1) input p = Res.ok () q := by
    rw [skipBlankInlineLoop]
    simp only [hch, if_true]
    exact hq
  have hskip : skipBlankInline (n1 + 1) input p = Res.ok m q := by
    unfold skipBlankInline
    rw [getP_bind, bind_apply, hloop]
    dsimp only
    rw [getP_bind, pure_apply, hqAt.1, hpos]
    simp
  refine ⟨q, ?_, hqAt⟩
  unfold parsePatternIndent
  rw [getP_bind, bind_apply, hskip]
  dsimp only
  rw [getP_bind]
  have hm0 : ¬ (m = 0 ∧ isEOL input q = false) := fun h => absurd h.1 (by omega)
  have hc : ¬ (q.ch = 91 ∨ q.ch = 42 ∨ q.ch = 46) := by
    rintro (h | h | h)
    · exact c91 h
    · exact c42 h
    · exact c46 h
  rw [if_neg hm0, if_neg hc, setP_bind, pure_apply, hpos, hch]

/-- The text of a line in block mode, read after the position and the rune were put back to the
start of the line: the width is the one of the first rune of the text. -/
theorem parseTextElement_line (input post t : GoString) (m k : Nat) (q : parser) (n : Nat)
    (hm : 1 ≤ m) (ht : t ≠ []) (htb : ∀ b ∈ t, b ≠ 0 ∧ b ≠ 10 ∧ b ≠ 13 ∧ b ≠ 123 ∧ b ≠ 125)
    (hdrop : input.drop k = List.replicate m 32 ++ (t ++ 10 :: post))
    (hqAt : q.At input (k + m)) (hn : m + t.length + 1 < n) :
    ∃ q2, parseTextElement n input { q with pos := k, ch := 32 } =
        Res.ok (List.replicate m 32 ++ t) q2 ∧ q2.At input (k + m + t.length) := by
  obtain ⟨b, t1, rfl⟩ := List.exists_cons_of_ne_nil ht
  obtain ⟨n1, rfl⟩ : ∃ n1, n = n1 + 1 := ⟨n - 1, by omega⟩
  have hd1 : input.drop (k + m) = (b :: t1) ++ 10 :: post := by
    rw [← List.drop_drop, hdrop, List.drop_left' (by simp)]
  obtain ⟨_, _, w1, w2, hklt, _, _⟩ := At_step input b t1 (10 :: post) (k + m) q hd1 hqAt
    (by intro c hc; simp at hc; omega)
  have hlen : input.length = k + (m + ((b :: t1).length + (1 + post.length))) := by
    have := congrArg List.length hdrop
    rw [List.length_drop] at this
    simp only [List.length_append, List.length_replicate, List.length_cons] at this
    simp only [List.length_cons]
    omega
  have hdropL : input.drop k = (List.replicate m 32 ++ (b :: t1)) ++ 10 :: post := by
    rw [hdrop, List.append_assoc]
  have hnext : (next input { q with pos := k, ch := 32 }).At input (k + q.w) :=
    next_At_pos input { q with pos := k, ch := 32 } k rfl (by omega) (by
      show k + q.w ≤ input.length
      omega)
  have hwle : q.w ≤ (List.replicate m 32 ++ (b :: t1)).length := by
    simp only [List.length_append, List.length_replicate]
    omega
  have hd2 : input.drop (k + q.w) =
      (List.replicate m 32 ++ (b :: t1)).drop q.w ++ 10 :: post := by
    rw [← List.drop_drop, hdropL, List.drop_append_of_le_length hwle]
  have hbytes : ∀ c ∈ (List.replicate m 32 ++ (b :: t1)).drop q.w,
      c ≠ 0 ∧ c ≠ 10 ∧ c ≠ 13 ∧ c ≠ 123 ∧ c ≠ 125 := by
    intro c hc
    rcases List.mem_append.1 (List.mem_of_mem_drop hc) with h | h
    · rw [List.eq_of_mem_replicate h]
      decide
    · exact htb c h
  have hlen2 : ((List.replicate m 32 ++ (b :: t1)).drop q.w).length =
      m + (b :: t1).length - q.w := by
    simp only [List.length_drop, List.length_append, List.length_replicate]
  obtain ⟨q2, hq2, hq2At⟩ := parseTextElementLoop_scan input post _ _ (k + q.w)
    (next input { q with pos := k, ch := 32 }) n1 rfl hd2 hnext hbytes (by rw [hlen2]; omega)
  have hpos : k + q.w + ((List.replicate m 32 ++ (b :: t1)).drop q.w).length =
      k + (List.replicate m 32 ++ (b :: t1)).length := by
    rw [hlen2]
    simp only [List.length_append, List.length_replicate]
    omega
  rw [hpos] at hq2At
  have hstep : parseTextElementLoop (n1 + 1) input { q with pos := k, ch := 32 } =
      parseTextElementLoop n1 input (next input { q with pos := k, ch := 32 }) := by
    rw [parseTextElementLoop]
    simp [eof, isEOL]
  refine ⟨q2, ?_, ?_⟩
  · unfold parseTextElement
    rw [getP_bind, bind_apply, hstep, hq2]
    dsimp only
    rw [getP_bind, pure_apply, hq2At.1, slice_of_drop input _ (10 :: post) k hdropL]
  · have : k + (List.replicate m 32 ++ (b :: t1)).length = k + m + (b :: t1).length := by
      simp only [List.length_append, List.length_replicate]
      omega
    rw [← this]
    exact hq2At

theorem indentedLine_length (l : Nat × GoString) :
    (indentedLine l).length = 1 + l.1 + l.2.length := by
  simp [indentedLine]
  omega

/-- The tail of an iteration of the loop of `parsePattern` in block mode on a line of text: the
measure of the indent, then the text element. -/
theorem parsePattern_measure_text (input post : GoString) (l : Nat × GoString)
    (hl : isIndentedLine l) (k : Nat) (p : parser) (n ci : Nat)
    (hdrop : input.drop k = List.replicate l.1 32 ++ (l.2 ++ 10 :: post))
    (hpos : p.pos = k) (hch : p.ch = 32) (hw1 : 1 ≤ p.w) (hwm : p.w ≤ l.1)
    (hn : l.1 + l.2.length + 1 < n) :
    ∃ q q2, parsePatternIndent n input ci p =
        Res.ok (some (if 0 < l.1 ∧ (l.1 < ci ∨ ci = 0) then l.1 else ci)) q ∧
      parseTextElement n input q = Res.ok (List.replicate l.1 32 ++ l.2) q2 ∧
      q2.At input (k + l.1 + l.2.length) ∧
      input.drop (k + l.1 + l.2.length) = 10 :: post := by
  obtain ⟨hm, ht, htb, h32, h91, h42, h46⟩ := hl
  have hhead : ∀ a, l.2.head? ≠ some a → (l.2 ++ 10 :: post).head? ≠ some a := by
    intro a ha
    obtain ⟨b, t1, hbt⟩ := List.exists_cons_of_ne_nil ht
    rw [hbt] at ha ⊢
    simpa using ha
  obtain ⟨q, hq, hqAt⟩ := parsePatternIndent_line input _ l.1 k p n ci (hhead _ h32)
    (hhead _ h91) (hhead _ h42) (hhead _ h46) hdrop hpos hch hw1 hwm (by omega)
  obtain ⟨q2, hq2, hq2At⟩ := parseTextElement_line input post l.2 l.1 k q n hm ht htb hdrop hqAt
    hn
  refine ⟨_, q2, hq, hq2, hq2At, ?_⟩
  rw [Nat.add_assoc, ← List.drop_drop, hdrop, ← List.append_assoc, List.drop_left' (by simp)]

/-- One iteration of the loop of `parsePattern` over an indented line of text, from the line
feed before it. -/
theorem parsePatternLoop_line (input post : GoString) (l : Nat × GoString)
    (hl : isIndentedLine l) (i : Nat) (p : parser) (n : Nat) (st : patternVars)
    (hdrop : input.drop i = indentedLine l ++ 10 :: post) (hAt : p.At input i)
    (hn : l.1 + l.2.length + 1 < n) :
    ∃ q, parsePatternLoop (n + 1) input st p =
        parsePatternLoop n input
          { elements := st.elements ++ [PatternElement.textElement (List.replicate l.1 32 ++ l.2)],
            block := true, lastNonBlank := (st.elements.length : Int),
            commonIndent := if 0 < l.1 ∧ (l.1 < st.commonIndent ∨ st.commonIndent = 0) then l.1
              else st.commonIndent } q ∧
      q.At input (i + (indentedLine l).length) ∧
      input.drop (i + (indentedLine l).length) = 10 :: post := by
  have hd0 : input.drop i = 10 :: (List.replicate l.1 32 ++ (l.2 ++ 10 :: post)) := by
    rw [hdrop, indentedLine]
    simp
  obtain ⟨a1, _, _, hA1, hd1⟩ := At_ascii input 10 _ i p hd0 hAt (by decide)
  obtain ⟨m1, hm1⟩ : ∃ m1, l.1 = m1 + 1 := ⟨l.1 - 1, by have := hl.1; omega⟩
  have hd1b : input.drop (i + 1) = 32 :: (List.replicate m1 32 ++ (l.2 ++ 10 :: post)) := by
    rw [hd1, hm1, List.replicate_succ, List.cons_append]
  obtain ⟨c1, c2, _, _, _⟩ := At_ascii input 32 _ (i + 1) (next input p) hd1b hA1 (by decide)
  obtain ⟨q, q2, hq, hq2, hq2At, hd2⟩ := parsePattern_measure_text input post l hl (i + 1)
    (next input p) n st.commonIndent hd1 hA1.1 c1 (by omega) (by omega) hn
  have hne : l.2 ≠ [] := hl.2.1
  have hpos : i + 1 + l.1 + l.2.length = i + (indentedLine l).length := by
    rw [indentedLine_length]
    omega
  rw [hpos] at hq2At hd2
  refine ⟨q2, ?_, hq2At, hd2⟩
  rw [parsePatternLoop, getP_bind]
  have h0 : p.ch ≠ eof := by rw [a1]; decide
  simp only [h0, if_false]
  rw [bind_apply, skipEOL_lf input p a1]
  simp only [Bool.or_true]
  rw [getP_bind]
  have h123 : (next input p).ch ≠ 123 := by rw [c1]; decide
  simp only [h123, if_false, if_true]
  rw [bind_apply, hq]
  dsimp only
  rw [bind_apply, hq2]
  simp [hne]

/-- The same iteration from the start of the line, in block mode, where `skipBlankBlock` has
put the cursor back. -/
theorem parsePatternLoop_first_line (input post : GoString) (l : Nat × GoString)
    (hl : isIndentedLine l) (k : Nat) (p : parser) (n : Nat) (st : patternVars)
    (hblock : st.block = true)
    (hdrop : input.drop k = List.replicate l.1 32 ++ (l.2 ++ 10 :: post))
    (hpos : p.pos = k) (hch : p.ch = 32) (hw1 : 1 ≤ p.w) (hwm : p.w ≤ l.1)
    (hn : l.1 + l.2.length + 1 < n) :
    ∃ q, parsePatternLoop (n + 1) input st p =
        parsePatternLoop n input
          { elements := st.elements ++ [PatternElement.textElement (List.replicate l.1 32 ++ l.2)],
            block := true, lastNonBlank := (st.elements.length : Int),
            commonIndent := if 0 < l.1 ∧ (l.1 < st.commonIndent ∨ st.commonIndent = 0) then l.1
              else st.commonIndent } q ∧
      q.At input (k + l.1 + l.2.length) ∧ input.drop (k + l.1 + l.2.length) = 10 :: post := by
  obtain ⟨q, q2, hq, hq2, hq2At, hd2⟩ := parsePattern_measure_text input post l hl k p n
    st.commonIndent hdrop hpos hch hw1 hwm hn
  have hne : l.2 ≠ [] := hl.2.1
  refine ⟨q2, ?_, hq2At, hd2⟩
  rw [parsePatternLoop, getP_bind]
  have h0 : p.ch ≠ eof := by rw [hch]; decide
  simp only [h0, if_false]
  rw [bind_apply, skipEOL_false input p (by rw [hch]; decide) (by rw [hch]; decide)]
  simp only [hblock, Bool.or_false]
  rw [getP_bind]
  have h123 : p.ch ≠ 123 := by rw [hch]; decide
  simp only [h123, if_false, if_true]
  rw [bind_apply, hq]
  dsimp only
  rw [bind_apply, hq2]
  simp [hne]

/-- The last iteration of the loop of `parsePattern`: the line feed at the end of the last line
of text is followed by a line that is no part of the pattern. -/
theorem parsePatternLoop_end (input post : GoString) (i : Nat) (p : parser) (n : Nat)
    (st : patternVars) (hdrop : input.drop i = 10 :: post)
    (hpost : ∀ c, post.head? = some c → c ≠ 32 ∧ c ≠ 10 ∧ c ≠ 13 ∧ c ≠ 123)
    (hAt : p.At input i) (hn : 2 ≤ n) :
    ∃ q, parsePatternLoop n input st p = Res.ok { st with block := true } q ∧
      q.At input (i + 1) := by
  obtain ⟨n1, rfl⟩ : ∃ n1, n = n1 + 1 := ⟨n - 1, by omega⟩
  obtain ⟨d1, _, _, hq3At, hdrop3⟩ := At_ascii input 10 post _ p hdrop hAt (by decide)
  have hhead3 : ∀ a, (a = 32 ∨ a = 10 ∨ a = 13 ∨ a = 123) →
      (input.drop (i + 1)).head? ≠ some a := by
    intro a ha hc
    rw [hdrop3] at hc
    have := hpost a hc
    omega
  have hpost32 : post.head? ≠ some 32 := fun hc => (hpost 32 hc).1 rfl
  obtain ⟨q4, hq4, hq4At, _⟩ := skipBlankInline_scan input post 0 _ (next input p) n1
    hpost32 (by simpa using hdrop3) hq3At (by omega)
  have e10 : q4.ch ≠ 10 := At_ch_ne input _ q4 10 hq4At (by decide) (hhead3 10 (by simp))
  have e13 : q4.ch ≠ 13 := At_ch_ne input _ q4 13 hq4At (by decide) (hhead3 13 (by simp))
  have f123 : (next input p).ch ≠ 123 :=
    At_ch_ne input _ _ 123 hq3At (by decide) (hhead3 123 (by simp))
  have hind : parsePatternIndent n1 input st.commonIndent (next input p) = Res.ok none q4 := by
    unfold parsePatternIndent
    rw [getP_bind, bind_apply, hq4]
    simp only []
    rw [getP_bind]
    simp [isEOL_false input q4 e10 e13, pure_apply]
  refine ⟨q4, ?_, by simpa using hq4At⟩
  rw [parsePatternLoop, getP_bind]
  have : p.ch ≠ eof := by rw [d1]; decide
  simp only [this, if_false]
  rw [bind_apply, skipEOL_lf input p d1]
  simp only [Bool.or_true]
  rw [getP_bind]
  simp only [f123, if_false, if_true]
  rw [bind_apply, hind]
  simp only [pure_apply]

/-- The loop of `parsePattern` over indented lines of text, from the line feed before the
first of them to the line after the last. -/
theorem parsePatternLoop_lines (input post : GoString)
    (hpost : ∀ c, post.head? = some c → c ≠ 32 ∧ c ≠ 10 ∧ c ≠ 13 ∧ c ≠ 123) :
    ∀ (lines : List (Nat × GoString)) (st : patternVars) (i : Nat) (p : parser) (n : Nat),
      (∀ l ∈ lines, isIndentedLine l) →
      input.drop i = indentedLines lines ++ 10 :: post → p.At input i →
      (indentedLines lines).length + 3 ≤ n →
      ∃ q st1, parsePatternLoop n input st p = Res.ok st1 q ∧
        st1.elements = st.elements ++
          lines.map (fun l => PatternElement.textElement (List.replicate l.1 32 ++ l.2)) ∧
        st1.commonIndent =
          lines.foldl (fun c l => if 0 < l.1 ∧ (l.1 < c ∨ c = 0) then l.1 else c)
            st.commonIndent ∧
        (0 ≤ st.lastNonBlank ∨ lines ≠ [] → 0 ≤ st1.lastNonBlank) ∧
        q.At input (i + (indentedLines lines).length + 1) := by
  intro lines
  induction lines with
  | nil =>
    intro st i p n _ hdrop hAt hn
    obtain ⟨q, hq, hqAt⟩ := parsePatternLoop_end input post i p n st
      (by simpa [indentedLines] using hdrop) hpost hAt (by omega)
    refine ⟨q, _, hq, by simp, rfl, ?_, by simpa [indentedLines] using hqAt⟩
    rintro (h | h)
    · exact h
    · exact absurd rfl h
  | cons l ls ih =>
    intro st i p n hl hdrop hAt hn
    obtain ⟨n1, rfl⟩ : ∃ n1, n = n1 + 1 := ⟨n - 1, by omega⟩
    have hlen : (indentedLines (l :: ls)).length =
        (indentedLine l).length + (indentedLines ls).length := by
      rw [indentedLines, List.length_append]
    have hl1 := indentedLine_length l
    rw [indentedLines, List.append_assoc] at hdrop
    -- the line feed that ends the line is the first byte of what follows it
    obtain ⟨post1, hpost1⟩ : ∃ post1, indentedLines ls ++ 10 :: post = 10 :: post1 := by
      cases ls with
      | nil => exact ⟨post, rfl⟩
      | cons l2 ls2 => exact ⟨_, rfl⟩
    rw [hpost1] at hdrop
    obtain ⟨q, hq, hqAt, hqd⟩ := parsePatternLoop_line input post1 l (hl l (List.mem_cons_self _ _))
      i p n1 st hdrop hAt (by omega)
    rw [← hpost1] at hqd
    obtain ⟨q2, st2, hq2, he, hc, hnb, hq2At⟩ := ih _ _ q n1
      (fun c hc => hl c (List.mem_cons_of_mem _ hc)) hqd hqAt (by omega)
    refine ⟨q2, st2, by rw [hq, hq2], ?_, ?_, ?_, ?_⟩
    · rw [he]
      simp
    · rw [hc]
      rfl
    · intro _
      exact hnb (Or.inl (by simp))
    · rw [hlen]
      rw [show i + ((indentedLine l).length + (indentedLines ls).length) + 1 =
        i + (indentedLine l).length + (indentedLines ls).length + 1 by omega]
      exact hq2At

theorem dedent_foldl_text_only (indent : GoString) :
    ∀ (ts : List GoString) (acc : Option (List PatternElement) × List GoString),
      (ts.map PatternElement.textElement).foldl (dedentStep indent) acc =
        (acc.1, acc.2 ++ ts.map (fun v => TrimPrefix v indent)) := by
  intro ts
  induction ts with
  | nil => intro acc; simp
  | cons t ts ih =>
    intro acc
    rw [List.map_cons, List.foldl_cons, ih]
    simp [dedentStep]

/-- The dedent of text elements alone: the trimmed texts are joined with a line feed, white
space is removed from the end, and what is left is the one text element of the pattern; nothing
left gives a pattern without elements. -/
theorem dedent_text_only (ts : List GoString) (c : Nat) (hts : ts ≠ []) :
    dedent (ts.map PatternElement.textElement) c =
      Pattern.mk
        (if TrimRightFunc (Join (ts.map (fun v => TrimPrefix v (List.replicate c 32))) [10])
            IsSpace = [] then none
         else some [PatternElement.textElement (TrimRightFunc
           (Join (ts.map (fun v => TrimPrefix v (List.replicate c 32))) [10]) IsSpace)]) := by
  have hlen : 0 < (ts.map (fun v => TrimPrefix v (List.replicate c 32))).length := by
    rw [List.length_map]
    exact List.length_pos.2 hts
  unfold dedent
  simp only [dedent_foldl_text_only, List.nil_append, hlen, if_true]
  by_cases hv : TrimRightFunc (Join (ts.map (fun v => TrimPrefix v (List.replicate c 32))) [10])
      IsSpace = []
  · simp [hv]
  · simp [hv, sliceAppend]

theorem TrimPrefix_indent (m c : Nat) (t : GoString) (h : c ≤ m) :
    TrimPrefix (List.replicate m 32 ++ t) (List.replicate c 32) =
      List.replicate (m - c) 32 ++ t := by
  have hm : List.replicate m 32 = List.replicate c 32 ++ List.replicate (m - c) 32 := by
    rw [← List.replicate_add]
    congr 1
    omega
  have hp : (List.replicate c 32).isPrefixOf (List.replicate m 32 ++ t) = true := by
    rw [List.isPrefixOf_iff_prefix, hm, List.append_assoc]
    exact List.prefix_append _ _
  unfold TrimPrefix
  rw [if_pos hp, List.length_replicate]
  conv_lhs => rw [hm, List.append_assoc]
  rw [List.drop_left' (by simp)]

theorem TrimPrefix_no_space (t : GoString) (c : Nat) (h : t.head? ≠ some 32) :
    TrimPrefix t (List.replicate c 32) = t := by
  cases c with
  | zero => simp [TrimPrefix]
  | succ c =>
    cases t with
    | nil => simp [TrimPrefix, List.replicate_succ]
    | cons b t1 =>
      have hb : ¬ (32 = b) := by
        intro hb
        apply h
        simp [hb]
      simp [TrimPrefix, List.replicate_succ, List.isPrefixOf, hb]

theorem minIndent_cons (l : Nat × GoString) (ls : List (Nat × GoString)) :
    minIndent (l :: ls) = if ls = [] then l.1 else min l.1 (minIndent ls) := by
  cases ls <;> simp [minIndent]

theorem minIndent_le : ∀ (lines : List (Nat × GoString)), ∀ l ∈ lines, minIndent lines ≤ l.1 := by
  intro lines
  induction lines with
  | nil => intro l hl; simp at hl
  | cons a ls ih =>
    intro l hl
    rw [minIndent_cons]
    by_cases hls : ls = []
    · subst hls
      simp at hl
      simp [hl]
    · rw [if_neg hls]
      rcases List.mem_cons.1 hl with h | h
      · rw [h]
        exact Nat.min_le_left _ _
      · exact le_trans (Nat.min_le_right _ _) (ih l h)

/-- The common indent that the loop of `parsePattern` keeps (lines 446-449) is the minimum of
the measured counts. -/
theorem foldl_commonIndent : ∀ (lines : List (Nat × GoString)) (c0 : Nat),
    (∀ l ∈ lines, 1 ≤ l.1) →
    lines.foldl (fun c l => if 0 < l.1 ∧ (l.1 < c ∨ c = 0) then l.1 else c) c0 =
      if lines = [] then c0 else if c0 = 0 then minIndent lines
        else min c0 (minIndent lines) := by
  intro lines
  induction lines with
  | nil => intro c0 _; rfl
  | cons a ls ih =>
    intro c0 hl
    have ha : 1 ≤ a.1 := hl a (List.mem_cons_self _ _)
    have h0 : 0 < a.1 := by omega
    have hstep : (if 0 < a.1 ∧ (a.1 < c0 ∨ c0 = 0) then a.1 else c0) =
        if c0 = 0 then a.1 else min c0 a.1 := by
      simp only [Nat.min_def]
      split_ifs <;> omega
    rw [List.foldl_cons, ih _ (fun l h => hl l (List.mem_cons_of_mem _ h)), minIndent_cons, hstep]
    simp only [reduceCtorEq, if_false, Nat.min_def]
    split_ifs <;> omega

theorem Join_ne_nil (a : GoString) (rest : List GoString) (sep : GoString) (ha : a ≠ []) :
    Join (a :: rest) sep ≠ [] := by
  cases rest with
  | nil => simpa [Join] using ha
  | cons b r => simp [Join, ha]

/-- The texts that the loop collects, without the common indent, are the lines of the value. -/
theorem map_TrimPrefix_lines (first : GoString) (lines : List (Nat × GoString))
    (hfirst : first.head? ≠ some 32) :
    ((if first = [] then [] else [first]) ++
        lines.map (fun l => List.replicate l.1 32 ++ l.2)).map
          (fun v => TrimPrefix v (List.replicate (minIndent lines) 32)) =
      dedentTexts first lines := by
  unfold dedentTexts
  rw [List.map_append, List.map_map]
  congr 1
  · by_cases hf : first = []
    · simp [hf]
    · simp [hf, TrimPrefix_no_space first _ hfirst]
  · apply List.map_congr_left
    intro l hl
    exact TrimPrefix_indent l.1 _ l.2 (minIndent_le lines l hl)

theorem dedentTexts_ne_nil (first : GoString) (lines : List (Nat × GoString))
    (hlines : ∀ l ∈ lines, isIndentedLine l) (hne : first ≠ [] ∨ lines ≠ []) :
    Join (dedentTexts first lines) [10] ≠ [] := by
  unfold dedentTexts
  by_cases hf : first = []
  · rcases hne with h | h
    · exact absurd hf h
    · obtain ⟨l, ls, rfl⟩ := List.exists_cons_of_ne_nil h
      simp only [hf, if_true, List.nil_append, List.map_cons]
      apply Join_ne_nil
      have := (hlines l (List.mem_cons_self _ _)).2.1
      simp [this]
  · simp only [hf, if_false, List.singleton_append]
    exact Join_ne_nil _ _ _ hf

/-- `skipBlankBlock` at the start of an indented line of text: nothing is skipped; the position
and the rune are back at the start of the line, and the width is the one of the first rune of
the text. -/
theorem skipBlankBlock_indented (input x1 : GoString) (b m k : Nat) (p : parser) (n : Nat)
    (hm : 1 ≤ m) (h32 : b ≠ 32) (h10 : b ≠ 10) (h13 : b ≠ 13)
    (hdrop : input.drop k = List.replicate m 32 ++ b :: x1) (hAt : p.At input k)
    (hn : m + 2 ≤ n) :
    ∃ q, skipBlankBlock n input p = Res.ok 0 q ∧ q.pos = k ∧ q.ch = 32 ∧
      q.w = (DecodeRune (input.drop (k + m))).2 := by
  obtain ⟨n1, rfl⟩ : ∃ n1, n = n1 + 1 := ⟨n - 1, by omega⟩
  obtain ⟨q, hq, hqAt, _⟩ := skipBlankInline_scan input (b :: x1) m k p n1 (by simpa using h32)
    hdrop hAt (by omega)
  have hd1 : input.drop (k + m) = b :: x1 := by
    rw [← List.drop_drop, hdrop, List.drop_left' (by simp)]
  have e10 : q.ch ≠ 10 :=
    At_ch_ne input _ q 10 hqAt (by decide) (by rw [hd1]; simpa using h10)
  have e13 : q.ch ≠ 13 :=
    At_ch_ne input _ q 13 hqAt (by decide) (by rw [hd1]; simpa using h13)
  obtain ⟨m1, rfl⟩ : ∃ m1, m = m1 + 1 := ⟨m - 1, by omega⟩
  rw [List.replicate_succ, List.cons_append] at hdrop
  obtain ⟨f1, _, _, _, _⟩ := At_ascii input 32 _ k p hdrop hAt (by decide)
  refine ⟨{ q with col := 1, pos := p.pos, ch := p.ch }, ?_, hAt.1, f1, ?_⟩
  · unfold skipBlankBlock
    rw [skipBlankBlockLoop, getP_bind, bind_apply, hq]
    simp only []
    rw [bind_apply, skipEOL_false input q e10 e13]
    simp only [Bool.false_eq_true, if_false]
    rw [getP_bind, setP_bind, pure_apply]
  · rw [hqAt.2.2]

theorem dedent_lines (first : GoString) (lines : List (Nat × GoString))
    (hfirst : first.head? ≠ some 32) (hne : first ≠ [] ∨ lines ≠ []) :
    dedent (((if first = [] then [] else [first]) ++
        lines.map (fun l => List.replicate l.1 32 ++ l.2)).map PatternElement.textElement)
        (minIndent lines) =
      Pattern.mk
        (if TrimRightFunc (Join (dedentTexts first lines) [10]) IsSpace = [] then none
         else some [PatternElement.textElement
           (TrimRightFunc (Join (dedentTexts first lines) [10]) IsSpace)]) := by
  have hts : (if first = [] then [] else [first]) ++
      lines.map (fun l => List.replicate l.1 32 ++ l.2) ≠ [] := by
    by_cases hf : first = []
    · rcases hne with h | h
      · exact absurd hf h
      · obtain ⟨l, ls, rfl⟩ := List.exists_cons_of_ne_nil h
        simp [hf]
    · simp [hf]
  have h := dedent_text_only _ (minIndent lines) hts
  rw [map_TrimPrefix_lines first lines hfirst] at h
  exact h

theorem indentedLines_lf (ls : List (Nat × GoString)) (rest : GoString) :
    ∃ post1, indentedLines ls ++ 10 :: rest = 10 :: post1 := by
  cases ls with
  | nil => exact ⟨rest, rfl⟩
  | cons l2 ls2 => exact ⟨_, rfl⟩

theorem foldl_commonIndent_zero (lines : List (Nat × GoString))
    (hlines : ∀ l ∈ lines, isIndentedLine l) :
    lines.foldl (fun c l => if 0 < l.1 ∧ (l.1 < c ∨ c = 0) then l.1 else c) 0 =
      minIndent lines := by
  rw [foldl_commonIndent lines 0 (fun l hl => (hlines l hl).1)]
  by_cases h : lines = []
  · rw [h]
    rfl
  · simp [h]

/-- `parsePattern` on a value that starts on the line after `=`: the loop collects the lines as
they are and the minimum of their indents. -/
theorem parsePattern_block_lines (input rest : GoString) (l : Nat × GoString)
    (ls : List (Nat × GoString)) (i : Nat) (p : parser) (n : Nat)
    (hlines : ∀ x ∈ l :: ls, isIndentedLine x)
    (hw : (DecodeRune (input.drop (i + 1 + l.1))).2 ≤ l.1)
    (hrest : ∀ c, rest.head? = some c → c ≠ 32 ∧ c ≠ 10 ∧ c ≠ 13 ∧ c ≠ 123)
    (hdrop : input.drop i = valueSource [] (l :: ls) ++ rest) (hAt : p.At input i)
    (hn : (valueSource [] (l :: ls)).length + 6 ≤ n) :
    ∃ q, parsePattern n input p =
        Res.ok (dedent (((l :: ls).map (fun x => List.replicate x.1 32 ++ x.2)).map
          PatternElement.textElement) (minIndent (l :: ls))) q ∧
      q.At input (i + (valueSource [] (l :: ls)).length) := by
  have hl := hlines l (List.mem_cons_self _ _)
  have hl1 := indentedLine_length l
  have hlen : (valueSource [] (l :: ls)).length =
      (indentedLine l).length + (indentedLines ls).length + 1 := by
    simp [valueSource, indentedLines]
    omega
  obtain ⟨n1, rfl⟩ : ∃ n1, n = n1 + 1 := ⟨n - 1, by omega⟩
  obtain ⟨n2, rfl⟩ : ∃ n2, n1 = n2 + 1 := ⟨n1 - 1, by omega⟩
  obtain ⟨post1, hpost1⟩ := indentedLines_lf ls rest
  have hd0 : input.drop i = 10 :: (List.replicate l.1 32 ++ (l.2 ++ 10 :: post1)) := by
    rw [hdrop, ← hpost1]
    simp [valueSource, indentedLines, indentedLine]
  obtain ⟨q1, hq1, hq1At, _⟩ := skipBlankInline_scan input
    (10 :: (List.replicate l.1 32 ++ (l.2 ++ 10 :: post1))) 0 i p (n2 + 1) (by simp)
    (by simpa using hd0) hAt (by omega)
  obtain ⟨a1, _, _, hA1, hd1⟩ := At_ascii input 10 _ i q1 hd0 (by simpa using hq1At)
    (by decide)
  obtain ⟨hm, ht, htb, h32, _, _, _⟩ := hl
  obtain ⟨b, x1, hbx⟩ := List.exists_cons_of_ne_nil ht
  have hb32 : b ≠ 32 := by
    rw [hbx] at h32
    simpa using h32
  have hbb := htb b (by rw [hbx]; exact List.mem_cons_self _ _)
  have hd1b : input.drop (i + 1) = List.replicate l.1 32 ++ b :: (x1 ++ 10 :: post1) := by
    rw [hd1, hbx]
    rfl
  obtain ⟨p0, hp0, g1, g2, g3⟩ := skipBlankBlock_indented input _ b l.1 (i + 1)
    (next input q1) (n2 + 1) hm hb32 hbb.2.1 hbb.2.2.1 hd1b hA1 (by omega)
  have hw1 : 1 ≤ p0.w := by
    rw [g3, ← List.drop_drop, hd1b, List.drop_left' (by simp)]
    by_cases hb : b < 128
    · rw [DecodeRune_ascii b _ hb]
    · exact (DecodeRune_high b _ (by omega)).2.1
  obtain ⟨q2, hq2, hq2At, hd2⟩ := parsePatternLoop_first_line input post1 l
    (hlines l (List.mem_cons_self _ _)) (i + 1) p0 n2
    { elements := [], block := true, lastNonBlank := -1, commonIndent := 0 } rfl hd1 g1 g2
    hw1 (by rw [g3]; exact hw) (by omega)
  rw [← hpost1] at hd2
  have hq2b : parsePatternLoop (n2 + 1) input
      { elements := [], block := true, lastNonBlank := -1, commonIndent := 0 } p0 =
      parsePatternLoop n2 input
        { elements := [PatternElement.textElement (List.replicate l.1 32 ++ l.2)],
          block := true, lastNonBlank := 0,
          commonIndent := if 0 < l.1 ∧ (l.1 < 0 ∨ 0 = 0) then l.1 else 0 } q2 := hq2
  obtain ⟨q3, st3, hq3, he, hc, hnb, hq3At⟩ := parsePatternLoop_lines input rest hrest ls
    { elements := [PatternElement.textElement (List.replicate l.1 32 ++ l.2)],
      block := true, lastNonBlank := 0,
      commonIndent := if 0 < l.1 ∧ (l.1 < 0 ∨ 0 = 0) then l.1 else 0 } _ q2
    n2 (fun c hc => hlines c (List.mem_cons_of_mem _ hc)) hd2 hq2At (by omega)
  have hnb2 : ¬ st3.lastNonBlank < 0 := by
    have := hnb (Or.inl (le_refl _))
    omega
  refine ⟨q3, ?_, ?_⟩
  · rw [parsePattern, bind_apply, hq1]
    dsimp only
    rw [bind_apply, skipEOL_lf input q1 a1]
    dsimp only
    simp only [if_true]
    rw [bind_apply, hp0]
    dsimp only
    rw [bind_apply, hq2b, hq3]
    dsimp only
    rw [if_neg hnb2, pure_apply, he, hc]
    dsimp only
    rw [← foldl_commonIndent_zero (l :: ls) hlines, List.foldl_cons]
    simp [Function.comp_def]
  · rw [hlen]
    rw [show i + ((indentedLine l).length + (indentedLines ls).length + 1) =
      i + 1 + l.1 + l.2.length + (indentedLines ls).length + 1 by omega]
    exact hq3At

/-- `parsePattern` on a value that starts on the line of `=`: the loop collects the first text
and the lines as they are, and the minimum of the indents of the lines. -/
theorem parsePattern_inline_lines (input rest first : GoString)
    (lines : List (Nat × GoString)) (i : Nat) (p : parser) (n : Nat)
    (hfne : first ≠ []) (hfirst : isFirstLine first)
    (hlines : ∀ x ∈ lines, isIndentedLine x)
    (hrest : ∀ c, rest.head? = some c → c ≠ 32 ∧ c ≠ 10 ∧ c ≠ 13 ∧ c ≠ 123)
    (hdrop : input.drop i = valueSource first lines ++ rest) (hAt : p.At input i)
    (hn : (valueSource first lines).length + 6 ≤ n) :
    ∃ q, parsePattern n input p =
        Res.ok (dedent (([first] ++ lines.map (fun x => List.replicate x.1 32 ++ x.2)).map
          PatternElement.textElement) (minIndent lines)) q ∧
      q.At input (i + (valueSource first lines).length) := by
  have hlen : (valueSource first lines).length =
      first.length + (indentedLines lines).length + 1 := by
    simp [valueSource]
    omega
  obtain ⟨n1, rfl⟩ : ∃ n1, n = n1 + 1 := ⟨n - 1, by omega⟩
  obtain ⟨n2, rfl⟩ : ∃ n2, n1 = n2 + 1 := ⟨n1 - 1, by omega⟩
  obtain ⟨post1, hpost1⟩ := indentedLines_lf lines rest
  obtain ⟨htb, h32⟩ := hfirst
  obtain ⟨b, t1, hbt⟩ := List.exists_cons_of_ne_nil hfne
  have hd0 : input.drop i = first ++ 10 :: post1 := by
    rw [hdrop, ← hpost1]
    simp [valueSource]
  obtain ⟨b0, b10, b13, b123, _⟩ := htb b (by rw [hbt]; exact List.mem_cons_self _ _)
  obtain ⟨q1, hq1, hq1At, _⟩ := skipBlankInline_scan input (first ++ 10 :: post1) 0 i p
    (n2 + 1) (by rw [hbt] at h32 ⊢; simpa using h32) (by simpa using hd0) hAt (by omega)
  rw [Nat.add_zero] at hq1At
  have hhead1 : ∀ a, a ≠ b → (input.drop i).head? ≠ some a := by
    intro a ha
    rw [hd0, hbt]
    simpa using fun h => ha h.symm
  have c0 : q1.ch ≠ eof := At_ch_ne input _ q1 0 hq1At (by decide) (hhead1 0 (Ne.symm b0))
  have c10 : q1.ch ≠ 10 := At_ch_ne input _ q1 10 hq1At (by decide) (hhead1 10 (Ne.symm b10))
  have c13 : q1.ch ≠ 13 := At_ch_ne input _ q1 13 hq1At (by decide) (hhead1 13 (Ne.symm b13))
  have c123 : q1.ch ≠ 123 :=
    At_ch_ne input _ q1 123 hq1At (by decide) (hhead1 123 (Ne.symm b123))
  obtain ⟨q2, hq2, hq2At⟩ := parseTextElement_scan input post1 first i q1 n2 hd0 hq1At htb
    (by omega)
  have hd2 : input.drop (i + first.length) = indentedLines lines ++ 10 :: rest := by
    rw [← List.drop_drop, hd0, List.drop_left' rfl, hpost1]
  obtain ⟨q3, st3, hq3, he, hc, hnb, hq3At⟩ := parsePatternLoop_lines input rest hrest lines
    { elements := [] ++ [PatternElement.textElement first], block := false,
      lastNonBlank := ((([] : List PatternElement).length : Nat) : Int), commonIndent := 0 }
    _ q2 n2 hlines hd2 hq2At (by omega)
  have hnb2 : ¬ st3.lastNonBlank < 0 := by
    have := hnb (Or.inl (Int.ofNat_nonneg _))
    omega
  refine ⟨q3, ?_, ?_⟩
  · rw [parsePattern, bind_apply, hq1]
    dsimp only
    rw [bind_apply, skipEOL_false input q1 c10 c13]
    simp only [Bool.false_eq_true, if_false]
    rw [pure_bind_apply, bind_apply, parsePatternLoop, getP_bind]
    simp only [c0, if_false]
    rw [bind_apply, skipEOL_false input q1 c10 c13]
    simp only [Bool.or_false]
    rw [getP_bind]
    simp only [c123, if_false, Bool.false_eq_true]
    rw [pure_bind_apply]
    dsimp only
    rw [bind_apply, hq2]
    dsimp only
    simp only [hfne, ne_eq, not_false_eq_true, if_true]
    rw [hq3]
    dsimp only
    rw [if_neg hnb2, pure_apply, he, hc]
    dsimp only
    rw [foldl_commonIndent_zero lines hlines]
    simp [Function.comp_def]
  · rw [hlen]
    rw [show i + (first.length + (indentedLines lines).length + 1) =
      i + first.length + (indentedLines lines).length + 1 by omega]
    exact hq3At

/-- C22, the claim as it stands fails: on `foo = a` followed by the indented line `b` the loop
of `parsePattern` collects the texts `a` and `    b` and the common indent 4; the text `a` does
not start with four spaces and is kept whole (`strings.TrimPrefix`), so the value is `a`, a line
feed and `b`, and not what is left when four bytes are taken from the start of every line. -/
theorem C22_first_line_not_dedented :
    parsePatternLoop 40 inlineFirstInput
        { elements := [], block := false, lastNonBlank := -1, commonIndent := 0 }
        { pos := 6, ch := 97, w := 1, line := 1, col := 7 } =
      Res.ok { elements := [PatternElement.textElement (ascii "a"),
                 PatternElement.textElement (ascii "    b")],
               block := true, lastNonBlank := 1, commonIndent := 4 }
        { pos := 14, ch := 65533, w := 0, line := 3, col := 1 } ∧
    Parse 60 inlineFirstInput = Res.ok (inlineFirstResource, none)
        { pos := 14, ch := 65533, w := 0, line := 3, col := 1 } ∧
    (List.replicate 4 32).isPrefixOf (ascii "a") = false ∧
    Join ([ascii "a", ascii "    b"].map (fun v => v.drop 4)) [10] ≠ ascii "a\nb" := by
  refine ⟨by rfl, by rfl, by decide, by decide⟩

/-- C22, amended: a value made of text lines only, that is a text `first` on the line of `=`
(empty when the value starts on the next line; it does not start with a space) and indented lines
`lines` (each with at least one space before a text that is not empty and starts with none of
space, `[`, `*`, `.`), without NUL, carriage return and braces, followed by the end of the input
or by a line that starts with none of space, end of line and `\x7b`; when the value starts on the
line after `=`, the first rune of its first line takes no more bytes than the line has leading
spaces.  With enough fuel `parsePattern` returns the pattern of one text element: its lines are
`first` as it is and every indented line without exactly the common indent, joined with a line
feed, and white space is removed from the end of the joined text (nothing left gives no
element).  The common indent is the minimum of the leading-space counts of the indented lines
(0 if there is none), no line has fewer spaces, and a joined text that does not end with white
space is returned whole. -/
theorem C22_dedent_text_lines (input rest first : GoString) (lines : List (Nat × GoString))
    (i : Nat) (p : parser) (n : Nat)
    (hfirst : isFirstLine first) (hlines : ∀ l ∈ lines, isIndentedLine l)
    (hne : first ≠ [] ∨ lines ≠ [])
    (hw : first = [] → (DecodeRune (input.drop (i + 1 + (lines.headD (0, [])).1))).2 ≤
      (lines.headD (0, [])).1)
    (hrest : rest.head? ≠ some 32 ∧ rest.head? ≠ some 10 ∧ rest.head? ≠ some 13 ∧
      rest.head? ≠ some 123)
    (hdrop : input.drop i = valueSource first lines ++ rest) (hAt : p.At input i)
    (hn : (valueSource first lines).length + 6 ≤ n) :
    (∃ q, parsePattern n input p =
        Res.ok (Pattern.mk
          (if TrimRightFunc (Join (dedentTexts first lines) [10]) IsSpace = [] then none
           else some [PatternElement.textElement
             (TrimRightFunc (Join (dedentTexts first lines) [10]) IsSpace)])) q ∧
      q.At input (i + (valueSource first lines).length)) ∧
    (∀ l ∈ lines, minIndent lines ≤ l.1) ∧
    (IsSpace (DecodeLastRune (Join (dedentTexts first lines) [10])).1 = false →
      TrimRightFunc (Join (dedentTexts first lines) [10]) IsSpace =
        Join (dedentTexts first lines) [10] ∧ Join (dedentTexts first lines) [10] ≠ []) := by
  have hpost : ∀ c, rest.head? = some c → c ≠ 32 ∧ c ≠ 10 ∧ c ≠ 13 ∧ c ≠ 123 := by
    intro c hc
    obtain ⟨r1, r2, r3, r4⟩ := hrest
    rw [hc] at r1 r2 r3 r4
    exact ⟨fun h => r1 (by rw [h]), fun h => r2 (by rw [h]), fun h => r3 (by rw [h]),
      fun h => r4 (by rw [h])⟩
  have hd := dedent_lines first lines hfirst.2 hne
  have hjne := dedentTexts_ne_nil first lines hlines hne
  refine ⟨?_, minIndent_le lines, fun hlast => ⟨TrimRightFunc_eq_self _ hjne hlast, hjne⟩⟩
  by_cases hf : first = []
  · subst hf
    rcases hne with h | h
    · exact absurd rfl h
    · obtain ⟨l, ls, rfl⟩ := List.exists_cons_of_ne_nil h
      obtain ⟨q, hq, hqAt⟩ := parsePattern_block_lines input rest l ls i p n hlines (hw rfl)
        hpost hdrop hAt hn
      refine ⟨q, ?_, hqAt⟩
      rw [hq, ← hd]
      simp
  · obtain ⟨q, hq, hqAt⟩ := parsePattern_inline_lines input rest first lines i p n hf hfirst
      hlines hpost hdrop hAt hn
    refine ⟨q, ?_, hqAt⟩
    rw [hq, ← hd]
    simp [hf]

theorem C22_dedent_text_lines_witness :
    Parse 60 twoLinesInput = Res.ok (twoLinesResource, none)
        { pos := 20, ch := 65533, w := 0, line := 4, col := 1 } ∧
    TrimRightFunc (Join (dedentTexts [] twoLines) [10]) IsSpace = ascii "a\n  b" ∧
    minIndent twoLines = 4 ∧
    TrimRightFunc (Join (dedentTexts [] accentLines) [10]) IsSpace =
      [195, 169, 32, 10, 32, 98] ∧
    minIndent accentLines = 2 ∧
    ((∃ q, parsePattern 40 twoLinesInput { pos := 5, ch := 10, w := 1, line := 1, col := 6 } =
        Res.ok (Pattern.mk
          (if TrimRightFunc (Join (dedentTexts [] twoLines) [10]) IsSpace = [] then none
           else some [PatternElement.textElement
             (TrimRightFunc (Join (dedentTexts [] twoLines) [10]) IsSpace)])) q ∧
      q.At twoLinesInput (5 + (valueSource [] twoLines).length)) ∧
    (∀ l ∈ twoLines, minIndent twoLines ≤ l.1) ∧
    (IsSpace (DecodeLastRune (Join (dedentTexts [] twoLines) [10])).1 = false →
      TrimRightFunc (Join (dedentTexts [] twoLines) [10]) IsSpace =
        Join (dedentTexts [] twoLines) [10] ∧ Join (dedentTexts [] twoLines) [10] ≠ [])) ∧
    ((∃ q, parsePattern 40 accentLinesInput
        { pos := 5, ch := 10, w := 1, line := 1, col := 6 } =
        Res.ok (Pattern.mk
          (if TrimRightFunc (Join (dedentTexts [] accentLines) [10]) IsSpace = [] then none
           else some [PatternElement.textElement
             (TrimRightFunc (Join (dedentTexts [] accentLines) [10]) IsSpace)])) q ∧
      q.At accentLinesInput (5 + (valueSource [] accentLines).length)) ∧
    (∀ l ∈ accentLines, minIndent accentLines ≤ l.1) ∧
    (IsSpace (DecodeLastRune (Join (dedentTexts [] accentLines) [10])).1 = false →
      TrimRightFunc (Join (dedentTexts [] accentLines) [10]) IsSpace =
        Join (dedentTexts [] accentLines) [10] ∧
        Join (dedentTexts [] accentLines) [10] ≠ [])) :=
  ⟨rfl, rfl, rfl, rfl, rfl,
    C22_dedent_text_lines twoLinesInput [] [] twoLines 5
      { pos := 5, ch := 10, w := 1, line := 1, col := 6 } 40 ⟨by decide, by decide⟩
      (by unfold isIndentedLine; decide) (Or.inr (by decide)) (fun _ => by decide)
      (by decide) rfl ⟨rfl, by decide, rfl⟩ (by decide),
    C22_dedent_text_lines accentLinesInput [] [] accentLines 5
      { pos := 5, ch := 10, w := 1, line := 1, col := 6 } 40 ⟨by decide, by decide⟩
      (by unfold isIndentedLine; decide) (Or.inr (by decide)) (fun _ => by decide)
      (by decide) rfl ⟨rfl, by decide, rfl⟩ (by decide)⟩

end Fluent
